import Mathlib

/-!
# Void: a tree-walking interpreter

A shallow embedding of the evaluator of the `void` library
(`src/void/evaluator.cpp`, `object.cpp`, `builtin.cpp`, `ast.cpp`).

* `std::shared_ptr<Object>` is an `ObjPtr`: `none` is the null pointer, `some a`
  is the address `a` of a cell of the object heap.  `std::make_shared` appends a
  cell, so two allocations never share an address and pointer comparison is
  comparison of addresses.
* `Environment*` is an index into the list of environments of the machine.
* A C++ operation with undefined behaviour (dereferencing a null pointer,
  reading a vector out of its range, dividing by zero) is a `Fault`.
* `int` is a 32 bit two's complement integer: arithmetic is wrapped by `wrap32`. The two
  cursors of the lexer are the exception: they are natural numbers, and the model follows
  the lexer only while they stay in the range of `int` (see the section on the lexer).
* The recursion of `eval` is bounded by a fuel argument.
* Objects and environments are never freed: the reference counts of `shared_ptr` and the
  destruction of the environment a `Function` owns are not modelled. In the source a
  closure keeps a raw pointer to the environment of the function that created it, so the
  model follows the source only on runs in which every `Function` whose environment is
  still reached is alive, as it is while a name of the root environment is bound to it.
* The trees given as concrete inputs of the evaluator are the ones `Parser::parse` builds
  for the quoted source text. The lexer and the parser (`lexer.cpp`, `parser.cpp`,
  `token.cpp`) are embedded after the evaluator: the lexer is a cursor on the list of the
  characters of the input, the parser a state of tokens, cursors and errors.
-/

namespace Void

/-! ## AST (`ast.hpp`, `ast.cpp`) -/

mutual
/-- Subclasses of `Expression`; a `std::unique_ptr` child is an `Option`. -/
inductive Expression where
  | Identifier (value : String)
  | IntegerLiteral (value : Int)
  | BooleanLiteral (value : Bool)
  | StringLiteral (value : String)
  | ArrayLiteral (expressions : List (Option Expression))
  | FunctionLiteral (parameters : List String) (body : Option BlockStatement)
  | IfExpression (condition : Option Expression)
      (consequence : Option BlockStatement) (alternative : Option BlockStatement)
  | CallExpression (function : Option Expression) (arguments : List (Option Expression))
  | IndexExpression (index : Option Expression) (array : Option Expression)
  | PrefixExpression (op : String) (right : Option Expression)
  | InfixExpression (left : Option Expression) (op : String) (right : Option Expression)
/-- The statements `Parser::parse_statement` builds. -/
inductive Statement where
  | LetStatement (identifier : String) (expression : Option Expression)
  | ReturnStatement (expression : Option Expression)
  | ExpressionStatement (expression : Option Expression)
/-- Class `BlockStatement`: the statements between two braces. -/
inductive BlockStatement where
  | mk (statements : List Statement)
end

/-- Class `Program`. -/
structure Program where
  statements : List Statement

/-- An `AstNode*` that is not null, with its dynamic class. -/
inductive AstNode where
  | program (p : Program)
  | statement (s : Statement)
  | block (b : BlockStatement)
  | expression (e : Expression)

/-- Joins renderings with `", "`, as the `first` flag loops of `ast.cpp` and `object.cpp` do. -/
def join_comma (parts : List String) : String :=
  ", ".intercalate parts

mutual
/-- The `to_string` overrides of the expression classes; `none` when a null child is dereferenced. -/
def Expression.to_string : Expression → Option String
  | .Identifier value => some value
  | .IntegerLiteral value => some (toString value)
  | .BooleanLiteral value => some (if value then "true" else "false")
  | .StringLiteral value => some ("\"" ++ value ++ "\"")
  | .ArrayLiteral expressions =>
    match Expression.list_to_string expressions with
    | none => none
    | some parts => some ("[" ++ join_comma parts ++ "]")
  | .FunctionLiteral parameters body =>
    match body with
    | none => some ("fn (" ++ join_comma parameters ++ ") " ++ "")
    | some b =>
      match BlockStatement.to_string b with
      | none => none
      | some body => some ("fn (" ++ join_comma parameters ++ ") " ++ body)
  | .IfExpression condition consequence alternative =>
    match condition with
    | none => none
    | some c =>
      match Expression.to_string c with
      | none => none
      | some cond =>
        match BlockStatement.opt_to_string consequence with
        | none => none
        | some cons =>
          match alternative with
          | none => some ("if (" ++ cond ++ ") " ++ cons)
          | some a =>
            match BlockStatement.to_string a with
            | none => none
            | some alt => some ("if (" ++ cond ++ ") " ++ cons ++ " else " ++ alt)
  | .CallExpression function arguments =>
    match Expression.list_to_string arguments with
    | none => none
    | some parts =>
      match function with
      | none => none
      | some f =>
        match Expression.to_string f with
        | none => none
        | some fs => some (fs ++ "(" ++ join_comma parts ++ ")")
  | .IndexExpression index array =>
    match array, index with
    | some a, some i =>
      match Expression.to_string a, Expression.to_string i with
      | some sa, some si => some (sa ++ "[" ++ si ++ "]")
      | _, _ => none
    | _, _ => none
  | .PrefixExpression op right =>
    match right with
    | none => some "()"
    | some r =>
      match Expression.to_string r with
      | none => none
      | some s => some ("(" ++ op ++ s ++ ")")
  | .InfixExpression left op right =>
    match left, right with
    | some l, some r =>
      match Expression.to_string l, Expression.to_string r with
      | some sl, some sr => some ("(" ++ sl ++ " " ++ op ++ " " ++ sr ++ ")")
      | _, _ => none
    | _, _ => some "()"
/-- Renders every element of a vector of expressions. -/
def Expression.list_to_string : List (Option Expression) → Option (List String)
  | [] => some []
  | none :: _ => none
  | some e :: rest =>
    match Expression.to_string e, Expression.list_to_string rest with
    | some s, some parts => some (s :: parts)
    | _, _ => none
/-- The `to_string` overrides of the statement classes. -/
def Statement.to_string : Statement → Option String
  | .LetStatement identifier expression =>
    match expression with
    | none => none
    | some e =>
      match Expression.to_string e with
      | none => none
      | some s => some ("let " ++ identifier ++ " = " ++ s)
  | .ReturnStatement expression =>
    match expression with
    | none => none
    | some e =>
      match Expression.to_string e with
      | none => none
      | some s => some ("return " ++ s)
  | .ExpressionStatement expression =>
    match expression with
    | none => some ""
    | some e => Expression.to_string e
/-- Concatenates the renderings of a vector of statements. -/
def Statement.list_to_string : List Statement → Option String
  | [] => some ""
  | s :: rest =>
    match Statement.to_string s, Statement.list_to_string rest with
    | some a, some b => some (a ++ b)
    | _, _ => none
/-- Method `BlockStatement::to_string`. -/
def BlockStatement.to_string : BlockStatement → Option String
  | .mk statements =>
    match Statement.list_to_string statements with
    | none => none
    | some res => some (if statements.isEmpty then "\x7b\x7d" else "\x7b " ++ res ++ " \x7d")
/-- Rendering of a block member that may be null (`cons`, `alt`, `body` start as `""`). -/
def BlockStatement.opt_to_string : Option BlockStatement → Option String
  | none => some ""
  | some b => BlockStatement.to_string b
end

/-- Method `Program::to_string`. -/
def Program.to_string (p : Program) : Option String :=
  Statement.list_to_string p.statements

/-! ## Runtime values (`object.hpp`, `object.cpp`) -/

/-- The enum `Object::ObjectType`. -/
inductive ObjectType where
  | integer_object_t
  | boolean_object_t
  | string_object_t
  | error_object_t
  | null_object_t
  | return_object_t
  | function_object_t
  | array_object_t
  | builtin_object_t
  deriving DecidableEq, Repr

/-- A `std::shared_ptr<Object>`: `none` is the null pointer, `some a` a heap address. -/
abbrev ObjPtr := Option Nat

/-- The subclasses of `Object` with their members. -/
inductive Object where
  | Integer (value : Int)
  | Boolean (value : Bool)
  | String (value : String)
  | Return (value : ObjPtr)
  | Error (value : String)
  | Null
  | Function (parameters : List String) (body : Option BlockStatement) (env : Nat)
  | Array (elements : List ObjPtr)
  | Builtin (name : String)

/-- The tag each constructor passes to `Object::Object`; `Return::Return` passes `null_object_t`. -/
def Object.type : Object → ObjectType
  | .Integer _ => .integer_object_t
  | .Boolean _ => .boolean_object_t
  | .String _ => .string_object_t
  | .Return _ => .null_object_t
  | .Error _ => .error_object_t
  | .Null => .null_object_t
  | .Function _ _ _ => .function_object_t
  | .Array _ => .array_object_t
  | .Builtin _ => .builtin_object_t

/-- Class `Environment`: `_store` as an association list with unique keys, and `_outer`. -/
structure Environment where
  store : List (String × ObjPtr)
  outer : Option Nat

/-- The object heap, the environments and the lines written to standard output. -/
structure Machine where
  heap : List Object
  envs : List Environment
  out : List String

/-- Undefined behaviour of the C++ program, or exhaustion of the fuel of the model. -/
inductive Fault where
  | null_dereference
  | invalid_address
  | index_out_of_range
  | division_by_zero
  | integer_overflow
  | out_of_fuel
  deriving DecidableEq, Repr

/-- A computation on the machine that returns a value or faults. -/
def Exec (α : Type) : Type := Machine → Except Fault (α × Machine)

/-- Return without touching the machine. -/
def Exec.pure {α : Type} (a : α) : Exec α := fun m => .ok (a, m)

/-- Sequencing: a fault of the first computation ends the run. -/
def Exec.bind {α β : Type} (x : Exec α) (f : α → Exec β) : Exec β := fun m =>
  match x m with
  | .ok (a, m') => f a m'
  | .error e => .error e

instance : Monad Exec where
  pure := Exec.pure
  bind := Exec.bind

/-- Undefined behaviour. -/
def fault {α : Type} (f : Fault) : Exec α := fun _ => .error f

/-- The global `null_obj`. -/
def null_obj : ObjPtr := some 0
/-- The global `true_obj`. -/
def true_obj : ObjPtr := some 1
/-- The global `false_obj`. -/
def false_obj : ObjPtr := some 2

/-- The names of `builtin_func_map` with the address of their `Builtin` object. -/
def builtin_func_map : List (String × ObjPtr) :=
  [("len", some 3), ("first", some 4), ("last", some 5),
   ("push", some 6), ("pop", some 7), ("puts", some 8)]

/-- The machine after static initialisation and `Evaluator::Evaluator()`: the three global
objects, the six builtins, and the root environment `_env` at index 0. -/
def Machine.init : Machine where
  heap := [.Null, .Boolean true, .Boolean false,
    .Builtin "len", .Builtin "first", .Builtin "last",
    .Builtin "push", .Builtin "pop", .Builtin "puts"]
  envs := [{ store := [], outer := none }]
  out := []

/-- Allocation by `std::make_shared`: a new cell at a fresh address. -/
def alloc (o : Object) : Exec ObjPtr := fun m =>
  .ok (some m.heap.length, { m with heap := m.heap ++ [o] })

/-- Dereference of a `shared_ptr` or raw `Object*`. -/
def deref (p : ObjPtr) : Exec Object := fun m =>
  match p with
  | none => .error .null_dereference
  | some a =>
    match m.heap[a]? with
    | some o => .ok (o, m)
    | none => .error .invalid_address

/-- The call `obj->type()`. -/
def type (p : ObjPtr) : Exec ObjectType := do
  let o ← deref p
  pure o.type

/-- Conversion of a mathematical integer to `int` (32 bit two's complement). -/
def wrap32 (i : Int) : Int :=
  (i + 2147483648) % 4294967296 - 2147483648

/-- Method `Array::append`: `_elements.emplace_back` on the array object behind `arr`. -/
def Array.append (arr : ObjPtr) (obj : ObjPtr) : Exec Unit := fun m =>
  match arr with
  | none => .error .null_dereference
  | some a =>
    match m.heap[a]? with
    | some (.Array elements) =>
      .ok ((), { m with heap := m.heap.set a (.Array (elements ++ [obj])) })
    | some _ => .error .null_dereference
    | none => .error .invalid_address

/-- A range-for loop appending every element of `elems` to the array behind `arr`. -/
def Array.append_all (arr : ObjPtr) : List ObjPtr → Exec Unit
  | [] => pure ()
  | elem :: rest => do
    Array.append arr elem
    Array.append_all arr rest

/-- Insertion into a `std::map`: the binding of `name` is replaced or added. -/
def store_set (store : List (String × ObjPtr)) (name : String) (obj : ObjPtr) :
    List (String × ObjPtr) :=
  (name, obj) :: store.filter (fun kv => kv.1 != name)

/-- Method `Environment::set`: writes `_store[name]` of the environment `env`. -/
def Environment.set (env : Nat) (name : String) (obj : ObjPtr) : Exec Unit := fun m =>
  match m.envs[env]? with
  | none => .error .invalid_address
  | some e =>
    .ok ((), { m with envs := m.envs.set env { e with store := store_set e.store name obj } })

/-- Method `Environment::get`, with a bound on the length of the chain of outer scopes. -/
def Environment.get_chain : Nat → Nat → String → Exec ObjPtr
  | 0, _, _ => fault .out_of_fuel
  | depth + 1, env, name => fun m =>
    match m.envs[env]? with
    | none => .error .invalid_address
    | some e =>
      match e.store.lookup name with
      | some obj => .ok (obj, m)
      | none =>
        match e.outer with
        | some outer =>
          (do
            let res ← Environment.get_chain depth outer name
            if (← type res) != .null_object_t then
              pure res
            else
              pure null_obj) m
        | none => .ok (null_obj, m)

/-- Method `Environment::get`: a chain without a cycle is no longer than the number of environments. -/
def Environment.get (env : Nat) (name : String) : Exec ObjPtr := fun m =>
  Environment.get_chain m.envs.length env name m

/-- Creation of an `Environment` by `std::make_unique<Environment>(outer)`. The new
environment is never destroyed here; in the source it is owned by a `Function` and is
destroyed with it. -/
def new_environment (outer : Option Nat) : Exec Nat := fun m =>
  .ok (m.envs.length, { m with envs := m.envs ++ [{ store := [], outer := outer }] })

/-- The `inspect` overrides, reading the objects from `heap`; the depth of the recursion
through `Return` and `Array` members is bounded by the first argument. -/
def inspect_heap (heap : List Object) : Nat → ObjPtr → Except Fault String
  | 0, _ => .error .out_of_fuel
  | _ + 1, none => .error .null_dereference
  | depth + 1, some a =>
    match heap[a]? with
    | none => .error .invalid_address
    | some (.Integer value) => .ok (toString value)
    | some (.Boolean value) => .ok (if value then "true" else "false")
    | some (.String value) => .ok value
    | some (.Return value) => inspect_heap heap depth value
    | some (.Error value) => .ok ("<error: " ++ value ++ ">")
    | some .Null => .ok "null"
    | some (.Function parameters body _) =>
      match Expression.to_string (.FunctionLiteral parameters body) with
      | some s => .ok s
      | none => .error .null_dereference
    | some (.Array elements) =>
      match elements.mapM (inspect_heap heap depth) with
      | .ok parts => .ok ("[" ++ join_comma parts ++ "]")
      | .error e => .error e
    | some (.Builtin name) => .ok ("<builtin: " ++ name ++ ">")

/-- The call `obj->inspect()`. -/
def inspect (p : ObjPtr) : Exec String := fun m =>
  match inspect_heap m.heap (m.heap.length + 1) p with
  | .ok s => .ok (s, m)
  | .error e => .error e

/-- A line written to `std::cout`. -/
def write_line (line : String) : Exec Unit := fun m =>
  .ok ((), { m with out := m.out ++ [line] })

/-! ## Builtins (`builtin.cpp`) -/

/-- Builtin `len`. -/
def len (args : List ObjPtr) : Exec ObjPtr :=
  match args with
  | [obj] => do
    match (← deref obj) with
    | .String value => alloc (.Integer (wrap32 value.utf8ByteSize))
    | .Array elements => alloc (.Integer (wrap32 elements.length))
    | _ => alloc (.Error "")
  | _ => alloc (.Error "")

/-- Builtin `first`. -/
def first (args : List ObjPtr) : Exec ObjPtr :=
  match args with
  | [obj] => do
    match (← deref obj) with
    | .Array elements =>
      match elements.head? with
      | none => alloc (.Error "")
      | some front => pure front
    | _ => alloc (.Error "")
  | _ => alloc (.Error "")

/-- Builtin `last`. -/
def last (args : List ObjPtr) : Exec ObjPtr :=
  match args with
  | [obj] => do
    match (← deref obj) with
    | .Array elements =>
      match elements.getLast? with
      | none => alloc (.Error "")
      | some back => pure back
    | _ => alloc (.Error "")
  | _ => alloc (.Error "")

/-- Builtin `push`. -/
def push (args : List ObjPtr) : Exec ObjPtr :=
  match args with
  | [arr_obj, obj] => do
    match (← deref arr_obj) with
    | .Array elems => do
      let res ← alloc (.Array [])
      Array.append_all res elems
      Array.append res obj
      pure res
    | _ => alloc (.Error "")
  | _ => alloc (.Error "")

/-- Builtin `pop`. -/
def pop (args : List ObjPtr) : Exec ObjPtr :=
  match args with
  | [arr_obj] => do
    match (← deref arr_obj) with
    | .Array elems =>
      if elems.isEmpty then
        alloc (.Error "")
      else do
        let res ← alloc (.Array [])
        Array.append_all res (elems.take (elems.length - 1))
        pure res
    | _ => alloc (.Error "")
  | _ => alloc (.Error "")

/-- Builtin `puts`. -/
def puts (args : List ObjPtr) : Exec ObjPtr :=
  match args with
  | [obj] => do
    let text ← inspect obj
    write_line ("<puts: " ++ text ++ ">")
    pure null_obj
  | _ => alloc (.Error "")

/-- Method `Builtin::run`: the handler the `Builtin` of that name was built with. -/
def Builtin.run (name : String) (args : List ObjPtr) : Exec ObjPtr :=
  if name = "len" then len args
  else if name = "first" then first args
  else if name = "last" then last args
  else if name = "push" then push args
  else if name = "pop" then pop args
  else if name = "puts" then puts args
  else fault .invalid_address

/-! ## Evaluator (`evaluator.cpp`) -/

/-- The type of `Evaluator::eval(AstNode*, Environment*)`. -/
abbrev Eval := Option AstNode → Nat → Exec ObjPtr

/-- An `Expression*` passed as `AstNode*`. -/
def expr_node (e : Option Expression) : Option AstNode :=
  e.map AstNode.expression

/-- A `BlockStatement*` passed as `AstNode*`. -/
def block_node (b : Option BlockStatement) : Option AstNode :=
  b.map AstNode.block

/-- Method `Evaluator::is_truthy`: a comparison of addresses with the two globals. -/
def is_truthy (obj : ObjPtr) : Bool :=
  if obj = false_obj ∨ obj = null_obj then false else true

/-- Method `Evaluator::is_error`. -/
def is_error (obj : ObjPtr) : Exec Bool := do
  pure ((← type obj) == .error_object_t)

/-- Method `Evaluator::is_null`. -/
def is_null (obj : ObjPtr) : Exec Bool := do
  pure ((← type obj) == .null_object_t)

/-- The call `obj->cast<Return>()->value()`. -/
def return_value (obj : ObjPtr) : Exec ObjPtr := do
  match (← deref obj) with
  | .Return value => pure value
  | _ => fault .null_dereference

/-- The statement loop shared by `eval_program` and `eval_block_statement`;
`ret` is the result of the last statement evaluated so far. -/
def eval_statements (ev : Eval) (env : Nat) : List Statement → ObjPtr → Exec ObjPtr
  | [], ret => pure ret
  | stmt :: rest, _ => do
    let obj ← ev (some (.statement stmt)) env
    let t ← type obj
    if t = .return_object_t then
      return_value obj
    else if t = .error_object_t then
      pure obj
    else
      eval_statements ev env rest obj

/-- Method `Evaluator::eval_program`. -/
def eval_program (ev : Eval) (program : Program) (env : Nat) : Exec ObjPtr := do
  let ret ← alloc .Null
  eval_statements ev env program.statements ret

/-- Method `Evaluator::eval_block_statement`. -/
def eval_block_statement (ev : Eval) (node : BlockStatement) (env : Nat) : Exec ObjPtr :=
  match node with
  | .mk statements => do
    let ret ← alloc .Null
    eval_statements ev env statements ret

/-- Method `Evaluator::eval_let_statement`. -/
def eval_let_statement (ev : Eval) (identifier : String) (expression : Option Expression)
    (env : Nat) : Exec ObjPtr := do
  let obj ← ev (expr_node expression) env
  if (← is_error obj) then
    pure obj
  else do
    Environment.set env identifier obj
    pure null_obj

/-- Method `Evaluator::eval_return_statement`. -/
def eval_return_statement (ev : Eval) (expression : Option Expression) (env : Nat) :
    Exec ObjPtr := do
  let obj ← ev (expr_node expression) env
  if (← is_error obj) then
    pure obj
  else
    alloc (.Return obj)

/-- Method `Evaluator::eval_expression_statement`. -/
def eval_expression_statement (ev : Eval) (expression : Option Expression) (env : Nat) :
    Exec ObjPtr :=
  ev (expr_node expression) env

/-- Method `Evaluator::eval_bang_operator_expression`. -/
def eval_bang_operator_expression (obj : ObjPtr) : Exec ObjPtr :=
  pure (if is_truthy obj then false_obj else true_obj)

/-- Method `Evaluator::eval_minus_operator_expression`; `dynamic_cast` of a null pointer is null. -/
def eval_minus_operator_expression (obj : ObjPtr) : Exec ObjPtr :=
  match obj with
  | none => alloc (.Error "")
  | some a => do
    match (← deref (some a)) with
    | .Integer value => alloc (.Integer (wrap32 (-value)))
    | _ => alloc (.Error "")

/-- Method `Evaluator::eval_prefix_expression`. -/
def eval_prefix_expression (ev : Eval) (op : String) (right : Option Expression) (env : Nat) :
    Exec ObjPtr := do
  let obj ← ev (expr_node right) env
  if op = "!" then
    eval_bang_operator_expression obj
  else if op = "=" then
    eval_minus_operator_expression obj
  else
    alloc (.Error "")

/-- Method `Evaluator::eval_integer_infix_expression`. -/
def eval_integer_infix_expression (op : String) (left right : Int) : Exec ObjPtr :=
  if op = "+" then alloc (.Integer (wrap32 (left + right)))
  else if op = "-" then alloc (.Integer (wrap32 (left - right)))
  else if op = "*" then alloc (.Integer (wrap32 (left * right)))
  else if op = "/" then
    if right = 0 then fault .division_by_zero
    else if left = -2147483648 ∧ right = -1 then fault .integer_overflow
    else alloc (.Integer (wrap32 (Int.tdiv left right)))
  else if op = "<" then alloc (.Boolean (decide (left < right)))
  else if op = "<=" then alloc (.Boolean (decide (left ≤ right)))
  else if op = ">" then alloc (.Boolean (decide (left > right)))
  else if op = ">=" then alloc (.Boolean (decide (left ≥ right)))
  else if op = "==" then alloc (.Boolean (decide (left = right)))
  else if op = "!=" then alloc (.Boolean (decide (left ≠ right)))
  else alloc (.Error "")

/-- Method `Evaluator::eval_string_infix_expression`. -/
def eval_string_infix_expression (op : String) (left right : String) : Exec ObjPtr :=
  if op = "+" then alloc (.String (left ++ right))
  else if op = "<" then alloc (.Boolean (decide (left < right)))
  else if op = "<=" then alloc (.Boolean (decide (left ≤ right)))
  else if op = ">" then alloc (.Boolean (decide (left > right)))
  else if op = ">=" then alloc (.Boolean (decide (left ≥ right)))
  else if op = "==" then alloc (.Boolean (decide (left = right)))
  else if op = "!=" then alloc (.Boolean (decide (left ≠ right)))
  else alloc (.Error "")

/-- Method `Evaluator::eval_array_infix_expression`. -/
def eval_array_infix_expression (op : String) (left right : List ObjPtr) : Exec ObjPtr :=
  if op = "+" then do
    let arr ← alloc (.Array [])
    Array.append_all arr left
    Array.append_all arr right
    pure arr
  else
    alloc .Null

/-- Method `Evaluator::eval_infix_expression`. -/
def eval_infix_expression (ev : Eval) (left : Option Expression) (op : String)
    (right : Option Expression) (env : Nat) : Exec ObjPtr := do
  let left ← ev (expr_node left) env
  let right ← ev (expr_node right) env
  let lobj ← deref left
  let robj ← deref right
  if lobj.type = .integer_object_t ∧ robj.type = .integer_object_t then
    match lobj, robj with
    | .Integer l, .Integer r => eval_integer_infix_expression op l r
    | _, _ => fault .null_dereference
  else if lobj.type = .string_object_t ∧ robj.type = .string_object_t then
    match lobj, robj with
    | .String l, .String r => eval_string_infix_expression op l r
    | _, _ => fault .null_dereference
  else if lobj.type = .array_object_t ∧ robj.type = .array_object_t then
    match lobj, robj with
    | .Array l, .Array r => eval_array_infix_expression op l r
    | _, _ => fault .null_dereference
  else if lobj.type ≠ robj.type then
    alloc (.Error "")
  else if op = "==" then
    pure (if left = right then true_obj else false_obj)
  else if op = "!=" then
    pure (if left = right then false_obj else true_obj)
  else
    alloc (.Error "")

/-- Method `Evaluator::eval_if_expression`. -/
def eval_if_expression (ev : Eval) (condition : Option Expression)
    (consequence alternative : Option BlockStatement) (env : Nat) : Exec ObjPtr := do
  let cond ← ev (expr_node condition) env
  if (← is_error cond) then
    pure cond
  else if is_truthy cond then
    ev (block_node consequence) env
  else
    ev (block_node alternative) env

/-- Method `Evaluator::eval_identifier`. -/
def eval_identifier (value : String) (env : Nat) : Exec ObjPtr := do
  let obj ← Environment.get env value
  if (← is_null obj) then
    match builtin_func_map.lookup value with
    | some builtin => pure builtin
    | none => pure obj
  else
    pure obj

/-- The loop of `eval_call_expression` that evaluates the argument expressions in order. -/
def eval_arguments (ev : Eval) (env : Nat) : List (Option Expression) → Exec (List ObjPtr)
  | [] => pure []
  | expr :: rest => do
    let obj ← ev (expr_node expr) env
    let objs ← eval_arguments ev env rest
    pure (obj :: objs)

/-- The loop of `eval_call_expression` that binds the parameters in the environment `fenv`
of the function. -/
def bind_parameters (fenv : Nat) : List String → List ObjPtr → Exec Unit
  | param :: params, arg :: args => do
    Environment.set fenv param arg
    bind_parameters fenv params args
  | _, _ => pure ()

/-- Method `Evaluator::eval_apply_function`. -/
def eval_apply_function (ev : Eval) (body : Option BlockStatement) (env : Nat) : Exec ObjPtr :=
  ev (block_node body) env

/-- Method `Evaluator::eval_call_expression`. -/
def eval_call_expression (ev : Eval) (function : Option Expression)
    (arguments : List (Option Expression)) (env : Nat) : Exec ObjPtr := do
  let func_obj ← ev (expr_node function) env
  let func ← deref func_obj
  if func.type ≠ .function_object_t ∧ func.type ≠ .builtin_object_t then
    if func.type = .error_object_t then
      pure func_obj
    else
      alloc (.Error "")
  else do
    let args_obj ← eval_arguments ev env arguments
    match func with
    | .Builtin name => Builtin.run name args_obj
    | .Function parameters body fenv =>
      if arguments.length ≠ parameters.length then
        alloc (.Error "")
      else do
        bind_parameters fenv parameters args_obj
        eval_apply_function ev body fenv
    | _ => fault .null_dereference

/-- Method `Evaluator::eval_index_expression`; the `int` index is converted to `size_t`. -/
def eval_index_expression (ev : Eval) (index array : Option Expression) (env : Nat) :
    Exec ObjPtr := do
  let arr ← ev (expr_node array) env
  let arr_obj ← deref arr
  if arr_obj.type ≠ .array_object_t then
    alloc (.Error "")
  else do
    let idx ← ev (expr_node index) env
    let idx_obj ← deref idx
    if idx_obj.type ≠ .integer_object_t then
      alloc (.Error "")
    else
      match (← deref arr), idx_obj with
      | .Array elements, .Integer value =>
        if 0 ≤ value then
          match elements[value.toNat]? with
          | some elem => pure elem
          | none => fault .index_out_of_range
        else
          fault .index_out_of_range
      | _, _ => fault .null_dereference

/-- The loop of `eval_array_literal`. -/
def eval_array_elements (ev : Eval) (env : Nat) (array : ObjPtr) :
    List (Option Expression) → Exec ObjPtr
  | [] => pure array
  | expr :: rest => do
    let obj ← ev (expr_node expr) env
    if (← is_error obj) then
      pure obj
    else do
      Array.append array obj
      eval_array_elements ev env array rest

/-- Method `Evaluator::eval_array_literal`. -/
def eval_array_literal (ev : Eval) (expressions : List (Option Expression)) (env : Nat) :
    Exec ObjPtr := do
  let array ← alloc (.Array [])
  eval_array_elements ev env array expressions

/-- Method `Evaluator::eval_function_literal`: `Function::Function` creates the environment
of the function with `env` as outer scope. -/
def eval_function_literal (parameters : List String) (body : Option BlockStatement)
    (env : Nat) : Exec ObjPtr := do
  let fenv ← new_environment (some env)
  alloc (.Function parameters body fenv)

/-- Method `Evaluator::eval(AstNode*, Environment*)`: dispatch on the dynamic class of the node.
A null node is none of the classes, so the result is the null pointer. -/
def eval : Nat → Option AstNode → Nat → Exec ObjPtr
  | 0, _, _ => fault .out_of_fuel
  | fuel + 1, node, env =>
    match node with
    | none => pure none
    | some (.program program) => eval_program (eval fuel) program env
    | some (.statement (.LetStatement identifier expression)) =>
      eval_let_statement (eval fuel) identifier expression env
    | some (.statement (.ReturnStatement expression)) =>
      eval_return_statement (eval fuel) expression env
    | some (.statement (.ExpressionStatement expression)) =>
      eval_expression_statement (eval fuel) expression env
    | some (.expression (.PrefixExpression op right)) =>
      eval_prefix_expression (eval fuel) op right env
    | some (.expression (.InfixExpression left op right)) =>
      eval_infix_expression (eval fuel) left op right env
    | some (.expression (.IfExpression condition consequence alternative)) =>
      eval_if_expression (eval fuel) condition consequence alternative env
    | some (.expression (.Identifier value)) => eval_identifier value env
    | some (.block block) => eval_block_statement (eval fuel) block env
    | some (.expression (.CallExpression function arguments)) =>
      eval_call_expression (eval fuel) function arguments env
    | some (.expression (.IndexExpression index array)) =>
      eval_index_expression (eval fuel) index array env
    | some (.expression (.IntegerLiteral value)) => alloc (.Integer value)
    | some (.expression (.BooleanLiteral value)) => alloc (.Boolean value)
    | some (.expression (.StringLiteral value)) => alloc (.String value)
    | some (.expression (.ArrayLiteral expressions)) =>
      eval_array_literal (eval fuel) expressions env
    | some (.expression (.FunctionLiteral parameters body)) =>
      eval_function_literal parameters body env

/-- The object a run leaves behind its result pointer: `none` for the null pointer. -/
def result_object (r : Except Fault (ObjPtr × Machine)) : Except Fault (Option Object) :=
  match r with
  | .error e => .error e
  | .ok (none, _) => .ok none
  | .ok (some a, m) => .ok m.heap[a]?

/-! ## Programs used as concrete inputs

Each tree is the one `Parser::parse` builds for the quoted source text. -/

/-- The expression `n`, an integer literal. -/
def int_lit (n : Int) : Option Expression :=
  some (.IntegerLiteral n)

/-- The block `\x7b n \x7d` holding one expression statement. -/
def int_block (n : Int) : Option BlockStatement :=
  some (.mk [.ExpressionStatement (int_lit n)])

/-- The program `return 1; 2`. -/
def return_one_then_two : Program :=
  ⟨[.ReturnStatement (int_lit 1), .ExpressionStatement (int_lit 2)]⟩

/-- The program `return 1`. -/
def return_one : Program :=
  ⟨[.ReturnStatement (int_lit 1)]⟩

/-- The expression `-n`. -/
def minus_lit (n : Int) : Expression :=
  .PrefixExpression "-" (int_lit n)

/-- The expression `if (false) \x7b 1 \x7d else \x7b 2 \x7d`. -/
def if_false_one_else_two : Expression :=
  .IfExpression (some (.BooleanLiteral false)) (int_block 1) (int_block 2)

/-- The expression `if (1 > 2) \x7b 1 \x7d else \x7b 2 \x7d`. -/
def if_greater_one_else_two : Expression :=
  .IfExpression (some (.InfixExpression (int_lit 1) ">" (int_lit 2))) (int_block 1) (int_block 2)

/-- The expression `!b` for a boolean literal `b`. -/
def bang_lit (b : Bool) : Expression :=
  .PrefixExpression "!" (some (.BooleanLiteral b))

/-- The expression `if (!1) \x7b 1 \x7d`, without alternative. -/
def if_not_one : Expression :=
  .IfExpression (some (.PrefixExpression "!" (int_lit 1))) (int_block 1) none

/-- The expression `if (0) \x7b 1 \x7d else \x7b 2 \x7d`. -/
def if_zero_one_else_two : Expression :=
  .IfExpression (int_lit 0) (int_block 1) (int_block 2)

/-- The expression `a / 0`. -/
def divide_by_zero (a : Int) : Expression :=
  .InfixExpression (int_lit a) "/" (int_lit 0)

/-- The array literal `[1, 2, 3]`. -/
def array_one_two_three : Option Expression :=
  some (.ArrayLiteral [int_lit 1, int_lit 2, int_lit 3])

/-- The expression `[1, 2, 3][3]`. -/
def index_past_end : Expression :=
  .IndexExpression (int_lit 3) array_one_two_three

/-- The expression `[1, 2, 3][0 - 1]`. -/
def index_negative : Expression :=
  .IndexExpression (some (.InfixExpression (int_lit 0) "-" (int_lit 1))) array_one_two_three

/-- The array literal `[1]`. -/
def array_one : Option Expression :=
  some (.ArrayLiteral [int_lit 1])

/-- The expression `[1] op [1]`. -/
def array_compare (op : String) : Expression :=
  .InfixExpression array_one op array_one

/-- The expression `if (1) \x7b return 1; 2 \x7d`. -/
def if_one_return_block : Expression :=
  .IfExpression (int_lit 1)
    (some (.mk [.ReturnStatement (int_lit 1), .ExpressionStatement (int_lit 2)])) none

/-- The program holding the single expression statement `if (!1) \x7b 1 \x7d`. -/
def if_not_one_program : Program :=
  ⟨[.ExpressionStatement (some if_not_one)]⟩

/-- The expression `if ("") \x7b 1 \x7d else \x7b 2 \x7d`. -/
def if_empty_string_one_else_two : Expression :=
  .IfExpression (some (.StringLiteral "")) (int_block 1) (int_block 2)

/-- The expression `if ([]) \x7b 1 \x7d else \x7b 2 \x7d`. -/
def if_empty_array_one_else_two : Expression :=
  .IfExpression (some (.ArrayLiteral [])) (int_block 1) (int_block 2)

/-- The expression `0 - 7`, which evaluates to the integer -7. -/
def zero_minus_seven : Option Expression :=
  some (.InfixExpression (int_lit 0) "-" (int_lit 7))

/-- Evaluation of an expression by `eval` in the root environment of a new `Evaluator`,
observed through the object behind the result. -/
def run_expression (fuel : Nat) (e : Expression) : Except Fault (Option Object) :=
  result_object (eval fuel (some (.expression e)) 0 Machine.init)

/-- Evaluation of a program by `eval` in the root environment of a new `Evaluator`,
observed through the object behind the result. -/
def run_program (fuel : Nat) (p : Program) : Except Fault (Option Object) :=
  result_object (eval fuel (some (.program p)) 0 Machine.init)

/-- The object an infix expression evaluates to in environment `env` of machine `m`. -/
def infix_result (fuel : Nat) (left : Option Expression) (op : String)
    (right : Option Expression) (env : Nat) (m : Machine) : Except Fault (Option Object) :=
  result_object (eval (fuel + 1) (some (.expression (.InfixExpression left op right))) env m)

/-! ## Invariants -/

/-- The value fits in a 32 bit signed `int`. -/
def in_int (i : Int) : Prop :=
  -2147483648 ≤ i ∧ i ≤ 2147483647

/-- The global objects and the builtins are where static initialisation put them. -/
def Machine.statics_ok (m : Machine) : Prop :=
  ∀ (a : Nat) (o : Object), Machine.init.heap[a]? = some o → m.heap[a]? = some o

/-- The heap of `m2` extends the heap of `m1`: no cell is removed, a cell that is not an
array keeps its object, and an array stays an array. -/
structure Machine.Grows (m1 m2 : Machine) : Prop where
  length_le : m1.heap.length ≤ m2.heap.length
  keeps : ∀ (a : Nat) (o : Object), m1.heap[a]? = some o → (∀ es, o ≠ Object.Array es) →
    m2.heap[a]? = some o
  arrays : ∀ (a : Nat) (es : List ObjPtr), m1.heap[a]? = some (Object.Array es) →
    ∃ es2, m2.heap[a]? = some (Object.Array es2)

/-- Every successful run of `x` only extends the heap. -/
def Exec.Extends {α : Type} (x : Exec α) : Prop :=
  ∀ m a m1, x m = .ok (a, m1) → m.Grows m1

/-- The evaluation function `ev` only extends the heap, whatever node it is given. -/
def Eval.Extends (ev : Eval) : Prop :=
  ∀ node env, (ev node env).Extends

/-! ## Sessions -/

/-- The last statement of `Evaluator::eval(std::string const&)`, the call
`eval(_programs.back().get(), _env.get())`: the program is evaluated in the root environment
`_env`, which is environment 0. The parse that comes before it is not part of this
definition: the whole method, from the text, is `Evaluator.eval_string`. -/
def Evaluator.eval (fuel : Nat) (program : Program) : Exec ObjPtr :=
  Void.eval fuel (some (.program program)) 0

/-- The machine a run leaves, or the machine it started from when it faults. -/
def machine_after (x : Exec ObjPtr) (m : Machine) : Machine :=
  match x m with
  | .ok (_, m1) => m1
  | .error _ => m

/-- The integer a run yields, when it ends with a pointer to an `Integer` object. -/
def result_integer (r : Except Fault (ObjPtr × Machine)) : Option Int :=
  match result_object r with
  | .ok (some (.Integer n)) => some n
  | _ => none

/-- A rendering of an object that names its class and its members, a Function through the
rendering of its literal. -/
def render_object : Object → String
  | .Integer value => "Integer " ++ toString value
  | .Boolean value => "Boolean " ++ toString value
  | .String value => "String " ++ value
  | .Return value => "Return " ++ toString value
  | .Error value => "Error " ++ value
  | .Null => "Null"
  | .Function parameters body env =>
    "Function " ++ toString (Expression.to_string (.FunctionLiteral parameters body))
      ++ " env " ++ toString env
  | .Array elements => "Array " ++ toString elements
  | .Builtin name => "Builtin " ++ name

/-- A rendering of an environment: its bindings, then its outer scope. -/
def render_environment (e : Environment) : String :=
  toString e.store ++ " outer " ++ toString e.outer

/-- The renderings of the objects of the heap and of the environments, and the output of a
machine. -/
def Machine.summary (m : Machine) : List String × List String × List String :=
  (m.heap.map render_object, m.envs.map render_environment, m.out)

/-! ## Scopes -/

/-- The binding of `name` in the innermost scope that binds it, on the chain of scopes that
starts at `env` and follows `outer`, with the index of that scope; `none` when no scope of
the chain binds `name`. At most `depth` scopes are visited. -/
def Environment.innermost_binding (envs : List Environment) :
    Nat → Nat → String → Option (Nat × ObjPtr)
  | 0, _, _ => none
  | depth + 1, env, name =>
    match envs[env]? with
    | none => none
    | some e =>
      match e.store.lookup name with
      | some obj => some (env, obj)
      | none =>
        match e.outer with
        | some outer => Environment.innermost_binding envs depth outer name
        | none => none

/-- Every enclosing scope was created before the scope it encloses, as `Function::Function`
ensures: the chains have no cycle. -/
def Machine.scopes_ok (m : Machine) : Prop :=
  ∀ (i : Nat) (e : Environment) (outer : Nat),
    m.envs[i]? = some e → e.outer = some outer → outer < i

/-- The store after the loop of `eval_call_expression` has bound the parameters in order. -/
def bind_store (store : List (String × ObjPtr)) :
    List String → List ObjPtr → List (String × ObjPtr)
  | param :: params, arg :: args => bind_store (store_set store param arg) params args
  | _, _ => store

/-- The statements of `stmts`, evaluated in order from machine `m`, each yield an object
that is not an Error, and leave machine `m1`. -/
def statements_pass (ev : Eval) (env : Nat) : List Statement → Machine → Machine → Prop
  | [], m, m1 => m1 = m
  | stmt :: rest, m, m1 =>
    ∃ (a : Nat) (m2 : Machine) (o : Object),
      ev (some (.statement stmt)) env m = .ok (some a, m2) ∧
      m2.heap[a]? = some o ∧ o.type ≠ .error_object_t ∧
      statements_pass ev env rest m2 m1

/-! ## Further programs used as concrete inputs -/

/-- The expression `name`, an identifier. -/
def ident (name : String) : Option Expression :=
  some (.Identifier name)

/-- The expression `f(args)`. -/
def call (f : Option Expression) (args : List (Option Expression)) : Option Expression :=
  some (.CallExpression f args)

/-- The block holding one expression statement. -/
def expr_block (e : Option Expression) : Option BlockStatement :=
  some (.mk [.ExpressionStatement e])

/-- The program holding one expression statement. -/
def expr_program (e : Option Expression) : Program :=
  ⟨[.ExpressionStatement e]⟩

/-- The block `\x7b x + y \x7d`. -/
def sum_body : Option BlockStatement :=
  expr_block (some (.InfixExpression (ident "x") "+" (ident "y")))

/-- The block `\x7b fn(y) \x7b x + y \x7d \x7d`. -/
def adder_body : Option BlockStatement :=
  expr_block (some (.FunctionLiteral ["y"] sum_body))

/-- The expression `fn(x) \x7b fn(y) \x7b x + y \x7d \x7d`. -/
def adder_fn : Option Expression :=
  some (.FunctionLiteral ["x"] adder_body)

/-- The program `let adder = fn(x) \x7b fn(y) \x7b x + y \x7d \x7d; let add = adder(-1);`:
the argument `-1` is a prefix expression, a literal has no sign. -/
def adder_minus_one_program : Program :=
  ⟨[.LetStatement "adder" adder_fn,
    .LetStatement "add" (call (ident "adder") [some (.PrefixExpression "-" (int_lit 1))])]⟩

/-- The machine of a new evaluator after the statement
`let adder = fn(x) \x7b fn(y) \x7b x + y \x7d \x7d;`: `adder` is bound to the Function at address
10, which owns environment 1. -/
def adder_machine : Machine where
  heap := Machine.init.heap ++ [.Null, .Function ["x"] adder_body 1]
  envs := [{ store := [("adder", some 10)], outer := none }, { store := [], outer := some 0 }]
  out := []

/-- The machine of a new evaluator after the text
`let adder = fn(x) \x7b fn(y) \x7b x + y \x7d \x7d; let add = adder(a);`, where the argument is the
decimal text of a number `a` from 0 to `INT_MAX`, the values of an integer literal: `x` is
bound to the Integer `a` in environment 1, and `add` is bound to the Function at address 13,
whose environment 2 has environment 1 as outer scope; `adder`, which owns environment 1, is
still bound. -/
def add_machine (a : Int) : Machine where
  heap := Machine.init.heap ++
    [.Null, .Function ["x"] adder_body 1, .Integer a, .Null, .Function ["y"] sum_body 2]
  envs := [{ store := [("add", some 13), ("adder", some 10)], outer := none },
    { store := [("x", some 11)], outer := some 0 }, { store := [], outer := some 1 }]
  out := []

/-- The machine of a new evaluator after `adder_minus_one_program`: the argument `-1` has
evaluated to the Error at address 12, to which `x` is bound in environment 1, and `add` is
bound to the Function at address 14. -/
def add_error_machine : Machine where
  heap := Machine.init.heap ++
    [.Null, .Function ["x"] adder_body 1, .Integer 1, .Error "", .Null,
      .Function ["y"] sum_body 2]
  envs := [{ store := [("add", some 14), ("adder", some 10)], outer := none },
    { store := [("x", some 12)], outer := some 0 }, { store := [], outer := some 1 }]
  out := []

/-- The program `add2(1)`. -/
def add2_call : Program :=
  expr_program (call (ident "add2") [int_lit 1])

/-- The program
`let adder = fn(x) \x7b fn(y) \x7b x + y \x7d \x7d; let add2 = adder(2); let add3 = adder(3);`. -/
def adder_twice_program : Program :=
  ⟨[.LetStatement "adder" adder_fn, .LetStatement "add2" (call (ident "adder") [int_lit 2]),
    .LetStatement "add3" (call (ident "adder") [int_lit 3])]⟩

/-- The machine of a new evaluator after `adder_twice_program`: `adder` is the Function at
address 10 with environment 1, where `x` was bound to 2 and then to 3; `add2` and `add3`
are the Functions at 13 and 16, whose environments 2 and 3 have environment 1 as outer
scope. -/
def adder_twice_machine : Machine where
  heap := Machine.init.heap ++
    [.Null, .Function ["x"] adder_body 1, .Integer 2, .Null, .Function ["y"] sum_body 2,
      .Integer 3, .Null, .Function ["y"] sum_body 3]
  envs := [
    { outer := none, store := [("add3", some 16), ("add2", some 13), ("adder", some 10)] },
    { store := [("x", some 14)], outer := some 0 },
    { store := [], outer := some 1 },
    { store := [], outer := some 1 }]
  out := []

/-- The expression `if (1) \x7b\x7d`, which evaluates to a new Null object. -/
def if_one_empty : Option Expression :=
  some (.IfExpression (int_lit 1) (some (.mk [])) none)

/-- The program `let len = if (1) \x7b\x7d; len`. -/
def len_bound_to_null_program : Program :=
  ⟨[.LetStatement "len" if_one_empty, .ExpressionStatement (ident "len")]⟩

/-- The program `let len = 1; len`. -/
def len_bound_to_one_program : Program :=
  ⟨[.LetStatement "len" (int_lit 1), .ExpressionStatement (ident "len")]⟩

/-- The expression `1 + true`, which evaluates to an Error. -/
def one_plus_true : Option Expression :=
  some (.InfixExpression (int_lit 1) "+" (some (.BooleanLiteral true)))

/-- The statements of the program `1; 1 + true; let x = 5`. -/
def error_then_let : List Statement :=
  [.ExpressionStatement (int_lit 1)] ++
    .ExpressionStatement one_plus_true :: [.LetStatement "x" (int_lit 5)]

/-- The expression `fn(x) \x7b x \x7d`. -/
def identity_fn : Option Expression :=
  some (.FunctionLiteral ["x"] (expr_block (ident "x")))

/-- A machine whose root scope binds `n` to a Null object other than `null_obj`, `first`
to the Integer 5 and `r` to a `Return` wrapper, with an inner scope that binds `len` to the
Integer 7: the bindings that
`let n = if (1) \x7b\x7d; let first = 5; let r = if (1) \x7b return 5 \x7d` make, seen from
the scope of a function with the parameter `len`. -/
def null_in_outer_scope : Machine where
  heap := Machine.init.heap ++ [.Null, .Integer 5, .Return (some 10), .Integer 7]
  envs := [{ store := [("n", some 9), ("first", some 10), ("r", some 11)], outer := none },
    { store := [("len", some 12)], outer := some 0 }]
  out := []

/-- The block `\x7b if (n) \x7b 1 \x7d else \x7b 2 \x7d \x7d`. -/
def if_n_block : Option BlockStatement :=
  expr_block (some (.IfExpression (ident "n") (int_block 1) (int_block 2)))

/-- The program `let n = if (1) \x7b\x7d; if (n) \x7b 1 \x7d else \x7b 2 \x7d`. -/
def null_tested_in_root_scope : Program :=
  ⟨[.LetStatement "n" if_one_empty,
    .ExpressionStatement (some (.IfExpression (ident "n") (int_block 1) (int_block 2)))]⟩

/-- The program
`let n = if (1) \x7b\x7d; fn() \x7b if (n) \x7b 1 \x7d else \x7b 2 \x7d \x7d()`. -/
def null_tested_in_function : Program :=
  ⟨[.LetStatement "n" if_one_empty,
    .ExpressionStatement (call (some (.FunctionLiteral [] if_n_block)) [])]⟩

/-- The expression `len("abcd")`. -/
def len_of_abcd : Expression :=
  .CallExpression (ident "len") [some (.StringLiteral "abcd")]

/-- The expression `len([1, 2, 3])`. -/
def len_of_array : Expression :=
  .CallExpression (ident "len") [array_one_two_three]

/-- The expression `first([])`. -/
def first_of_empty : Expression :=
  .CallExpression (ident "first") [some (.ArrayLiteral [])]

/-- The expression `last([])`. -/
def last_of_empty : Expression :=
  .CallExpression (ident "last") [some (.ArrayLiteral [])]

/-- The expression `first([1, 2, 3])`. -/
def first_of_array : Expression :=
  .CallExpression (ident "first") [array_one_two_three]

/-- The expression `last([1, 2, 3])`. -/
def last_of_array : Expression :=
  .CallExpression (ident "last") [array_one_two_three]

/-- A machine that holds the String `"abcd"` at address 9 and, at address 10, the Array of
the Integers 1, 2, 3 found at the addresses 11, 12, 13, and an empty Array at 14. -/
def values_machine : Machine where
  heap := Machine.init.heap ++ [.String "abcd", .Array [some 11, some 12, some 13],
    .Integer 1, .Integer 2, .Integer 3, .Array []]
  envs := [{ store := [], outer := none }]
  out := []

/-! ## Tokens (`token.hpp`, `token.cpp`) -/

/-- The enum `Token::TokenType`. -/
inductive TokenType where
  | minus_t | plus_t | asterisk_t | slash_t | bang_t
  | less_t | less_equal_t | greater_t | greater_equal_t
  | assign_t | equal_t | not_equal_t
  | left_paren_t | right_paren_t | left_brace_t | right_brace_t | left_bracket_t
  | right_bracket_t | comma_t | colon_t | semicolon_t
  | string_t | int_t
  | ident_t
  | let_t | function_t | true_t | false_t | if_t
  | else_t | return_t
  | eof_t
  | illegal_t
  deriving DecidableEq, Repr

/-- Class `Token`. -/
structure Token where
  type : TokenType
  literal : String
  deriving DecidableEq, Repr

/-- The table `Token::keywords`. -/
def Token.keywords : List (String × TokenType) :=
  [("let", .let_t), ("fn", .function_t), ("true", .true_t), ("false", .false_t),
   ("if", .if_t), ("else", .else_t), ("return", .return_t)]

/-- Method `Token::lookup`. -/
def Token.lookup (name : String) : TokenType :=
  match Token.keywords.lookup name with
  | some t => t
  | none => .ident_t

/-- Method `Token::to_string(TokenType)`: the entry of the table `t_to_s`. -/
def TokenType.to_string : TokenType → String
  | .minus_t => "minus"
  | .plus_t => "plus"
  | .asterisk_t => "asterisk"
  | .slash_t => "slash"
  | .bang_t => "bang"
  | .less_t => "less"
  | .less_equal_t => "less_equal"
  | .greater_t => "greater"
  | .greater_equal_t => "greater_equal"
  | .assign_t => "assign"
  | .equal_t => "equal"
  | .not_equal_t => "not_equal"
  | .left_paren_t => "left_paren"
  | .right_paren_t => "right_paren"
  | .left_brace_t => "left_brace"
  | .right_brace_t => "right_brace"
  | .left_bracket_t => "left_bracket"
  | .right_bracket_t => "right_bracket"
  | .comma_t => "comma"
  | .colon_t => "colon"
  | .semicolon_t => "semicolon"
  | .int_t => "int"
  | .string_t => "string"
  | .ident_t => "ident"
  | .let_t => "let"
  | .function_t => "function"
  | .true_t => "true"
  | .false_t => "false"
  | .if_t => "if"
  | .else_t => "else"
  | .return_t => "return"
  | .eof_t => "eof"
  | .illegal_t => "illegal"

/-- Method `Token::to_string() const`: the literal of the token. -/
def Token.to_string (token : Token) : String :=
  token.literal

/-- The token `\x7bToken::eof_t, "EOF"\x7d`. -/
def Token.eof : Token :=
  { type := .eof_t, literal := "EOF" }

/-! ## Lexer (`lexer.hpp`, `lexer.cpp`)

The input is the list of the characters of the source, `_cur` and `_nxt` are positions in
it, and the character `NUL` stands for the `0` that `read_char` stores past the end. A loop
of the lexer that advances the cursor at every turn is given as many turns as the input
has characters, and one more. The cursors are natural numbers where the source has `int`:
the model follows the source as long as `_nxt` stays below `2147483647`, which it does
while the lexer reads inside the input. The loop of `read_string` is the one loop that can
leave the input: when no closing quote follows, it goes on reading `0` past the end, no
test stops it there, and the `int` cursor runs on until `_nxt++` overflows, which is
undefined behaviour. The model does not follow the source through that overflow and
`read_string` yields `none` on such a text: `none` stands for this undefined behaviour, it
is not a statement that the source loops for ever, nor that it reports an error.
The source reads bytes and the model characters: a byte of a character outside ASCII fails
every test of the lexer, as the character does, and a text between quotes is the same
text either way. -/

/-- Class `Lexer`. -/
structure Lexer where
  input : List Char
  ch : Char
  cur : Nat
  nxt : Nat
  deriving DecidableEq, Repr

/-- The character `'\0'`. -/
def NUL : Char :=
  Char.ofNat 0

/-- Constructor `Lexer::Lexer`. -/
def Lexer.new (input : String) : Lexer :=
  { input := input.toList, ch := input.toList[0]?.getD NUL, cur := 0, nxt := 1 }

/-- Method `Lexer::read_char`. -/
def Lexer.read_char (l : Lexer) : Lexer :=
  { l with cur := l.nxt, nxt := l.nxt + 1, ch := l.input[l.nxt]?.getD NUL }

/-- Method `Lexer::peek_char`. -/
def Lexer.peek_char (l : Lexer) : Char :=
  l.input[l.nxt]?.getD NUL

/-- Method `Lexer::is_digit`. -/
def is_digit (ch : Char) : Bool :=
  '0' ≤ ch && ch ≤ '9'

/-- Method `Lexer::is_alnum`. -/
def is_alnum (ch : Char) : Bool :=
  is_digit ch || ('a' ≤ ch && ch ≤ 'z') || ('A' ≤ ch && ch ≤ 'Z') || ch == '_'

/-- The test of the loop of `skip_whitespace`: `_ch` is one of the four whitespaces. -/
def is_whitespace (ch : Char) : Bool :=
  ch == ' ' || ch == '\n' || ch == '\r' || ch == '\t'

/-- The loop `while (test(_ch)) read_char()`, for at most the given number of turns. -/
def Lexer.read_while (test : Char → Bool) : Nat → Lexer → Lexer
  | 0, l => l
  | turns + 1, l => if test l.ch then Lexer.read_while test turns l.read_char else l

/-- Method `Lexer::skip_whitespace`. -/
def Lexer.skip_whitespace (l : Lexer) : Lexer :=
  Lexer.read_while is_whitespace (l.input.length + 1) l

/-- The call `_input.substr(pos, len)`. -/
def Lexer.substr (l : Lexer) (pos len : Nat) : String :=
  String.mk ((l.input.drop pos).take len)

/-- Method `Lexer::read_number`. -/
def Lexer.read_number (l : Lexer) : String × Lexer :=
  let l1 := Lexer.read_while is_digit (l.input.length + 1) l
  (l.substr l.cur (l1.cur - l.cur), l1)

/-- Method `Lexer::read_identifier`. -/
def Lexer.read_identifier (l : Lexer) : String × Lexer :=
  let l1 := Lexer.read_while is_alnum (l.input.length + 1) l
  (l.substr l.cur (l1.cur - l.cur), l1)

/-- The loop `do read_char(); while (_ch != '"')` of `read_string`, for at most the given
number of turns; `none` when the loop is still running after these turns. -/
def Lexer.read_string_loop : Nat → Lexer → Option Lexer
  | 0, _ => none
  | turns + 1, l =>
    let l1 := l.read_char
    if l1.ch != '"' then Lexer.read_string_loop turns l1 else some l1

/-- Method `Lexer::read_string`; `none` when no closing quote follows: the loop of the
source then leaves the input and runs on until the `int` cursor overflows, an undefined
behaviour the model does not follow. -/
def Lexer.read_string (l : Lexer) : Option (String × Lexer) :=
  match Lexer.read_string_loop (l.input.length + 1) l with
  | none => none
  | some l1 => some (l.substr (l.cur + 1) (l1.cur - (l.cur + 1)), l1.read_char)

/-- The tokens of `read_token` that are one fixed character. -/
def single_char_token (ch : Char) : Option Token :=
  if ch = '-' then some ⟨.minus_t, "-"⟩
  else if ch = '+' then some ⟨.plus_t, "+"⟩
  else if ch = '*' then some ⟨.asterisk_t, "*"⟩
  else if ch = '/' then some ⟨.slash_t, "/"⟩
  else if ch = '(' then some ⟨.left_paren_t, "("⟩
  else if ch = ')' then some ⟨.right_paren_t, ")"⟩
  else if ch = '[' then some ⟨.left_bracket_t, "["⟩
  else if ch = ']' then some ⟨.right_bracket_t, "]"⟩
  else if ch = '\x7b' then some ⟨.left_brace_t, "\x7b"⟩
  else if ch = '\x7d' then some ⟨.right_brace_t, "\x7d"⟩
  else if ch = ',' then some ⟨.comma_t, ","⟩
  else if ch = ';' then some ⟨.semicolon_t, ";"⟩
  else if ch = ':' then some ⟨.colon_t, ":"⟩
  else none

/-- The tokens of `read_token` that depend on whether `=` follows: the token of the
character alone and the token of the character followed by `=`. -/
def double_char_token (ch : Char) : Option (Token × Token) :=
  if ch = '!' then some (⟨.bang_t, "!"⟩, ⟨.not_equal_t, "!="⟩)
  else if ch = '<' then some (⟨.less_t, "<"⟩, ⟨.less_equal_t, "<="⟩)
  else if ch = '>' then some (⟨.greater_t, ">"⟩, ⟨.greater_equal_t, ">="⟩)
  else if ch = '=' then some (⟨.assign_t, "="⟩, ⟨.equal_t, "=="⟩)
  else none

/-- The `switch` of `Lexer::read_token`, on the character under the cursor; `none` when
`read_string` yields `none`. -/
def Lexer.read_token_switch (l : Lexer) : Option (Token × Lexer) :=
  match single_char_token l.ch with
  | some token => some (token, l.read_char)
  | none =>
    match double_char_token l.ch with
    | some (single, double) =>
      if l.peek_char = '=' then some (double, l.read_char.read_char)
      else some (single, l.read_char)
    | none =>
      if l.ch = NUL then some (Token.eof, l)
      else if is_digit l.ch then
        let (number, l1) := l.read_number
        some (⟨.int_t, number⟩, l1)
      else if l.ch = '"' then
        match l.read_string with
        | some (str, l1) => some (⟨.string_t, str⟩, l1)
        | none => none
      else if is_alnum l.ch then
        let (word, l1) := l.read_identifier
        some (⟨Token.lookup word, word⟩, l1)
      else some (⟨.illegal_t, ""⟩, l)

/-- Method `Lexer::read_token`: `skip_whitespace()` and then the `switch`. -/
def Lexer.read_token (l : Lexer) : Option (Token × Lexer) :=
  l.skip_whitespace.read_token_switch

/-! ## Parser (`parser.hpp`, `parser.cpp`)

The state of a `Parser` is its token vector, the two cursors, the current token and the
error list. A parse function is a `Parse`: it returns a value and a new state, or stops
with a `ParseFault`. The recursion of the parse functions is bounded by a fuel argument:
every call of `parse_expression` and of `parse_statement` goes through a `Descent`, and
every `while` loop has a number of turns. -/

/-- The enum `Parser::Precedence`. -/
inductive Precedence where
  | unknown_p
  | lowest_p
  | equal_p
  | less_greater_p
  | sum_p
  | product_p
  | prefix_p
  | call_p
  | index_p
  deriving DecidableEq, Repr

/-- The integer value of an enumerator of `Precedence`, by which `<` compares. -/
def Precedence.rank : Precedence → Nat
  | .unknown_p => 0
  | .lowest_p => 1
  | .equal_p => 2
  | .less_greater_p => 3
  | .sum_p => 4
  | .product_p => 5
  | .prefix_p => 6
  | .call_p => 7
  | .index_p => 8

/-- The table `Parser::_t_to_p`. -/
def t_to_p : TokenType → Option Precedence
  | .equal_t => some .equal_p
  | .not_equal_t => some .equal_p
  | .less_t => some .less_greater_p
  | .less_equal_t => some .less_greater_p
  | .greater_t => some .less_greater_p
  | .greater_equal_t => some .less_greater_p
  | .plus_t => some .sum_p
  | .minus_t => some .sum_p
  | .slash_t => some .product_p
  | .asterisk_t => some .product_p
  | .left_paren_t => some .call_p
  | .left_bracket_t => some .index_p
  | _ => none

/-- The data members of class `Parser`. -/
structure Parser where
  tokens : List Token
  cur : Nat
  nxt : Nat
  token : Token
  errors : List String
  deriving DecidableEq, Repr

/-- What ends a parse in the model other than a return: an exception of `std::stoi`; no
token vector from the constructor (`no_termination`), which is the case when its loop is
still running after the turns it was given, and when `read_string` left the input; or the
end of the fuel of the model. -/
inductive ParseFault where
  | out_of_range
  | invalid_argument
  | no_termination
  | out_of_fuel
  deriving DecidableEq, Repr

/-- A member function of `Parser`. -/
def Parse (α : Type) : Type := Parser → Except ParseFault (α × Parser)

/-- Return without touching the parser. -/
def Parse.pure {α : Type} (a : α) : Parse α := fun p => .ok (a, p)

/-- Sequencing: a fault of the first computation ends the parse. -/
def Parse.bind {α β : Type} (x : Parse α) (f : α → Parse β) : Parse β := fun p =>
  match x p with
  | .ok (a, p1) => f a p1
  | .error e => .error e

instance : Monad Parse where
  pure := Parse.pure
  bind := Parse.bind

/-- An exception, or the end of the fuel. -/
def Parse.fault {α : Type} (f : ParseFault) : Parse α := fun _ => .error f

/-- The value of a list of decimal digits. -/
def digits_value (digits : List Char) : Nat :=
  digits.foldl (fun acc ch => 10 * acc + (ch.toNat - '0'.toNat)) 0

/-- The call `std::stoi(literal)` on a text without leading whitespace or sign, which is
what the literal of a token is: the value of the leading digits, `std::invalid_argument`
when there is none, `std::out_of_range` when the value is not an `int`. -/
def stoi (literal : String) : Parse Int :=
  let digits := literal.toList.takeWhile is_digit
  if digits.isEmpty then Parse.fault .invalid_argument
  else if digits_value digits ≤ 2147483647 then pure (Int.ofNat (digits_value digits))
  else Parse.fault .out_of_range

/-- The member `_token`. -/
def cur_token : Parse Token := fun p => .ok (p.token, p)

/-- Method `Parser::next_token`. -/
def next_token : Parse Token := fun p =>
  let token := p.tokens[p.nxt]?.getD Token.eof
  .ok (token, { p with cur := p.nxt, nxt := p.nxt + 1, token := token })

/-- Method `Parser::peek_token`. -/
def peek_token : Parse Token := fun p =>
  .ok (p.tokens[p.nxt]?.getD Token.eof, p)

/-- Method `Parser::cur_token_type_is`. -/
def cur_token_type_is (type : TokenType) : Parse Bool := do
  let token ← cur_token
  pure (token.type == type)

/-- Method `Parser::peek_token_type_is`. -/
def peek_token_type_is (type : TokenType) : Parse Bool := do
  let token ← peek_token
  pure (token.type == type)

/-- Method `Parser::expect_token_type_is`. -/
def expect_token_type_is (type : TokenType) : Parse Bool := do
  if (← peek_token_type_is type) then
    let _skipped ← next_token
    pure true
  else pure false

/-- Method `Parser::cur_token_precedence`. -/
def cur_token_precedence : Parse Precedence := do
  let token ← cur_token
  match t_to_p token.type with
  | some precedence => pure precedence
  | none => pure .lowest_p

/-- Method `Parser::peek_token_precedence`. -/
def peek_token_precedence : Parse Precedence := do
  let token ← peek_token
  match t_to_p token.type with
  | some precedence => pure precedence
  | none => pure .lowest_p

/-- The text of `Parser::parse_error(std::string, std::string)`. -/
def error_text (str1 str2 : String) : String :=
  "no `" ++ str1 ++ "` found for `" ++ str2 ++ "`"

/-- The text of `Parser::parse_error(Token::TokenType, Token)`. -/
def error_text_token (type : TokenType) (token : Token) : String :=
  "expected next token to be `" ++ type.to_string ++ "`, got `" ++ token.to_string
    ++ "` instead at literal `" ++ token.literal ++ "`"

/-- Method `Parser::parse_error(std::string, std::string)`. -/
def parse_error (str1 str2 : String) : Parse Unit := fun p =>
  .ok ((), { p with errors := p.errors ++ [error_text str1 str2] })

/-- Method `Parser::parse_error(Token::TokenType, Token)`. -/
def parse_error_token (type : TokenType) (token : Token) : Parse Unit := fun p =>
  .ok ((), { p with errors := p.errors ++ [error_text_token type token] })

/-- The statements `if (!expect_token_type_is(type)) \x7b parse_error(type, peek_token());
return nullptr; \x7d` up to the `return`: `true` when the expected token was there. -/
def expect_or_error (type : TokenType) : Parse Bool := do
  if (← expect_token_type_is type) then pure true
  else
    parse_error_token type (← peek_token)
    pure false

/-- The statement `if (peek_token_type_is(Token::semicolon_t)) next_token();` that ends the
three statement functions. -/
def skip_semicolon : Parse Unit := do
  if (← peek_token_type_is .semicolon_t) then
    let _skipped ← next_token
    pure ()
  else pure ()

/-- The recursive calls of the parse functions: `parse_expression` and `parse_statement`. -/
structure Descent where
  expression : Precedence → Parse (Option Expression)
  statement : Parse (Option Statement)

/-- Method `Parser::parse_integer_literal`, with the constructor of `IntegerLiteral`. -/
def parse_integer_literal : Parse (Option Expression) := do
  let token ← cur_token
  let value ← stoi token.literal
  pure (some (.IntegerLiteral value))

/-- Method `Parser::parse_string_literal`. -/
def parse_string_literal : Parse (Option Expression) := do
  let token ← cur_token
  pure (some (.StringLiteral token.literal))

/-- Method `Parser::parse_boolean_literal`. -/
def parse_boolean_literal : Parse (Option Expression) := do
  let token ← cur_token
  pure (some (.BooleanLiteral (token.type == .true_t)))

/-- Method `Parser::parse_identifier`. -/
def parse_identifier : Parse (Option Expression) := do
  let token ← cur_token
  pure (some (.Identifier token.literal))

/-- Method `Parser::parse_prefix_expression`. -/
def parse_prefix_expression (d : Descent) : Parse (Option Expression) := do
  let token ← cur_token
  let _skipped ← next_token
  let right ← d.expression .prefix_p
  pure (some (.PrefixExpression token.literal right))

/-- Method `Parser::parse_infix_expression`. -/
def parse_infix_expression (d : Descent) (left : Option Expression) :
    Parse (Option Expression) := do
  let token ← cur_token
  let precedence ← cur_token_precedence
  let _skipped ← next_token
  let right ← d.expression precedence
  pure (some (.InfixExpression left token.literal right))

/-- The loop of `parse_block_statement`. -/
def parse_block_statement_loop (d : Descent) : Nat → List Statement → Parse (List Statement)
  | 0, _ => Parse.fault .out_of_fuel
  | turns + 1, stmts => do
    let brace ← peek_token_type_is .right_brace_t
    let eof ← peek_token_type_is .eof_t
    if !brace && !eof then
      let _skipped ← next_token
      match (← d.statement) with
      | some stmt => parse_block_statement_loop d turns (stmts ++ [stmt])
      | none => parse_block_statement_loop d turns stmts
    else pure stmts

/-- Method `Parser::parse_block_statement`. -/
def parse_block_statement (d : Descent) (turns : Nat) : Parse (Option BlockStatement) := do
  let stmts ← parse_block_statement_loop d turns []
  pure (some (.mk stmts))

/-- Method `Parser::parse_if_expression`. -/
def parse_if_expression (d : Descent) (turns : Nat) : Parse (Option Expression) := do
  if (← expect_or_error .left_paren_t) then
    let _skipped ← next_token
    match (← d.expression .lowest_p) with
    | none =>
      parse_error "expression" "if"
      pure none
    | some condition =>
      if (← expect_or_error .right_paren_t) then
        if (← expect_or_error .left_brace_t) then
          let consequence ← parse_block_statement d turns
          if (← expect_or_error .right_brace_t) then
            if (← peek_token_type_is .else_t) then
              let _skipped ← next_token
              if (← expect_or_error .left_brace_t) then
                let alternative ← parse_block_statement d turns
                if (← expect_or_error .right_brace_t) then
                  pure (some (.IfExpression (some condition) consequence alternative))
                else pure none
              else pure none
            else pure (some (.IfExpression (some condition) consequence none))
          else pure none
        else pure none
      else pure none
  else pure none

/-- Method `Parser::parse_group_expression`. -/
def parse_group_expression (d : Descent) : Parse (Option Expression) := do
  let _skipped ← next_token
  let expr ← d.expression .lowest_p
  if (← expect_or_error .right_paren_t) then pure expr
  else pure none

/-- The loop of `parse_call_expression` and of `parse_array_literal`, which differ in the
closing token: `none` when the loop returns `nullptr` from the function. -/
def parse_expression_list_loop (d : Descent) (close : TokenType) :
    Nat → List (Option Expression) → Parse (Option (List (Option Expression)))
  | 0, _ => Parse.fault .out_of_fuel
  | turns + 1, exprs => do
    let closing ← peek_token_type_is close
    let eof ← peek_token_type_is .eof_t
    if !closing && !eof then
      let _skipped ← next_token
      let expr ← d.expression .lowest_p
      if (← peek_token_type_is close) then
        parse_expression_list_loop d close turns (exprs ++ [expr])
      else if (← expect_token_type_is .comma_t) then
        parse_expression_list_loop d close turns (exprs ++ [expr])
      else
        parse_error_token .comma_t (← peek_token)
        pure none
    else pure (some exprs)

/-- Method `Parser::parse_call_expression`. -/
def parse_call_expression (d : Descent) (turns : Nat) (left : Option Expression) :
    Parse (Option Expression) := do
  match (← parse_expression_list_loop d .right_paren_t turns []) with
  | none => pure none
  | some arguments =>
    if (← expect_or_error .right_paren_t) then pure (some (.CallExpression left arguments))
    else pure none

/-- Method `Parser::parse_index_expression`. -/
def parse_index_expression (d : Descent) (left : Option Expression) :
    Parse (Option Expression) := do
  let _skipped ← next_token
  match (← d.expression .lowest_p) with
  | none =>
    parse_error "expression" "index"
    pure none
  | some index =>
    if (← expect_or_error .right_bracket_t) then
      pure (some (.IndexExpression (some index) left))
    else pure none

/-- The loop of `parse_function_literal` over the parameters: `none` when the loop returns
`nullptr` from the function. -/
def parse_parameters_loop : Nat → List String → Parse (Option (List String))
  | 0, _ => Parse.fault .out_of_fuel
  | turns + 1, parameters => do
    let closing ← peek_token_type_is .right_paren_t
    let eof ← peek_token_type_is .eof_t
    if !closing && !eof then
      if (← expect_or_error .ident_t) then
        let token ← cur_token
        if (← peek_token_type_is .right_paren_t) then
          parse_parameters_loop turns (parameters ++ [token.literal])
        else if (← expect_token_type_is .comma_t) then
          parse_parameters_loop turns (parameters ++ [token.literal])
        else
          parse_error_token .comma_t (← peek_token)
          pure none
      else pure none
    else pure (some parameters)

/-- Method `Parser::parse_function_literal`. -/
def parse_function_literal (d : Descent) (turns : Nat) : Parse (Option Expression) := do
  if (← expect_or_error .left_paren_t) then
    match (← parse_parameters_loop turns []) with
    | none => pure none
    | some parameters =>
      if (← expect_or_error .right_paren_t) then
        if (← expect_or_error .left_brace_t) then
          let body ← parse_block_statement d turns
          if (← expect_or_error .right_brace_t) then
            pure (some (.FunctionLiteral parameters body))
          else pure none
        else pure none
      else pure none
  else pure none

/-- Method `Parser::parse_array_literal`. -/
def parse_array_literal (d : Descent) (turns : Nat) : Parse (Option Expression) := do
  match (← parse_expression_list_loop d .right_bracket_t turns []) with
  | none => pure none
  | some expressions =>
    if (← expect_or_error .right_bracket_t) then pure (some (.ArrayLiteral expressions))
    else pure none

/-- The table `_prefix_parse_func_map` the constructor `Parser::Parser()` fills. -/
def prefix_parse_func_map (d : Descent) (turns : Nat) :
    TokenType → Option (Parse (Option Expression))
  | .int_t => some parse_integer_literal
  | .string_t => some parse_string_literal
  | .true_t => some parse_boolean_literal
  | .false_t => some parse_boolean_literal
  | .bang_t => some (parse_prefix_expression d)
  | .minus_t => some (parse_prefix_expression d)
  | .if_t => some (parse_if_expression d turns)
  | .left_paren_t => some (parse_group_expression d)
  | .function_t => some (parse_function_literal d turns)
  | .ident_t => some parse_identifier
  | .left_bracket_t => some (parse_array_literal d turns)
  | _ => none

/-- The table `_infix_parse_func_map` the constructor `Parser::Parser()` fills. -/
def infix_parse_func_map (d : Descent) (turns : Nat) :
    TokenType → Option (Option Expression → Parse (Option Expression))
  | .plus_t => some (parse_infix_expression d)
  | .minus_t => some (parse_infix_expression d)
  | .asterisk_t => some (parse_infix_expression d)
  | .slash_t => some (parse_infix_expression d)
  | .less_t => some (parse_infix_expression d)
  | .less_equal_t => some (parse_infix_expression d)
  | .greater_t => some (parse_infix_expression d)
  | .greater_equal_t => some (parse_infix_expression d)
  | .equal_t => some (parse_infix_expression d)
  | .not_equal_t => some (parse_infix_expression d)
  | .left_paren_t => some (parse_call_expression d turns)
  | .left_bracket_t => some (parse_index_expression d)
  | _ => none

/-- The loop of `parse_expression`. -/
def parse_expression_loop (d : Descent) (fuel : Nat) (precedence : Precedence) :
    Nat → Option Expression → Parse (Option Expression)
  | 0, _ => Parse.fault .out_of_fuel
  | turns + 1, left => do
    let semicolon ← peek_token_type_is .semicolon_t
    let peek_precedence ← peek_token_precedence
    if !semicolon && precedence.rank < peek_precedence.rank then
      match infix_parse_func_map d fuel (← peek_token).type with
      | none => pure left
      | some infix_func =>
        let _skipped ← next_token
        let expr ← infix_func left
        parse_expression_loop d fuel precedence turns expr
    else pure left

/-- Method `Parser::parse_expression`. -/
def parse_expression (d : Descent) (fuel : Nat) (precedence : Precedence) :
    Parse (Option Expression) := do
  let token ← cur_token
  match prefix_parse_func_map d fuel token.type with
  | none =>
    parse_error "prefix parse function" token.literal
    pure none
  | some prefix_func =>
    let left ← prefix_func
    parse_expression_loop d fuel precedence fuel left

/-- Method `Parser::parse_let_statement`. -/
def parse_let_statement (d : Descent) : Parse (Option Statement) := do
  if (← expect_or_error .ident_t) then
    let identifier ← cur_token
    if (← expect_or_error .assign_t) then
      let _skipped ← next_token
      match (← d.expression .lowest_p) with
      | some expr =>
        skip_semicolon
        pure (some (.LetStatement identifier.literal (some expr)))
      | none =>
        parse_error "expression" "let"
        pure none
    else pure none
  else pure none

/-- Method `Parser::parse_return_statement`. -/
def parse_return_statement (d : Descent) : Parse (Option Statement) := do
  let _skipped ← next_token
  match (← d.expression .lowest_p) with
  | some expr =>
    skip_semicolon
    pure (some (.ReturnStatement (some expr)))
  | none =>
    parse_error "expression" "return"
    pure none

/-- Method `Parser::parse_expression_statement`. -/
def parse_expression_statement (d : Descent) : Parse (Option Statement) := do
  if (← cur_token_type_is .semicolon_t) then pure none
  else
    match (← d.expression .lowest_p) with
    | some expr =>
      skip_semicolon
      pure (some (.ExpressionStatement (some expr)))
    | none => pure none

/-- Method `Parser::parse_statement`. -/
def parse_statement (d : Descent) : Parse (Option Statement) := do
  let token ← cur_token
  match token.type with
  | .let_t => parse_let_statement d
  | .return_t => parse_return_statement d
  | _ => parse_expression_statement d

/-- The parse functions with `fuel` levels of recursion left. -/
def descend : Nat → Descent
  | 0 =>
    { expression := fun _ => Parse.fault .out_of_fuel, statement := Parse.fault .out_of_fuel }
  | fuel + 1 =>
    { expression := fun precedence => parse_expression (descend fuel) fuel precedence,
      statement := parse_statement (descend fuel) }

/-- The loop of `Parser::parse`. -/
def parse_loop (fuel : Nat) : Nat → List Statement → Parse (List Statement)
  | 0, _ => Parse.fault .out_of_fuel
  | turns + 1, stmts => do
    if (← cur_token_type_is .eof_t) then pure stmts
    else
      match (← (descend fuel).statement) with
      | some stmt =>
        let _skipped ← next_token
        parse_loop fuel turns (stmts ++ [stmt])
      | none =>
        let _skipped ← next_token
        parse_loop fuel turns stmts

/-- Method `Parser::parse`. -/
def parse (fuel : Nat) : Parse Program := do
  let stmts ← parse_loop fuel fuel []
  pure { statements := stmts }

/-- The loop of the constructor `Parser::Parser(std::string const&)` that fills `_tokens`;
`none` when it does not end within the given number of turns, or when a call of
`read_token` yields `none`. -/
def tokenize : Nat → Lexer → Option (List Token)
  | 0, _ => none
  | turns + 1, lexer =>
    match lexer.read_token with
    | none => none
    | some (token, lexer1) =>
      if token.type = .eof_t then some [token]
      else
        match tokenize turns lexer1 with
        | none => none
        | some tokens => some (token :: tokens)

/-- The state the constructor `Parser::Parser(std::string const&)` leaves, given the
tokens. -/
def Parser.of_tokens (tokens : List Token) : Parser :=
  { tokens := tokens, cur := 0, nxt := 1, token := tokens[0]?.getD Token.eof, errors := [] }

/-- Constructor `Parser::Parser(std::string const&)`. -/
def Parser.new (fuel : Nat) (input : String) : Except ParseFault Parser :=
  match tokenize fuel (Lexer.new input) with
  | none => .error .no_termination
  | some tokens => .ok (Parser.of_tokens tokens)

/-- The calls `Parser parser(input); parser.parse(); parser.error()`: the program and the
error list. -/
def parse_input (fuel : Nat) (input : String) : Except ParseFault (Program × List String) :=
  match Parser.new fuel input with
  | .error f => .error f
  | .ok parser =>
    match parse fuel parser with
    | .error f => .error f
    | .ok (program, parser1) => .ok (program, parser1.errors)

/-- The renderings of the statements of a program. -/
def Program.renderings (program : Program) : List (Option String) :=
  program.statements.map Statement.to_string

/-- What a test of the parser observes: the renderings of the statements and the errors. -/
def parse_summary (fuel : Nat) (input : String) :
    Except ParseFault (List (Option String) × List String) :=
  match parse_input fuel input with
  | .error f => .error f
  | .ok (program, errors) => .ok (program.renderings, errors)

/-! ## Readings of the parser state -/

/-- The token `peek_token` returns in the state `p`. -/
def Parser.peek (p : Parser) : Token :=
  p.tokens[p.nxt]?.getD Token.eof

/-- The state `next_token` leaves. -/
def Parser.advance (p : Parser) : Parser :=
  { p with cur := p.nxt, nxt := p.nxt + 1, token := p.peek }

/-- The state `parse_error` leaves when it appends the text `error`. -/
def Parser.report (p : Parser) (error : String) : Parser :=
  { p with errors := p.errors ++ [error] }

/-- Every result of `x` is a result of `y`. -/
def Parse.Le {α : Type} (x y : Parse α) : Prop :=
  ∀ p r, x p = .ok r → y p = .ok r

/-- Every result of a recursive call through `d1` is a result of the call through `d2`. -/
def Descent.Le (d1 d2 : Descent) : Prop :=
  (∀ precedence, (d1.expression precedence).Le (d2.expression precedence)) ∧
    d1.statement.Le d2.statement

/-! ## Observations of a parse -/

instance {ε α : Type} [DecidableEq ε] [DecidableEq α] : DecidableEq (Except ε α) := fun a b =>
  match a, b with
  | .ok x, .ok y =>
    if h : x = y then isTrue (by rw [h]) else isFalse (fun e => h (by cases e; rfl))
  | .error x, .error y =>
    if h : x = y then isTrue (by rw [h]) else isFalse (fun e => h (by cases e; rfl))
  | .ok _, .error _ => isFalse (fun e => by cases e)
  | .error _, .ok _ => isFalse (fun e => by cases e)

/-- The value of a statement that is an integer literal and nothing else. -/
def Statement.integer_value : Statement → Option Int
  | .ExpressionStatement (some (.IntegerLiteral value)) => some value
  | _ => none

/-- For each statement of the parsed program its value when it is an integer literal, and
the errors. -/
def parse_integers (fuel : Nat) (input : String) :
    Except ParseFault (List (Option Int) × List String) :=
  match parse_input fuel input with
  | .error f => .error f
  | .ok (program, errors) => .ok (program.statements.map Statement.integer_value, errors)

/-- The input of the test `TestLetStatementError` without its first and last newline. -/
def let_error_input : String :=
  "let 1 = 1;\nlet indent = ;"

/-- The ten token types `_infix_parse_func_map` sends to `parse_infix_expression`: the
binary operators. -/
def TokenType.is_binary_operator : TokenType → Bool
  | .plus_t => true
  | .minus_t => true
  | .asterisk_t => true
  | .slash_t => true
  | .less_t => true
  | .less_equal_t => true
  | .greater_t => true
  | .greater_equal_t => true
  | .equal_t => true
  | .not_equal_t => true
  | _ => false

/-- The precedence `cur_token_precedence` and `peek_token_precedence` give a token of the
type `type`. -/
def TokenType.precedence (type : TokenType) : Precedence :=
  (t_to_p type).getD .lowest_p

/-- The expression the prefix parse function of an atomic token returns: an identifier, a
string, a boolean, or an integer literal whose value `std::stoi` accepts. -/
def Token.atom (token : Token) : Option Expression :=
  match token.type with
  | .ident_t => some (.Identifier token.literal)
  | .string_t => some (.StringLiteral token.literal)
  | .true_t => some (.BooleanLiteral true)
  | .false_t => some (.BooleanLiteral false)
  | .int_t =>
    let digits := token.literal.toList.takeWhile is_digit
    if digits.isEmpty then none
    else if digits_value digits ≤ 2147483647 then
      some (.IntegerLiteral (Int.ofNat (digits_value digits)))
    else none
  | _ => none

/-! ## A statement terminator at the end of the input

The parse of the tokens `ts` followed by `eof` is compared with the parse of `ts` followed
by `;` and `eof`. -/

/-- The token the lexer makes of `;`. -/
def Token.semicolon : Token :=
  { type := .semicolon_t, literal := ";" }

/-- The state `p` over another token vector. -/
def Parser.retoken (tokens : List Token) (p : Parser) : Parser :=
  { p with tokens := tokens }

/-- The computation `x` does not change the token vector and removes no error; and a run
of `x` over the tokens `ts`, `eof` that starts before the `eof` and records no error ends
before the `eof` and is also a run over the tokens `ts`, `;`, `eof`. -/
def Parse.Sim {α : Type} (ts : List Token) (x : Parse α) : Prop :=
  ∀ p r p1, x p = .ok (r, p1) →
    p1.tokens = p.tokens ∧ p.errors.length ≤ p1.errors.length ∧
    (p.tokens = ts ++ [Token.eof] → p.nxt ≤ ts.length →
      p1.errors.length ≤ p.errors.length →
      p1.nxt ≤ ts.length ∧
      x (p.retoken (ts ++ [Token.semicolon, Token.eof]))
        = .ok (r, p1.retoken (ts ++ [Token.semicolon, Token.eof])))

/-- As `Parse.Sim`, for a run after which the next token has the type `close`: a loop that
the end of the input ends as well. -/
def Parse.SimUntil {α : Type} (ts : List Token) (close : TokenType) (x : Parse α) : Prop :=
  ∀ p r p1, x p = .ok (r, p1) →
    p1.tokens = p.tokens ∧ p.errors.length ≤ p1.errors.length ∧
    (p.tokens = ts ++ [Token.eof] → p.nxt ≤ ts.length →
      p1.errors.length ≤ p.errors.length → p1.peek.type = close →
      p1.nxt ≤ ts.length ∧
      x (p.retoken (ts ++ [Token.semicolon, Token.eof]))
        = .ok (r, p1.retoken (ts ++ [Token.semicolon, Token.eof])))

/-- As `Parse.Sim`, for a statement: over the tokens `ts`, `;`, `eof` the run may end one
token further, on the `;`, when the run over `ts`, `eof` ends with `eof` as the next
token. -/
def Parse.SimStatement {α : Type} (ts : List Token) (x : Parse α) : Prop :=
  ∀ p r p1, x p = .ok (r, p1) →
    p1.tokens = p.tokens ∧ p.errors.length ≤ p1.errors.length ∧
    (p.tokens = ts ++ [Token.eof] → p.nxt ≤ ts.length →
      p1.errors.length ≤ p.errors.length →
      p1.nxt ≤ ts.length ∧
      (x (p.retoken (ts ++ [Token.semicolon, Token.eof]))
          = .ok (r, p1.retoken (ts ++ [Token.semicolon, Token.eof])) ∨
        (p1.nxt = ts.length ∧
          x (p.retoken (ts ++ [Token.semicolon, Token.eof]))
            = .ok (r, (p1.retoken (ts ++ [Token.semicolon, Token.eof])).advance))))

/-- A run of `x` that starts on a token of the type `eof` records an error. -/
def Parse.RejectsEof {α : Type} (x : Parse α) : Prop :=
  ∀ p r p1, x p = .ok (r, p1) → p.token.type = .eof_t → p.errors.length < p1.errors.length

/-- A run of `x` that returns `nullptr` records an error. -/
def Parse.NoneReports {α : Type} (x : Parse (Option α)) : Prop :=
  ∀ p p1, x p = .ok (none, p1) → p.errors.length < p1.errors.length

/-- A run of `x` that starts with `eof` as the next token ends so. -/
def Parse.StaysAtEof {α : Type} (x : Parse α) : Prop :=
  ∀ p r p1, x p = .ok (r, p1) → p.peek.type = .eof_t → p1.peek.type = .eof_t

/-- The recursive calls through `d` are simulated. -/
structure Descent.Sim (ts : List Token) (d : Descent) : Prop where
  expression : ∀ precedence, Parse.Sim ts (d.expression precedence)
  rejects : ∀ precedence, Parse.RejectsEof (d.expression precedence)
  statement : Parse.SimStatement ts d.statement
  statement_rejects : Parse.RejectsEof d.statement

/-- The lexer `l` at the same position of the input with a `;` added at its end. -/
def Lexer.extend (l : Lexer) : Lexer :=
  { input := l.input ++ [';'], ch := (l.input ++ [';'])[l.cur]?.getD NUL, cur := l.cur,
    nxt := l.nxt }

/-- What the constructor of `Lexer` and `read_char` keep true: `_ch` is the character at
`_cur`, or 0 past the end of the input, `_nxt` is the position after `_cur`, and `_cur` is
at most the length of the input. -/
def Lexer.WellFormed (l : Lexer) : Prop :=
  l.ch = l.input[l.cur]?.getD NUL ∧ l.nxt = l.cur + 1 ∧ l.cur ≤ l.input.length


/-! ## Evaluation of a source text -/

/-- A failure of `Evaluator::eval(std::string const&)`: one of the parse, or one of the
evaluation of the program. -/
inductive SessionFault where
  | parse (f : ParseFault)
  | eval (f : Fault)

/-- Method `Evaluator::eval(std::string const&)` on a new `Evaluator`: the input is parsed
and the program is evaluated in the root environment, whatever the parser recorded; the
result is observed through the object behind the pointer. -/
def Evaluator.eval_input (fuel : Nat) (input : String) : Except SessionFault (Option Object) :=
  match parse_input fuel input with
  | .error f => .error (.parse f)
  | .ok (program, _) =>
    match run_program fuel program with
    | .error f => .error (.eval f)
    | .ok obj => .ok obj

/-- Method `Evaluator::eval(std::string const&)` on the `Evaluator` whose state is `m`:
`Parser parser(input)`, `parser.parse()`, and the evaluation of the program in the root
environment. The errors the parser recorded are not looked at, and an exception of the
parse leaves the method before anything is evaluated. -/
def Evaluator.eval_string (fuel : Nat) (input : String) (m : Machine) :
    Except SessionFault (ObjPtr × Machine) :=
  match parse_input fuel input with
  | .error f => .error (.parse f)
  | .ok (program, _) =>
    match Evaluator.eval fuel program m with
    | .error f => .error (.eval f)
    | .ok r => .ok r

/-- Two calls of `Evaluator::eval(std::string const&)` on one new `Evaluator`, the second
observed through the object behind its result. -/
def Evaluator.eval_then (fuel : Nat) (first second : String) :
    Except SessionFault (Option Object) :=
  match Evaluator.eval_string fuel first Machine.init with
  | .error f => .error f
  | .ok (_, m1) =>
    match Evaluator.eval_string fuel second m1 with
    | .error f => .error f
    | .ok (none, _) => .ok none
    | .ok (some a, m2) => .ok m2.heap[a]?

/-- The expression `1 + true`. -/
def one_plus_true_expression : Expression :=
  .InfixExpression (int_lit 1) "+" (some (.BooleanLiteral true))

/-- The expression `2 + true`. -/
def two_plus_true_expression : Expression :=
  .InfixExpression (int_lit 2) "+" (some (.BooleanLiteral true))

/-- The expression `!(1 + true)`. -/
def bang_of_error : Expression :=
  .PrefixExpression "!" (some one_plus_true_expression)

/-- The expression `(1 + true) == (2 + true)`. -/
def errors_compared : Expression :=
  .InfixExpression (some one_plus_true_expression) "==" (some two_plus_true_expression)

/-- The expression `1 +`, as the parser leaves it: the right operand is a null pointer. -/
def one_plus_nothing : Expression :=
  .InfixExpression (int_lit 1) "+" none

/-- The expression `a op b` for two boolean literals. -/
def booleans_compared (a : Bool) (op : String) (b : Bool) : Expression :=
  .InfixExpression (some (.BooleanLiteral a)) op (some (.BooleanLiteral b))


/-! ## Comparison of trees -/

mutual
/-- Structural comparison of two expressions. -/
def Expression.same : Expression → Expression → Bool
  | .Identifier a, .Identifier b => a == b
  | .IntegerLiteral a, .IntegerLiteral b => a == b
  | .BooleanLiteral a, .BooleanLiteral b => a == b
  | .StringLiteral a, .StringLiteral b => a == b
  | .ArrayLiteral a, .ArrayLiteral b => Expression.same_list a b
  | .FunctionLiteral p a, .FunctionLiteral q b => p == q && BlockStatement.same_option a b
  | .IfExpression c a1 a2, .IfExpression d b1 b2 =>
    Expression.same_option c d && (BlockStatement.same_option a1 b1
      && BlockStatement.same_option a2 b2)
  | .CallExpression f a, .CallExpression g b =>
    Expression.same_option f g && Expression.same_list a b
  | .IndexExpression i a, .IndexExpression j b =>
    Expression.same_option i j && Expression.same_option a b
  | .PrefixExpression o a, .PrefixExpression p b => o == p && Expression.same_option a b
  | .InfixExpression l o r, .InfixExpression l2 o2 r2 =>
    Expression.same_option l l2 && (o == o2 && Expression.same_option r r2)
  | _, _ => false
/-- Structural comparison of two children that may be null. -/
def Expression.same_option : Option Expression → Option Expression → Bool
  | none, none => true
  | some a, some b => Expression.same a b
  | _, _ => false
/-- Structural comparison of two vectors of expressions. -/
def Expression.same_list : List (Option Expression) → List (Option Expression) → Bool
  | [], [] => true
  | a :: as, b :: bs => Expression.same_option a b && Expression.same_list as bs
  | _, _ => false
/-- Structural comparison of two statements. -/
def Statement.same : Statement → Statement → Bool
  | .LetStatement i a, .LetStatement j b => i == j && Expression.same_option a b
  | .ReturnStatement a, .ReturnStatement b => Expression.same_option a b
  | .ExpressionStatement a, .ExpressionStatement b => Expression.same_option a b
  | _, _ => false
/-- Structural comparison of two vectors of statements. -/
def Statement.same_list : List Statement → List Statement → Bool
  | [], [] => true
  | a :: as, b :: bs => Statement.same a b && Statement.same_list as bs
  | _, _ => false
/-- Structural comparison of two blocks. -/
def BlockStatement.same : BlockStatement → BlockStatement → Bool
  | .mk a, .mk b => Statement.same_list a b
/-- Structural comparison of two blocks that may be null. -/
def BlockStatement.same_option : Option BlockStatement → Option BlockStatement → Bool
  | none, none => true
  | some a, some b => BlockStatement.same a b
  | _, _ => false
end

/-- The parse of `input` gives the tree `program` and the error list `errors`. -/
def parse_gives (fuel : Nat) (input : String) (program : Program) (errors : List String) :
    Bool :=
  match parse_input fuel input with
  | .error _ => false
  | .ok (parsed, errs) => Statement.same_list parsed.statements program.statements
      && errs == errors


/-! ## Trees compared down to a depth

A second comparison of trees, by recursion on a depth instead of on the trees; it is the
one the parses of the longer texts are checked with. -/

/-- Comparison of two lists, element by element. -/
def same_elements {α : Type} (same : α → α → Bool) : List α → List α → Bool
  | [], [] => true
  | a :: as, b :: bs => same a b && same_elements same as bs
  | _, _ => false

/-- Comparison of two children that may be null. -/
def same_child {α : Type} (same : α → α → Bool) : Option α → Option α → Bool
  | none, none => true
  | some a, some b => same a b
  | _, _ => false

mutual
/-- Comparison of two expressions down to the given depth. -/
def Expression.alike : Nat → Expression → Expression → Bool
  | 0, _, _ => false
  | _ + 1, .Identifier a, .Identifier b => a == b
  | _ + 1, .IntegerLiteral a, .IntegerLiteral b => a == b
  | _ + 1, .BooleanLiteral a, .BooleanLiteral b => a == b
  | _ + 1, .StringLiteral a, .StringLiteral b => a == b
  | n + 1, .ArrayLiteral a, .ArrayLiteral b =>
    same_elements (same_child (Expression.alike n)) a b
  | n + 1, .FunctionLiteral p a, .FunctionLiteral q b =>
    p == q && same_child (BlockStatement.alike n) a b
  | n + 1, .IfExpression c a1 a2, .IfExpression d b1 b2 =>
    same_child (Expression.alike n) c d && (same_child (BlockStatement.alike n) a1 b1
      && same_child (BlockStatement.alike n) a2 b2)
  | n + 1, .CallExpression f a, .CallExpression g b =>
    same_child (Expression.alike n) f g && same_elements (same_child (Expression.alike n)) a b
  | n + 1, .IndexExpression i a, .IndexExpression j b =>
    same_child (Expression.alike n) i j && same_child (Expression.alike n) a b
  | n + 1, .PrefixExpression o a, .PrefixExpression p b =>
    o == p && same_child (Expression.alike n) a b
  | n + 1, .InfixExpression l o r, .InfixExpression l2 o2 r2 =>
    same_child (Expression.alike n) l l2 && (o == o2 && same_child (Expression.alike n) r r2)
  | _ + 1, _, _ => false
/-- Comparison of two statements down to the given depth. -/
def Statement.alike : Nat → Statement → Statement → Bool
  | 0, _, _ => false
  | n + 1, .LetStatement i a, .LetStatement j b => i == j && same_child (Expression.alike n) a b
  | n + 1, .ReturnStatement a, .ReturnStatement b => same_child (Expression.alike n) a b
  | n + 1, .ExpressionStatement a, .ExpressionStatement b => same_child (Expression.alike n) a b
  | _ + 1, _, _ => false
/-- Comparison of two blocks down to the given depth. -/
def BlockStatement.alike : Nat → BlockStatement → BlockStatement → Bool
  | 0, _, _ => false
  | n + 1, .mk a, .mk b => same_elements (Statement.alike n) a b
end


/-- The parse of `input` gives the tree `program` and the error list `errors`, by a comparison
of the trees down to the depth `fuel`. -/
def parse_alike (fuel : Nat) (input : String) (program : Program) (errors : List String) :
    Bool :=
  match parse_input fuel input with
  | .error _ => false
  | .ok (parsed, errs) =>
    same_elements (Statement.alike fuel) parsed.statements program.statements && errs == errors


/-! ## The tokens of the texts of the closure `adder` -/

/-- The tokens of the text
`let adder = fn(x) \x7b fn(y) \x7b x + y \x7d \x7d; let add = adder(n);`,
where `literal` is the text of the number `n`. -/
def adder_tokens (literal : String) : List Token :=
  [⟨.let_t, "let"⟩, ⟨.ident_t, "adder"⟩, ⟨.assign_t, "="⟩, ⟨.function_t, "fn"⟩,
    ⟨.left_paren_t, "("⟩, ⟨.ident_t, "x"⟩, ⟨.right_paren_t, ")"⟩, ⟨.left_brace_t, "\x7b"⟩,
    ⟨.function_t, "fn"⟩, ⟨.left_paren_t, "("⟩, ⟨.ident_t, "y"⟩, ⟨.right_paren_t, ")"⟩,
    ⟨.left_brace_t, "\x7b"⟩, ⟨.ident_t, "x"⟩, ⟨.plus_t, "+"⟩, ⟨.ident_t, "y"⟩,
    ⟨.right_brace_t, "\x7d"⟩, ⟨.right_brace_t, "\x7d"⟩, ⟨.semicolon_t, ";"⟩,
    ⟨.let_t, "let"⟩, ⟨.ident_t, "add"⟩, ⟨.assign_t, "="⟩, ⟨.ident_t, "adder"⟩,
    ⟨.left_paren_t, "("⟩, ⟨.int_t, literal⟩, ⟨.right_paren_t, ")"⟩, ⟨.semicolon_t, ";"⟩,
    Token.eof]

/-- The tokens of the text `add(n)`, where `literal` is the text of the number `n`. -/
def add_tokens (literal : String) : List Token :=
  [⟨.ident_t, "add"⟩, ⟨.left_paren_t, "("⟩, ⟨.int_t, literal⟩, ⟨.right_paren_t, ")"⟩,
    Token.eof]

/-! ## Successive calls of the lexer -/

/-- The tokens of `n` successive calls of `read_token` on one `Lexer`, and the `Lexer` the
last call leaves; `none` when one of the calls does not return. -/
def Lexer.read_tokens : Nat → Lexer → Option (List Token × Lexer)
  | 0, l => some ([], l)
  | n + 1, l =>
    match l.read_token with
    | none => none
    | some (token, l1) =>
      match Lexer.read_tokens n l1 with
      | none => none
      | some (tokens, l2) => some (token :: tokens, l2)


/-! ## Renderings that are parsed again

The trees built from integer literals that are not negative, boolean literals, identifiers,
the two prefix operators and the ten binary operators, with the tokens of their rendering. -/

/-- The texts of the ten binary operators. -/
def binary_operators : List String :=
  ["+", "-", "*", "/", "<", "<=", ">", ">=", "==", "!="]

/-- The kind of the token the lexer makes of the text of an operator. -/
def operator_type (op : String) : TokenType :=
  if op = "+" then .plus_t
  else if op = "-" then .minus_t
  else if op = "*" then .asterisk_t
  else if op = "/" then .slash_t
  else if op = "<" then .less_t
  else if op = "<=" then .less_equal_t
  else if op = ">" then .greater_t
  else if op = ">=" then .greater_equal_t
  else if op = "==" then .equal_t
  else if op = "!=" then .not_equal_t
  else if op = "!" then .bang_t
  else .illegal_t

/-- A text the lexer reads as one identifier: a letter or underscore followed by letters,
digits and underscores, that is no keyword. -/
def is_identifier (name : String) : Bool :=
  match name.toList with
  | [] => false
  | c :: tail =>
    is_alnum c && !is_digit c && tail.all is_alnum && Token.lookup name == .ident_t

/-- The trees of the round trip: integer literals from 0 to `INT_MAX`, boolean literals,
identifiers, `-` and `!` applied to such a tree, and a binary operator between two such
trees. -/
inductive Expression.Simple : Expression → Prop where
  | integer (value : Int) (h0 : 0 ≤ value) (h1 : value ≤ 2147483647) :
    Expression.Simple (.IntegerLiteral value)
  | boolean (value : Bool) : Expression.Simple (.BooleanLiteral value)
  | identifier (name : String) (h : is_identifier name = true) :
    Expression.Simple (.Identifier name)
  | unary (op : String) (right : Expression) (hop : op = "-" ∨ op = "!")
    (hr : Expression.Simple right) : Expression.Simple (.PrefixExpression op (some right))
  | binary (left : Expression) (op : String) (right : Expression)
    (hop : op ∈ binary_operators) (hl : Expression.Simple left)
    (hr : Expression.Simple right) :
    Expression.Simple (.InfixExpression (some left) op (some right))

/-- The tokens of the rendering of a tree of the round trip. -/
def Expression.tokens : Expression → List Token
  | .Identifier value => [⟨.ident_t, value⟩]
  | .IntegerLiteral value => [⟨.int_t, toString value⟩]
  | .BooleanLiteral value => [if value then ⟨.true_t, "true"⟩ else ⟨.false_t, "false"⟩]
  | .PrefixExpression op (some right) =>
    ⟨.left_paren_t, "("⟩ :: ⟨operator_type op, op⟩
      :: (Expression.tokens right ++ [⟨.right_paren_t, ")"⟩])
  | .InfixExpression (some left) op (some right) =>
    ⟨.left_paren_t, "("⟩ :: (Expression.tokens left ++ ⟨operator_type op, op⟩
      :: (Expression.tokens right ++ [⟨.right_paren_t, ")"⟩]))
  | _ => []

/-- The lexer on the character at position `pos` of `input`. -/
def Lexer.seek (input : List Char) (pos : Nat) : Lexer :=
  { input := input, ch := input[pos]?.getD NUL, cur := pos, nxt := pos + 1 }

/-- The parser on the token at position `pos` of `tokens`, with the errors recorded so
far. -/
def Parser.seek (tokens : List Token) (pos : Nat) (errors : List String) : Parser :=
  { tokens := tokens, cur := pos, nxt := pos + 1, token := tokens[pos]?.getD Token.eof,
    errors := errors }

/-! ## The execution monad -/

theorem Exec.bind_ok {α β : Type} {x : Exec α} {f : α → Exec β} {m m1 : Machine} {a : α}
    (h : x m = .ok (a, m1)) : (x >>= f) m = f a m1 := by
  show Exec.bind x f m = f a m1
  simp [Exec.bind, h]

theorem Exec.bind_eq_ok {α β : Type} {x : Exec α} {f : α → Exec β} {m m2 : Machine} {b : β}
    (h : (x >>= f) m = .ok (b, m2)) : ∃ a m1, x m = .ok (a, m1) ∧ f a m1 = .ok (b, m2) := by
  change Exec.bind x f m = .ok (b, m2) at h
  unfold Exec.bind at h
  split at h
  · next a m1 hx => exact ⟨a, m1, hx, h⟩
  · cases h

theorem Exec.pure_apply {α : Type} (a : α) (m : Machine) : (pure a : Exec α) m = .ok (a, m) := rfl

theorem Machine.Grows.refl (m : Machine) : m.Grows m :=
  ⟨le_refl _, fun _ _ h _ => h, fun _ es h => ⟨es, h⟩⟩

theorem Machine.Grows.trans {m1 m2 m3 : Machine} (h12 : m1.Grows m2) (h23 : m2.Grows m3) :
    m1.Grows m3 := by
  refine ⟨le_trans h12.length_le h23.length_le, ?_, ?_⟩
  · intro a o h hn
    exact h23.keeps a o (h12.keeps a o h hn) hn
  · intro a es h
    obtain ⟨es2, h2⟩ := h12.arrays a es h
    exact h23.arrays a es2 h2

theorem Exec.Extends.pure {α : Type} (a : α) : (pure a : Exec α).Extends := by
  intro m b m1 h
  cases h
  exact Machine.Grows.refl m

theorem Exec.Extends.bind {α β : Type} {x : Exec α} {f : α → Exec β}
    (hx : x.Extends) (hf : ∀ a, (f a).Extends) : (x >>= f).Extends := by
  intro m b m2 h
  obtain ⟨a, m1, h1, h2⟩ := Exec.bind_eq_ok h
  exact (hx m a m1 h1).trans (hf a m1 b m2 h2)

theorem Exec.Extends.fault {α : Type} (f : Fault) : (fault f : Exec α).Extends := by
  intro m b m1 h
  cases h

theorem Exec.Extends.alloc (o : Object) : (alloc o).Extends := by
  intro m b m1 h
  simp only [Void.alloc, Except.ok.injEq, Prod.mk.injEq] at h
  obtain ⟨-, rfl⟩ := h
  refine ⟨by simp, ?_, ?_⟩
  · intro a o1 h _
    have hlt : a < m.heap.length := by
      by_contra hc
      rw [List.getElem?_eq_none (by omega)] at h
      cases h
    simp [List.getElem?_append_left hlt, h]
  · intro a es h
    have hlt : a < m.heap.length := by
      by_contra hc
      rw [List.getElem?_eq_none (by omega)] at h
      cases h
    exact ⟨es, by simp [List.getElem?_append_left hlt, h]⟩

theorem Exec.Extends.deref (p : ObjPtr) : (deref p).Extends := by
  intro m b m1 h
  unfold Void.deref at h
  split at h
  · cases h
  · split at h
    · cases h; exact Machine.Grows.refl m
    · cases h

theorem Exec.Extends.append (arr obj : ObjPtr) : (Array.append arr obj).Extends := by
  intro m b m1 h
  unfold Array.append at h
  split at h
  · cases h
  · next a =>
    split at h
    · next elements hel =>
      simp only [Except.ok.injEq, Prod.mk.injEq] at h
      obtain ⟨-, rfl⟩ := h
      refine ⟨by simp, ?_, ?_⟩
      · intro a1 o1 h1 hn
        by_cases heq : a = a1
        · subst heq
          rw [hel] at h1
          cases h1
          exact absurd rfl (hn elements)
        · simp [List.getElem?_set_ne heq, h1]
      · intro a1 es h1
        by_cases hEq : a = a1
        · subst hEq
          have hlt : a < m.heap.length := by
            by_contra hc
            rw [List.getElem?_eq_none (by omega)] at h1
            cases h1
          exact ⟨elements ++ [obj], by simp [List.getElem?_set_self hlt]⟩
        · exact ⟨es, by simp [List.getElem?_set_ne hEq, h1]⟩
    · cases h
    · cases h


theorem Exec.Extends.type (p : ObjPtr) : (type p).Extends :=
  Exec.Extends.bind (Exec.Extends.deref p) (fun _ => Exec.Extends.pure _)

theorem Exec.Extends.append_all (arr : ObjPtr) (elems : List ObjPtr) :
    (Array.append_all arr elems).Extends := by
  induction elems with
  | nil => exact Exec.Extends.pure _
  | cons elem rest ih =>
    exact Exec.Extends.bind (Exec.Extends.append arr elem) (fun _ => ih)

/-- A run that changes no heap cell extends the heap. -/
theorem Machine.Grows.of_heap_eq {m1 m2 : Machine} (h : m2.heap = m1.heap) : m1.Grows m2 :=
  ⟨by rw [h], fun _ _ h1 _ => by rw [h]; exact h1, fun _ es h1 => ⟨es, by rw [h]; exact h1⟩⟩

theorem Exec.Extends.set (env : Nat) (name : String) (obj : ObjPtr) :
    (Environment.set env name obj).Extends := by
  intro m b m1 h
  unfold Environment.set at h
  split at h
  · cases h
  · cases h; exact Machine.Grows.of_heap_eq rfl

theorem Exec.Extends.new_environment (outer : Option Nat) : (new_environment outer).Extends := by
  intro m b m1 h
  cases h; exact Machine.Grows.of_heap_eq rfl

theorem Exec.Extends.write_line (line : String) : (write_line line).Extends := by
  intro m b m1 h
  cases h; exact Machine.Grows.of_heap_eq rfl

theorem Exec.Extends.inspect (p : ObjPtr) : (inspect p).Extends := by
  intro m b m1 h
  unfold Void.inspect at h
  split at h
  · cases h; exact Machine.Grows.refl m
  · cases h

theorem Exec.Extends.get_chain (depth env : Nat) (name : String) :
    (Environment.get_chain depth env name).Extends := by
  induction depth generalizing env with
  | zero => exact Exec.Extends.fault _
  | succ depth ih =>
    intro m b m1 h
    unfold Environment.get_chain at h
    split at h
    · cases h
    · split at h
      · cases h; exact Machine.Grows.refl m
      · split at h
        · next outer _ =>
          refine Exec.Extends.bind (ih outer) (fun res => ?_) m b m1 h
          refine Exec.Extends.bind (Exec.Extends.type res) (fun t => ?_)
          split <;> exact Exec.Extends.pure _
        · cases h; exact Machine.Grows.refl m

theorem Exec.Extends.get (env : Nat) (name : String) : (Environment.get env name).Extends := by
  intro m b m1 h
  exact Exec.Extends.get_chain m.envs.length env name m b m1 h

theorem Exec.Extends.len (args : List ObjPtr) : (len args).Extends := by
  unfold Void.len
  split
  · refine Exec.Extends.bind (Exec.Extends.deref _) (fun o => ?_)
    split <;> exact Exec.Extends.alloc _
  · exact Exec.Extends.alloc _


theorem Exec.Extends.first (args : List ObjPtr) : (first args).Extends := by
  unfold Void.first
  split
  · refine Exec.Extends.bind (Exec.Extends.deref _) (fun o => ?_)
    split
    · split
      · exact Exec.Extends.alloc _
      · exact Exec.Extends.pure _
    · exact Exec.Extends.alloc _
  · exact Exec.Extends.alloc _

theorem Exec.Extends.last (args : List ObjPtr) : (last args).Extends := by
  unfold Void.last
  split
  · refine Exec.Extends.bind (Exec.Extends.deref _) (fun o => ?_)
    split
    · split
      · exact Exec.Extends.alloc _
      · exact Exec.Extends.pure _
    · exact Exec.Extends.alloc _
  · exact Exec.Extends.alloc _

theorem Exec.Extends.push (args : List ObjPtr) : (push args).Extends := by
  unfold Void.push
  split
  · refine Exec.Extends.bind (Exec.Extends.deref _) (fun o => ?_)
    split
    · refine Exec.Extends.bind (Exec.Extends.alloc _) (fun res => ?_)
      refine Exec.Extends.bind (Exec.Extends.append_all _ _) (fun _ => ?_)
      exact Exec.Extends.bind (Exec.Extends.append _ _) (fun _ => Exec.Extends.pure _)
    · exact Exec.Extends.alloc _
  · exact Exec.Extends.alloc _

theorem Exec.Extends.pop (args : List ObjPtr) : (pop args).Extends := by
  unfold Void.pop
  split
  · refine Exec.Extends.bind (Exec.Extends.deref _) (fun o => ?_)
    split
    · split
      · exact Exec.Extends.alloc _
      · refine Exec.Extends.bind (Exec.Extends.alloc _) (fun res => ?_)
        exact Exec.Extends.bind (Exec.Extends.append_all _ _) (fun _ => Exec.Extends.pure _)
    · exact Exec.Extends.alloc _
  · exact Exec.Extends.alloc _

theorem Exec.Extends.puts (args : List ObjPtr) : (puts args).Extends := by
  unfold Void.puts
  split
  · refine Exec.Extends.bind (Exec.Extends.inspect _) (fun text => ?_)
    exact Exec.Extends.bind (Exec.Extends.write_line _) (fun _ => Exec.Extends.pure _)
  · exact Exec.Extends.alloc _

theorem Exec.Extends.run (name : String) (args : List ObjPtr) :
    (Builtin.run name args).Extends := by
  unfold Builtin.run
  repeat' split
  · exact Exec.Extends.len args
  · exact Exec.Extends.first args
  · exact Exec.Extends.last args
  · exact Exec.Extends.push args
  · exact Exec.Extends.pop args
  · exact Exec.Extends.puts args
  · exact Exec.Extends.fault _

theorem Exec.Extends.is_error (obj : ObjPtr) : (is_error obj).Extends :=
  Exec.Extends.bind (Exec.Extends.type obj) (fun _ => Exec.Extends.pure _)

theorem Exec.Extends.is_null (obj : ObjPtr) : (is_null obj).Extends :=
  Exec.Extends.bind (Exec.Extends.type obj) (fun _ => Exec.Extends.pure _)

theorem Exec.Extends.return_value (obj : ObjPtr) : (return_value obj).Extends := by
  refine Exec.Extends.bind (Exec.Extends.deref obj) (fun o => ?_)
  split
  · exact Exec.Extends.pure _
  · exact Exec.Extends.fault _

theorem Exec.Extends.eval_statements {ev : Eval} (hev : Eval.Extends ev) (env : Nat)
    (stmts : List Statement) (ret : ObjPtr) : (eval_statements ev env stmts ret).Extends := by
  induction stmts generalizing ret with
  | nil => exact Exec.Extends.pure _
  | cons stmt rest ih =>
    unfold Void.eval_statements
    refine Exec.Extends.bind (hev _ _) (fun obj => ?_)
    refine Exec.Extends.bind (Exec.Extends.type obj) (fun t => ?_)
    split
    · exact Exec.Extends.return_value obj
    · split
      · exact Exec.Extends.pure _
      · exact ih obj

theorem Exec.Extends.eval_program {ev : Eval} (hev : Eval.Extends ev) (program : Program)
    (env : Nat) : (eval_program ev program env).Extends :=
  Exec.Extends.bind (Exec.Extends.alloc _) (fun ret => Exec.Extends.eval_statements hev env _ ret)

theorem Exec.Extends.eval_block_statement {ev : Eval} (hev : Eval.Extends ev)
    (node : BlockStatement) (env : Nat) : (eval_block_statement ev node env).Extends := by
  cases node with
  | mk statements =>
    exact Exec.Extends.bind (Exec.Extends.alloc _)
      (fun ret => Exec.Extends.eval_statements hev env _ ret)

theorem Exec.Extends.eval_let_statement {ev : Eval} (hev : Eval.Extends ev)
    (identifier : String) (expression : Option Expression) (env : Nat) :
    (eval_let_statement ev identifier expression env).Extends := by
  refine Exec.Extends.bind (hev _ _) (fun obj => ?_)
  refine Exec.Extends.bind (Exec.Extends.is_error obj) (fun c => ?_)
  split
  · exact Exec.Extends.pure _
  · exact Exec.Extends.bind (Exec.Extends.set _ _ _) (fun _ => Exec.Extends.pure _)

theorem Exec.Extends.eval_return_statement {ev : Eval} (hev : Eval.Extends ev)
    (expression : Option Expression) (env : Nat) :
    (eval_return_statement ev expression env).Extends := by
  refine Exec.Extends.bind (hev _ _) (fun obj => ?_)
  refine Exec.Extends.bind (Exec.Extends.is_error obj) (fun c => ?_)
  split
  · exact Exec.Extends.pure _
  · exact Exec.Extends.alloc _

theorem Exec.Extends.eval_minus_operator_expression (obj : ObjPtr) :
    (eval_minus_operator_expression obj).Extends := by
  unfold Void.eval_minus_operator_expression
  split
  · exact Exec.Extends.alloc _
  · refine Exec.Extends.bind (Exec.Extends.deref _) (fun o => ?_)
    split <;> exact Exec.Extends.alloc _

theorem Exec.Extends.eval_prefix_expression {ev : Eval} (hev : Eval.Extends ev)
    (op : String) (right : Option Expression) (env : Nat) :
    (eval_prefix_expression ev op right env).Extends := by
  refine Exec.Extends.bind (hev _ _) (fun obj => ?_)
  split
  · exact Exec.Extends.pure _
  · split
    · exact Exec.Extends.eval_minus_operator_expression obj
    · exact Exec.Extends.alloc _

theorem Exec.Extends.eval_integer_infix_expression (op : String) (left right : Int) :
    (eval_integer_infix_expression op left right).Extends := by
  unfold Void.eval_integer_infix_expression
  repeat' split
  all_goals first | exact Exec.Extends.alloc _ | exact Exec.Extends.fault _

theorem Exec.Extends.eval_string_infix_expression (op : String) (left right : String) :
    (eval_string_infix_expression op left right).Extends := by
  unfold Void.eval_string_infix_expression
  repeat' split
  all_goals exact Exec.Extends.alloc _

theorem Exec.Extends.eval_array_infix_expression (op : String) (left right : List ObjPtr) :
    (eval_array_infix_expression op left right).Extends := by
  unfold Void.eval_array_infix_expression
  split
  · refine Exec.Extends.bind (Exec.Extends.alloc _) (fun arr => ?_)
    refine Exec.Extends.bind (Exec.Extends.append_all _ _) (fun _ => ?_)
    exact Exec.Extends.bind (Exec.Extends.append_all _ _) (fun _ => Exec.Extends.pure _)
  · exact Exec.Extends.alloc _

theorem Exec.Extends.eval_infix_expression {ev : Eval} (hev : Eval.Extends ev)
    (left : Option Expression) (op : String) (right : Option Expression) (env : Nat) :
    (eval_infix_expression ev left op right env).Extends := by
  refine Exec.Extends.bind (hev _ _) (fun l => ?_)
  refine Exec.Extends.bind (hev _ _) (fun r => ?_)
  refine Exec.Extends.bind (Exec.Extends.deref l) (fun lobj => ?_)
  refine Exec.Extends.bind (Exec.Extends.deref r) (fun robj => ?_)
  repeat' split
  all_goals first
    | exact Exec.Extends.eval_integer_infix_expression _ _ _
    | exact Exec.Extends.eval_string_infix_expression _ _ _
    | exact Exec.Extends.eval_array_infix_expression _ _ _
    | exact Exec.Extends.alloc _
    | exact Exec.Extends.pure _
    | exact Exec.Extends.fault _


theorem Exec.Extends.eval_if_expression {ev : Eval} (hev : Eval.Extends ev)
    (condition : Option Expression) (consequence alternative : Option BlockStatement)
    (env : Nat) : (eval_if_expression ev condition consequence alternative env).Extends := by
  refine Exec.Extends.bind (hev _ _) (fun cond => ?_)
  refine Exec.Extends.bind (Exec.Extends.is_error cond) (fun c => ?_)
  split
  · exact Exec.Extends.pure _
  · split <;> exact hev _ _

theorem Exec.Extends.eval_identifier (value : String) (env : Nat) :
    (eval_identifier value env).Extends := by
  refine Exec.Extends.bind (Exec.Extends.get _ _) (fun obj => ?_)
  refine Exec.Extends.bind (Exec.Extends.is_null obj) (fun c => ?_)
  split
  · split <;> exact Exec.Extends.pure _
  · exact Exec.Extends.pure _

theorem Exec.Extends.eval_arguments {ev : Eval} (hev : Eval.Extends ev) (env : Nat)
    (exprs : List (Option Expression)) : (eval_arguments ev env exprs).Extends := by
  induction exprs with
  | nil => exact Exec.Extends.pure _
  | cons expr rest ih =>
    refine Exec.Extends.bind (hev _ _) (fun obj => ?_)
    exact Exec.Extends.bind ih (fun objs => Exec.Extends.pure _)

theorem Exec.Extends.bind_parameters (fenv : Nat) (params : List String) (args : List ObjPtr) :
    (bind_parameters fenv params args).Extends := by
  induction params generalizing args with
  | nil =>
    unfold Void.bind_parameters
    exact Exec.Extends.pure _
  | cons param params ih =>
    cases args with
    | nil =>
      unfold Void.bind_parameters
      exact Exec.Extends.pure _
    | cons arg args =>
      unfold Void.bind_parameters
      exact Exec.Extends.bind (Exec.Extends.set _ _ _) (fun _ => ih args)

theorem Exec.Extends.eval_call_expression {ev : Eval} (hev : Eval.Extends ev)
    (function : Option Expression) (arguments : List (Option Expression)) (env : Nat) :
    (eval_call_expression ev function arguments env).Extends := by
  refine Exec.Extends.bind (hev _ _) (fun func_obj => ?_)
  refine Exec.Extends.bind (Exec.Extends.deref func_obj) (fun func => ?_)
  split
  · split
    · exact Exec.Extends.pure _
    · exact Exec.Extends.alloc _
  · refine Exec.Extends.bind (Exec.Extends.eval_arguments hev env arguments) (fun args_obj => ?_)
    split
    · exact Exec.Extends.run _ _
    · split
      · exact Exec.Extends.alloc _
      · exact Exec.Extends.bind (Exec.Extends.bind_parameters _ _ _) (fun _ => hev _ _)
    · exact Exec.Extends.fault _

theorem Exec.Extends.eval_index_expression {ev : Eval} (hev : Eval.Extends ev)
    (index array : Option Expression) (env : Nat) :
    (eval_index_expression ev index array env).Extends := by
  refine Exec.Extends.bind (hev _ _) (fun arr => ?_)
  refine Exec.Extends.bind (Exec.Extends.deref arr) (fun arr_obj => ?_)
  split
  · exact Exec.Extends.alloc _
  · refine Exec.Extends.bind (hev _ _) (fun idx => ?_)
    refine Exec.Extends.bind (Exec.Extends.deref idx) (fun idx_obj => ?_)
    split
    · exact Exec.Extends.alloc _
    · refine Exec.Extends.bind (Exec.Extends.deref arr) (fun arr_now => ?_)
      repeat' split
      all_goals first | exact Exec.Extends.pure _ | exact Exec.Extends.fault _

theorem Exec.Extends.eval_array_elements {ev : Eval} (hev : Eval.Extends ev) (env : Nat)
    (array : ObjPtr) (exprs : List (Option Expression)) :
    (eval_array_elements ev env array exprs).Extends := by
  induction exprs with
  | nil => exact Exec.Extends.pure _
  | cons expr rest ih =>
    refine Exec.Extends.bind (hev _ _) (fun obj => ?_)
    refine Exec.Extends.bind (Exec.Extends.is_error obj) (fun c => ?_)
    split
    · exact Exec.Extends.pure _
    · exact Exec.Extends.bind (Exec.Extends.append _ _) (fun _ => ih)

theorem Exec.Extends.eval_array_literal {ev : Eval} (hev : Eval.Extends ev)
    (expressions : List (Option Expression)) (env : Nat) :
    (eval_array_literal ev expressions env).Extends :=
  Exec.Extends.bind (Exec.Extends.alloc _)
    (fun array => Exec.Extends.eval_array_elements hev env array expressions)

theorem Exec.Extends.eval_function_literal (parameters : List String)
    (body : Option BlockStatement) (env : Nat) :
    (eval_function_literal parameters body env).Extends :=
  Exec.Extends.bind (Exec.Extends.new_environment _) (fun _ => Exec.Extends.alloc _)

/-- Evaluation only extends the heap: no object other than an array under construction is
ever modified, and no cell is removed. -/
theorem eval_extends (fuel : Nat) : Eval.Extends (eval fuel) := by
  induction fuel with
  | zero =>
    intro node env
    exact Exec.Extends.fault _
  | succ fuel ih =>
    intro node env
    unfold eval
    split
    · exact Exec.Extends.pure _
    · exact Exec.Extends.eval_program ih _ _
    · exact Exec.Extends.eval_let_statement ih _ _ _
    · exact Exec.Extends.eval_return_statement ih _ _
    · exact ih _ _
    · exact Exec.Extends.eval_prefix_expression ih _ _ _
    · exact Exec.Extends.eval_infix_expression ih _ _ _ _
    · exact Exec.Extends.eval_if_expression ih _ _ _ _
    · exact Exec.Extends.eval_identifier _ _
    · exact Exec.Extends.eval_block_statement ih _ _
    · exact Exec.Extends.eval_call_expression ih _ _ _
    · exact Exec.Extends.eval_index_expression ih _ _ _
    · exact Exec.Extends.alloc _
    · exact Exec.Extends.alloc _
    · exact Exec.Extends.alloc _
    · exact Exec.Extends.eval_array_literal ih _ _
    · exact Exec.Extends.eval_function_literal _ _ _

/-! ## Reading the heap -/

theorem deref_ok {m : Machine} {a : Nat} {o : Object} (h : m.heap[a]? = some o) :
    deref (some a) m = .ok (o, m) := by
  simp [deref, h]

theorem type_ok {m : Machine} {a : Nat} {o : Object} (h : m.heap[a]? = some o) :
    type (some a) m = .ok (o.type, m) :=
  Exec.bind_ok (deref_ok h)

theorem is_error_ok {m : Machine} {a : Nat} {o : Object} (h : m.heap[a]? = some o) :
    is_error (some a) m = .ok (o.type == .error_object_t, m) :=
  Exec.bind_ok (type_ok h)

/-- The object behind a new allocation is the allocated object. -/
theorem result_object_alloc (o : Object) (m : Machine) :
    result_object (alloc o m) = .ok (some o) := by
  simp [alloc, result_object]

theorem wrap32_of_in_int {i : Int} (h : in_int i) : wrap32 i = i := by
  unfold in_int at h
  unfold wrap32
  omega

theorem Machine.statics_ok.init : Machine.init.statics_ok :=
  fun _ _ h => h

theorem Machine.init_no_array {a : Nat} {o : Object} (h : Machine.init.heap[a]? = some o)
    (es : List ObjPtr) : o ≠ Object.Array es := by
  have hmem := List.getElem?_mem h
  simp [Machine.init] at hmem
  rcases hmem with h | h | h | h | h | h | h | h | h <;> simp [h]

/-- The static objects stay in place while the heap is extended. -/
theorem Machine.statics_ok.grows {m1 m2 : Machine} (h : m1.statics_ok) (hg : m1.Grows m2) :
    m2.statics_ok :=
  fun a o ha => hg.keeps a o (h a o ha) (Machine.init_no_array ha)

/-- An `Integer`, `String` or `Array` object is at neither of the two addresses
`is_truthy` compares with. -/
theorem is_truthy_of_type {m : Machine} (hm : m.statics_ok) {a : Nat} {o : Object}
    (ho : m.heap[a]? = some o)
    (hk : o.type = .integer_object_t ∨ o.type = .string_object_t ∨ o.type = .array_object_t) :
    is_truthy (some a) = true := by
  have h0 : m.heap[0]? = some Object.Null := hm 0 _ rfl
  have h2 : m.heap[2]? = some (Object.Boolean false) := hm 2 _ rfl
  have ha0 : a ≠ 0 := by
    rintro rfl
    rw [h0] at ho
    cases ho
    simp [Object.type] at hk
  have ha2 : a ≠ 2 := by
    rintro rfl
    rw [h2] at ho
    cases ho
    simp [Object.type] at hk
  simp [is_truthy, false_obj, null_obj, ha0, ha2]

/-- An infix expression whose operands evaluate to two `Integer` objects is evaluated by
`eval_integer_infix_expression` on their values. -/
theorem eval_infix_integers {fuel : Nat} {left right : Option Expression} {env : Nat}
    {m m1 m2 : Machine} {l r : Nat} {a b : Int} (op : String)
    (hl : eval fuel (expr_node left) env m = .ok (some l, m1))
    (hlo : m1.heap[l]? = some (.Integer a))
    (hr : eval fuel (expr_node right) env m1 = .ok (some r, m2))
    (hro : m2.heap[r]? = some (.Integer b)) :
    eval (fuel + 1) (some (.expression (.InfixExpression left op right))) env m
      = eval_integer_infix_expression op a b m2 := by
  have hlo2 : m2.heap[l]? = some (.Integer a) :=
    (eval_extends fuel _ _ m1 _ m2 hr).keeps l _ hlo (fun es => by simp)
  show eval_infix_expression (eval fuel) left op right env m = _
  unfold eval_infix_expression
  rw [Exec.bind_ok hl, Exec.bind_ok hr, Exec.bind_ok (deref_ok hlo2), Exec.bind_ok (deref_ok hro)]
  simp [Object.type]

/-! ## Statement sequences and `return` -/

/-- C1 (the code departs from the claim): `Return::Return` passes the tag `null_object_t`
to `Object`, so no object carries the tag `return_object_t` that the statement loops of
`eval_program` and `eval_block_statement` test. With any fuel from the stated bound on, the
program `return 1; 2` evaluates to the Integer 2 and not to 1, the block of
`if (1) \x7b return 1; 2 \x7d` evaluates to 2 as well, and the program `return 1` evaluates to
the `Return` wrapper itself. -/
theorem return_statement_does_not_stop_sequence :
    (∀ o : Object, o.type ≠ .return_object_t) ∧
    (∀ k : Nat, run_program (k + 3) return_one_then_two = .ok (some (.Integer 2))) ∧
    (∀ k : Nat, run_expression (k + 4) if_one_return_block = .ok (some (.Integer 2))) ∧
    (∀ k : Nat, run_program (k + 3) return_one = .ok (some (.Return (some 10)))) := by
  refine ⟨?_, fun _ => rfl, fun _ => rfl, fun _ => rfl⟩
  intro o
  cases o <;> simp [Object.type]

/-! ## Prefix operators -/

/-- C2 (the code departs from the claim): `eval_prefix_expression` compares the operator
with `"="` where the parser stores `"-"`, so `eval_minus_operator_expression` is never
reached: for every integer literal `n` the expression `-n` evaluates to an Error and not
to the Integer `-n`, with any fuel from 2 on. -/
theorem minus_prefix_yields_error (n : Int) (k : Nat) :
    run_expression (k + 2) (minus_lit n) = .ok (some (.Error "")) :=
  rfl

/-- C4 (the code departs from the claim): a boolean literal evaluates to a new `Boolean`
object, which is not the global `false_obj`, so `is_truthy` holds of it: `!false` evaluates
to the Boolean false, the same result as `!true`, with any fuel from 2 on. -/
theorem bang_false_literal_yields_false (k : Nat) :
    run_expression (k + 2) (bang_lit false) = .ok (some (.Boolean false)) ∧
    run_expression (k + 2) (bang_lit true) = .ok (some (.Boolean false)) :=
  ⟨rfl, rfl⟩

/-! ## If-expressions -/

/-- C3 (the code departs from the claim): the conditions `false` and `1 > 2` evaluate to new
`Boolean` objects holding false, which `is_truthy` does not recognise as falsy, so the
consequence is evaluated: `if (false) \x7b 1 \x7d else \x7b 2 \x7d` and
`if (1 > 2) \x7b 1 \x7d else \x7b 2 \x7d` evaluate to the Integer 1, with any fuel from 4 on. -/
theorem if_false_condition_takes_consequence (k : Nat) :
    run_expression (k + 4) if_false_one_else_two = .ok (some (.Integer 1)) ∧
    run_expression (k + 4) if_greater_one_else_two = .ok (some (.Integer 1)) :=
  ⟨rfl, rfl⟩

/-- C5 (the code departs from the claim): with a falsy condition and no alternative,
`eval_if_expression` evaluates the null alternative and `eval` answers the null pointer, not
a `Null` object: `if (!1) \x7b 1 \x7d` evaluates to the null pointer, and the program made of
that statement dereferences it in `eval_program`. -/
theorem if_without_alternative_yields_null_pointer (k : Nat) :
    run_expression (k + 3) if_not_one = .ok none ∧
    run_program (k + 5) if_not_one_program = .error .null_dereference :=
  ⟨rfl, rfl⟩

/-- C6: when the condition of an if-expression evaluates to an object of type Integer,
String or Array, whatever its value, the if-expression evaluates to what its consequence
block evaluates to in the machine the condition left; the alternative is not evaluated. -/
theorem truthy_condition_selects_consequence (fuel : Nat) (condition : Option Expression)
    (consequence alternative : Option BlockStatement) (env : Nat) (m m1 : Machine)
    (cond : Nat) (o : Object)
    (hm : m.statics_ok)
    (hc : eval fuel (expr_node condition) env m = .ok (some cond, m1))
    (ho : m1.heap[cond]? = some o)
    (hk : o.type = .integer_object_t ∨ o.type = .string_object_t ∨ o.type = .array_object_t) :
    eval (fuel + 1) (some (.expression (.IfExpression condition consequence alternative))) env m
      = eval fuel (block_node consequence) env m1 := by
  have hm1 : m1.statics_ok := hm.grows (eval_extends fuel _ _ m _ m1 hc)
  have ht : is_truthy (some cond) = true := is_truthy_of_type hm1 ho hk
  have he : is_error (some cond) m1 = .ok (false, m1) := by
    rw [is_error_ok ho]
    rcases hk with h | h | h <;> simp [h]
  show eval_if_expression (eval fuel) condition consequence alternative env m = _
  unfold eval_if_expression
  rw [Exec.bind_ok hc, Exec.bind_ok he]
  simp [ht]

/-- C6 on concrete inputs: `if (0) \x7b 1 \x7d else \x7b 2 \x7d`, and the same expression with
the conditions `""` and `[]`, evaluate to the Integer 1. -/
theorem truthy_condition_selects_consequence_witness :
    run_expression 4 if_zero_one_else_two = .ok (some (.Integer 1)) ∧
    run_expression 4 if_empty_string_one_else_two = .ok (some (.Integer 1)) ∧
    run_expression 4 if_empty_array_one_else_two = .ok (some (.Integer 1)) := by
  unfold run_expression if_zero_one_else_two if_empty_string_one_else_two
    if_empty_array_one_else_two
  rw [truthy_condition_selects_consequence 3 (int_lit 0) (int_block 1) (int_block 2) 0
      Machine.init _ 9 (.Integer 0) Machine.statics_ok.init rfl rfl (Or.inl rfl),
    truthy_condition_selects_consequence 3 (some (.StringLiteral "")) (int_block 1)
      (int_block 2) 0 Machine.init _ 9 (.String "") Machine.statics_ok.init rfl rfl
      (Or.inr (Or.inl rfl)),
    truthy_condition_selects_consequence 3 (some (.ArrayLiteral [])) (int_block 1)
      (int_block 2) 0 Machine.init _ 9 (.Array []) Machine.statics_ok.init rfl rfl
      (Or.inr (Or.inr rfl))]
  exact ⟨rfl, rfl, rfl⟩

/-! ## Infix operators -/

/-- C7: when the operands of an infix expression evaluate to the Integers `a` and `b`,
the operators `+`, `-`, `*` give the Integer sum, difference and product when that fits in
an `int`, `/` with `b` not zero gives the quotient truncated toward zero when it fits, and
the six comparisons give the Boolean holding the comparison of `a` and `b`. -/
theorem integer_infix_arithmetic (fuel : Nat) (left right : Option Expression) (env : Nat)
    (m m1 m2 : Machine) (l r : Nat) (a b : Int)
    (hl : eval fuel (expr_node left) env m = .ok (some l, m1))
    (hlo : m1.heap[l]? = some (.Integer a))
    (hr : eval fuel (expr_node right) env m1 = .ok (some r, m2))
    (hro : m2.heap[r]? = some (.Integer b)) :
    (in_int (a + b) → infix_result fuel left "+" right env m = .ok (some (.Integer (a + b)))) ∧
    (in_int (a - b) → infix_result fuel left "-" right env m = .ok (some (.Integer (a - b)))) ∧
    (in_int (a * b) → infix_result fuel left "*" right env m = .ok (some (.Integer (a * b)))) ∧
    (b ≠ 0 → in_int (Int.tdiv a b) →
      infix_result fuel left "/" right env m = .ok (some (.Integer (Int.tdiv a b)))) ∧
    infix_result fuel left "<" right env m = .ok (some (.Boolean (decide (a < b)))) ∧
    infix_result fuel left "<=" right env m = .ok (some (.Boolean (decide (a ≤ b)))) ∧
    infix_result fuel left ">" right env m = .ok (some (.Boolean (decide (a > b)))) ∧
    infix_result fuel left ">=" right env m = .ok (some (.Boolean (decide (a ≥ b)))) ∧
    infix_result fuel left "==" right env m = .ok (some (.Boolean (decide (a = b)))) ∧
    infix_result fuel left "!=" right env m = .ok (some (.Boolean (decide (a ≠ b)))) := by
  have key := fun op => eval_infix_integers op hl hlo hr hro
  refine ⟨?_, ?_, ?_, ?_, ?_, ?_, ?_, ?_, ?_, ?_⟩
  · intro h
    rw [infix_result, key, eval_integer_infix_expression, if_pos rfl, wrap32_of_in_int h]
    exact result_object_alloc _ _
  · intro h
    rw [infix_result, key, eval_integer_infix_expression, if_neg (by decide), if_pos rfl,
      wrap32_of_in_int h]
    exact result_object_alloc _ _
  · intro h
    rw [infix_result, key, eval_integer_infix_expression, if_neg (by decide), if_neg (by decide),
      if_pos rfl, wrap32_of_in_int h]
    exact result_object_alloc _ _
  · intro hb h
    have hov : ¬ (a = -2147483648 ∧ b = -1) := by
      rintro ⟨rfl, rfl⟩
      revert h
      unfold in_int
      decide
    rw [infix_result, key, eval_integer_infix_expression, if_neg (by decide), if_neg (by decide),
      if_neg (by decide), if_pos rfl, if_neg hb, if_neg hov, wrap32_of_in_int h]
    exact result_object_alloc _ _
  all_goals
    rw [infix_result, key, eval_integer_infix_expression]
    simp only [String.reduceEq, if_false, if_true]
    exact result_object_alloc _ _

/-- C7 on concrete inputs: `(0 - 7) / 2` is the Integer -3, `(0 - 7) * 2` is -14,
`(0 - 7) < 2` is true, and `1 == 1` is true. -/
theorem integer_infix_arithmetic_witness :
    infix_result 2 zero_minus_seven "/" (int_lit 2) 0 Machine.init = .ok (some (.Integer (-3))) ∧
    infix_result 2 zero_minus_seven "*" (int_lit 2) 0 Machine.init
      = .ok (some (.Integer (-14))) ∧
    infix_result 2 zero_minus_seven "<" (int_lit 2) 0 Machine.init
      = .ok (some (.Boolean true)) ∧
    infix_result 1 (int_lit 1) "==" (int_lit 1) 0 Machine.init = .ok (some (.Boolean true)) := by
  have h := integer_infix_arithmetic 2 zero_minus_seven (int_lit 2) 0 Machine.init _ _ 11 12
    (-7) 2 rfl (by rfl) rfl rfl
  have h1 := integer_infix_arithmetic 1 (int_lit 1) (int_lit 1) 0 Machine.init _ _ 9 10
    1 1 rfl rfl rfl rfl
  exact ⟨h.2.2.2.1 (by decide) (by unfold in_int; decide),
    h.2.2.1 (by unfold in_int; decide), h.2.2.2.2.1, h1.2.2.2.2.2.2.2.2.1⟩

/-- C8 (the code departs from the claim): `eval_integer_infix_expression` divides without
testing the divisor, so for every integer literal `a` the expression `a / 0` performs an
integer division by zero, which is undefined behaviour, and yields no Error object. -/
theorem division_by_zero_is_unguarded (a : Int) (k : Nat) :
    run_expression (k + 2) (divide_by_zero a) = .error .division_by_zero :=
  rfl

/-- C9 (the code departs from the claim): `eval_index_expression` reads
`elements()[index]` without comparing the index with the size, so `[1, 2, 3][3]` and
`[1, 2, 3][0 - 1]` read the vector out of its range, which is undefined behaviour, and yield
no Error object. -/
theorem index_out_of_range_is_unguarded (k : Nat) :
    run_expression (k + 3) index_past_end = .error .index_out_of_range ∧
    run_expression (k + 3) index_negative = .error .index_out_of_range :=
  ⟨rfl, rfl⟩

/-- C10 as stated fails: `[1] == [1]` does not evaluate to the Boolean false and
`[1] != [1]` does not evaluate to the Boolean true. -/
theorem array_equality_counterexample :
    run_expression 3 (array_compare "==") ≠ .ok (some (.Boolean false)) ∧
    run_expression 3 (array_compare "!=") ≠ .ok (some (.Boolean true)) := by
  have h1 : run_expression 3 (array_compare "==") = .ok (some .Null) := rfl
  have h2 : run_expression 3 (array_compare "!=") = .ok (some .Null) := rfl
  rw [h1, h2]
  exact ⟨fun h => (by cases h), fun h => (by cases h)⟩

/-- C10 amended: when both operands of `==` or `!=` evaluate to Array objects, the
expression is evaluated by `eval_array_infix_expression`, which implements only `+`: the
identity comparison is not reached, and the result is an object that is not a Boolean. -/
theorem array_equality_yields_no_boolean (fuel : Nat) (left right : Option Expression)
    (op : String) (env : Nat) (m m1 m2 : Machine) (l r : Nat) (ls rs : List ObjPtr)
    (hop : op = "==" ∨ op = "!=")
    (hl : eval fuel (expr_node left) env m = .ok (some l, m1))
    (hlo : m1.heap[l]? = some (.Array ls))
    (hr : eval fuel (expr_node right) env m1 = .ok (some r, m2))
    (hro : m2.heap[r]? = some (.Array rs)) :
    ∃ (ls2 : List ObjPtr) (o : Object),
      eval (fuel + 1) (some (.expression (.InfixExpression left op right))) env m
        = eval_array_infix_expression op ls2 rs m2 ∧
      infix_result fuel left op right env m = .ok (some o) ∧
      o.type ≠ .boolean_object_t := by
  obtain ⟨ls2, hlo2⟩ := (eval_extends fuel _ _ m1 _ m2 hr).arrays l ls hlo
  have hplus : op ≠ "+" := by
    rcases hop with rfl | rfl <;> decide
  have key : eval (fuel + 1) (some (.expression (.InfixExpression left op right))) env m
      = eval_array_infix_expression op ls2 rs m2 := by
    show eval_infix_expression (eval fuel) left op right env m = _
    unfold eval_infix_expression
    rw [Exec.bind_ok hl, Exec.bind_ok hr, Exec.bind_ok (deref_ok hlo2),
      Exec.bind_ok (deref_ok hro)]
    simp [Object.type]
  refine ⟨ls2, .Null, key, ?_, by simp [Object.type]⟩
  rw [infix_result, key, eval_array_infix_expression, if_neg hplus]
  exact result_object_alloc _ _

/-- C10 amended, on concrete inputs: the hypotheses hold of `[1] == [1]` and `[1] != [1]`
in a new evaluator, and neither evaluates to a Boolean. -/
theorem array_equality_yields_no_boolean_witness :
    (∃ (ls2 : List ObjPtr) (o : Object),
      eval 3 (some (.expression (array_compare "=="))) 0 Machine.init
        = eval_array_infix_expression "==" ls2 [some 12]
            (Machine.mk (Machine.init.heap ++ [.Array [some 10], .Integer 1,
              .Array [some 12], .Integer 1]) Machine.init.envs []) ∧
      infix_result 2 array_one "==" array_one 0 Machine.init = .ok (some o) ∧
      o.type ≠ .boolean_object_t) ∧
    (∃ (ls2 : List ObjPtr) (o : Object),
      eval 3 (some (.expression (array_compare "!="))) 0 Machine.init
        = eval_array_infix_expression "!=" ls2 [some 12]
            (Machine.mk (Machine.init.heap ++ [.Array [some 10], .Integer 1,
              .Array [some 12], .Integer 1]) Machine.init.envs []) ∧
      infix_result 2 array_one "!=" array_one 0 Machine.init = .ok (some o) ∧
      o.type ≠ .boolean_object_t) :=
  ⟨array_equality_yields_no_boolean 2 array_one array_one "==" 0 Machine.init _ _ 9 11
      [some 10] [some 12] (Or.inl rfl) rfl rfl rfl rfl,
    array_equality_yields_no_boolean 2 array_one array_one "!=" 0 Machine.init _ _ 9 11
      [some 10] [some 12] (Or.inr rfl) rfl rfl rfl rfl⟩

/-! ## Chains of scopes -/

/-- The scope that binds the name lies on the chain, so its index is at most the index of
the scope the search starts at. -/
theorem Environment.innermost_binding_le {m : Machine} (hs : m.scopes_ok) {name : String}
    (depth : Nat) :
    ∀ (env scope : Nat) (v : ObjPtr),
      Environment.innermost_binding m.envs depth env name = some (scope, v) → scope ≤ env := by
  induction depth with
  | zero =>
    intro env scope v h
    simp [Environment.innermost_binding] at h
  | succ depth ih =>
    intro env scope v h
    unfold Environment.innermost_binding at h
    split at h
    · cases h
    · next e he =>
      split at h
      · cases h
        exact le_refl _
      · split at h
        · next outer ho =>
          have hlt : outer < env := hs env e outer he ho
          exact le_trans (ih outer scope v h) (le_of_lt hlt)
        · cases h

/-- The result of `Environment::get` in terms of the innermost binding of the name: the
sentinel when there is none, the bound pointer when the scope asked binds the name, and for
a binding of an enclosing scope the bound pointer unless its object has the tag
`null_object_t`, in which case the sentinel. -/
theorem Environment.get_chain_spec {m : Machine} (hs : m.scopes_ok)
    (h0 : m.heap[0]? = some Object.Null) (name : String) (depth : Nat) :
    ∀ env : Nat, env < depth → env < m.envs.length →
      (Environment.innermost_binding m.envs depth env name = none →
        Environment.get_chain depth env name m = .ok (null_obj, m)) ∧
      (∀ v : ObjPtr, Environment.innermost_binding m.envs depth env name = some (env, v) →
        Environment.get_chain depth env name m = .ok (v, m)) ∧
      (∀ (scope a : Nat) (o : Object),
        Environment.innermost_binding m.envs depth env name = some (scope, some a) →
        scope ≠ env → m.heap[a]? = some o →
        Environment.get_chain depth env name m
          = .ok (if o.type = .null_object_t then null_obj else some a, m)) := by
  induction depth with
  | zero =>
    intro env h
    omega
  | succ depth ih =>
    intro env hd hl
    obtain ⟨e, he⟩ : ∃ e, m.envs[env]? = some e := by
      rw [List.getElem?_eq_getElem hl]
      exact ⟨_, rfl⟩
    unfold Environment.innermost_binding Environment.get_chain
    simp only [he]
    cases hlook : e.store.lookup name with
    | some obj =>
      simp only []
      refine ⟨fun h => ?_, fun v h => ?_, fun scope a o h hne _ => ?_⟩
      · cases h
      · cases h
        rfl
      · cases h
        exact absurd rfl hne
    | none =>
      simp only []
      cases hout : e.outer with
      | none =>
        simp only []
        refine ⟨fun _ => ?_, fun v h => ?_, fun scope a o h => ?_⟩
        · first | rfl | trivial
        · cases h
        · cases h
      | some outer =>
        simp only []
        have hlt : outer < env := hs env e outer he hout
        obtain ⟨ih1, ih2, ih3⟩ := ih outer (by omega) (by omega)
        have hnull : type null_obj m = .ok (ObjectType.null_object_t, m) :=
          type_ok (o := Object.Null) h0
        refine ⟨fun h => ?_, fun v h => ?_, fun scope a o h hne ho => ?_⟩
        · rw [Exec.bind_ok (ih1 h), Exec.bind_ok hnull]
          rfl
        · have := Environment.innermost_binding_le hs depth outer env v h
          omega
        · have ht : type (some a) m = .ok (o.type, m) := type_ok ho
          by_cases hsc : scope = outer
          · subst hsc
            rw [Exec.bind_ok (ih2 (some a) h), Exec.bind_ok ht]
            by_cases hty : o.type = .null_object_t <;> simp [hty] <;> rfl
          · rw [Exec.bind_ok (ih3 scope a o h hsc ho)]
            by_cases hty : o.type = .null_object_t
            · simp only [hty, if_true]
              rw [Exec.bind_ok hnull]
              rfl
            · simp only [hty, if_false]
              rw [Exec.bind_ok ht]
              simp [hty]
              rfl

theorem null_in_outer_scope_scopes_ok : null_in_outer_scope.scopes_ok := by
  intro i e outer h1 h2
  rcases i with _ | _ | i
  · simp [null_in_outer_scope] at h1
    subst h1
    cases h2
  · simp [null_in_outer_scope] at h1
    subst h1
    cases h2
    decide
  · simp [null_in_outer_scope] at h1

/-! ## Identifiers -/

theorem is_null_ok {m : Machine} {a : Nat} {o : Object} (h : m.heap[a]? = some o) :
    is_null (some a) m = .ok (o.type == .null_object_t, m) :=
  Exec.bind_ok (type_ok h)

/-- C11 as stated fails: in `let len = if (1) \x7b\x7d; len` the name `len` is bound, to a
Null object, and the identifier evaluates to the builtin `len`. -/
theorem identifier_bound_to_null_counterexample :
    run_program 5 len_bound_to_null_program = .ok (some (.Builtin "len")) :=
  rfl

/-- C11 amended: in a machine whose scope chains have no cycle, an identifier whose
innermost binding is an object without the tag `null_object_t` evaluates to the bound
pointer, whether or not a builtin has that name; the builtin table is consulted when
`Environment::get` yields an object with the tag `null_object_t`, that is when no scope
binds the name or when the name is bound to such an object. -/
theorem identifier_yields_binding_unless_null (fuel : Nat) (m : Machine) (env : Nat)
    (name : String)
    (hs : m.scopes_ok) (h0 : m.heap[0]? = some Object.Null) (henv : env < m.envs.length) :
    (∀ (scope a : Nat) (o : Object),
      Environment.innermost_binding m.envs m.envs.length env name = some (scope, some a) →
      m.heap[a]? = some o → o.type ≠ .null_object_t →
      eval (fuel + 1) (some (.expression (.Identifier name))) env m = .ok (some a, m)) ∧
    (Environment.innermost_binding m.envs m.envs.length env name = none →
      eval (fuel + 1) (some (.expression (.Identifier name))) env m
        = .ok ((builtin_func_map.lookup name).getD null_obj, m)) ∧
    (∀ (scope a : Nat) (o : Object) (builtin : ObjPtr),
      Environment.innermost_binding m.envs m.envs.length env name = some (scope, some a) →
      m.heap[a]? = some o → o.type = .null_object_t →
      builtin_func_map.lookup name = some builtin →
      eval (fuel + 1) (some (.expression (.Identifier name))) env m = .ok (builtin, m)) := by
  obtain ⟨g1, g2, g3⟩ := Environment.get_chain_spec hs h0 name m.envs.length env henv henv
  have hnull : is_null null_obj m = .ok (true, m) := is_null_ok (o := Object.Null) h0
  refine ⟨fun scope a o hb ho hty => ?_, fun hb => ?_, fun scope a o builtin hb ho hty hl => ?_⟩
  · have hget : Environment.get env name m = .ok (some a, m) := by
      by_cases hsc : scope = env
      · subst hsc
        exact g2 (some a) hb
      · have := g3 scope a o hb hsc ho
        rwa [if_neg hty] at this
    have hn : is_null (some a) m = .ok (false, m) := by
      rw [is_null_ok ho]
      simp [hty]
    show eval_identifier name env m = _
    unfold eval_identifier
    rw [Exec.bind_ok hget, Exec.bind_ok hn]
    rfl
  · show eval_identifier name env m = _
    unfold eval_identifier
    rw [Exec.bind_ok (show Environment.get env name m = .ok (null_obj, m) from g1 hb),
      Exec.bind_ok hnull]
    cases builtin_func_map.lookup name <;> rfl
  · show eval_identifier name env m = _
    unfold eval_identifier
    by_cases hsc : scope = env
    · subst hsc
      have hn : is_null (some a) m = .ok (true, m) := by
        rw [is_null_ok ho]
        simp [hty]
      rw [Exec.bind_ok (show Environment.get scope name m = .ok (some a, m) from g2 (some a) hb),
        Exec.bind_ok hn]
      simp [hl]
      rfl
    · have hget : Environment.get env name m = .ok (null_obj, m) := by
        have := g3 scope a o hb hsc ho
        rwa [if_pos hty] at this
      rw [Exec.bind_ok hget, Exec.bind_ok hnull]
      simp [hl]
      rfl

/-- C11 amended, on concrete inputs: in the inner scope of `null_in_outer_scope` the names
`len` and `first`, bound to Integers in the inner and in the root scope, evaluate to the
bound pointers and not to the builtins; `pop`, which no scope binds, evaluates to the
builtin, and `n`, bound to a Null object, evaluates to the sentinel. -/
theorem identifier_yields_binding_unless_null_witness :
    eval 1 (expr_node (ident "len")) 1 null_in_outer_scope
      = .ok (some 12, null_in_outer_scope) ∧
    eval 1 (expr_node (ident "first")) 1 null_in_outer_scope
      = .ok (some 10, null_in_outer_scope) ∧
    eval 1 (expr_node (ident "pop")) 1 null_in_outer_scope
      = .ok (some 7, null_in_outer_scope) :=
  have h := fun name => identifier_yields_binding_unless_null 0 null_in_outer_scope 1 name
    null_in_outer_scope_scopes_ok rfl (by decide)
  ⟨(h "len").1 1 12 (.Integer 7) rfl rfl (by decide),
    (h "first").1 0 10 (.Integer 5) rfl rfl (by decide),
    (h "pop").2.1 rfl⟩

/-! ## Errors in statement sequences -/

theorem Object.type_ne_return (o : Object) : o.type ≠ .return_object_t := by
  cases o <;> simp [Object.type]

/-- The statement loop passes over statements whose results are not Errors and stops at the
first statement whose result is an Error, without evaluating the statements after it. -/
theorem eval_statements_stops_at_error (ev : Eval) (env : Nat) (s : Statement)
    (post : List Statement) {m1 m2 : Machine} {e : Nat} {msg : String}
    (hs : ev (some (.statement s)) env m1 = .ok (some e, m2))
    (he : m2.heap[e]? = some (.Error msg)) :
    ∀ (pre : List Statement) (ret : ObjPtr) (m : Machine),
      statements_pass ev env pre m m1 →
      eval_statements ev env (pre ++ s :: post) ret m = .ok (some e, m2) := by
  intro pre
  induction pre with
  | nil =>
    intro ret m hpre
    cases hpre
    show eval_statements ev env (s :: post) ret m1 = _
    unfold eval_statements
    rw [Exec.bind_ok hs, Exec.bind_ok (type_ok he)]
    rfl
  | cons stmt rest ih =>
    intro ret m hpre
    obtain ⟨a, m3, o, hstmt, ho, hne, hrest⟩ := hpre
    show eval_statements ev env (stmt :: (rest ++ s :: post)) ret m = _
    unfold eval_statements
    rw [Exec.bind_ok hstmt, Exec.bind_ok (type_ok ho)]
    simp only [Object.type_ne_return o, hne, if_false]
    exact ih (some a) m3 hrest

/-- C12: when the statements before `s` evaluate to objects that are not Errors and `s`
evaluates to an Error, `eval_program` returns the pointer to that Error and leaves the
machine as the evaluation of `s` left it: no statement after `s` is evaluated, so no later
`let` writes a binding. The statements start from the machine in which `eval_program` has
allocated its initial result, a Null object. -/
theorem error_stops_program (fuel : Nat) (pre post : List Statement) (s : Statement)
    (env : Nat) (m m1 m2 : Machine) (e : Nat) (msg : String)
    (hpre : statements_pass (eval fuel) env pre { m with heap := m.heap ++ [.Null] } m1)
    (hs : eval fuel (some (.statement s)) env m1 = .ok (some e, m2))
    (he : m2.heap[e]? = some (.Error msg)) :
    eval (fuel + 1) (some (.program ⟨pre ++ s :: post⟩)) env m = .ok (some e, m2) := by
  show eval_program (eval fuel) ⟨pre ++ s :: post⟩ env m = _
  unfold eval_program
  rw [Exec.bind_ok (show alloc .Null m = .ok (some m.heap.length,
    { m with heap := m.heap ++ [.Null] }) from rfl)]
  exact eval_statements_stops_at_error (eval fuel) env s post hs he pre _ _ hpre

/-- C12 on concrete inputs: the program `1; 1 + true; let x = 5` evaluates to the Error of
its second statement and leaves the root environment without a binding. -/
theorem error_stops_program_witness :
    ∃ (e : Nat) (m2 : Machine),
      eval 4 (some (.program ⟨error_then_let⟩)) 0 Machine.init = .ok (some e, m2) ∧
      m2.heap[e]? = some (.Error "") ∧
      m2.envs = [{ store := [], outer := none }] :=
  ⟨13, _, error_stops_program 3 [.ExpressionStatement (int_lit 1)]
      [.LetStatement "x" (int_lit 5)] (.ExpressionStatement one_plus_true) 0 Machine.init _ _
      13 "" ⟨10, _, .Integer 1, rfl, rfl, by decide, rfl⟩ rfl rfl,
    rfl, rfl⟩

/-! ## Calls of user functions -/

theorem List.set_of_getElem? {α : Type} {l : List α} {i : Nat} {a : α} (h : l[i]? = some a) :
    l.set i a = l := by
  apply List.ext_getElem?
  intro j
  by_cases hij : i = j
  · subst hij
    have hlt : i < l.length := by
      by_contra hc
      rw [List.getElem?_eq_none (by omega)] at h
      cases h
    rw [List.getElem?_set_self hlt, h]
  · rw [List.getElem?_set_ne hij]

/-- The loop that binds the parameters writes the store of the environment `fenv` and
nothing else: no environment is created and the heap is untouched. -/
theorem bind_parameters_ok (fenv : Nat) (params : List String) :
    ∀ (args : List ObjPtr) (m : Machine) (e : Environment), m.envs[fenv]? = some e →
      ∃ m3 : Machine, bind_parameters fenv params args m = .ok ((), m3) ∧
        m3.heap = m.heap ∧ m3.out = m.out ∧
        m3.envs = m.envs.set fenv { e with store := bind_store e.store params args } := by
  induction params with
  | nil =>
    intro args m e he
    refine ⟨m, ?_, rfl, rfl, ?_⟩
    · unfold bind_parameters
      rfl
    · unfold bind_store
      exact (List.set_of_getElem? he).symm
  | cons param params ih =>
    intro args m e he
    cases args with
    | nil =>
      refine ⟨m, ?_, rfl, rfl, ?_⟩
      · unfold bind_parameters
        rfl
      · unfold bind_store
        exact (List.set_of_getElem? he).symm
    | cons arg args =>
      have hlt : fenv < m.envs.length := by
        by_contra hc
        rw [List.getElem?_eq_none (by omega)] at he
        cases he
      have hset : Environment.set fenv param arg m = .ok ((),
          { m with envs := m.envs.set fenv { e with store := store_set e.store param arg } }) := by
        simp [Environment.set, he]
      obtain ⟨m3, h3, hheap, hout, henvs⟩ := ih args
        { m with envs := m.envs.set fenv { e with store := store_set e.store param arg } }
        { e with store := store_set e.store param arg }
        (by simp [List.getElem?_set_self hlt])
      refine ⟨m3, ?_, hheap, hout, ?_⟩
      · unfold bind_parameters
        rw [Exec.bind_ok hset]
        exact h3
      · rw [henvs]
        simp only [List.set_set]
        rfl

/-- C13: a call whose function operand evaluates to a Function with `k` parameters and
that has a different number of argument expressions evaluates, after its argument
expressions, to a newly allocated Error; the environments are left as the evaluation of the
arguments left them, so the call binds no parameter. -/
theorem wrong_arity_call_yields_error (fuel : Nat) (function : Option Expression)
    (arguments : List (Option Expression)) (env : Nat) (m m1 m2 : Machine) (f : Nat)
    (params : List String) (body : Option BlockStatement) (fenv : Nat) (args : List ObjPtr)
    (hf : eval fuel (expr_node function) env m = .ok (some f, m1))
    (hfo : m1.heap[f]? = some (.Function params body fenv))
    (hargs : eval_arguments (eval fuel) env arguments m1 = .ok (args, m2))
    (hne : arguments.length ≠ params.length) :
    eval (fuel + 1) (some (.expression (.CallExpression function arguments))) env m
      = .ok (some m2.heap.length,
          { heap := m2.heap ++ [.Error ""], envs := m2.envs, out := m2.out }) := by
  show eval_call_expression (eval fuel) function arguments env m = _
  unfold eval_call_expression
  rw [Exec.bind_ok hf, Exec.bind_ok (deref_ok hfo)]
  simp only [Object.type]
  rw [if_neg (by simp), Exec.bind_ok hargs]
  simp only [hne, ne_eq, not_false_eq_true, if_true]
  rfl

/-- C13 on concrete inputs: `fn(x) \x7b x \x7d(1, 2)` evaluates to an Error and the
environment of the function has no binding afterwards. -/
theorem wrong_arity_call_yields_error_witness :
    ∃ m3 : Machine,
      eval 3 (expr_node (call identity_fn [int_lit 1, int_lit 2])) 0 Machine.init
        = .ok (some 12, m3) ∧
      m3.heap[12]? = some (.Error "") ∧
      m3.envs = [{ store := [], outer := none }, { store := [], outer := some 0 }] :=
  ⟨_, wrong_arity_call_yields_error 2 identity_fn [int_lit 1, int_lit 2] 0 Machine.init _ _ 9
      ["x"] (expr_block (ident "x")) 1 [some 10, some 11] rfl rfl rfl (by decide),
    rfl, rfl⟩

/-! ## Closures -/

theorem result_object_of_integer {r : Except Fault (ObjPtr × Machine)} {n : Int}
    (h : result_integer r = some n) : result_object r = .ok (some (.Integer n)) := by
  unfold result_integer at h
  split at h
  · next n1 h1 =>
    cases h
    exact h1
  · cases h

/-- The statement loop goes on after a statement whose result is an object that is not an
Error. -/
theorem eval_statements_cons_pass {ev : Eval} {env : Nat} {stmt : Statement}
    {rest : List Statement} {ret : ObjPtr} {m m2 : Machine} {a : Nat} {o : Object}
    (h : ev (some (.statement stmt)) env m = .ok (some a, m2))
    (ho : m2.heap[a]? = some o) (hne : o.type ≠ .error_object_t) :
    eval_statements ev env (stmt :: rest) ret m = eval_statements ev env rest (some a) m2 := by
  unfold eval_statements
  rw [Exec.bind_ok h, Exec.bind_ok (type_ok ho)]
  simp only [Object.type_ne_return o, hne, if_false]
  cases rest <;> rfl

/-- C15: a call whose function operand evaluates to a Function with as many parameters as
the call has arguments binds the parameters in the store of the environment `fenv` that
the Function owns, in place, and evaluates the body in `fenv`: the call creates no
environment and no object of its own, so the next call of the same Function overwrites
these bindings. -/
theorem call_reuses_closure_environment (fuel : Nat) (function : Option Expression)
    (arguments : List (Option Expression)) (env : Nat) (m m1 m2 : Machine) (f : Nat)
    (params : List String) (body : Option BlockStatement) (fenv : Nat) (args : List ObjPtr)
    (e : Environment)
    (hf : eval fuel (expr_node function) env m = .ok (some f, m1))
    (hfo : m1.heap[f]? = some (.Function params body fenv))
    (hargs : eval_arguments (eval fuel) env arguments m1 = .ok (args, m2))
    (hlen : arguments.length = params.length)
    (he : m2.envs[fenv]? = some e) :
    ∃ m3 : Machine,
      m3.heap = m2.heap ∧ m3.out = m2.out ∧
      m3.envs = m2.envs.set fenv { e with store := bind_store e.store params args } ∧
      eval (fuel + 1) (some (.expression (.CallExpression function arguments))) env m
        = eval fuel (block_node body) fenv m3 := by
  obtain ⟨m3, hbind, hheap, hout, henvs⟩ := bind_parameters_ok fenv params args m2 e he
  refine ⟨m3, hheap, hout, henvs, ?_⟩
  show eval_call_expression (eval fuel) function arguments env m = _
  unfold eval_call_expression
  rw [Exec.bind_ok hf, Exec.bind_ok (deref_ok hfo)]
  simp only [Object.type]
  rw [if_neg (by simp), Exec.bind_ok hargs]
  simp only [hlen, ne_eq, not_true_eq_false, if_false]
  rw [Exec.bind_ok hbind]
  rfl

/-- C15 on concrete inputs: in a new evaluator, after `adder_twice_program`, that is
`let adder = fn(x) \x7b fn(y) \x7b x + y \x7d \x7d; let add2 = adder(2); let add3 = adder(3);`,
the call `add2(1)` evaluates to 4, not 3. The program leaves a machine with the summary
of `adder_twice_machine`, and there the call binds `y` in environment 2, the one `add2`
owns, and evaluates `x + y` in it, where `x` is the 3 of the second call of `adder`. -/
theorem call_reuses_closure_environment_witness :
    result_object ((Evaluator.eval 7 adder_twice_program >>= fun _ =>
      Evaluator.eval 7 add2_call) Machine.init) = .ok (some (.Integer 4)) ∧
    (machine_after (Evaluator.eval 7 adder_twice_program) Machine.init).summary
      = adder_twice_machine.summary ∧
    ∃ m3 : Machine,
      m3.envs = adder_twice_machine.envs.set 2 { store := [("y", some 17)], outer := some 1 } ∧
      eval 5 (expr_node (call (ident "add2") [int_lit 1])) 0 adder_twice_machine
        = eval 4 (block_node sum_body) 2 m3 ∧
      result_object (eval 4 (block_node sum_body) 2 m3) = .ok (some (.Integer 4)) := by
  refine ⟨result_object_of_integer (by decide!), by decide!, ?_⟩
  obtain ⟨m3, hheap, hout, henvs, h⟩ := call_reuses_closure_environment 4 (ident "add2")
    [int_lit 1] 0 adder_twice_machine adder_twice_machine
    { adder_twice_machine with heap := adder_twice_machine.heap ++ [.Integer 1] } 13
    ["y"] sum_body 2 [some 17] { store := [], outer := some 1 } rfl rfl rfl rfl rfl
  refine ⟨m3, henvs, h, ?_⟩
  obtain ⟨heap3, envs3, out3⟩ := m3
  simp only at hheap hout henvs
  subst hheap hout henvs
  exact result_object_of_integer (by decide!)

/-! ## Cells appended to a heap -/

/-- C17 as stated fails: in a machine whose root scope binds `n` to a Null object at address
9 and `r` to a `Return` wrapper, `Environment::get` asked from the inner scope returns the
sentinel `null_obj` for both names, not the bound pointers: the sentinel is falsy where the
bound Null object is truthy, and it is a Null where the value bound to `r` is a wrapper.
The difference shows in a program: `if (n) \x7b 1 \x7d else \x7b 2 \x7d` is 1 in the scope
that binds `n` and 2 in the body of a function. -/
theorem get_outer_null_counterexample :
    Environment.innermost_binding null_in_outer_scope.envs 2 1 "n" = some (0, some 9) ∧
    Environment.get 1 "n" null_in_outer_scope = .ok (some 0, null_in_outer_scope) ∧
    is_truthy (some 9) = true ∧ is_truthy (some 0) = false ∧
    Environment.innermost_binding null_in_outer_scope.envs 2 1 "r" = some (0, some 11) ∧
    result_object (Environment.get 1 "r" null_in_outer_scope) = .ok (some .Null) ∧
    null_in_outer_scope.heap[11]? = some (.Return (some 10)) ∧
    run_program 6 null_tested_in_root_scope = .ok (some (.Integer 1)) ∧
    run_program 9 null_tested_in_function = .ok (some (.Integer 2)) :=
  ⟨rfl, rfl, rfl, rfl, rfl, rfl, rfl, rfl, rfl⟩

/-- C17 amended: in a machine whose scope chains have no cycle, `Environment::get` returns
the sentinel `null_obj` when no scope of the chain binds the name, the bound pointer when
the scope asked binds the name itself, and for a name whose innermost binding is in an
enclosing scope the bound pointer when its object does not have the tag `null_object_t`,
the sentinel `null_obj` when it has. The machine is left unchanged. -/
theorem get_returns_innermost_binding (m : Machine) (env : Nat) (name : String)
    (hs : m.scopes_ok) (h0 : m.heap[0]? = some Object.Null) (henv : env < m.envs.length) :
    (Environment.innermost_binding m.envs m.envs.length env name = none →
      Environment.get env name m = .ok (null_obj, m)) ∧
    (∀ v : ObjPtr,
      Environment.innermost_binding m.envs m.envs.length env name = some (env, v) →
      Environment.get env name m = .ok (v, m)) ∧
    (∀ (scope a : Nat) (o : Object),
      Environment.innermost_binding m.envs m.envs.length env name = some (scope, some a) →
      scope ≠ env → m.heap[a]? = some o →
      Environment.get env name m
        = .ok (if o.type = .null_object_t then null_obj else some a, m)) :=
  Environment.get_chain_spec hs h0 name m.envs.length env henv henv

/-- C17 amended, on concrete inputs: from the inner scope of `null_in_outer_scope`, a name
no scope binds gives the sentinel, `len` and `first` give the pointers bound in the inner
and in the root scope, and `n`, bound to a Null object in the root scope, gives the
sentinel. -/
theorem get_returns_innermost_binding_witness :
    Environment.get 1 "z" null_in_outer_scope = .ok (null_obj, null_in_outer_scope) ∧
    Environment.get 1 "len" null_in_outer_scope = .ok (some 12, null_in_outer_scope) ∧
    Environment.get 1 "first" null_in_outer_scope = .ok (some 10, null_in_outer_scope) ∧
    Environment.get 1 "n" null_in_outer_scope = .ok (null_obj, null_in_outer_scope) :=
  have h := fun name => get_returns_innermost_binding null_in_outer_scope 1 name
    null_in_outer_scope_scopes_ok rfl (by decide)
  ⟨(h "z").1 rfl, (h "len").2.1 (some 12) rfl,
    (h "first").2.2 0 10 (.Integer 5) rfl (by decide) rfl,
    (h "n").2.2 0 9 .Null rfl (by decide) rfl⟩

/-! ## `Environment::set` -/

theorem lookup_store_set_self (store : List (String × ObjPtr)) (name : String) (obj : ObjPtr) :
    (store_set store name obj).lookup name = some obj := by
  simp [store_set]

theorem lookup_filter_ne (store : List (String × ObjPtr)) {name other : String}
    (h : other ≠ name) :
    (store.filter (fun kv => kv.1 != name)).lookup other = store.lookup other := by
  induction store with
  | nil => rfl
  | cons kv rest ih =>
    obtain ⟨key, value⟩ := kv
    by_cases hk : key = name
    · subst hk
      have hne : (other == key) = false := by simpa using h
      simp [List.filter, List.lookup, hne, ih]
    · have hkeep : (key != name) = true := by simpa using hk
      simp only [List.filter, hkeep, List.lookup]
      rw [ih]

theorem lookup_store_set_ne (store : List (String × ObjPtr)) {name other : String}
    (obj : ObjPtr) (h : other ≠ name) :
    (store_set store name obj).lookup other = store.lookup other := by
  have hne : (other == name) = false := by simpa using h
  unfold store_set
  rw [List.lookup, hne]
  exact lookup_filter_ne store h

/-- C18: `Environment::set` on the scope `env` succeeds and writes the store of `env` and
nothing else: the heap, the output and every other scope, so every enclosing scope, are
unchanged; in `env` the outer scope and the binding of every other name are unchanged, the
name is bound to the value, and a following `Environment::get` of the name on `env` returns
the value. -/
theorem set_changes_only_current_binding (m : Machine) (env : Nat) (name : String)
    (obj : ObjPtr) (e : Environment) (he : m.envs[env]? = some e) :
    ∃ (m1 : Machine) (e1 : Environment),
      Environment.set env name obj m = .ok ((), m1) ∧
      m1.heap = m.heap ∧ m1.out = m.out ∧ m1.envs.length = m.envs.length ∧
      (∀ i : Nat, i ≠ env → m1.envs[i]? = m.envs[i]?) ∧
      m1.envs[env]? = some e1 ∧ e1.outer = e.outer ∧
      e1.store.lookup name = some obj ∧
      (∀ other : String, other ≠ name → e1.store.lookup other = e.store.lookup other) ∧
      Environment.get env name m1 = .ok (obj, m1) := by
  have hlt : env < m.envs.length := by
    by_contra hc
    rw [List.getElem?_eq_none (by omega)] at he
    cases he
  have he1 : (m.envs.set env { e with store := store_set e.store name obj })[env]?
      = some { e with store := store_set e.store name obj } :=
    List.getElem?_set_self hlt
  refine ⟨{ m with envs := m.envs.set env { e with store := store_set e.store name obj } },
    { e with store := store_set e.store name obj }, ?_, rfl, rfl, ?_, ?_, he1, rfl,
    lookup_store_set_self _ _ _, fun other h => lookup_store_set_ne _ _ h, ?_⟩
  · simp [Environment.set, he]
  · simp
  · intro i hi
    exact List.getElem?_set_ne (Ne.symm hi)
  · show Environment.get_chain (m.envs.set env _).length env name _ = _
    rw [List.length_set]
    obtain ⟨d, hd⟩ : ∃ d, m.envs.length = d + 1 := ⟨m.envs.length - 1, by omega⟩
    rw [hd]
    unfold Environment.get_chain
    simp only [he1, lookup_store_set_self]

/-- C18 on concrete inputs: in `null_in_outer_scope`, setting `n` in the inner scope leaves
the binding of `n` in the root scope and the binding of `len` in the inner scope as they
were, and a following get of `n` on the inner scope returns the value set. -/
theorem set_changes_only_current_binding_witness :
    ∃ (m1 : Machine) (e1 : Environment),
      Environment.set 1 "n" (some 12) null_in_outer_scope = .ok ((), m1) ∧
      m1.envs[0]? = null_in_outer_scope.envs[0]? ∧
      m1.envs[1]? = some e1 ∧
      e1.store.lookup "len" = some (some 12) ∧
      Environment.get 1 "n" m1 = .ok (some 12, m1) := by
  obtain ⟨m1, e1, hset, _, _, _, hothers, he1, _, _, hkeep, hget⟩ :=
    set_changes_only_current_binding null_in_outer_scope 1 "n" (some 12)
      { store := [("len", some 12)], outer := some 0 } rfl
  exact ⟨m1, e1, hset, hothers 0 (by decide), he1, hkeep "len" (by decide), hget⟩

/-! ## Builtins -/

/-- C19: `len` of one argument that is a String yields a new Integer holding the number
of bytes of the string, and of one argument that is an Array a new Integer holding the
number of its elements, as long as the number fits in an `int`. -/
theorem len_counts_bytes_and_elements (m : Machine) (a : Nat) :
    (∀ s : String, m.heap[a]? = some (.String s) → in_int s.utf8ByteSize →
      result_object (len [some a] m) = .ok (some (.Integer s.utf8ByteSize))) ∧
    (∀ elements : List ObjPtr, m.heap[a]? = some (.Array elements) →
      in_int elements.length →
      result_object (len [some a] m) = .ok (some (.Integer elements.length))) := by
  refine ⟨fun s hs hfit => ?_, fun elements hel hfit => ?_⟩
  · dsimp only [len]
    rw [Exec.bind_ok (deref_ok hs)]
    simp only [wrap32_of_in_int hfit]
    exact result_object_alloc _ _
  · dsimp only [len]
    rw [Exec.bind_ok (deref_ok hel)]
    simp only [wrap32_of_in_int hfit]
    exact result_object_alloc _ _

/-- C19 on concrete inputs: `len` of the String `"abcd"` is 4 and `len` of the Array of
three elements is 3, on the objects of `values_machine` and as the calls `len("abcd")`
and `len([1, 2, 3])` of a new evaluator. -/
theorem len_counts_bytes_and_elements_witness :
    result_object (len [some 9] values_machine) = .ok (some (.Integer 4)) ∧
    result_object (len [some 10] values_machine) = .ok (some (.Integer 3)) ∧
    run_expression 4 len_of_abcd = .ok (some (.Integer 4)) ∧
    run_expression 4 len_of_array = .ok (some (.Integer 3)) :=
  ⟨(len_counts_bytes_and_elements values_machine 9).1 "abcd" rfl (by unfold in_int; decide),
    (len_counts_bytes_and_elements values_machine 10).2 [some 11, some 12, some 13] rfl
      (by unfold in_int; decide),
    result_object_of_integer (by decide!), result_object_of_integer (by decide!)⟩

/-- C20: for one argument that is an Array, `first` and `last` yield a new Error when the
Array is empty, and otherwise return the pointer at position 0 and the pointer at position
`length - 1` of its elements, leaving the machine unchanged. -/
theorem first_and_last_of_array (m : Machine) (a : Nat) (elements : List ObjPtr)
    (h : m.heap[a]? = some (.Array elements)) :
    (elements = [] →
      result_object (first [some a] m) = .ok (some (.Error "")) ∧
      result_object (last [some a] m) = .ok (some (.Error ""))) ∧
    (∀ x : ObjPtr, elements[0]? = some x → first [some a] m = .ok (x, m)) ∧
    (∀ x : ObjPtr, elements[elements.length - 1]? = some x → last [some a] m = .ok (x, m)) := by
  refine ⟨fun he => ?_, fun x hx => ?_, fun x hx => ?_⟩
  · subst he
    constructor
    · dsimp only [first]
      rw [Exec.bind_ok (deref_ok h)]
      exact result_object_alloc _ _
    · dsimp only [last]
      rw [Exec.bind_ok (deref_ok h)]
      exact result_object_alloc _ _
  · dsimp only [first]
    rw [Exec.bind_ok (deref_ok h)]
    have hh : elements.head? = some x := by
      cases elements with
      | nil => cases hx
      | cons y ys => simpa using hx
    simp only [hh]
    rfl
  · dsimp only [last]
    rw [Exec.bind_ok (deref_ok h)]
    have hh : elements.getLast? = some x := by
      rw [List.getLast?_eq_getElem?]
      exact hx
    simp only [hh]
    rfl

/-- C20 on concrete inputs: on `values_machine`, `first` and `last` of the Array at 10
return its elements at the positions 0 and 2, and of the empty Array at 14 an Error; the
calls `first([1, 2, 3])`, `last([1, 2, 3])` of a new evaluator yield 1 and 3. -/
theorem first_and_last_of_array_witness :
    first [some 10] values_machine = .ok (some 11, values_machine) ∧
    last [some 10] values_machine = .ok (some 13, values_machine) ∧
    result_object (first [some 14] values_machine) = .ok (some (.Error "")) ∧
    result_object (last [some 14] values_machine) = .ok (some (.Error "")) ∧
    run_expression 4 first_of_array = .ok (some (.Integer 1)) ∧
    run_expression 4 last_of_array = .ok (some (.Integer 3)) :=
  have h := first_and_last_of_array values_machine 10 [some 11, some 12, some 13] rfl
  have h0 := first_and_last_of_array values_machine 14 [] rfl
  ⟨h.2.1 (some 11) rfl, h.2.2 (some 13) rfl, (h0.1 rfl).1, (h0.1 rfl).2,
    result_object_of_integer (by decide!), result_object_of_integer (by decide!)⟩

/-! ## `push`, `pop` and the argument checks of the builtins -/

theorem List.set_length_append_singleton {α : Type} (l : List α) (x y : α) :
    (l ++ [x]).set l.length y = l ++ [y] := by
  induction l with
  | nil => rfl
  | cons z zs ih => simp [List.set, ih]

/-- The loop `for (auto& elem : elems) res->append(elem)` adds `elems` at the end of the
elements of the Array behind `res`. -/
theorem Array.append_all_ok (elems : List ObjPtr) (m : Machine) (r : Nat) (pre : List ObjPtr)
    (h : m.heap[r]? = some (.Array pre)) :
    Array.append_all (some r) elems m
      = .ok ((), { m with heap := m.heap.set r (.Array (pre ++ elems)) }) := by
  induction elems generalizing m pre with
  | nil =>
    simp only [Array.append_all, List.append_nil, List.set_of_getElem? h]
    rfl
  | cons e es ih =>
    have h1 : Array.append (some r) e m
        = .ok ((), { m with heap := m.heap.set r (.Array (pre ++ [e])) }) := by
      simp only [Array.append, h]
    have hlt : r < m.heap.length := by
      by_contra hc
      rw [List.getElem?_eq_none (by omega)] at h
      cases h
    have h2 : ({ m with heap := m.heap.set r (.Array (pre ++ [e])) } : Machine).heap[r]?
        = some (.Array (pre ++ [e])) := by
      simp [List.getElem?_set_self, hlt]
    simp only [Array.append_all]
    rw [Exec.bind_ok h1, ih _ _ h2]
    simp [List.set_set]

theorem push_ok (m : Machine) (a : Nat) (elements : List ObjPtr) (v : ObjPtr)
    (h : m.heap[a]? = some (Object.Array elements)) :
    push [some a, v] m
      = .ok (some m.heap.length, { m with heap := m.heap ++ [Object.Array (elements ++ [v])] }) := by
  dsimp only [push]
  rw [Exec.bind_ok (deref_ok h)]
  have h0 : alloc (Object.Array []) m
      = .ok (some m.heap.length, { m with heap := m.heap ++ [Object.Array []] }) := rfl
  have h1 := Array.append_all_ok elements ({ m with heap := m.heap ++ [Object.Array []] } : Machine)
    m.heap.length [] (by simp)
  have h2 : Array.append (some m.heap.length) v
      ({ m with heap := (m.heap ++ [Object.Array []]).set m.heap.length (Object.Array ([] ++ elements)) } : Machine)
      = .ok ((), { m with heap := m.heap ++ [Object.Array (elements ++ [v])] }) := by
    simp [Array.append, List.set_length_append_singleton]
  show (alloc (Object.Array []) >>= fun res => Array.append_all res elements >>= fun _ =>
    Array.append res v >>= fun _ => pure res) m = _
  rw [Exec.bind_ok h0, Exec.bind_ok h1, Exec.bind_ok h2]
  rfl

theorem pop_ok (m : Machine) (a : Nat) (elements : List ObjPtr)
    (h : m.heap[a]? = some (Object.Array elements)) (hne : elements ≠ []) :
    pop [some a] m
      = .ok (some m.heap.length, { m with heap := m.heap ++ [Object.Array elements.dropLast] }) := by
  dsimp only [pop]
  rw [Exec.bind_ok (deref_ok h)]
  have hemp : elements.isEmpty = false := by
    cases elements with
    | nil => exact absurd rfl hne
    | cons x xs => rfl
  simp only [hemp, Bool.false_eq_true, if_false]
  have h0 : alloc (Object.Array []) m
      = .ok (some m.heap.length, { m with heap := m.heap ++ [Object.Array []] }) := rfl
  have h1 := Array.append_all_ok (elements.take (elements.length - 1))
    ({ m with heap := m.heap ++ [Object.Array []] } : Machine) m.heap.length [] (by simp)
  show (alloc (Object.Array []) >>= fun res =>
    Array.append_all res (elements.take (elements.length - 1)) >>= fun _ => pure res) m = _
  rw [Exec.bind_ok h0, Exec.bind_ok h1]
  simp [List.set_length_append_singleton, List.dropLast_eq_take]
  rfl

theorem pop_empty (m : Machine) (a : Nat) (h : m.heap[a]? = some (Object.Array [])) :
    pop [some a] m = alloc (.Error "") m := by
  dsimp only [pop]
  rw [Exec.bind_ok (deref_ok h)]
  rfl

/-- C21: for an Array `a` with the elements `elements` and any pointer `v`, `push(a, v)`
returns a new object, at an address that was free, which is an Array with the elements
`elements` followed by `v`, one more than `a` has; nothing else of the machine changes, so
`a` still has the elements `elements`. -/
theorem push_returns_extended_copy (m : Machine) (a : Nat) (elements : List ObjPtr)
    (v : ObjPtr) (h : m.heap[a]? = some (Object.Array elements)) :
    m.heap[m.heap.length]? = none ∧
    push [some a, v] m
      = .ok (some m.heap.length, { m with heap := m.heap ++ [Object.Array (elements ++ [v])] }) ∧
    (m.heap ++ [Object.Array (elements ++ [v])])[m.heap.length]?
      = some (Object.Array (elements ++ [v])) ∧
    (elements ++ [v]).length = elements.length + 1 ∧
    (m.heap ++ [Object.Array (elements ++ [v])])[a]? = some (Object.Array elements) := by
  have hlt : a < m.heap.length := by
    by_contra hc
    rw [List.getElem?_eq_none (by omega)] at h
    cases h
  refine ⟨by simp, push_ok m a elements v h, by simp, by simp, ?_⟩
  rw [List.getElem?_append_left hlt]
  exact h

/-- C21 on a concrete input: on `values_machine`, pushing the Integer at 11 to the Array at
10 returns a new Array at 15 with the elements 11, 12, 13, 11, and the Array at 10 keeps
its three elements. -/
theorem push_returns_extended_copy_witness :
    values_machine.heap[10]? = some (Object.Array [some 11, some 12, some 13]) ∧
    push [some 10, some 11] values_machine
      = .ok (some 15, { values_machine with
          heap := values_machine.heap ++ [Object.Array [some 11, some 12, some 13, some 11]] }) ∧
    (values_machine.heap ++ [Object.Array [some 11, some 12, some 13, some 11]])[10]?
      = some (Object.Array [some 11, some 12, some 13]) :=
  have h := push_returns_extended_copy values_machine 10 [some 11, some 12, some 13]
    (some 11) rfl
  ⟨rfl, h.2.1, h.2.2.2.2⟩

/-- C22: for an Array `a` with the elements `elements`, `pop(a)` returns, when `elements`
is not empty, a new Array with the elements of `a` but the last, and leaves the rest of the
machine, and so `a`, as it was; `pop` of the Array `push(a, v)` returned has exactly the
elements of `a`; and for an empty `a` the result of `pop(a)` is a new Error. -/
theorem pop_returns_shortened_copy (m : Machine) (a : Nat) (elements : List ObjPtr)
    (v : ObjPtr) (h : m.heap[a]? = some (Object.Array elements)) :
    (elements ≠ [] →
      pop [some a] m
        = .ok (some m.heap.length, { m with heap := m.heap ++ [Object.Array elements.dropLast] }) ∧
      (m.heap ++ [Object.Array elements.dropLast])[a]? = some (Object.Array elements)) ∧
    (push [some a, v] >>= fun pushed => pop [pushed]) m
      = .ok (some (m.heap.length + 1),
          { m with heap := m.heap ++ [Object.Array (elements ++ [v]), .Array elements] }) ∧
    (elements = [] →
      pop [some a] m = .ok (some m.heap.length, { m with heap := m.heap ++ [Object.Error ""] })) := by
  have hlt : a < m.heap.length := by
    by_contra hc
    rw [List.getElem?_eq_none (by omega)] at h
    cases h
  refine ⟨fun hne => ⟨pop_ok m a elements h hne, ?_⟩, ?_, fun he => ?_⟩
  · rw [List.getElem?_append_left hlt]
    exact h
  · rw [Exec.bind_ok (push_ok m a elements v h)]
    have hp := pop_ok ({ m with heap := m.heap ++ [Object.Array (elements ++ [v])] } : Machine)
      m.heap.length
      (elements ++ [v]) (by simp) (by simp)
    rw [hp]
    simp
  · subst he
    rw [pop_empty m a h]
    rfl

/-- C22 on concrete inputs: on `values_machine`, `pop` of the Array at 10 returns a new
Array at 15 with the elements 11, 12; `pop` after `push` of the Integer at 11 returns an
Array with the elements 11, 12, 13 of the Array at 10; `pop` of the empty Array at 14
returns a new Error. -/
theorem pop_returns_shortened_copy_witness :
    values_machine.heap[10]? = some (Object.Array [some 11, some 12, some 13]) ∧
    pop [some 10] values_machine
      = .ok (some 15, { values_machine with
          heap := values_machine.heap ++ [Object.Array [some 11, some 12]] }) ∧
    (push [some 10, some 11] >>= fun pushed => pop [pushed]) values_machine
      = .ok (some 16, { values_machine with
          heap := values_machine.heap ++ [Object.Array [some 11, some 12, some 13, some 11],
            .Array [some 11, some 12, some 13]] }) ∧
    pop [some 14] values_machine
      = .ok (some 15, { values_machine with heap := values_machine.heap ++ [Object.Error ""] }) :=
  have h := pop_returns_shortened_copy values_machine 10 [some 11, some 12, some 13]
    (some 11) rfl
  have h0 := pop_returns_shortened_copy values_machine 14 [] none rfl
  ⟨rfl, (h.1 (by simp)).1, h.2.1, h0.2.2 rfl⟩

/-- C23: each of the six builtins returns a new Error when the number of its arguments is
not the expected one, 2 for `push` and 1 for the others; and `len`, `first`, `last`, `push`
and `pop` return a new Error when the first argument is an object of a type they do not
accept: neither a String nor an Array for `len`, not an Array for the others. -/
theorem builtins_reject_wrong_arguments (m : Machine) :
    (∀ args : List ObjPtr, args.length ≠ 1 →
      len args m = alloc (.Error "") m ∧ first args m = alloc (.Error "") m ∧
      last args m = alloc (.Error "") m ∧ pop args m = alloc (.Error "") m ∧
      puts args m = alloc (.Error "") m) ∧
    (∀ args : List ObjPtr, args.length ≠ 2 → push args m = alloc (.Error "") m) ∧
    (∀ (a : Nat) (o : Object), m.heap[a]? = some o →
      o.type ≠ .string_object_t → o.type ≠ .array_object_t →
      len [some a] m = alloc (.Error "") m) ∧
    (∀ (a : Nat) (o : Object) (v : ObjPtr), m.heap[a]? = some o →
      o.type ≠ .array_object_t →
      first [some a] m = alloc (.Error "") m ∧ last [some a] m = alloc (.Error "") m ∧
      push [some a, v] m = alloc (.Error "") m ∧ pop [some a] m = alloc (.Error "") m) ∧
    alloc (.Error "") m =
      .ok (some m.heap.length, { m with heap := m.heap ++ [Object.Error ""] }) := by
  refine ⟨fun args hl => ?_, fun args hl => ?_, fun a o h hs ha => ?_,
    fun a o v h ha => ?_, rfl⟩
  · match args, hl with
    | [], _ => exact ⟨rfl, rfl, rfl, rfl, rfl⟩
    | [_], hl => exact absurd rfl hl
    | _ :: _ :: _, _ => exact ⟨rfl, rfl, rfl, rfl, rfl⟩
  · match args, hl with
    | [], _ => rfl
    | [_], _ => rfl
    | [_, _], hl => exact absurd rfl hl
    | _ :: _ :: _ :: _, _ => rfl
  · dsimp only [len]
    rw [Exec.bind_ok (deref_ok h)]
    cases o <;> first | rfl | exact absurd rfl hs | exact absurd rfl ha
  · refine ⟨?_, ?_, ?_, ?_⟩
    · dsimp only [first]
      rw [Exec.bind_ok (deref_ok h)]
      cases o <;> first | rfl | exact absurd rfl ha
    · dsimp only [last]
      rw [Exec.bind_ok (deref_ok h)]
      cases o <;> first | rfl | exact absurd rfl ha
    · dsimp only [push]
      rw [Exec.bind_ok (deref_ok h)]
      cases o <;> first | rfl | exact absurd rfl ha
    · dsimp only [pop]
      rw [Exec.bind_ok (deref_ok h)]
      cases o <;> first | rfl | exact absurd rfl ha

/-- C23 on concrete inputs: on `values_machine`, every builtin called without argument, and
`push` with one argument, returns a new Error at 15; so do `len` of the Integer at 11 and
`first`, `last`, `push`, `pop` of the String at 9. -/
theorem builtins_reject_wrong_arguments_witness :
    len [] values_machine = alloc (.Error "") values_machine ∧
    puts [] values_machine = alloc (.Error "") values_machine ∧
    push [some 10] values_machine = alloc (.Error "") values_machine ∧
    len [some 11] values_machine = alloc (.Error "") values_machine ∧
    first [some 9] values_machine = alloc (.Error "") values_machine ∧
    last [some 9] values_machine = alloc (.Error "") values_machine ∧
    push [some 9, some 11] values_machine = alloc (.Error "") values_machine ∧
    pop [some 9] values_machine = alloc (.Error "") values_machine ∧
    alloc (.Error "") values_machine =
      .ok (some 15, { values_machine with heap := values_machine.heap ++ [Object.Error ""] }) :=
  have h := builtins_reject_wrong_arguments values_machine
  have h1 := h.1 [] (by decide)
  have h2 := h.2.2.2.1 9 (.String "abcd") (some 11) rfl (by decide)
  ⟨h1.1, h1.2.2.2.2, h.2.1 [some 10] (by decide),
    h.2.2.1 11 (.Integer 1) rfl (by decide) (by decide), h2.1, h2.2.1, h2.2.2.1, h2.2.2.2,
    h.2.2.2.2⟩

/-! ## The parse monad -/

theorem Parse.bind_of_ok {α β : Type} {x : Parse α} {f : α → Parse β} {p p1 : Parser} {a : α}
    (h : x p = .ok (a, p1)) : (x >>= f) p = f a p1 := by
  show Parse.bind x f p = f a p1
  simp [Parse.bind, h]

theorem Parse.ok_of_bind {α β : Type} {x : Parse α} {f : α → Parse β} {p p2 : Parser} {b : β}
    (h : (x >>= f) p = .ok (b, p2)) : ∃ a p1, x p = .ok (a, p1) ∧ f a p1 = .ok (b, p2) := by
  change Parse.bind x f p = .ok (b, p2) at h
  unfold Parse.bind at h
  split at h
  · next a p1 hx => exact ⟨a, p1, hx, h⟩
  · cases h

theorem Parse.pure_run {α : Type} (a : α) (p : Parser) :
    (pure a : Parse α) p = .ok (a, p) := rfl

theorem next_token_apply (p : Parser) : next_token p = .ok (p.peek, p.advance) := rfl

theorem peek_token_apply (p : Parser) : peek_token p = .ok (p.peek, p) := rfl

theorem cur_token_apply (p : Parser) : cur_token p = .ok (p.token, p) := rfl

theorem cur_token_type_is_apply (type : TokenType) (p : Parser) :
    cur_token_type_is type p = .ok (p.token.type == type, p) := rfl

theorem peek_token_type_is_apply (type : TokenType) (p : Parser) :
    peek_token_type_is type p = .ok (p.peek.type == type, p) := rfl

theorem parse_error_apply (str1 str2 : String) (p : Parser) :
    parse_error str1 str2 p = .ok ((), p.report (error_text str1 str2)) := rfl

theorem parse_error_token_apply (type : TokenType) (token : Token) (p : Parser) :
    parse_error_token type token p = .ok ((), p.report (error_text_token type token)) := rfl

theorem cur_token_precedence_apply (p : Parser) :
    cur_token_precedence p = .ok ((t_to_p p.token.type).getD .lowest_p, p) := by
  show (cur_token >>= _) p = _
  rw [Parse.bind_of_ok (cur_token_apply p)]
  cases t_to_p p.token.type <;> rfl

theorem peek_token_precedence_apply (p : Parser) :
    peek_token_precedence p = .ok ((t_to_p p.peek.type).getD .lowest_p, p) := by
  show (peek_token >>= _) p = _
  rw [Parse.bind_of_ok (peek_token_apply p)]
  cases t_to_p p.peek.type <;> rfl

theorem expect_token_type_is_apply (type : TokenType) (p : Parser) :
    expect_token_type_is type p
      = if p.peek.type = type then .ok (true, p.advance) else .ok (false, p) := by
  show (peek_token_type_is type >>= _) p = _
  rw [Parse.bind_of_ok (peek_token_type_is_apply type p)]
  by_cases h : p.peek.type = type
  · simp only [h, beq_self_eq_true, if_true]
    rfl
  · have hb : (p.peek.type == type) = false := by simpa using h
    simp only [h, hb, if_false, Bool.false_eq_true]
    rfl

theorem expect_or_error_apply (type : TokenType) (p : Parser) :
    expect_or_error type p
      = if p.peek.type = type then .ok (true, p.advance)
        else .ok (false, p.report (error_text_token type p.peek)) := by
  show (expect_token_type_is type >>= _) p = _
  by_cases h : p.peek.type = type
  · have := expect_token_type_is_apply type p
    simp only [h, if_true] at this
    rw [Parse.bind_of_ok this]
    simp only [h, if_true]
    rfl
  · have := expect_token_type_is_apply type p
    simp only [h, if_false] at this
    rw [Parse.bind_of_ok this]
    simp only [h, if_false, Bool.false_eq_true]
    rfl

theorem skip_semicolon_apply (p : Parser) :
    skip_semicolon p
      = if p.peek.type = .semicolon_t then .ok ((), p.advance) else .ok ((), p) := by
  show (peek_token_type_is .semicolon_t >>= _) p = _
  rw [Parse.bind_of_ok (peek_token_type_is_apply _ p)]
  by_cases h : p.peek.type = .semicolon_t
  · simp only [h, beq_self_eq_true, if_true]
    rfl
  · have hb : (p.peek.type == TokenType.semicolon_t) = false := by simpa using h
    simp only [h, hb, if_false, Bool.false_eq_true]
    rfl

/-! ## More fuel keeps the result -/

theorem Parse.Le.self {α : Type} (x : Parse α) : x.Le x :=
  fun _ _ h => h

theorem Parse.Le.of_fault {α : Type} (f : ParseFault) (y : Parse α) : (Parse.fault f).Le y := by
  intro p r h
  cases h

theorem Parse.Le.seq {α β : Type} {x y : Parse α} {f g : α → Parse β}
    (hx : x.Le y) (hf : ∀ a, (f a).Le (g a)) : (x >>= f).Le (y >>= g) := by
  intro p r h
  obtain ⟨b, p2⟩ := r
  obtain ⟨a, p1, h1, h2⟩ := Parse.ok_of_bind h
  rw [Parse.bind_of_ok (hx _ _ h1)]
  exact hf a _ _ h2

theorem Parse.Le.ite {α : Type} {c : Prop} [Decidable c] {x y x1 y1 : Parse α}
    (hx : x.Le x1) (hy : y.Le y1) : (if c then x else y).Le (if c then x1 else y1) := by
  split
  · exact hx
  · exact hy

theorem Descent.Le.self_descent (d : Descent) : d.Le d :=
  ⟨fun _ => Parse.Le.self _, Parse.Le.self _⟩

theorem parse_prefix_expression_mono {d1 d2 : Descent} (h : d1.Le d2) :
    (parse_prefix_expression d1).Le (parse_prefix_expression d2) :=
  .seq (.self _) fun _ => .seq (.self _) fun _ => .seq (h.1 _) fun _ => .self _

theorem parse_infix_expression_mono {d1 d2 : Descent} (h : d1.Le d2) (left : Option Expression) :
    (parse_infix_expression d1 left).Le (parse_infix_expression d2 left) :=
  .seq (.self _) fun _ => .seq (.self _) fun _ => .seq (.self _) fun _ =>
    .seq (h.1 _) fun _ => .self _

theorem parse_block_statement_loop_mono {d1 d2 : Descent} (h : d1.Le d2) (n1 n2 : Nat)
    (hn : n1 ≤ n2) (stmts : List Statement) :
    (parse_block_statement_loop d1 n1 stmts).Le (parse_block_statement_loop d2 n2 stmts) := by
  induction n1 generalizing n2 stmts with
  | zero => exact .of_fault _ _
  | succ k ih =>
    obtain ⟨m, rfl⟩ : ∃ m, n2 = m + 1 := ⟨n2 - 1, by omega⟩
    refine .seq (.self _) fun _ => .seq (.self _) fun _ => .ite ?_ (.self _)
    refine .seq (.self _) fun _ => .seq h.2 fun r => ?_
    cases r
    · exact ih m (by omega) _
    · exact ih m (by omega) _

theorem parse_block_statement_mono {d1 d2 : Descent} (h : d1.Le d2) (n1 n2 : Nat)
    (hn : n1 ≤ n2) : (parse_block_statement d1 n1).Le (parse_block_statement d2 n2) :=
  .seq (parse_block_statement_loop_mono h n1 n2 hn _) fun _ => .self _

theorem parse_if_expression_mono {d1 d2 : Descent} (h : d1.Le d2) (n1 n2 : Nat)
    (hn : n1 ≤ n2) : (parse_if_expression d1 n1).Le (parse_if_expression d2 n2) := by
  refine .seq (.self _) fun _ => .ite ?_ (.self _)
  refine .seq (.self _) fun _ => .seq (h.1 _) fun r => ?_
  cases r
  · exact .self _
  · refine .seq (.self _) fun _ => .ite ?_ (.self _)
    refine .seq (.self _) fun _ => .ite ?_ (.self _)
    refine .seq (parse_block_statement_mono h n1 n2 hn) fun _ => ?_
    refine .seq (.self _) fun _ => .ite ?_ (.self _)
    refine .seq (.self _) fun _ => .ite ?_ (.self _)
    refine .seq (.self _) fun _ => .seq (.self _) fun _ => .ite ?_ (.self _)
    exact .seq (parse_block_statement_mono h n1 n2 hn) fun _ => .self _

theorem parse_group_expression_mono {d1 d2 : Descent} (h : d1.Le d2) :
    (parse_group_expression d1).Le (parse_group_expression d2) :=
  .seq (.self _) fun _ => .seq (h.1 _) fun _ => .self _

theorem parse_expression_list_loop_mono {d1 d2 : Descent} (h : d1.Le d2) (close : TokenType)
    (n1 n2 : Nat) (hn : n1 ≤ n2) (exprs : List (Option Expression)) :
    (parse_expression_list_loop d1 close n1 exprs).Le
      (parse_expression_list_loop d2 close n2 exprs) := by
  induction n1 generalizing n2 exprs with
  | zero => exact .of_fault _ _
  | succ k ih =>
    obtain ⟨m, rfl⟩ : ∃ m, n2 = m + 1 := ⟨n2 - 1, by omega⟩
    refine .seq (.self _) fun _ => .seq (.self _) fun _ => .ite ?_ (.self _)
    refine .seq (.self _) fun _ => .seq (h.1 _) fun _ => .seq (.self _) fun _ => ?_
    refine .ite (ih m (by omega) _) ?_
    exact .seq (.self _) fun _ => .ite (ih m (by omega) _) (.self _)

theorem parse_call_expression_mono {d1 d2 : Descent} (h : d1.Le d2) (n1 n2 : Nat)
    (hn : n1 ≤ n2) (left : Option Expression) :
    (parse_call_expression d1 n1 left).Le (parse_call_expression d2 n2 left) :=
  .seq (parse_expression_list_loop_mono h _ n1 n2 hn _) fun _ => .self _

theorem parse_index_expression_mono {d1 d2 : Descent} (h : d1.Le d2) (left : Option Expression) :
    (parse_index_expression d1 left).Le (parse_index_expression d2 left) :=
  .seq (.self _) fun _ => .seq (h.1 _) fun _ => .self _

theorem parse_parameters_loop_mono (n1 n2 : Nat) (hn : n1 ≤ n2) (parameters : List String) :
    (parse_parameters_loop n1 parameters).Le (parse_parameters_loop n2 parameters) := by
  induction n1 generalizing n2 parameters with
  | zero => exact .of_fault _ _
  | succ k ih =>
    obtain ⟨m, rfl⟩ : ∃ m, n2 = m + 1 := ⟨n2 - 1, by omega⟩
    refine .seq (.self _) fun _ => .seq (.self _) fun _ => .ite ?_ (.self _)
    refine .seq (.self _) fun _ => .ite ?_ (.self _)
    refine .seq (.self _) fun _ => .seq (.self _) fun _ => .ite (ih m (by omega) _) ?_
    exact .seq (.self _) fun _ => .ite (ih m (by omega) _) (.self _)

theorem parse_function_literal_mono {d1 d2 : Descent} (h : d1.Le d2) (n1 n2 : Nat)
    (hn : n1 ≤ n2) : (parse_function_literal d1 n1).Le (parse_function_literal d2 n2) := by
  refine .seq (.self _) fun _ => .ite ?_ (.self _)
  refine .seq (parse_parameters_loop_mono n1 n2 hn _) fun r => ?_
  cases r
  · exact .self _
  · refine .seq (.self _) fun _ => .ite ?_ (.self _)
    refine .seq (.self _) fun _ => .ite ?_ (.self _)
    exact .seq (parse_block_statement_mono h n1 n2 hn) fun _ => .self _

theorem parse_array_literal_mono {d1 d2 : Descent} (h : d1.Le d2) (n1 n2 : Nat)
    (hn : n1 ≤ n2) : (parse_array_literal d1 n1).Le (parse_array_literal d2 n2) :=
  .seq (parse_expression_list_loop_mono h _ n1 n2 hn _) fun _ => .self _

theorem prefix_parse_func_map_mono {d1 d2 : Descent} (h : d1.Le d2) (n1 n2 : Nat)
    (hn : n1 ≤ n2) (type : TokenType) :
    (prefix_parse_func_map d1 n1 type = none ∧ prefix_parse_func_map d2 n2 type = none) ∨
    ∃ f1 f2, prefix_parse_func_map d1 n1 type = some f1 ∧
      prefix_parse_func_map d2 n2 type = some f2 ∧ f1.Le f2 := by
  cases type <;>
    first
    | exact .inl ⟨rfl, rfl⟩
    | exact .inr ⟨_, _, rfl, rfl, .self _⟩
    | exact .inr ⟨_, _, rfl, rfl, parse_prefix_expression_mono h⟩
    | exact .inr ⟨_, _, rfl, rfl, parse_if_expression_mono h n1 n2 hn⟩
    | exact .inr ⟨_, _, rfl, rfl, parse_group_expression_mono h⟩
    | exact .inr ⟨_, _, rfl, rfl, parse_function_literal_mono h n1 n2 hn⟩
    | exact .inr ⟨_, _, rfl, rfl, parse_array_literal_mono h n1 n2 hn⟩

theorem infix_parse_func_map_mono {d1 d2 : Descent} (h : d1.Le d2) (n1 n2 : Nat)
    (hn : n1 ≤ n2) (type : TokenType) :
    (infix_parse_func_map d1 n1 type = none ∧ infix_parse_func_map d2 n2 type = none) ∨
    ∃ f1 f2, infix_parse_func_map d1 n1 type = some f1 ∧
      infix_parse_func_map d2 n2 type = some f2 ∧ ∀ left, (f1 left).Le (f2 left) := by
  cases type <;>
    first
    | exact .inl ⟨rfl, rfl⟩
    | exact .inr ⟨_, _, rfl, rfl, parse_infix_expression_mono h⟩
    | exact .inr ⟨_, _, rfl, rfl, parse_call_expression_mono h n1 n2 hn⟩
    | exact .inr ⟨_, _, rfl, rfl, parse_index_expression_mono h⟩

theorem parse_expression_loop_mono {d1 d2 : Descent} (h : d1.Le d2) (n1 n2 : Nat)
    (hn : n1 ≤ n2) (precedence : Precedence) (t1 t2 : Nat) (ht : t1 ≤ t2)
    (left : Option Expression) :
    (parse_expression_loop d1 n1 precedence t1 left).Le
      (parse_expression_loop d2 n2 precedence t2 left) := by
  induction t1 generalizing t2 left with
  | zero => exact .of_fault _ _
  | succ k ih =>
    obtain ⟨m, rfl⟩ : ∃ m, t2 = m + 1 := ⟨t2 - 1, by omega⟩
    refine .seq (.self _) fun _ => .seq (.self _) fun _ => .ite ?_ (.self _)
    refine .seq (.self _) fun token => ?_
    rcases infix_parse_func_map_mono h n1 n2 hn token.type with ⟨e1, e2⟩ | ⟨f1, f2, e1, e2, hf⟩
    · rw [e1, e2]
      exact .self _
    · rw [e1, e2]
      exact .seq (.self _) fun _ => .seq (hf _) fun _ => ih m (by omega) _

theorem parse_expression_mono {d1 d2 : Descent} (h : d1.Le d2) (n1 n2 : Nat)
    (hn : n1 ≤ n2) (precedence : Precedence) :
    (parse_expression d1 n1 precedence).Le (parse_expression d2 n2 precedence) := by
  refine .seq (.self _) fun token => ?_
  rcases prefix_parse_func_map_mono h n1 n2 hn token.type with ⟨e1, e2⟩ | ⟨f1, f2, e1, e2, hf⟩
  · rw [e1, e2]
    exact .self _
  · rw [e1, e2]
    exact .seq hf fun _ => parse_expression_loop_mono h n1 n2 hn _ n1 n2 hn _

theorem parse_let_statement_mono {d1 d2 : Descent} (h : d1.Le d2) :
    (parse_let_statement d1).Le (parse_let_statement d2) := by
  refine .seq (.self _) fun _ => .ite ?_ (.self _)
  refine .seq (.self _) fun _ => .seq (.self _) fun _ => .ite ?_ (.self _)
  exact .seq (.self _) fun _ => .seq (h.1 _) fun _ => .self _

theorem parse_return_statement_mono {d1 d2 : Descent} (h : d1.Le d2) :
    (parse_return_statement d1).Le (parse_return_statement d2) :=
  .seq (.self _) fun _ => .seq (h.1 _) fun _ => .self _

theorem parse_expression_statement_mono {d1 d2 : Descent} (h : d1.Le d2) :
    (parse_expression_statement d1).Le (parse_expression_statement d2) :=
  .seq (.self _) fun _ => .ite (.self _) (.seq (h.1 _) fun _ => .self _)

theorem parse_statement_mono {d1 d2 : Descent} (h : d1.Le d2) :
    (parse_statement d1).Le (parse_statement d2) := by
  refine .seq (.self _) fun token => ?_
  cases token.type <;>
    first
    | exact parse_let_statement_mono h
    | exact parse_return_statement_mono h
    | exact parse_expression_statement_mono h

theorem descend_mono_succ (fuel : Nat) : (descend fuel).Le (descend (fuel + 1)) := by
  induction fuel with
  | zero => exact ⟨fun _ => .of_fault _ _, .of_fault _ _⟩
  | succ k ih =>
    exact ⟨fun _ => parse_expression_mono ih k (k + 1) (by omega) _, parse_statement_mono ih⟩

theorem descend_mono {n1 n2 : Nat} (hn : n1 ≤ n2) : (descend n1).Le (descend n2) := by
  induction n2 with
  | zero =>
    obtain rfl : n1 = 0 := by omega
    exact Descent.Le.self_descent _
  | succ k ih =>
    by_cases hk : n1 = k + 1
    · subst hk
      exact Descent.Le.self_descent _
    · have h1 := ih (by omega)
      have h2 := descend_mono_succ k
      exact ⟨fun pr p r hr => h2.1 pr p r (h1.1 pr p r hr), fun p r hr => h2.2 p r (h1.2 p r hr)⟩

theorem parse_loop_mono {n1 n2 : Nat} (hn : n1 ≤ n2) (t1 t2 : Nat) (ht : t1 ≤ t2)
    (stmts : List Statement) : (parse_loop n1 t1 stmts).Le (parse_loop n2 t2 stmts) := by
  induction t1 generalizing t2 stmts with
  | zero => exact .of_fault _ _
  | succ k ih =>
    obtain ⟨m, rfl⟩ : ∃ m, t2 = m + 1 := ⟨t2 - 1, by omega⟩
    refine .seq (.self _) fun _ => .ite (.self _) ?_
    refine .seq (descend_mono hn).2 fun r => ?_
    cases r
    · exact .seq (.self _) fun _ => ih m (by omega) _
    · exact .seq (.self _) fun _ => ih m (by omega) _

theorem parse_mono {n1 n2 : Nat} (hn : n1 ≤ n2) : (parse n1).Le (parse n2) :=
  .seq (parse_loop_mono hn n1 n2 hn _) fun _ => .self _

theorem tokenize_mono {n1 n2 : Nat} (hn : n1 ≤ n2) (lexer : Lexer) (tokens : List Token)
    (h : tokenize n1 lexer = some tokens) : tokenize n2 lexer = some tokens := by
  induction n1 generalizing n2 lexer tokens with
  | zero => cases h
  | succ k ih =>
    obtain ⟨m, rfl⟩ : ∃ m, n2 = m + 1 := ⟨n2 - 1, by omega⟩
    simp only [tokenize] at h ⊢
    split at h
    · cases h
    · next token lexer1 hr =>
      split at h
      · next he =>
        simp only [he, if_true]
        exact h
      · next he =>
        simp only [he, if_false]
        split at h
        · cases h
        · next rest hrest =>
          rw [ih (by omega : k ≤ m) lexer1 rest hrest]
          exact h

/-- The result of a parse does not change when it is given more fuel. -/
theorem parse_input_mono {n1 n2 : Nat} (hn : n1 ≤ n2) (input : String)
    (r : Program × List String) (h : parse_input n1 input = .ok r) :
    parse_input n2 input = .ok r := by
  unfold parse_input Parser.new at h ⊢
  split at h
  · cases h
  · next parser hp =>
    split at hp
    · cases hp
    · next tokens ht =>
      rw [tokenize_mono hn _ _ ht]
      simp only [] at hp ⊢
      cases hp
      split at h
      · cases h
      · next program parser1 hq =>
        rw [parse_mono hn _ _ hq]
        exact h

theorem parse_summary_mono {n1 n2 : Nat} (hn : n1 ≤ n2) (input : String)
    (r : List (Option String) × List String) (h : parse_summary n1 input = .ok r) :
    parse_summary n2 input = .ok r := by
  unfold parse_summary at h ⊢
  split at h
  · cases h
  · next program errors hp =>
    rw [parse_input_mono hn _ _ hp]
    exact h

/-! ## Inputs on which the parser does not return -/

theorem tokenize_stuck (lexer : Lexer) (token : Token)
    (h : lexer.read_token = some (token, lexer)) (hne : token.type ≠ .eof_t) (turns : Nat) :
    tokenize turns lexer = none := by
  induction turns with
  | zero => rfl
  | succ n ih => simp only [tokenize, h, hne, if_false, ih]

/-- C25 fails on the code: there are source texts on which the constructor and `parse()` do
not complete. On `@` the lexer returns an `illegal` token without moving its cursor, so the
loop of the constructor never reads `eof` and never ends, whatever number of turns it is
given; and on `99999999999` `std::stoi` throws `std::out_of_range`, which nothing catches,
however much fuel is left. -/
theorem parse_does_not_complete_on_every_input (fuel : Nat) :
    (Lexer.new "@").read_token = some (⟨.illegal_t, ""⟩, Lexer.new "@") ∧
    tokenize fuel (Lexer.new "@") = none ∧
    Parser.new fuel "@" = .error .no_termination ∧
    parse_input (fuel + 2) "99999999999" = .error .out_of_range := by
  have h1 : (Lexer.new "@").read_token = some (⟨.illegal_t, ""⟩, Lexer.new "@") := by decide!
  have h2 := tokenize_stuck (Lexer.new "@") ⟨.illegal_t, ""⟩ h1 (by decide) fuel
  refine ⟨h1, h2, ?_, ?_⟩
  · simp only [Parser.new, h2]
  · rfl

/-! ## Steps of the expression parser -/

theorem TokenType.is_binary_operator_spec {type : TokenType} (h : type.is_binary_operator) :
    type ≠ .semicolon_t ∧ type ≠ .eof_t ∧ 2 ≤ type.precedence.rank ∧
    type.precedence.rank ≤ 5 ∧
    ∀ d n, infix_parse_func_map d n type = some (parse_infix_expression d) := by
  cases type <;>
    first
    | exact ⟨by decide, by decide, by decide, by decide, fun _ _ => rfl⟩
    | cases h

theorem Token.atom_type {token : Token} {e : Expression} (h : token.atom = some e) :
    token.type ≠ .eof_t ∧ token.type ≠ .semicolon_t ∧ token.type ≠ .let_t ∧
    token.type ≠ .return_t := by
  unfold Token.atom at h
  refine ⟨?_, ?_, ?_, ?_⟩ <;> intro ht <;> rw [ht] at h <;> cases h

/-- The prefix parse function of an atomic token returns its expression and leaves the
state as it is. -/
theorem parse_expression_atom (d : Descent) (n : Nat) (precedence : Precedence) (p : Parser)
    (e : Expression) (h : p.token.atom = some e) :
    parse_expression d n precedence p
      = parse_expression_loop d n precedence n (some e) p := by
  unfold parse_expression
  rw [Parse.bind_of_ok (cur_token_apply p)]
  unfold Token.atom at h
  split at h
  · next ht =>
    cases h
    rw [ht]
    have : parse_identifier p = .ok (some (.Identifier p.token.literal), p) := rfl
    exact Parse.bind_of_ok this
  · next ht =>
    cases h
    rw [ht]
    have : parse_string_literal p = .ok (some (.StringLiteral p.token.literal), p) := rfl
    exact Parse.bind_of_ok this
  · next ht =>
    cases h
    rw [ht]
    have : parse_boolean_literal p = .ok (some (.BooleanLiteral true), p) := by
      show (cur_token >>= _) p = _
      rw [Parse.bind_of_ok (cur_token_apply p), ht]
      rfl
    exact Parse.bind_of_ok this
  · next ht =>
    cases h
    rw [ht]
    have : parse_boolean_literal p = .ok (some (.BooleanLiteral false), p) := by
      show (cur_token >>= _) p = _
      rw [Parse.bind_of_ok (cur_token_apply p), ht]
      rfl
    exact Parse.bind_of_ok this
  · next ht =>
    rw [ht]
    simp only [] at h
    split at h
    · cases h
    · next hne =>
      split at h
      · next hle =>
        cases h
        have : parse_integer_literal p
            = .ok (some (.IntegerLiteral (Int.ofNat
                (digits_value (p.token.literal.toList.takeWhile is_digit)))), p) := by
          show (cur_token >>= _) p = _
          rw [Parse.bind_of_ok (cur_token_apply p)]
          show (stoi p.token.literal >>= _) p = _
          have hs : stoi p.token.literal p
              = .ok (Int.ofNat (digits_value (p.token.literal.toList.takeWhile is_digit)), p) := by
            unfold stoi
            simp only [hne, hle, if_true, if_false, Bool.false_eq_true]
            rfl
          rw [Parse.bind_of_ok hs]
          rfl
        exact Parse.bind_of_ok this
      · cases h
  · cases h

/-- The loop of `parse_expression` ends when the next token is a semicolon or does not
bind tighter than `precedence`. -/
theorem parse_expression_loop_stop (d : Descent) (n : Nat) (precedence : Precedence)
    (turns : Nat) (left : Option Expression) (p : Parser)
    (h : p.peek.type = .semicolon_t ∨ ¬ precedence.rank < p.peek.type.precedence.rank) :
    parse_expression_loop d n precedence (turns + 1) left p = .ok (left, p) := by
  unfold parse_expression_loop
  rw [Parse.bind_of_ok (peek_token_type_is_apply _ p),
    Parse.bind_of_ok (peek_token_precedence_apply p)]
  have hc : (!(p.peek.type == TokenType.semicolon_t) &&
      decide (precedence.rank < ((t_to_p p.peek.type).getD .lowest_p).rank)) = false := by
    rcases h with h | h
    · simp [h]
    · simp only [TokenType.precedence] at h
      simp [h]
  simp only [hc, Bool.false_eq_true, if_false]
  rfl

/-- A turn of the loop of `parse_expression` on a binary operator that binds tighter than
`precedence`: the operator and then its right operand are read. -/
theorem parse_expression_loop_binary (d : Descent) (n : Nat) (precedence : Precedence)
    (turns : Nat) (left : Option Expression) (p : Parser)
    (hop : p.peek.type.is_binary_operator)
    (h : precedence.rank < p.peek.type.precedence.rank) :
    parse_expression_loop d n precedence (turns + 1) left p
      = (d.expression p.peek.type.precedence >>= fun right =>
          parse_expression_loop d n precedence turns
            (some (.InfixExpression left p.peek.literal right))) p.advance.advance := by
  obtain ⟨hsemi, -, -, -, hmap⟩ := TokenType.is_binary_operator_spec hop
  conv => lhs; unfold parse_expression_loop
  rw [Parse.bind_of_ok (peek_token_type_is_apply _ p),
    Parse.bind_of_ok (peek_token_precedence_apply p)]
  have hc : (!(p.peek.type == TokenType.semicolon_t) &&
      decide (precedence.rank < ((t_to_p p.peek.type).getD .lowest_p).rank)) = true := by
    simp only [TokenType.precedence] at h
    simp [hsemi, h]
  simp only [hc, if_true]
  rw [Parse.bind_of_ok (peek_token_apply p)]
  simp only [hmap]
  rw [Parse.bind_of_ok (next_token_apply p)]
  have hi : ∀ (k : Option Expression → Parse (Option Expression)),
      (parse_infix_expression d left >>= k) p.advance
        = (d.expression p.peek.type.precedence >>= fun right =>
            k (some (.InfixExpression left p.peek.literal right))) p.advance.advance := by
    intro k
    show Parse.bind (parse_infix_expression d left) k p.advance = _
    unfold parse_infix_expression
    show Parse.bind (cur_token >>= _) k p.advance = _
    unfold Parse.bind
    simp only [bind, Parse.bind, cur_token_apply, cur_token_precedence_apply, next_token_apply]
    show _ = Parse.bind _ _ _
    unfold Parse.bind
    have e1 : p.advance.token = p.peek := rfl
    simp only [e1, TokenType.precedence]
    cases d.expression ((t_to_p p.peek.type).getD Precedence.lowest_p) p.advance.advance with
    | error e => rfl
    | ok r => rfl
  exact hi _

/-- The prefix parse function of `-` and `!`: the operand is parsed with the precedence
`prefix_p`. -/
theorem parse_expression_unary (d : Descent) (n : Nat) (precedence : Precedence) (p : Parser)
    (h : p.token.type = .minus_t ∨ p.token.type = .bang_t) :
    parse_expression d n precedence p
      = (d.expression .prefix_p >>= fun right =>
          parse_expression_loop d n precedence n
            (some (.PrefixExpression p.token.literal right))) p.advance := by
  unfold parse_expression
  rw [Parse.bind_of_ok (cur_token_apply p)]
  have hm : prefix_parse_func_map d n p.token.type = some (parse_prefix_expression d) := by
    rcases h with h | h <;> rw [h] <;> rfl
  simp only [hm]
  show Parse.bind (parse_prefix_expression d) _ p = Parse.bind _ _ _
  unfold parse_prefix_expression
  simp only [bind, Parse.bind, cur_token_apply, next_token_apply]
  cases d.expression Precedence.prefix_p p.advance with
  | error e => rfl
  | ok r => rfl

/-- An expression statement: the statement function of a token that is neither `let`,
`return` nor `;`, when the expression is parsed. -/
theorem parse_statement_expression (d : Descent) (p p1 : Parser) (e : Expression)
    (hlet : p.token.type ≠ .let_t) (hret : p.token.type ≠ .return_t)
    (hsemi : p.token.type ≠ .semicolon_t)
    (h : d.expression .lowest_p p = .ok (some e, p1)) :
    parse_statement d p
      = .ok (some (.ExpressionStatement (some e)),
          if p1.peek.type = .semicolon_t then p1.advance else p1) := by
  have hs : parse_statement d p = parse_expression_statement d p := by
    unfold parse_statement
    rw [Parse.bind_of_ok (cur_token_apply p)]
    cases ht : p.token.type <;>
      first
      | rfl
      | exact absurd ht hlet
      | exact absurd ht hret
  rw [hs]
  unfold parse_expression_statement
  rw [Parse.bind_of_ok (cur_token_type_is_apply _ p)]
  have hb : (p.token.type == TokenType.semicolon_t) = false := by simpa using hsemi
  simp only [hb, Bool.false_eq_true, if_false]
  rw [Parse.bind_of_ok h]
  simp only []
  show (skip_semicolon >>= _) p1 = _
  by_cases hp : p1.peek.type = .semicolon_t
  · have := skip_semicolon_apply p1
    simp only [hp, if_true] at this
    rw [Parse.bind_of_ok this]
    simp only [hp, if_true]
    rfl
  · have := skip_semicolon_apply p1
    simp only [hp, if_false] at this
    rw [Parse.bind_of_ok this]
    simp only [hp, if_false]
    rfl

/-- A program of one statement: the loop of `parse` when the statement is parsed and the
token after it is `eof`. -/
theorem parse_single_statement (fuel : Nat) (p p1 : Parser) (stmt : Statement)
    (hne : p.token.type ≠ .eof_t)
    (h : (descend (fuel + 2)).statement p = .ok (some stmt, p1))
    (heof : p1.peek.type = .eof_t) :
    parse (fuel + 2) p = .ok (⟨[stmt]⟩, p1.advance) := by
  unfold parse
  have hl : parse_loop (fuel + 2) (fuel + 2) [] p = .ok ([stmt], p1.advance) := by
    unfold parse_loop
    rw [Parse.bind_of_ok (cur_token_type_is_apply _ p)]
    have hb : (p.token.type == TokenType.eof_t) = false := by simpa using hne
    simp only [hb, Bool.false_eq_true, if_false]
    rw [Parse.bind_of_ok h]
    simp only []
    rw [Parse.bind_of_ok (next_token_apply p1)]
    unfold parse_loop
    rw [Parse.bind_of_ok (cur_token_type_is_apply _ p1.advance)]
    have hb2 : (p1.advance.token.type == TokenType.eof_t) = true := by
      show (p1.peek.type == TokenType.eof_t) = true
      simp [heof]
    simp only [hb2, if_true]
    rfl
  rw [Parse.bind_of_ok hl]
  rfl

/-- An atomic token followed by a token that does not bind tighter than `precedence` is
the whole expression. -/
theorem parse_expression_operand (d : Descent) (n : Nat) (precedence : Precedence)
    (p : Parser) (e : Expression) (h : p.token.atom = some e)
    (hstop : p.peek.type = .semicolon_t ∨ ¬ precedence.rank < p.peek.type.precedence.rank) :
    parse_expression d (n + 1) precedence p = .ok (some e, p) := by
  rw [parse_expression_atom d (n + 1) precedence p e h]
  exact parse_expression_loop_stop d (n + 1) precedence n (some e) p hstop

theorem tokenize_length (fuel : Nat) (lexer : Lexer) (tokens : List Token)
    (h : tokenize fuel lexer = some tokens) : tokens.length ≤ fuel := by
  induction fuel generalizing lexer tokens with
  | zero => cases h
  | succ k ih =>
    simp only [tokenize] at h
    split at h
    · cases h
    · next token lexer1 hr =>
      split at h
      · cases h
        simp
      · split at h
        · cases h
        · next rest hrest =>
          cases h
          have := ih lexer1 rest hrest
          simp only [List.length_cons]
          omega

theorem parse_input_of_tokens (fuel : Nat) (input : String) (tokens : List Token)
    (program : Program) (p1 : Parser)
    (h : tokenize fuel (Lexer.new input) = some tokens)
    (hp : parse fuel (Parser.of_tokens tokens) = .ok (program, p1)) :
    parse_input fuel input = .ok (program, p1.errors) := by
  unfold parse_input Parser.new
  simp only [h, hp]

/-- The parse of the tokens `a o1 b o2 c`: the expression the loop of `parse_expression`
builds, by the precedences of the two operators. -/
theorem parse_binary_chain (k : Nat) (a o1 b o2 c : Token) (ea eb ec : Expression)
    (ha : a.atom = some ea) (hb : b.atom = some eb) (hc : c.atom = some ec)
    (h1 : o1.type.is_binary_operator) (h2 : o2.type.is_binary_operator) :
    ∃ p1 : Parser, p1.errors = [] ∧
      parse (k + 5) (Parser.of_tokens [a, o1, b, o2, c, Token.eof])
        = .ok (⟨[.ExpressionStatement (some
            (if o1.type.precedence.rank < o2.type.precedence.rank then
              .InfixExpression (some ea) o1.literal
                (some (.InfixExpression (some eb) o2.literal (some ec)))
            else
              .InfixExpression (some (.InfixExpression (some ea) o1.literal (some eb)))
                o2.literal (some ec)))]⟩, p1) := by
  obtain ⟨-, -, h1lo, h1hi, -⟩ := TokenType.is_binary_operator_spec h1
  obtain ⟨-, -, h2lo, h2hi, -⟩ := TokenType.is_binary_operator_spec h2
  obtain ⟨haeof, hasemi, halet, haret⟩ := Token.atom_type ha
  let p0 := Parser.of_tokens [a, o1, b, o2, c, Token.eof]
  let p2 := p0.advance.advance
  let p4 := p2.advance.advance
  have hstop4 : ∀ precedence : Precedence, 1 ≤ precedence.rank →
      (p4.peek.type = .semicolon_t ∨ ¬ precedence.rank < p4.peek.type.precedence.rank) := by
    intro precedence hr
    right
    show ¬ precedence.rank < 1
    omega
  have hlast : ∀ (d : Descent) (n : Nat) (precedence : Precedence), 1 ≤ precedence.rank →
      parse_expression d (n + 1) precedence p4 = .ok (some ec, p4) :=
    fun d n precedence hr => parse_expression_operand d n precedence p4 ec hc (hstop4 _ hr)
  refine ⟨p4.advance, rfl, ?_⟩
  refine parse_single_statement (k + 3) p0 p4 _ haeof ?_ rfl
  show parse_statement (descend (k + 4)) p0 = _
  have hexpr : (descend (k + 4)).expression .lowest_p p0
      = .ok (some (if o1.type.precedence.rank < o2.type.precedence.rank then
              .InfixExpression (some ea) o1.literal
                (some (.InfixExpression (some eb) o2.literal (some ec)))
            else
              .InfixExpression (some (.InfixExpression (some ea) o1.literal (some eb)))
                o2.literal (some ec)), p4) := by
    show parse_expression (descend (k + 3)) (k + 3) .lowest_p p0 = _
    rw [parse_expression_atom _ _ _ p0 ea ha]
    rw [parse_expression_loop_binary (descend (k + 3)) (k + 3) .lowest_p (k + 2) (some ea) p0
      h1 (by show 1 < o1.type.precedence.rank; omega)]
    show (parse_expression (descend (k + 2)) (k + 2) o1.type.precedence >>= _) p2 = _
    by_cases hlt : o1.type.precedence.rank < o2.type.precedence.rank
    · simp only [hlt, if_true]
      have hinner : parse_expression (descend (k + 2)) (k + 2) o1.type.precedence p2
          = .ok (some (.InfixExpression (some eb) o2.literal (some ec)), p4) := by
        rw [parse_expression_atom _ _ _ p2 eb hb]
        rw [parse_expression_loop_binary (descend (k + 2)) (k + 2) o1.type.precedence (k + 1)
          (some eb) p2 h2 hlt]
        show (parse_expression (descend (k + 1)) (k + 1) o2.type.precedence >>= _) p4 = _
        rw [Parse.bind_of_ok (hlast _ k _ (by omega))]
        exact parse_expression_loop_stop _ _ _ k _ p4 (hstop4 _ (by omega))
      rw [Parse.bind_of_ok hinner]
      exact parse_expression_loop_stop _ _ _ (k + 1) _ p4 (hstop4 _ (by decide))
    · simp only [hlt, if_false]
      have hinner : parse_expression (descend (k + 2)) (k + 2) o1.type.precedence p2
          = .ok (some eb, p2) :=
        parse_expression_operand _ _ _ p2 eb hb (Or.inr hlt)
      rw [Parse.bind_of_ok hinner]
      rw [parse_expression_loop_binary (descend (k + 3)) (k + 3) .lowest_p (k + 1) _ p2
        h2 (by show 1 < o2.type.precedence.rank; omega)]
      show (parse_expression (descend (k + 2)) (k + 2) o2.type.precedence >>= _) p4 = _
      rw [Parse.bind_of_ok (hlast _ (k + 1) _ (by omega))]
      exact parse_expression_loop_stop _ _ _ k _ p4 (hstop4 _ (by decide))
  rw [parse_statement_expression (descend (k + 4)) p0 p4 _ halet haret hasemi hexpr]
  rfl

/-- The parse of the tokens `u a o b` for a prefix operator `u`: the operand of `u` is `a`
alone. -/
theorem parse_unary_then_binary (k : Nat) (u a o b : Token) (ea eb : Expression)
    (hu : u.type = .minus_t ∨ u.type = .bang_t)
    (ha : a.atom = some ea) (hb : b.atom = some eb) (ho : o.type.is_binary_operator) :
    ∃ p1 : Parser, p1.errors = [] ∧
      parse (k + 5) (Parser.of_tokens [u, a, o, b, Token.eof])
        = .ok (⟨[.ExpressionStatement (some
            (.InfixExpression (some (.PrefixExpression u.literal (some ea))) o.literal
              (some eb)))]⟩, p1) := by
  obtain ⟨-, -, holo, hohi, -⟩ := TokenType.is_binary_operator_spec ho
  let p0 := Parser.of_tokens [u, a, o, b, Token.eof]
  let p1 := p0.advance
  let p3 := p1.advance.advance
  have hueof : p0.token.type ≠ .eof_t := by
    show u.type ≠ _
    rcases hu with h | h <;> rw [h] <;> decide
  have hulet : p0.token.type ≠ .let_t := by
    show u.type ≠ _
    rcases hu with h | h <;> rw [h] <;> decide
  have huret : p0.token.type ≠ .return_t := by
    show u.type ≠ _
    rcases hu with h | h <;> rw [h] <;> decide
  have husemi : p0.token.type ≠ .semicolon_t := by
    show u.type ≠ _
    rcases hu with h | h <;> rw [h] <;> decide
  have hstop3 : ∀ precedence : Precedence, 1 ≤ precedence.rank →
      (p3.peek.type = .semicolon_t ∨ ¬ precedence.rank < p3.peek.type.precedence.rank) := by
    intro precedence hr
    right
    show ¬ precedence.rank < 1
    omega
  refine ⟨p3.advance, rfl, ?_⟩
  refine parse_single_statement (k + 3) p0 p3 _ hueof ?_ rfl
  show parse_statement (descend (k + 4)) p0 = _
  have hexpr : (descend (k + 4)).expression .lowest_p p0
      = .ok (some (.InfixExpression (some (.PrefixExpression u.literal (some ea))) o.literal
              (some eb)), p3) := by
    show parse_expression (descend (k + 3)) (k + 3) .lowest_p p0 = _
    rw [parse_expression_unary _ _ _ p0 hu]
    show (parse_expression (descend (k + 2)) (k + 2) .prefix_p >>= _) p1 = _
    have hoperand : parse_expression (descend (k + 2)) (k + 2) .prefix_p p1
        = .ok (some ea, p1) :=
      parse_expression_operand _ _ _ p1 ea ha
        (Or.inr (by show ¬ 6 < o.type.precedence.rank; omega))
    rw [Parse.bind_of_ok hoperand]
    rw [parse_expression_loop_binary (descend (k + 3)) (k + 3) .lowest_p (k + 2) _ p1
      ho (by show 1 < o.type.precedence.rank; omega)]
    show (parse_expression (descend (k + 2)) (k + 2) o.type.precedence >>= _) p3 = _
    rw [Parse.bind_of_ok (parse_expression_operand _ (k + 1) _ p3 eb hb (hstop3 _ (by omega)))]
    exact parse_expression_loop_stop _ _ _ (k + 1) _ p3 (hstop3 _ (by decide))
  rw [parse_statement_expression (descend (k + 4)) p0 p3 _ hulet huret husemi hexpr]
  rfl

/-! ## Precedence of operators -/

/-- C24: when the tokens of an input are `a o1 b o2 c`, with atomic operands and two binary
operators, the parse is the one statement `(a o1 (b o2 c))` if `o2` has a higher precedence
than `o1` and `((a o1 b) o2 c)` otherwise, and there is no error; when the tokens are
`u a o b` with `u` one of the prefix operators `-` and `!` and `o` a binary operator, the
parse is `((u a) o b)`; and with fuel for their ten tokens at most, `-1+2*3<=false`,
`!false==true` and `1 + 2 + -1 + -2` are rendered `(((-1) + (2 * 3)) <= false)`,
`((!false) == true)` and `(((1 + 2) + (-1)) + (-2))`. -/
theorem operators_bind_by_precedence :
    (∀ (fuel : Nat) (input : String) (a o1 b o2 c : Token) (ea eb ec : Expression),
      tokenize fuel (Lexer.new input) = some [a, o1, b, o2, c, Token.eof] →
      a.atom = some ea → b.atom = some eb → c.atom = some ec →
      o1.type.is_binary_operator → o2.type.is_binary_operator →
      parse_input fuel input
        = .ok (⟨[.ExpressionStatement (some
            (if o1.type.precedence.rank < o2.type.precedence.rank then
              .InfixExpression (some ea) o1.literal
                (some (.InfixExpression (some eb) o2.literal (some ec)))
            else
              .InfixExpression (some (.InfixExpression (some ea) o1.literal (some eb)))
                o2.literal (some ec)))]⟩, [])) ∧
    (∀ (fuel : Nat) (input : String) (u a o b : Token) (ea eb : Expression),
      tokenize fuel (Lexer.new input) = some [u, a, o, b, Token.eof] →
      (u.type = .minus_t ∨ u.type = .bang_t) →
      a.atom = some ea → b.atom = some eb → o.type.is_binary_operator →
      parse_input fuel input
        = .ok (⟨[.ExpressionStatement (some
            (.InfixExpression (some (.PrefixExpression u.literal (some ea))) o.literal
              (some eb)))]⟩, [])) ∧
    (∀ fuel : Nat, 10 ≤ fuel →
      parse_summary fuel "-1+2*3<=false" = .ok ([some "(((-1) + (2 * 3)) <= false)"], []) ∧
      parse_summary fuel "!false==true" = .ok ([some "((!false) == true)"], []) ∧
      parse_summary fuel "1 + 2 + -1 + -2"
        = .ok ([some "(((1 + 2) + (-1)) + (-2))"], [])) := by
  refine ⟨?_, ?_, ?_⟩
  · intro fuel input a o1 b o2 c ea eb ec ht ha hb hc h1 h2
    have hl := tokenize_length _ _ _ ht
    obtain ⟨k, rfl⟩ : ∃ k, fuel = k + 5 := ⟨fuel - 5, by simp at hl; omega⟩
    obtain ⟨p1, he, hp⟩ := parse_binary_chain k a o1 b o2 c ea eb ec ha hb hc h1 h2
    rw [parse_input_of_tokens _ _ _ _ _ ht hp, he]
  · intro fuel input u a o b ea eb ht hu ha hb ho
    have hl := tokenize_length _ _ _ ht
    obtain ⟨k, rfl⟩ : ∃ k, fuel = k + 5 := ⟨fuel - 5, by simp at hl; omega⟩
    obtain ⟨p1, he, hp⟩ := parse_unary_then_binary k u a o b ea eb hu ha hb ho
    rw [parse_input_of_tokens _ _ _ _ _ ht hp, he]
  · intro fuel hf
    exact ⟨parse_summary_mono hf _ _ (by decide!), parse_summary_mono hf _ _ (by decide!),
      parse_summary_mono hf _ _ (by decide!)⟩

/-- C24 on concrete inputs: `1 + 2 * 3` is parsed as `1 + (2 * 3)`, `1 * 2 + 3` and
`1 - 2 - 3` as `(1 * 2) + 3` and `(1 - 2) - 3`, `-a * b` as `(-a) * b`, and the three
renderings of the claim are the ones of a parse with fuel 10. -/
theorem operators_bind_by_precedence_witness :
    parse_input 6 "1 + 2 * 3"
      = .ok (⟨[.ExpressionStatement (some (.InfixExpression (some (.IntegerLiteral 1)) "+"
          (some (.InfixExpression (some (.IntegerLiteral 2)) "*"
            (some (.IntegerLiteral 3))))))]⟩, []) ∧
    parse_input 6 "1 * 2 + 3"
      = .ok (⟨[.ExpressionStatement (some (.InfixExpression
          (some (.InfixExpression (some (.IntegerLiteral 1)) "*" (some (.IntegerLiteral 2))))
          "+" (some (.IntegerLiteral 3))))]⟩, []) ∧
    parse_input 6 "1 - 2 - 3"
      = .ok (⟨[.ExpressionStatement (some (.InfixExpression
          (some (.InfixExpression (some (.IntegerLiteral 1)) "-" (some (.IntegerLiteral 2))))
          "-" (some (.IntegerLiteral 3))))]⟩, []) ∧
    parse_input 5 "-a * b"
      = .ok (⟨[.ExpressionStatement (some (.InfixExpression
          (some (.PrefixExpression "-" (some (.Identifier "a")))) "*"
          (some (.Identifier "b"))))]⟩, []) ∧
    parse_summary 10 "-1+2*3<=false" = .ok ([some "(((-1) + (2 * 3)) <= false)"], []) ∧
    parse_summary 10 "!false==true" = .ok ([some "((!false) == true)"], []) ∧
    parse_summary 10 "1 + 2 + -1 + -2" = .ok ([some "(((1 + 2) + (-1)) + (-2))"], []) :=
  have h := operators_bind_by_precedence
  ⟨h.1 6 "1 + 2 * 3" ⟨.int_t, "1"⟩ ⟨.plus_t, "+"⟩ ⟨.int_t, "2"⟩ ⟨.asterisk_t, "*"⟩
      ⟨.int_t, "3"⟩ _ _ _ (by decide!) rfl rfl rfl rfl rfl,
    h.1 6 "1 * 2 + 3" ⟨.int_t, "1"⟩ ⟨.asterisk_t, "*"⟩ ⟨.int_t, "2"⟩ ⟨.plus_t, "+"⟩
      ⟨.int_t, "3"⟩ _ _ _ (by decide!) rfl rfl rfl rfl rfl,
    h.1 6 "1 - 2 - 3" ⟨.int_t, "1"⟩ ⟨.minus_t, "-"⟩ ⟨.int_t, "2"⟩ ⟨.minus_t, "-"⟩
      ⟨.int_t, "3"⟩ _ _ _ (by decide!) rfl rfl rfl rfl rfl,
    h.2.1 5 "-a * b" ⟨.minus_t, "-"⟩ ⟨.ident_t, "a"⟩ ⟨.asterisk_t, "*"⟩ ⟨.ident_t, "b"⟩
      _ _ (by decide!) (Or.inl rfl) rfl rfl rfl,
    (h.2.2 10 (by decide)).1, (h.2.2 10 (by decide)).2.1, (h.2.2 10 (by decide)).2.2⟩

/-! ## Errors of `let` -/

theorem Statement.integer_value_spec {stmt : Statement} {value : Int}
    (h : stmt.integer_value = some value) :
    stmt = .ExpressionStatement (some (.IntegerLiteral value)) := by
  unfold Statement.integer_value at h
  split at h
  · cases h
    rfl
  · cases h

theorem parse_input_of_integers {fuel : Nat} {input : String} (values : List Int)
    {errors : List String}
    (h : parse_integers fuel input = .ok (values.map some, errors)) :
    parse_input fuel input
      = .ok (⟨values.map fun value => .ExpressionStatement (some (.IntegerLiteral value))⟩,
          errors) := by
  unfold parse_integers at h
  split at h
  · cases h
  · next program errs hp =>
    simp only [Except.ok.injEq, Prod.mk.injEq] at h
    obtain ⟨hv, rfl⟩ := h
    rw [hp]
    obtain ⟨stmts⟩ := program
    simp only [Except.ok.injEq, Prod.mk.injEq, and_true, Program.mk.injEq]
    simp only [] at hv
    clear hp
    induction stmts generalizing values with
    | nil =>
      cases values with
      | nil => rfl
      | cons v vs => simp at hv
    | cons s ss ih =>
      cases values with
      | nil => simp at hv
      | cons v vs =>
        simp only [List.map_cons, List.cons.injEq] at hv ⊢
        exact ⟨Statement.integer_value_spec hv.1, ih vs hv.2⟩

theorem parse_integers_mono {n1 n2 : Nat} (hn : n1 ≤ n2) (input : String)
    (r : List (Option Int) × List String) (h : parse_integers n1 input = .ok r) :
    parse_integers n2 input = .ok r := by
  unfold parse_integers at h ⊢
  split at h
  · cases h
  · next program errors hp =>
    rw [parse_input_mono hn _ _ hp]
    exact h

theorem parse_let_statement_without_identifier (d : Descent) (p : Parser)
    (h : p.peek.type ≠ .ident_t) :
    parse_let_statement d p
      = .ok (none, p.report (error_text_token .ident_t p.peek)) := by
  unfold parse_let_statement
  have he := expect_or_error_apply .ident_t p
  simp only [h, if_false] at he
  rw [Parse.bind_of_ok he]
  rfl

theorem parse_statement_let (d : Descent) (p : Parser) (h : p.token.type = .let_t) :
    parse_statement d p = parse_let_statement d p := by
  unfold parse_statement
  rw [Parse.bind_of_ok (cur_token_apply p), h]

theorem error_text_token_eq (type : TokenType) (token : Token) :
    error_text_token type token
      = "expected next token to be `" ++ type.to_string ++ "`, got `" ++ token.literal
        ++ "` instead at literal `" ++ token.literal ++ "`" := rfl

/-- C26: in a state whose current token is `let` and whose next token `found` is not an
identifier, `parse_let_statement`, and so `parse_statement`, returns no statement and
appends the one error `expected next token to be ident, got L instead at literal L`, with
the literal `L` of `found` between backquotes, touching nothing else; the `next_token` of
the loop of `parse` then makes `found` the current token, with which the next statement
starts. For the input of `TestLetStatementError` the parse, with fuel for its ten tokens,
gives the two statements `1` and `1` and exactly the four errors of the test. -/
theorem let_without_identifier_is_reported (d : Descent) (p : Parser)
    (hlet : p.token.type = .let_t) (h : p.peek.type ≠ .ident_t) :
    parse_let_statement d p
      = .ok (none, p.report ("expected next token to be `ident`, got `" ++ p.peek.literal
          ++ "` instead at literal `" ++ p.peek.literal ++ "`")) ∧
    parse_statement d p
      = .ok (none, p.report ("expected next token to be `ident`, got `" ++ p.peek.literal
          ++ "` instead at literal `" ++ p.peek.literal ++ "`")) ∧
    (parse_statement d >>= fun _ => next_token) p
      = .ok (p.peek, { p with
          cur := p.nxt, nxt := p.nxt + 1, token := p.peek,
          errors := p.errors ++ ["expected next token to be `ident`, got `" ++ p.peek.literal
            ++ "` instead at literal `" ++ p.peek.literal ++ "`"] }) ∧
    ∀ fuel : Nat, 10 ≤ fuel →
      parse_input fuel let_error_input
        = .ok (⟨[.ExpressionStatement (some (.IntegerLiteral 1)),
              .ExpressionStatement (some (.IntegerLiteral 1))]⟩,
            ["expected next token to be `ident`, got `1` instead at literal `1`",
              "no `prefix parse function` found for `=`",
              "no `prefix parse function` found for `;`",
              "no `expression` found for `let`"]) := by
  have h1 := parse_let_statement_without_identifier d p h
  rw [error_text_token_eq] at h1
  have h2 : parse_statement d p = _ := (parse_statement_let d p hlet).trans h1
  refine ⟨h1, h2, ?_, fun fuel hf => ?_⟩
  · rw [Parse.bind_of_ok h2]
    rfl
  · exact parse_input_of_integers [1, 1]
      (parse_integers_mono hf _ _ (by decide!))

/-- C26 on a concrete input: in the state the constructor leaves for the tokens of
`let 1 = 1;`, the statement function appends the error for the token `1` and the loop
then stands on that token; and the parse of the input of the test with fuel 10. -/
theorem let_without_identifier_is_reported_witness :
    parse_statement (descend 3) (Parser.of_tokens
        [⟨.let_t, "let"⟩, ⟨.int_t, "1"⟩, ⟨.assign_t, "="⟩, ⟨.int_t, "1"⟩,
          ⟨.semicolon_t, ";"⟩, Token.eof])
      = .ok (none, (Parser.of_tokens
        [⟨.let_t, "let"⟩, ⟨.int_t, "1"⟩, ⟨.assign_t, "="⟩, ⟨.int_t, "1"⟩,
          ⟨.semicolon_t, ";"⟩, Token.eof]).report
        "expected next token to be `ident`, got `1` instead at literal `1`") ∧
    (parse_statement (descend 3) >>= fun _ => next_token) (Parser.of_tokens
        [⟨.let_t, "let"⟩, ⟨.int_t, "1"⟩, ⟨.assign_t, "="⟩, ⟨.int_t, "1"⟩,
          ⟨.semicolon_t, ";"⟩, Token.eof])
      = .ok (⟨.int_t, "1"⟩,
        { tokens := [⟨.let_t, "let"⟩, ⟨.int_t, "1"⟩, ⟨.assign_t, "="⟩, ⟨.int_t, "1"⟩,
            ⟨.semicolon_t, ";"⟩, Token.eof],
          cur := 1, nxt := 2, token := ⟨.int_t, "1"⟩,
          errors := ["expected next token to be `ident`, got `1` instead at literal `1`"] }) ∧
    parse_input 10 let_error_input
      = .ok (⟨[.ExpressionStatement (some (.IntegerLiteral 1)),
            .ExpressionStatement (some (.IntegerLiteral 1))]⟩,
          ["expected next token to be `ident`, got `1` instead at literal `1`",
            "no `prefix parse function` found for `=`",
            "no `prefix parse function` found for `;`",
            "no `expression` found for `let`"]) :=
  have h := let_without_identifier_is_reported (descend 3) (Parser.of_tokens
    [⟨.let_t, "let"⟩, ⟨.int_t, "1"⟩, ⟨.assign_t, "="⟩, ⟨.int_t, "1"⟩,
      ⟨.semicolon_t, ";"⟩, Token.eof]) rfl (by decide)
  ⟨h.2.1, h.2.2.1, h.2.2.2 10 (by decide)⟩

/-- C27 as stated fails: the parse of the input of `TestLetStatementError` records four
error strings, not two. -/
theorem let_error_count_counterexample :
    ∃ (program : Program) (errors : List String),
      parse_input 10 let_error_input = .ok (program, errors) ∧ errors.length = 4 ∧
        errors.length ≠ 2 :=
  ⟨_, ["expected next token to be `ident`, got `1` instead at literal `1`",
      "no `prefix parse function` found for `=`",
      "no `prefix parse function` found for `;`",
      "no `expression` found for `let`"],
    parse_input_of_integers [1, 1] (by decide!), rfl, by decide⟩

/-- C27 amended: the parse of that input, with fuel for its ten tokens, records exactly four
error strings, the expected identifier, two missing prefix parse functions for `=` and
`;`, and the missing expression of the second `let`, and recovers a list of two
statements, which is not empty. -/
theorem let_error_input_yields_four_errors (k : Nat) :
    ∃ (program : Program) (errors : List String),
      parse_input (k + 10) let_error_input = .ok (program, errors) ∧
      errors = ["expected next token to be `ident`, got `1` instead at literal `1`",
        "no `prefix parse function` found for `=`",
        "no `prefix parse function` found for `;`",
        "no `expression` found for `let`"] ∧
      errors.length = 4 ∧ program.statements.length = 2 ∧ program.statements ≠ [] :=
  ⟨_, ["expected next token to be `ident`, got `1` instead at literal `1`",
      "no `prefix parse function` found for `=`",
      "no `prefix parse function` found for `;`",
      "no `expression` found for `let`"],
    parse_input_of_integers [1, 1]
      (parse_integers_mono (by omega : 10 ≤ k + 10) _ _ (by decide!)), rfl, rfl, rfl,
    by simp⟩

/-- C28 as stated fails: the error for the token `1` found where an identifier is expected
has the literal `1` after `got`, not the kind name `int`; this is the first error of the
parse of `let 1 = 1;`. -/
theorem mismatch_error_counterexample :
    error_text_token .ident_t ⟨.int_t, "1"⟩
      = "expected next token to be `ident`, got `1` instead at literal `1`" ∧
    error_text_token .ident_t ⟨.int_t, "1"⟩
      ≠ "expected next token to be `ident`, got `int` instead at literal `1`" ∧
    parse_summary 6 "let 1 = 1;"
      = .ok ([some "1", some "1"],
          ["expected next token to be `ident`, got `1` instead at literal `1`",
            "no `prefix parse function` found for `=`"]) := by
  refine ⟨rfl, by decide, by decide!⟩

/-- C28 amended: the error `parse_error(type, token)` appends is
`expected next token to be K1, got L instead at literal L`, each of the three between
backquotes, where `K1` is the kind name of the expected type and `L`, twice, the literal
of the token found, which is what `Token::to_string()` returns; and this is the error
`expect_token_type_is` followed by `parse_error` records when the next token is not of the
expected type. -/
theorem mismatch_error_names_literal_twice (type : TokenType) (token : Token) (p : Parser) :
    parse_error_token type token p
      = .ok ((), { p with errors := p.errors ++ ["expected next token to be `"
          ++ type.to_string ++ "`, got `" ++ token.literal ++ "` instead at literal `"
          ++ token.literal ++ "`"] }) ∧
    (p.peek.type ≠ type →
      expect_or_error type p
        = .ok (false, { p with errors := p.errors ++ ["expected next token to be `"
            ++ type.to_string ++ "`, got `" ++ p.peek.literal ++ "` instead at literal `"
            ++ p.peek.literal ++ "`"] })) := by
  refine ⟨rfl, fun h => ?_⟩
  have he := expect_or_error_apply type p
  simp only [h, if_false] at he
  rw [he]
  rfl

/-- C28 on a concrete input: where a `right_paren` is expected and the token `1` of kind
`int` is found, the error names the literal `1` twice. -/
theorem mismatch_error_names_literal_twice_witness :
    expect_or_error .right_paren_t
        (Parser.of_tokens [⟨.left_paren_t, "("⟩, ⟨.int_t, "1"⟩, Token.eof])
      = .ok (false, { Parser.of_tokens [⟨.left_paren_t, "("⟩, ⟨.int_t, "1"⟩, Token.eof] with
          errors := ["expected next token to be `right_paren`, got `1` instead at literal `1`"] }) :=
  (mismatch_error_names_literal_twice .right_paren_t ⟨.int_t, "1"⟩
    (Parser.of_tokens [⟨.left_paren_t, "("⟩, ⟨.int_t, "1"⟩, Token.eof])).2 (by decide)

/-! ## Blocks ended by the end of the input -/

theorem expect_right_brace_eof (p : Parser) (h : p.peek = Token.eof) :
    expect_or_error .right_brace_t p
      = .ok (false, p.report
          "expected next token to be `right_brace`, got `EOF` instead at literal `EOF`") := by
  have he := expect_or_error_apply .right_brace_t p
  have hne : p.peek.type ≠ .right_brace_t := by
    rw [h]
    decide
  simp only [hne, if_false] at he
  rw [he, h]
  have ht : error_text_token .right_brace_t Token.eof
      = "expected next token to be `right_brace`, got `EOF` instead at literal `EOF`" := by
    decide
  rw [ht]

/-- C29 as stated fails: the parses of `fn () \x7b 1` and of `if (true) \x7b 1` record an
error for the closing brace that is missing, and no statement. -/
theorem unclosed_block_counterexample :
    parse_summary 6 "fn () \x7b 1"
      = .ok ([], ["expected next token to be `right_brace`, got `EOF` instead at literal `EOF`"]) ∧
    parse_summary 7 "if (true) \x7b 1"
      = .ok ([], ["expected next token to be `right_brace`, got `EOF` instead at literal `EOF`"]) := by
  refine ⟨by decide!, by decide!⟩

/-- C29 amended: `parse_block_statement` records no error when the end of the input ends
its loop, but the function that called it does. When the header of a function literal is
parsed and the loop of its body ends with `EOF` as the next token, `parse_function_literal`
appends `expected next token to be right_brace, got EOF instead at literal EOF`, with
backquotes, to the errors the body left, and returns no expression; `parse_if_expression`
does the same when its consequence ends so, and when its alternative does. With fuel for
their tokens, the parses of `fn () \x7b 1` and `if (true) \x7b 1` have this one error and no
statement. -/
theorem unclosed_block_is_reported (d : Descent) (turns : Nat) :
    (∀ (p : Parser) (stmts : List Statement), p.peek.type = .eof_t →
      parse_block_statement_loop d (turns + 1) stmts p = .ok (stmts, p)) ∧
    (∀ (p pa pb pc p1 p2 : Parser) (parameters : List String) (body : Option BlockStatement),
      expect_or_error .left_paren_t p = .ok (true, pa) →
      parse_parameters_loop turns [] pa = .ok (some parameters, pb) →
      expect_or_error .right_paren_t pb = .ok (true, pc) →
      expect_or_error .left_brace_t pc = .ok (true, p1) →
      parse_block_statement d turns p1 = .ok (body, p2) →
      p2.peek = Token.eof →
      parse_function_literal d turns p
        = .ok (none, p2.report
            "expected next token to be `right_brace`, got `EOF` instead at literal `EOF`")) ∧
    (∀ (p pa pb pc p1 p2 : Parser) (condition : Expression)
      (consequence : Option BlockStatement),
      expect_or_error .left_paren_t p = .ok (true, pa) →
      d.expression .lowest_p pa.advance = .ok (some condition, pb) →
      expect_or_error .right_paren_t pb = .ok (true, pc) →
      expect_or_error .left_brace_t pc = .ok (true, p1) →
      parse_block_statement d turns p1 = .ok (consequence, p2) →
      p2.peek = Token.eof →
      parse_if_expression d turns p
        = .ok (none, p2.report
            "expected next token to be `right_brace`, got `EOF` instead at literal `EOF`")) ∧
    (∀ (p pa pb pc p1 p2 p3 p4 p5 : Parser) (condition : Expression)
      (consequence alternative : Option BlockStatement),
      expect_or_error .left_paren_t p = .ok (true, pa) →
      d.expression .lowest_p pa.advance = .ok (some condition, pb) →
      expect_or_error .right_paren_t pb = .ok (true, pc) →
      expect_or_error .left_brace_t pc = .ok (true, p1) →
      parse_block_statement d turns p1 = .ok (consequence, p2) →
      expect_or_error .right_brace_t p2 = .ok (true, p3) →
      p3.peek.type = .else_t →
      expect_or_error .left_brace_t p3.advance = .ok (true, p4) →
      parse_block_statement d turns p4 = .ok (alternative, p5) →
      p5.peek = Token.eof →
      parse_if_expression d turns p
        = .ok (none, p5.report
            "expected next token to be `right_brace`, got `EOF` instead at literal `EOF`")) ∧
    (∀ fuel : Nat, 7 ≤ fuel →
      parse_summary fuel "fn () \x7b 1"
        = .ok ([], ["expected next token to be `right_brace`, got `EOF` instead at literal `EOF`"]) ∧
      parse_summary fuel "if (true) \x7b 1"
        = .ok ([], ["expected next token to be `right_brace`, got `EOF` instead at literal `EOF`"])) := by
  refine ⟨?_, ?_, ?_, ?_, ?_⟩
  · intro p stmts h
    unfold parse_block_statement_loop
    rw [Parse.bind_of_ok (peek_token_type_is_apply _ p), Parse.bind_of_ok (peek_token_type_is_apply _ p)]
    simp only [h, beq_self_eq_true, Bool.not_true, Bool.and_false, Bool.false_eq_true, if_false]
    rfl
  · intro p pa pb pc p1 p2 parameters body h1 h2 h3 h4 h5 h6
    unfold parse_function_literal
    rw [Parse.bind_of_ok h1]
    simp only [if_true]
    rw [Parse.bind_of_ok h2]
    simp only []
    rw [Parse.bind_of_ok h3]
    simp only [if_true]
    rw [Parse.bind_of_ok h4]
    simp only [if_true]
    rw [Parse.bind_of_ok h5]
    rw [Parse.bind_of_ok (expect_right_brace_eof p2 h6)]
    rfl
  · intro p pa pb pc p1 p2 condition consequence h1 h2 h3 h4 h5 h6
    unfold parse_if_expression
    rw [Parse.bind_of_ok h1]
    simp only [if_true]
    rw [Parse.bind_of_ok (next_token_apply pa), Parse.bind_of_ok h2]
    simp only []
    rw [Parse.bind_of_ok h3]
    simp only [if_true]
    rw [Parse.bind_of_ok h4]
    simp only [if_true]
    rw [Parse.bind_of_ok h5]
    rw [Parse.bind_of_ok (expect_right_brace_eof p2 h6)]
    rfl
  · intro p pa pb pc p1 p2 p3 p4 p5 condition consequence alternative
      h1 h2 h3 h4 h5 h6 h7 h8 h9 h10
    unfold parse_if_expression
    rw [Parse.bind_of_ok h1]
    simp only [if_true]
    rw [Parse.bind_of_ok (next_token_apply pa), Parse.bind_of_ok h2]
    simp only []
    rw [Parse.bind_of_ok h3]
    simp only [if_true]
    rw [Parse.bind_of_ok h4]
    simp only [if_true]
    rw [Parse.bind_of_ok h5, Parse.bind_of_ok h6]
    simp only [if_true]
    rw [Parse.bind_of_ok (peek_token_type_is_apply _ p3)]
    simp only [h7, beq_self_eq_true, if_true]
    rw [Parse.bind_of_ok (next_token_apply p3), Parse.bind_of_ok h8]
    simp only [if_true]
    rw [Parse.bind_of_ok h9]
    rw [Parse.bind_of_ok (expect_right_brace_eof p5 h10)]
    rfl
  · intro fuel hf
    exact ⟨parse_summary_mono hf _ _ (by decide!), parse_summary_mono hf _ _ (by decide!)⟩

/-- C29 on a concrete input: in the state the constructor leaves for the tokens of
`fn () \x7b 1`, with the descent of fuel 3, the header is parsed, the body is the block of
the statement `1` and ends at `EOF`, and `parse_function_literal` returns no expression
and the error. -/
theorem unclosed_block_is_reported_witness :
    parse_function_literal (descend 3) 3 (Parser.of_tokens
        [⟨.function_t, "fn"⟩, ⟨.left_paren_t, "("⟩, ⟨.right_paren_t, ")"⟩,
          ⟨.left_brace_t, "\x7b"⟩, ⟨.int_t, "1"⟩, Token.eof])
      = .ok (none,
        { tokens := [⟨.function_t, "fn"⟩, ⟨.left_paren_t, "("⟩, ⟨.right_paren_t, ")"⟩,
            ⟨.left_brace_t, "\x7b"⟩, ⟨.int_t, "1"⟩, Token.eof],
          cur := 4, nxt := 5, token := ⟨.int_t, "1"⟩,
          errors := ["expected next token to be `right_brace`, got `EOF` instead at literal `EOF`"] }) ∧
    parse_summary 7 "fn () \x7b 1"
      = .ok ([], ["expected next token to be `right_brace`, got `EOF` instead at literal `EOF`"]) ∧
    parse_summary 7 "if (true) \x7b 1"
      = .ok ([], ["expected next token to be `right_brace`, got `EOF` instead at literal `EOF`"]) :=
  have h := unclosed_block_is_reported (descend 3) 3
  ⟨h.2.1 (Parser.of_tokens
      [⟨.function_t, "fn"⟩, ⟨.left_paren_t, "("⟩, ⟨.right_paren_t, ")"⟩,
        ⟨.left_brace_t, "\x7b"⟩, ⟨.int_t, "1"⟩, Token.eof])
      { tokens := [⟨.function_t, "fn"⟩, ⟨.left_paren_t, "("⟩, ⟨.right_paren_t, ")"⟩,
          ⟨.left_brace_t, "\x7b"⟩, ⟨.int_t, "1"⟩, Token.eof],
        cur := 1, nxt := 2, token := ⟨.left_paren_t, "("⟩, errors := [] }
      { tokens := [⟨.function_t, "fn"⟩, ⟨.left_paren_t, "("⟩, ⟨.right_paren_t, ")"⟩,
          ⟨.left_brace_t, "\x7b"⟩, ⟨.int_t, "1"⟩, Token.eof],
        cur := 1, nxt := 2, token := ⟨.left_paren_t, "("⟩, errors := [] }
      { tokens := [⟨.function_t, "fn"⟩, ⟨.left_paren_t, "("⟩, ⟨.right_paren_t, ")"⟩,
          ⟨.left_brace_t, "\x7b"⟩, ⟨.int_t, "1"⟩, Token.eof],
        cur := 2, nxt := 3, token := ⟨.right_paren_t, ")"⟩, errors := [] }
      { tokens := [⟨.function_t, "fn"⟩, ⟨.left_paren_t, "("⟩, ⟨.right_paren_t, ")"⟩,
          ⟨.left_brace_t, "\x7b"⟩, ⟨.int_t, "1"⟩, Token.eof],
        cur := 3, nxt := 4, token := ⟨.left_brace_t, "\x7b"⟩, errors := [] }
      { tokens := [⟨.function_t, "fn"⟩, ⟨.left_paren_t, "("⟩, ⟨.right_paren_t, ")"⟩,
          ⟨.left_brace_t, "\x7b"⟩, ⟨.int_t, "1"⟩, Token.eof],
        cur := 4, nxt := 5, token := ⟨.int_t, "1"⟩, errors := [] }
      [] (some (.mk [.ExpressionStatement (some (.IntegerLiteral 1))]))
      rfl rfl rfl rfl rfl rfl,
    (h.2.2.2.2 7 (by decide)).1, (h.2.2.2.2 7 (by decide)).2⟩

/-! ## Simulation of a parse on the input with a closing `;` -/

theorem Parser.peek_of_ge (ts : List Token) (p : Parser) (h : p.tokens = ts ++ [Token.eof])
    (hge : ts.length ≤ p.nxt) : p.peek = Token.eof := by
  unfold Parser.peek
  rw [h]
  by_cases he : p.nxt = ts.length
  · rw [he]
    simp
  · rw [List.getElem?_eq_none (by simp; omega)]
    rfl

theorem Parser.lt_of_peek (ts : List Token) (p : Parser) (h : p.tokens = ts ++ [Token.eof])
    (hne : p.peek.type ≠ .eof_t) : p.nxt < ts.length := by
  by_contra hc
  rw [Parser.peek_of_ge ts p h (by omega)] at hne
  exact hne rfl

theorem Parser.peek_retoken_lt (ts : List Token) (p : Parser)
    (h : p.tokens = ts ++ [Token.eof]) (hlt : p.nxt < ts.length) :
    (p.retoken (ts ++ [Token.semicolon, Token.eof])).peek = p.peek := by
  unfold Parser.peek Parser.retoken
  rw [h]
  simp only []
  rw [List.getElem?_append_left hlt, List.getElem?_append_left hlt]

theorem Parser.peek_retoken_eq (ts : List Token) (p : Parser) (heq : p.nxt = ts.length) :
    (p.retoken (ts ++ [Token.semicolon, Token.eof])).peek = Token.semicolon := by
  unfold Parser.peek Parser.retoken
  simp only [heq]
  rw [List.getElem?_append_right (Nat.le_refl _)]
  simp

theorem Parser.advance_retoken (ts : List Token) (p : Parser)
    (h : p.tokens = ts ++ [Token.eof]) (hlt : p.nxt < ts.length) :
    (p.retoken (ts ++ [Token.semicolon, Token.eof])).advance
      = p.advance.retoken (ts ++ [Token.semicolon, Token.eof]) := by
  have hp := Parser.peek_retoken_lt ts p h hlt
  unfold Parser.advance
  rw [hp]
  rfl

/-- The type of the next token is the same over both token vectors, but for `eof` and
`;`. -/
theorem Parser.peek_type_retoken (ts : List Token) (p : Parser)
    (h : p.tokens = ts ++ [Token.eof]) (hle : p.nxt ≤ ts.length) (type : TokenType)
    (h1 : type ≠ .eof_t) (h2 : type ≠ .semicolon_t) :
    ((p.retoken (ts ++ [Token.semicolon, Token.eof])).peek.type == type)
      = (p.peek.type == type) := by
  by_cases hlt : p.nxt < ts.length
  · rw [Parser.peek_retoken_lt ts p h hlt]
  · rw [Parser.peek_retoken_eq ts p (by omega), Parser.peek_of_ge ts p h (by omega)]
    have e1 : (Token.semicolon.type == type) = false := by
      simpa [Token.semicolon] using fun e => h2 e.symm
    have e2 : (Token.eof.type == type) = false := by
      simpa [Token.eof] using fun e => h1 e.symm
    rw [e1, e2]

theorem Parse.Sim.sim_pure {α : Type} (ts : List Token) (a : α) :
    Parse.Sim ts (pure a : Parse α) := by
  intro p r p1 h
  cases h
  exact ⟨rfl, Nat.le_refl _, fun _ hle _ => ⟨hle, rfl⟩⟩

theorem Parse.Sim.sim_fault {α : Type} (ts : List Token) (f : ParseFault) :
    Parse.Sim ts (Parse.fault f : Parse α) := by
  intro p r p1 h
  cases h

theorem Parse.Sim.sim_seq {α β : Type} {ts : List Token} {x : Parse α} {f : α → Parse β}
    (hx : Parse.Sim ts x) (hf : ∀ a, Parse.Sim ts (f a)) : Parse.Sim ts (x >>= f) := by
  intro p r p2 h
  obtain ⟨a, p1, h1, h2⟩ := Parse.ok_of_bind h
  obtain ⟨t1, e1, s1⟩ := hx p a p1 h1
  obtain ⟨t2, e2, s2⟩ := hf a p1 r p2 h2
  refine ⟨t2.trans t1, by omega, fun ht hle hno => ?_⟩
  obtain ⟨n1, r1⟩ := s1 ht hle (by omega)
  obtain ⟨n2, r2⟩ := s2 (t1.trans ht) n1 (by omega)
  exact ⟨n2, by rw [Parse.bind_of_ok r1]; exact r2⟩

theorem Parse.Sim.sim_ite {α : Type} {ts : List Token} {c : Prop} [Decidable c]
    {x y : Parse α} (hx : Parse.Sim ts x) (hy : Parse.Sim ts y) :
    Parse.Sim ts (if c then x else y) := by
  split
  · exact hx
  · exact hy

/-- A computation that reads the state, but not the next token, and leaves it as it is. -/
theorem Parse.Sim.sim_read {α : Type} (ts : List Token) (x : Parse α) (f : Parser → α)
    (hx : ∀ p, x p = .ok (f p, p)) (hf : ∀ p tokens, f (p.retoken tokens) = f p) :
    Parse.Sim ts x := by
  intro p r p1 h
  rw [hx] at h
  cases h
  refine ⟨rfl, Nat.le_refl _, fun _ hle _ => ⟨hle, ?_⟩⟩
  rw [hx, hf]

theorem Parse.Sim.sim_cur_token (ts : List Token) : Parse.Sim ts cur_token :=
  Parse.Sim.sim_read ts _ (fun p => p.token) cur_token_apply (fun _ _ => rfl)

theorem Parse.Sim.sim_cur_token_type_is (ts : List Token) (type : TokenType) :
    Parse.Sim ts (cur_token_type_is type) :=
  Parse.Sim.sim_read ts _ (fun p => p.token.type == type) (cur_token_type_is_apply type)
    (fun _ _ => rfl)

theorem Parse.Sim.sim_cur_token_precedence (ts : List Token) :
    Parse.Sim ts cur_token_precedence :=
  Parse.Sim.sim_read ts _ (fun p => (t_to_p p.token.type).getD .lowest_p)
    cur_token_precedence_apply (fun _ _ => rfl)

theorem Parse.Sim.sim_stoi (ts : List Token) (literal : String) :
    Parse.Sim ts (stoi literal) := by
  unfold stoi
  simp only []
  split
  · exact Parse.Sim.sim_fault ts _
  · split
    · exact Parse.Sim.sim_pure ts _
    · exact Parse.Sim.sim_fault ts _

/-- A computation that records an error and then returns. -/
theorem Parse.Sim.sim_report {α : Type} (ts : List Token) (x : Parse α) (a : α)
    (error : Parser → String) (hx : ∀ p, x p = .ok (a, p.report (error p))) :
    Parse.Sim ts x := by
  intro p r p1 h
  rw [hx] at h
  cases h
  refine ⟨rfl, by simp [Parser.report], fun _ _ hno => ?_⟩
  simp [Parser.report] at hno

theorem Parse.Sim.sim_parse_error (ts : List Token) (str1 str2 : String) :
    Parse.Sim ts (parse_error str1 str2) :=
  Parse.Sim.sim_report ts _ () (fun _ => error_text str1 str2) (parse_error_apply str1 str2)

theorem Parse.Sim.sim_peek_token_type_is (ts : List Token) (type : TokenType)
    (h1 : type ≠ .eof_t) (h2 : type ≠ .semicolon_t) :
    Parse.Sim ts (peek_token_type_is type) := by
  intro p r p1 h
  rw [peek_token_type_is_apply] at h
  cases h
  refine ⟨rfl, Nat.le_refl _, fun ht hle _ => ⟨hle, ?_⟩⟩
  rw [peek_token_type_is_apply, Parser.peek_type_retoken ts p ht hle type h1 h2]

theorem Parse.Sim.sim_peek_token_precedence (ts : List Token) :
    Parse.Sim ts peek_token_precedence := by
  intro p r p1 h
  rw [peek_token_precedence_apply] at h
  cases h
  refine ⟨rfl, Nat.le_refl _, fun ht hle _ => ⟨hle, ?_⟩⟩
  rw [peek_token_precedence_apply]
  by_cases hlt : p.nxt < ts.length
  · rw [Parser.peek_retoken_lt ts p ht hlt]
  · rw [Parser.peek_retoken_eq ts p (by omega), Parser.peek_of_ge ts p ht (by omega)]
    rfl

theorem Parse.Sim.sim_expect_token_type_is (ts : List Token) (type : TokenType)
    (h1 : type ≠ .eof_t) (h2 : type ≠ .semicolon_t) :
    Parse.Sim ts (expect_token_type_is type) := by
  intro p r p1 h
  rw [expect_token_type_is_apply] at h
  have hpeek : ∀ (_ : p.tokens = ts ++ [Token.eof]) (_ : p.nxt ≤ ts.length),
      ((p.retoken (ts ++ [Token.semicolon, Token.eof])).peek.type = type)
        ↔ (p.peek.type = type) := by
    intro ht hle
    have := Parser.peek_type_retoken ts p ht hle type h1 h2
    constructor
    · intro e
      have e1 : ((p.retoken (ts ++ [Token.semicolon, Token.eof])).peek.type == type) = true := by
        simp [e]
      rw [this] at e1
      simpa using e1
    · intro e
      have e1 : (p.peek.type == type) = true := by simp [e]
      rw [← this] at e1
      simpa using e1
  split at h
  · next hty =>
    cases h
    refine ⟨rfl, Nat.le_refl _, fun ht hle _ => ?_⟩
    have hlt : p.nxt < ts.length := Parser.lt_of_peek ts p ht (by rw [hty]; exact h1)
    refine ⟨by show p.nxt + 1 ≤ ts.length; omega, ?_⟩
    rw [expect_token_type_is_apply, if_pos ((hpeek ht hle).2 hty),
      Parser.advance_retoken ts p ht hlt]
  · next hty =>
    cases h
    refine ⟨rfl, Nat.le_refl _, fun ht hle _ => ⟨hle, ?_⟩⟩
    rw [expect_token_type_is_apply, if_neg (fun e => hty ((hpeek ht hle).1 e))]

theorem Parse.Sim.sim_expect_or_error (ts : List Token) (type : TokenType)
    (h1 : type ≠ .eof_t) (h2 : type ≠ .semicolon_t) :
    Parse.Sim ts (expect_or_error type) := by
  refine Parse.Sim.sim_seq (Parse.Sim.sim_expect_token_type_is ts type h1 h2) fun b => ?_
  refine Parse.Sim.sim_ite (Parse.Sim.sim_pure ts _) ?_
  intro p r p2 h
  obtain ⟨token, p1, e1, e2⟩ := Parse.ok_of_bind h
  rw [peek_token_apply] at e1
  cases e1
  obtain ⟨u, p3, e3, e4⟩ := Parse.ok_of_bind e2
  rw [parse_error_token_apply] at e3
  cases e3
  cases e4
  refine ⟨rfl, by simp [Parser.report], fun _ _ hno => ?_⟩
  simp [Parser.report] at hno

theorem Parse.RejectsEof.rejects_seq {α β : Type} {ts : List Token} {x : Parse α}
    {f : α → Parse β} (hx : Parse.RejectsEof x) (hf : ∀ a, Parse.Sim ts (f a)) :
    Parse.RejectsEof (x >>= f) := by
  intro p r p2 h he
  obtain ⟨a, p1, h1, h2⟩ := Parse.ok_of_bind h
  have := hx p a p1 h1 he
  have := (hf a p1 r p2 h2).2.1
  omega

/-- The statement `next_token()` before a call that rejects `eof`. -/
theorem Parse.Sim.sim_next_then {β : Type} {ts : List Token} {g : Parse β}
    (hr : Parse.RejectsEof g) (hg : Parse.Sim ts g) :
    Parse.Sim ts (next_token >>= fun (_ : Token) => g) := by
  intro p r p2 h
  rw [Parse.bind_of_ok (next_token_apply p)] at h
  obtain ⟨t2, e2, s2⟩ := hg p.advance r p2 h
  refine ⟨t2, e2, fun ht hle hno => ?_⟩
  have hlt : p.nxt < ts.length := by
    by_contra hc
    have hpk := Parser.peek_of_ge ts p ht (by omega)
    have := hr p.advance r p2 h (by show p.peek.type = _; rw [hpk]; rfl)
    have e0 : p.advance.errors = p.errors := rfl
    rw [e0] at this
    omega
  obtain ⟨n2, r2⟩ := s2 ht (by show p.nxt + 1 ≤ ts.length; omega) hno
  refine ⟨n2, ?_⟩
  rw [Parse.bind_of_ok (next_token_apply _), Parser.advance_retoken ts p ht hlt]
  exact r2

/-- The statement `next_token()` behind a test that the next token has a given type. -/
theorem Parse.Sim.sim_guarded_next {α : Type} {ts : List Token} (type : TokenType)
    (h1 : type ≠ .eof_t) (h2 : type ≠ .semicolon_t) {g other : Parse α}
    (hg : Parse.Sim ts g) (ho : Parse.Sim ts other) :
    Parse.Sim ts (peek_token_type_is type >>= fun b =>
      if b = true then next_token >>= fun (_ : Token) => g else other) := by
  intro p r p2 h
  rw [Parse.bind_of_ok (peek_token_type_is_apply type p)] at h
  by_cases hb : p.peek.type = type
  · have hbb : (p.peek.type == type) = true := by simp [hb]
    simp only [hbb, if_true] at h
    rw [Parse.bind_of_ok (next_token_apply p)] at h
    obtain ⟨t2, e2, s2⟩ := hg p.advance r p2 h
    refine ⟨t2, e2, fun ht hle hno => ?_⟩
    have hlt : p.nxt < ts.length := Parser.lt_of_peek ts p ht (by rw [hb]; exact h1)
    obtain ⟨n2, r2⟩ := s2 ht (by show p.nxt + 1 ≤ ts.length; omega) hno
    refine ⟨n2, ?_⟩
    rw [Parse.bind_of_ok (peek_token_type_is_apply type _),
      Parser.peek_type_retoken ts p ht hle type h1 h2]
    simp only [hbb, if_true]
    rw [Parse.bind_of_ok (next_token_apply _), Parser.advance_retoken ts p ht hlt]
    exact r2
  · have hbb : (p.peek.type == type) = false := by simpa using hb
    simp only [hbb, Bool.false_eq_true, if_false] at h
    obtain ⟨t2, e2, s2⟩ := ho p r p2 h
    refine ⟨t2, e2, fun ht hle hno => ?_⟩
    obtain ⟨n2, r2⟩ := s2 ht hle hno
    refine ⟨n2, ?_⟩
    rw [Parse.bind_of_ok (peek_token_type_is_apply type _),
      Parser.peek_type_retoken ts p ht hle type h1 h2]
    simp only [hbb, Bool.false_eq_true, if_false]
    exact r2

/-! ## Simulation of the expression functions -/

theorem Parse.SimUntil.until_of_sim {α : Type} {ts : List Token} {close : TokenType}
    {x : Parse α} (hx : Parse.Sim ts x) : Parse.SimUntil ts close x := by
  intro p r p1 h
  obtain ⟨t1, e1, s1⟩ := hx p r p1 h
  exact ⟨t1, e1, fun ht hle hno _ => s1 ht hle hno⟩

theorem Parse.SimUntil.until_seq {α β : Type} {ts : List Token} {close : TokenType}
    {x : Parse α} {f : α → Parse β}
    (hx : Parse.Sim ts x) (hf : ∀ a, Parse.SimUntil ts close (f a)) :
    Parse.SimUntil ts close (x >>= f) := by
  intro p r p2 h
  obtain ⟨a, p1, h1, h2⟩ := Parse.ok_of_bind h
  obtain ⟨t1, e1, s1⟩ := hx p a p1 h1
  obtain ⟨t2, e2, s2⟩ := hf a p1 r p2 h2
  refine ⟨t2.trans t1, by omega, fun ht hle hno hc => ?_⟩
  obtain ⟨n1, r1⟩ := s1 ht hle (by omega)
  obtain ⟨n2, r2⟩ := s2 (t1.trans ht) n1 (by omega) hc
  exact ⟨n2, by rw [Parse.bind_of_ok r1]; exact r2⟩

theorem Parse.SimUntil.until_ite {α : Type} {ts : List Token} {close : TokenType} {c : Prop}
    [Decidable c] {x y : Parse α} (hx : Parse.SimUntil ts close x)
    (hy : Parse.SimUntil ts close y) : Parse.SimUntil ts close (if c then x else y) := by
  split
  · exact hx
  · exact hy

theorem Parse.SimUntil.until_next_then {β : Type} {ts : List Token} {close : TokenType}
    {g : Parse β} (hr : Parse.RejectsEof g) (hg : Parse.SimUntil ts close g) :
    Parse.SimUntil ts close (next_token >>= fun (_ : Token) => g) := by
  intro p r p2 h
  rw [Parse.bind_of_ok (next_token_apply p)] at h
  obtain ⟨t2, e2, s2⟩ := hg p.advance r p2 h
  refine ⟨t2, e2, fun ht hle hno hc => ?_⟩
  have hlt : p.nxt < ts.length := by
    by_contra hcon
    have hpk := Parser.peek_of_ge ts p ht (by omega)
    have := hr p.advance r p2 h (by show p.peek.type = _; rw [hpk]; rfl)
    have e0 : p.advance.errors = p.errors := rfl
    rw [e0] at this
    omega
  obtain ⟨n2, r2⟩ := s2 ht (by show p.nxt + 1 ≤ ts.length; omega) hno hc
  refine ⟨n2, ?_⟩
  rw [Parse.bind_of_ok (next_token_apply _), Parser.advance_retoken ts p ht hlt]
  exact r2

/-- The test of the three loops that end on a closing token or on `eof`. -/
theorem Parse.SimUntil.until_loop_head {α : Type} {ts : List Token} (close : TokenType)
    (h1 : close ≠ .eof_t) (h2 : close ≠ .semicolon_t) {body : Parse α} (a : α)
    (hbody : Parse.SimUntil ts close body) :
    Parse.SimUntil ts close (peek_token_type_is close >>= fun closing =>
      peek_token_type_is .eof_t >>= fun eof =>
        if (!closing && !eof) = true then body else pure a) := by
  intro p r p1 h
  rw [Parse.bind_of_ok (peek_token_type_is_apply close p),
    Parse.bind_of_ok (peek_token_type_is_apply .eof_t p)] at h
  by_cases hc : p.peek.type = close
  · have hb : (p.peek.type == close) = true := by simp [hc]
    simp only [hb, Bool.not_true, Bool.false_and, Bool.false_eq_true, if_false] at h
    cases h
    refine ⟨rfl, Nat.le_refl _, fun ht hle _ _ => ⟨hle, ?_⟩⟩
    rw [Parse.bind_of_ok (peek_token_type_is_apply close _),
      Parse.bind_of_ok (peek_token_type_is_apply .eof_t _),
      Parser.peek_type_retoken ts p ht hle close h1 h2]
    simp only [hb, Bool.not_true, Bool.false_and, Bool.false_eq_true, if_false]
    rfl
  · by_cases he : p.peek.type = .eof_t
    · have hb : (p.peek.type == TokenType.eof_t) = true := by simp [he]
      simp only [hb, Bool.not_true, Bool.and_false, Bool.false_eq_true, if_false] at h
      cases h
      refine ⟨rfl, Nat.le_refl _, fun _ _ _ hcl => ?_⟩
      rw [he] at hcl
      exact absurd hcl.symm h1
    · have hb1 : (p.peek.type == close) = false := by simpa using hc
      have hb2 : (p.peek.type == TokenType.eof_t) = false := by simpa using he
      simp only [hb1, hb2, Bool.not_false, Bool.and_self, if_true] at h
      obtain ⟨t1, e1, s1⟩ := hbody p r p1 h
      refine ⟨t1, e1, fun ht hle hno hcl => ?_⟩
      obtain ⟨n1, r1⟩ := s1 ht hle hno hcl
      refine ⟨n1, ?_⟩
      have hlt : p.nxt < ts.length := Parser.lt_of_peek ts p ht he
      rw [Parse.bind_of_ok (peek_token_type_is_apply close _),
        Parse.bind_of_ok (peek_token_type_is_apply .eof_t _),
        Parser.peek_retoken_lt ts p ht hlt]
      simp only [hb1, hb2, Bool.not_false, Bool.and_self, if_true]
      exact r1

/-- A loop that ends on a closing token, followed by the test that the token is there. -/
theorem Parse.Sim.sim_until_then_expect {α β : Type} {ts : List Token} (close : TokenType)
    (h1 : close ≠ .eof_t) (h2 : close ≠ .semicolon_t) {x : Parse α} {f g : α → Parse β}
    (hx : Parse.SimUntil ts close x) (hf : ∀ a, Parse.Sim ts (f a))
    (hg : ∀ a, Parse.Sim ts (g a)) :
    Parse.Sim ts (x >>= fun a => expect_or_error close >>= fun b =>
      if b = true then f a else g a) := by
  intro p r p3 h
  obtain ⟨a, p1, e1, e2⟩ := Parse.ok_of_bind h
  obtain ⟨b, p2, e3, e4⟩ := Parse.ok_of_bind e2
  obtain ⟨t1, m1, s1⟩ := hx p a p1 e1
  obtain ⟨t2, m2, s2⟩ := Parse.Sim.sim_expect_or_error ts close h1 h2 p1 b p2 e3
  have hrest : Parse.Sim ts (if b = true then f a else g a) := Parse.Sim.sim_ite (hf a) (hg a)
  obtain ⟨t3, m3, s3⟩ := hrest p2 r p3 e4
  refine ⟨t3.trans (t2.trans t1), by omega, fun ht hle hno => ?_⟩
  have hcl : p1.peek.type = close := by
    by_contra hcon
    rw [expect_or_error_apply, if_neg hcon] at e3
    cases e3
    simp [Parser.report] at m3
    omega
  obtain ⟨n1, r1⟩ := s1 ht hle (by omega) hcl
  obtain ⟨n2, r2⟩ := s2 (t1.trans ht) n1 (by omega)
  obtain ⟨n3, r3⟩ := s3 (t2.trans (t1.trans ht)) n2 (by omega)
  refine ⟨n3, ?_⟩
  rw [Parse.bind_of_ok r1, Parse.bind_of_ok r2]
  exact r3

/-- As `sim_until_then_expect`, for a loop that may return `nullptr` from the function. -/
theorem Parse.Sim.sim_option_until_then_expect {α β : Type} {ts : List Token}
    (close : TokenType) (h1 : close ≠ .eof_t) (h2 : close ≠ .semicolon_t)
    {x : Parse (Option α)} {k : Option α → Parse β}
    (hx : Parse.SimUntil ts close x) (hn : Parse.NoneReports x) (ho : Parse.Sim ts (k none))
    (hk : ∀ a, ∃ f g : Parse β,
      k (some a) = (expect_or_error close >>= fun b => if b = true then f else g) ∧
        Parse.Sim ts f ∧ Parse.Sim ts g) :
    Parse.Sim ts (x >>= k) := by
  intro p r p3 h
  obtain ⟨a, p1, e1, e2⟩ := Parse.ok_of_bind h
  cases a with
  | none =>
    obtain ⟨t1, m1, -⟩ := hx p none p1 e1
    obtain ⟨t2, m2, -⟩ := ho p1 r p3 e2
    have := hn p p1 e1
    exact ⟨t2.trans t1, by omega, fun _ _ hno => by omega⟩
  | some a =>
    obtain ⟨f, g, hka, hf, hg⟩ := hk a
    rw [hka] at e2
    obtain ⟨b, p2, e3, e4⟩ := Parse.ok_of_bind e2
    obtain ⟨t1, m1, s1⟩ := hx p (some a) p1 e1
    obtain ⟨t2, m2, s2⟩ := Parse.Sim.sim_expect_or_error ts close h1 h2 p1 b p2 e3
    have hrest : Parse.Sim ts (if b = true then f else g) := Parse.Sim.sim_ite hf hg
    obtain ⟨t3, m3, s3⟩ := hrest p2 r p3 e4
    refine ⟨t3.trans (t2.trans t1), by omega, fun ht hle hno => ?_⟩
    have hcl : p1.peek.type = close := by
      by_contra hcon
      rw [expect_or_error_apply, if_neg hcon] at e3
      cases e3
      simp [Parser.report] at m3
      omega
    obtain ⟨n1, r1⟩ := s1 ht hle (by omega) hcl
    obtain ⟨n2, r2⟩ := s2 (t1.trans ht) n1 (by omega)
    obtain ⟨n3, r3⟩ := s3 (t2.trans (t1.trans ht)) n2 (by omega)
    refine ⟨n3, ?_⟩
    rw [Parse.bind_of_ok r1, hka, Parse.bind_of_ok r2]
    exact r3

/-! ## Simulation of the parse functions -/

theorem Parse.Sim.sim_parse_integer_literal (ts : List Token) :
    Parse.Sim ts parse_integer_literal :=
  .sim_seq (.sim_cur_token ts) fun _ => .sim_seq (.sim_stoi ts _) fun _ => .sim_pure ts _

theorem Parse.Sim.sim_parse_string_literal (ts : List Token) :
    Parse.Sim ts parse_string_literal :=
  .sim_seq (.sim_cur_token ts) fun _ => .sim_pure ts _

theorem Parse.Sim.sim_parse_boolean_literal (ts : List Token) :
    Parse.Sim ts parse_boolean_literal :=
  .sim_seq (.sim_cur_token ts) fun _ => .sim_pure ts _

theorem Parse.Sim.sim_parse_identifier (ts : List Token) :
    Parse.Sim ts parse_identifier :=
  .sim_seq (.sim_cur_token ts) fun _ => .sim_pure ts _

theorem Parse.Sim.sim_parse_prefix_expression {ts : List Token} {d : Descent}
    (hd : Descent.Sim ts d) : Parse.Sim ts (parse_prefix_expression d) :=
  .sim_seq (.sim_cur_token ts) fun _ =>
    .sim_next_then (Parse.RejectsEof.rejects_seq (hd.rejects _) fun _ => .sim_pure ts _)
      (.sim_seq (hd.expression _) fun _ => .sim_pure ts _)

theorem Parse.Sim.sim_parse_infix_expression {ts : List Token} {d : Descent}
    (hd : Descent.Sim ts d) (left : Option Expression) :
    Parse.Sim ts (parse_infix_expression d left) :=
  .sim_seq (.sim_cur_token ts) fun _ => .sim_seq (.sim_cur_token_precedence ts) fun _ =>
    .sim_next_then (Parse.RejectsEof.rejects_seq (hd.rejects _) fun _ => .sim_pure ts _)
      (.sim_seq (hd.expression _) fun _ => .sim_pure ts _)

theorem Parse.Sim.sim_expect_then {α : Type} (ts : List Token) (type : TokenType)
    (h1 : type ≠ .eof_t) (h2 : type ≠ .semicolon_t) {x y : Parse α}
    (hx : Parse.Sim ts x) (hy : Parse.Sim ts y) :
    Parse.Sim ts (expect_or_error type >>= fun b => if b = true then x else y) :=
  .sim_seq (.sim_expect_or_error ts type h1 h2) fun _ => .sim_ite hx hy

theorem Parse.Sim.sim_parse_group_expression {ts : List Token} {d : Descent}
    (hd : Descent.Sim ts d) : Parse.Sim ts (parse_group_expression d) := by
  have hk : ∀ expr : Option Expression, Parse.Sim ts
      (expect_or_error .right_paren_t >>= fun b =>
        if b = true then (pure expr : Parse (Option Expression)) else pure none) :=
    fun expr => .sim_expect_then ts _ (by decide) (by decide) (.sim_pure ts _) (.sim_pure ts _)
  exact .sim_next_then (Parse.RejectsEof.rejects_seq (hd.rejects _) hk)
    (.sim_seq (hd.expression _) hk)

theorem Parse.Sim.sim_parse_index_expression {ts : List Token} {d : Descent}
    (hd : Descent.Sim ts d) (left : Option Expression) :
    Parse.Sim ts (parse_index_expression d left) := by
  have hk : ∀ r : Option Expression, Parse.Sim ts
      (match r with
        | none => do
          parse_error "expression" "index"
          pure none
        | some index => do
          if (← expect_or_error .right_bracket_t) then
            pure (some (.IndexExpression (some index) left))
          else (pure none : Parse (Option Expression))) := by
    intro r
    cases r
    · exact .sim_seq (.sim_parse_error ts _ _) fun _ => .sim_pure ts _
    · exact .sim_expect_then ts _ (by decide) (by decide) (.sim_pure ts _) (.sim_pure ts _)
  exact .sim_next_then (Parse.RejectsEof.rejects_seq (hd.rejects _) hk)
    (.sim_seq (hd.expression _) hk)

/-- The statements `parse_error(Token::comma_t, peek_token()); return nullptr;`. -/
theorem Parse.Sim.sim_comma_error {α : Type} (ts : List Token) :
    Parse.Sim ts (peek_token >>= fun token =>
      parse_error_token .comma_t token >>= fun _ => (pure none : Parse (Option α))) :=
  Parse.Sim.sim_report ts _ none (fun p => error_text_token .comma_t p.peek) (fun _ => rfl)

theorem Parse.SimUntil.until_parse_parameters_loop (ts : List Token) (turns : Nat)
    (parameters : List String) :
    Parse.SimUntil ts .right_paren_t (parse_parameters_loop turns parameters) := by
  induction turns generalizing parameters with
  | zero => exact .until_of_sim (.sim_fault ts _)
  | succ k ih =>
    refine .until_loop_head .right_paren_t (by decide) (by decide) _ ?_
    refine .until_seq (.sim_expect_or_error ts _ (by decide) (by decide)) fun _ =>
      .until_ite ?_ (.until_of_sim (.sim_pure ts _))
    refine .until_seq (.sim_cur_token ts) fun _ =>
      .until_seq (.sim_peek_token_type_is ts _ (by decide) (by decide)) fun _ =>
        .until_ite (ih _) ?_
    exact .until_seq (.sim_expect_token_type_is ts _ (by decide) (by decide)) fun _ =>
      .until_ite (ih _) (.until_of_sim (.sim_comma_error ts))

theorem Parse.SimUntil.until_parse_expression_list_loop {ts : List Token} {d : Descent}
    (hd : Descent.Sim ts d) (close : TokenType) (h1 : close ≠ .eof_t)
    (h2 : close ≠ .semicolon_t) (turns : Nat) (exprs : List (Option Expression)) :
    Parse.SimUntil ts close (parse_expression_list_loop d close turns exprs) := by
  induction turns generalizing exprs with
  | zero => exact .until_of_sim (.sim_fault ts _)
  | succ k ih =>
    refine .until_loop_head close h1 h2 _ ?_
    have hk : ∀ expr : Option Expression, Parse.SimUntil ts close (do
        if (← peek_token_type_is close) then
          parse_expression_list_loop d close k (exprs ++ [expr])
        else if (← expect_token_type_is .comma_t) then
          parse_expression_list_loop d close k (exprs ++ [expr])
        else
          parse_error_token .comma_t (← peek_token)
          pure none) := fun expr =>
      .until_seq (.sim_peek_token_type_is ts _ h1 h2) fun _ => .until_ite (ih _)
        (.until_seq (.sim_expect_token_type_is ts _ (by decide) (by decide)) fun _ =>
          .until_ite (ih _) (.until_of_sim (.sim_comma_error ts)))
    refine .until_next_then ?_ (.until_seq (hd.expression _) hk)
    intro p r p2 h he
    obtain ⟨a, p1, e1, e2⟩ := Parse.ok_of_bind h
    have := hd.rejects _ p a p1 e1 he
    have := (hk a p1 r p2 e2).2.1
    omega

theorem Parse.NoneReports.none_parse_parameters_loop (turns : Nat) (parameters : List String) :
    Parse.NoneReports (parse_parameters_loop turns parameters) := by
  induction turns generalizing parameters with
  | zero =>
    intro p p1 h
    cases h
  | succ k ih =>
    intro p p1 h
    unfold parse_parameters_loop at h
    rw [Parse.bind_of_ok (peek_token_type_is_apply _ p),
      Parse.bind_of_ok (peek_token_type_is_apply _ p)] at h
    split at h
    · by_cases hi : p.peek.type = .ident_t
      · have he := expect_or_error_apply .ident_t p
        rw [if_pos hi] at he
        rw [Parse.bind_of_ok he] at h
        simp only [if_true] at h
        rw [Parse.bind_of_ok (cur_token_apply _),
          Parse.bind_of_ok (peek_token_type_is_apply _ _)] at h
        split at h
        · have := ih _ _ _ h
          exact this
        · by_cases hc : p.advance.peek.type = .comma_t
          · have hx := expect_token_type_is_apply .comma_t p.advance
            rw [if_pos hc] at hx
            rw [Parse.bind_of_ok hx] at h
            simp only [if_true] at h
            have := ih _ _ _ h
            exact this
          · have hx := expect_token_type_is_apply .comma_t p.advance
            rw [if_neg hc] at hx
            rw [Parse.bind_of_ok hx] at h
            simp only [Bool.false_eq_true, if_false] at h
            rw [Parse.bind_of_ok (peek_token_apply _),
              Parse.bind_of_ok (parse_error_token_apply _ _ _)] at h
            cases h
            simp [Parser.report, Parser.advance]
      · have he := expect_or_error_apply .ident_t p
        rw [if_neg hi] at he
        rw [Parse.bind_of_ok he] at h
        simp only [Bool.false_eq_true, if_false] at h
        cases h
        simp [Parser.report]
    · cases h

theorem Parse.NoneReports.none_parse_expression_list_loop {ts : List Token} {d : Descent}
    (hd : Descent.Sim ts d) (close : TokenType) (turns : Nat)
    (exprs : List (Option Expression)) :
    Parse.NoneReports (parse_expression_list_loop d close turns exprs) := by
  induction turns generalizing exprs with
  | zero =>
    intro p p1 h
    cases h
  | succ k ih =>
    intro p p1 h
    unfold parse_expression_list_loop at h
    rw [Parse.bind_of_ok (peek_token_type_is_apply _ p),
      Parse.bind_of_ok (peek_token_type_is_apply _ p)] at h
    split at h
    · rw [Parse.bind_of_ok (next_token_apply p)] at h
      obtain ⟨expr, q, e1, e2⟩ := Parse.ok_of_bind h
      have hm := (hd.expression _ _ _ _ e1).2.1
      have h0 : p.advance.errors = p.errors := rfl
      rw [h0] at hm
      rw [Parse.bind_of_ok (peek_token_type_is_apply _ q)] at e2
      split at e2
      · have := ih _ _ _ e2
        omega
      · by_cases hc : q.peek.type = .comma_t
        · have hx := expect_token_type_is_apply .comma_t q
          rw [if_pos hc] at hx
          rw [Parse.bind_of_ok hx] at e2
          simp only [if_true] at e2
          have := ih _ _ _ e2
          have h1 : q.advance.errors = q.errors := rfl
          rw [h1] at this
          omega
        · have hx := expect_token_type_is_apply .comma_t q
          rw [if_neg hc] at hx
          rw [Parse.bind_of_ok hx] at e2
          simp only [Bool.false_eq_true, if_false] at e2
          rw [Parse.bind_of_ok (peek_token_apply _),
            Parse.bind_of_ok (parse_error_token_apply _ _ _)] at e2
          cases e2
          simp only [Parser.report, List.length_append, List.length_singleton]
          omega
    · cases h

theorem Parse.SimStatement.stmt_of_sim {α : Type} {ts : List Token} {x : Parse α}
    (hx : Parse.Sim ts x) : Parse.SimStatement ts x := by
  intro p r p1 h
  obtain ⟨t1, e1, s1⟩ := hx p r p1 h
  refine ⟨t1, e1, fun ht hle hno => ?_⟩
  obtain ⟨n1, r1⟩ := s1 ht hle hno
  exact ⟨n1, .inl r1⟩

theorem Parse.SimStatement.stmt_seq {α β : Type} {ts : List Token} {x : Parse α}
    {f : α → Parse β} (hx : Parse.Sim ts x) (hf : ∀ a, Parse.SimStatement ts (f a)) :
    Parse.SimStatement ts (x >>= f) := by
  intro p r p2 h
  obtain ⟨a, p1, h1, h2⟩ := Parse.ok_of_bind h
  obtain ⟨t1, e1, s1⟩ := hx p a p1 h1
  obtain ⟨t2, e2, s2⟩ := hf a p1 r p2 h2
  refine ⟨t2.trans t1, by omega, fun ht hle hno => ?_⟩
  obtain ⟨n1, r1⟩ := s1 ht hle (by omega)
  obtain ⟨n2, r2⟩ := s2 (t1.trans ht) n1 (by omega)
  refine ⟨n2, ?_⟩
  rw [Parse.bind_of_ok r1]
  exact r2

theorem Parse.SimStatement.stmt_ite {α : Type} {ts : List Token} {c : Prop} [Decidable c]
    {x y : Parse α} (hx : Parse.SimStatement ts x) (hy : Parse.SimStatement ts y) :
    Parse.SimStatement ts (if c then x else y) := by
  split
  · exact hx
  · exact hy

theorem Parse.SimStatement.stmt_next_then {β : Type} {ts : List Token} {g : Parse β}
    (hr : Parse.RejectsEof g) (hg : Parse.SimStatement ts g) :
    Parse.SimStatement ts (next_token >>= fun (_ : Token) => g) := by
  intro p r p2 h
  rw [Parse.bind_of_ok (next_token_apply p)] at h
  obtain ⟨t2, e2, s2⟩ := hg p.advance r p2 h
  refine ⟨t2, e2, fun ht hle hno => ?_⟩
  have hlt : p.nxt < ts.length := by
    by_contra hcon
    have hpk := Parser.peek_of_ge ts p ht (by omega)
    have := hr p.advance r p2 h (by show p.peek.type = _; rw [hpk]; rfl)
    have e0 : p.advance.errors = p.errors := rfl
    rw [e0] at this
    omega
  obtain ⟨n2, r2⟩ := s2 ht (by show p.nxt + 1 ≤ ts.length; omega) hno
  refine ⟨n2, ?_⟩
  rw [Parse.bind_of_ok (next_token_apply _), Parser.advance_retoken ts p ht hlt]
  exact r2

theorem Parse.RejectsEof.rejects_seq_statement {α β : Type} {ts : List Token} {x : Parse α}
    {f : α → Parse β} (hx : Parse.RejectsEof x) (hf : ∀ a, Parse.SimStatement ts (f a)) :
    Parse.RejectsEof (x >>= f) := by
  intro p r p2 h he
  obtain ⟨a, p1, h1, h2⟩ := Parse.ok_of_bind h
  have := hx p a p1 h1 he
  have := (hf a p1 r p2 h2).2.1
  omega

/-- The statement `if (peek_token_type_is(Token::semicolon_t)) next_token();` and the
return that follows it: over the tokens with the closing `;`, the `;` is skipped. -/
theorem Parse.SimStatement.stmt_skip_semicolon {α : Type} (ts : List Token) (a : α) :
    Parse.SimStatement ts (skip_semicolon >>= fun _ => (pure a : Parse α)) := by
  intro p r p1 h
  by_cases hs : p.peek.type = .semicolon_t
  · have hx := skip_semicolon_apply p
    rw [if_pos hs] at hx
    rw [Parse.bind_of_ok hx] at h
    cases h
    refine ⟨rfl, Nat.le_refl _, fun ht hle _ => ?_⟩
    have hlt : p.nxt < ts.length := Parser.lt_of_peek ts p ht (by rw [hs]; decide)
    refine ⟨by show p.nxt + 1 ≤ ts.length; omega, .inl ?_⟩
    have hx1 := skip_semicolon_apply (p.retoken (ts ++ [Token.semicolon, Token.eof]))
    rw [Parser.peek_retoken_lt ts p ht hlt, if_pos hs] at hx1
    rw [Parse.bind_of_ok hx1, Parser.advance_retoken ts p ht hlt]
    rfl
  · have hx := skip_semicolon_apply p
    rw [if_neg hs] at hx
    rw [Parse.bind_of_ok hx] at h
    cases h
    refine ⟨rfl, Nat.le_refl _, fun ht hle _ => ⟨hle, ?_⟩⟩
    by_cases hlt : p.nxt < ts.length
    · left
      have hx1 := skip_semicolon_apply (p.retoken (ts ++ [Token.semicolon, Token.eof]))
      rw [Parser.peek_retoken_lt ts p ht hlt, if_neg hs] at hx1
      rw [Parse.bind_of_ok hx1]
      rfl
    · right
      refine ⟨by omega, ?_⟩
      have hx1 := skip_semicolon_apply (p.retoken (ts ++ [Token.semicolon, Token.eof]))
      rw [Parser.peek_retoken_eq ts p (by omega)] at hx1
      rw [if_pos (by rfl)] at hx1
      rw [Parse.bind_of_ok hx1]
      rfl

theorem Parse.SimUntil.until_statement_then {α β : Type} {ts : List Token}
    {close : TokenType} (h1 : close ≠ .eof_t) {s : Parse α} {f : α → Parse β}
    (hs : Parse.SimStatement ts s) (hf : ∀ a, Parse.SimUntil ts close (f a))
    (hstay : ∀ a, Parse.StaysAtEof (f a)) : Parse.SimUntil ts close (s >>= f) := by
  intro p r p2 h
  obtain ⟨a, p1, e1, e2⟩ := Parse.ok_of_bind h
  obtain ⟨t1, m1, s1⟩ := hs p a p1 e1
  obtain ⟨t2, m2, s2⟩ := hf a p1 r p2 e2
  refine ⟨t2.trans t1, by omega, fun ht hle hno hcl => ?_⟩
  obtain ⟨n1, r1⟩ := s1 ht hle (by omega)
  rcases r1 with r1 | ⟨heq, -⟩
  · obtain ⟨n2, r2⟩ := s2 (t1.trans ht) n1 (by omega) hcl
    exact ⟨n2, by rw [Parse.bind_of_ok r1]; exact r2⟩
  · have hpk := Parser.peek_of_ge ts p1 (t1.trans ht) (by omega)
    have := hstay a p1 r p2 e2 (by rw [hpk]; rfl)
    rw [this] at hcl
    exact absurd hcl.symm h1

theorem Parse.StaysAtEof.stays_parse_block_statement_loop (d : Descent) (turns : Nat)
    (stmts : List Statement) : Parse.StaysAtEof (parse_block_statement_loop d turns stmts) := by
  intro p r p1 h he
  cases turns with
  | zero => cases h
  | succ k =>
    unfold parse_block_statement_loop at h
    rw [Parse.bind_of_ok (peek_token_type_is_apply _ p),
      Parse.bind_of_ok (peek_token_type_is_apply _ p)] at h
    simp only [he, beq_self_eq_true, Bool.not_true, Bool.and_false, Bool.false_eq_true,
      if_false] at h
    cases h
    exact he

theorem Parse.SimUntil.until_parse_block_statement_loop {ts : List Token} {d : Descent}
    (hd : Descent.Sim ts d) (turns : Nat) (stmts : List Statement) :
    Parse.SimUntil ts .right_brace_t (parse_block_statement_loop d turns stmts) := by
  induction turns generalizing stmts with
  | zero => exact .until_of_sim (.sim_fault ts _)
  | succ k ih =>
    refine .until_loop_head .right_brace_t (by decide) (by decide) _ ?_
    have hk : ∀ r : Option Statement, Parse.SimUntil ts .right_brace_t
        (match r with
          | some stmt => parse_block_statement_loop d k (stmts ++ [stmt])
          | none => parse_block_statement_loop d k stmts) := by
      intro r
      cases r
      · exact ih _
      · exact ih _
    have hstay : ∀ r : Option Statement, Parse.StaysAtEof
        (match r with
          | some stmt => parse_block_statement_loop d k (stmts ++ [stmt])
          | none => parse_block_statement_loop d k stmts) := by
      intro r
      cases r
      · exact .stays_parse_block_statement_loop d k _
      · exact .stays_parse_block_statement_loop d k _
    refine .until_next_then ?_ (.until_statement_then (by decide) hd.statement hk hstay)
    intro p r p2 h he
    obtain ⟨a, p1, e1, e2⟩ := Parse.ok_of_bind h
    have := hd.statement_rejects p a p1 e1 he
    have := (hk a p1 r p2 e2).2.1
    omega

theorem Parse.SimUntil.until_parse_block_statement {ts : List Token} {d : Descent}
    (hd : Descent.Sim ts d) (turns : Nat) :
    Parse.SimUntil ts .right_brace_t (parse_block_statement d turns) := by
  intro p r p2 h
  obtain ⟨stmts, p1, e1, e2⟩ := Parse.ok_of_bind h
  have hr : r = some (.mk stmts) ∧ p2 = p1 := by
    cases e2
    exact ⟨rfl, rfl⟩
  obtain ⟨hr1, hr2⟩ := hr
  subst hr1 hr2
  obtain ⟨t1, m1, s1⟩ := Parse.SimUntil.until_parse_block_statement_loop hd turns [] p stmts p2 e1
  refine ⟨t1, m1, fun ht hle hno hcl => ?_⟩
  obtain ⟨n1, r1⟩ := s1 ht hle hno hcl
  refine ⟨n1, ?_⟩
  show (parse_block_statement_loop d turns [] >>= _) _ = _
  rw [Parse.bind_of_ok r1]
  rfl

theorem Parse.Sim.sim_parse_function_literal {ts : List Token} {d : Descent}
    (hd : Descent.Sim ts d) (turns : Nat) : Parse.Sim ts (parse_function_literal d turns) :=
  .sim_expect_then ts _ (by decide) (by decide)
    (.sim_option_until_then_expect .right_paren_t (by decide) (by decide)
      (.until_parse_parameters_loop ts turns [])
      (.none_parse_parameters_loop turns []) (.sim_pure ts _)
      (fun _ => ⟨_, _, rfl,
        .sim_expect_then ts _ (by decide) (by decide)
          (.sim_until_then_expect .right_brace_t (by decide) (by decide)
            (.until_parse_block_statement hd turns) (fun _ => .sim_pure ts _)
            (fun _ => .sim_pure ts _))
          (.sim_pure ts _),
        .sim_pure ts _⟩))
    (.sim_pure ts _)

theorem Parse.Sim.sim_parse_call_expression {ts : List Token} {d : Descent}
    (hd : Descent.Sim ts d) (turns : Nat) (left : Option Expression) :
    Parse.Sim ts (parse_call_expression d turns left) :=
  .sim_option_until_then_expect .right_paren_t (by decide) (by decide)
    (.until_parse_expression_list_loop hd _ (by decide) (by decide) turns [])
    (.none_parse_expression_list_loop hd _ turns []) (.sim_pure ts _)
    (fun _ => ⟨_, _, rfl, .sim_pure ts _, .sim_pure ts _⟩)

theorem Parse.Sim.sim_parse_array_literal {ts : List Token} {d : Descent}
    (hd : Descent.Sim ts d) (turns : Nat) :
    Parse.Sim ts (parse_array_literal d turns) :=
  .sim_option_until_then_expect .right_bracket_t (by decide) (by decide)
    (.until_parse_expression_list_loop hd _ (by decide) (by decide) turns [])
    (.none_parse_expression_list_loop hd _ turns []) (.sim_pure ts _)
    (fun _ => ⟨_, _, rfl, .sim_pure ts _, .sim_pure ts _⟩)

theorem Parse.Sim.sim_parse_if_expression {ts : List Token} {d : Descent}
    (hd : Descent.Sim ts d) (turns : Nat) : Parse.Sim ts (parse_if_expression d turns) := by
  have htail : ∀ (condition : Expression) (consequence : Option BlockStatement),
      Parse.Sim ts (do
        if (← peek_token_type_is .else_t) then
          let _skipped ← next_token
          if (← expect_or_error .left_brace_t) then
            let alternative ← parse_block_statement d turns
            if (← expect_or_error .right_brace_t) then
              pure (some (.IfExpression (some condition) consequence alternative))
            else pure none
          else pure none
        else (pure (some (.IfExpression (some condition) consequence none)) :
          Parse (Option Expression))) :=
    fun condition consequence =>
      .sim_guarded_next .else_t (by decide) (by decide)
        (.sim_expect_then ts _ (by decide) (by decide)
          (.sim_until_then_expect .right_brace_t (by decide) (by decide)
            (.until_parse_block_statement hd turns) (fun _ => .sim_pure ts _)
            (fun _ => .sim_pure ts _))
          (.sim_pure ts _))
        (.sim_pure ts _)
  have hk : ∀ r : Option Expression, Parse.Sim ts
      (match r with
        | none => do
          parse_error "expression" "if"
          pure none
        | some condition => do
          if (← expect_or_error .right_paren_t) then
            if (← expect_or_error .left_brace_t) then
              let consequence ← parse_block_statement d turns
              if (← expect_or_error .right_brace_t) then
                if (← peek_token_type_is .else_t) then
                  let _skipped ← next_token
                  if (← expect_or_error .left_brace_t) then
                    let alternative ← parse_block_statement d turns
                    if (← expect_or_error .right_brace_t) then
                      pure (some (.IfExpression (some condition) consequence alternative))
                    else pure none
                  else pure none
                else pure (some (.IfExpression (some condition) consequence none))
              else pure none
            else pure none
          else (pure none : Parse (Option Expression))) := by
    intro r
    cases r with
    | none => exact .sim_seq (.sim_parse_error ts _ _) fun _ => .sim_pure ts _
    | some condition =>
      exact .sim_expect_then ts _ (by decide) (by decide)
        (.sim_expect_then ts _ (by decide) (by decide)
          (.sim_until_then_expect .right_brace_t (by decide) (by decide)
            (.until_parse_block_statement hd turns) (fun consequence => htail condition consequence)
            (fun _ => .sim_pure ts _))
          (.sim_pure ts _))
        (.sim_pure ts _)
  exact .sim_expect_then ts _ (by decide) (by decide)
    (.sim_next_then (Parse.RejectsEof.rejects_seq (hd.rejects _) hk)
      (.sim_seq (hd.expression _) hk))
    (.sim_pure ts _)

theorem Parse.Sim.sim_prefix_parse_func_map {ts : List Token} {d : Descent}
    (hd : Descent.Sim ts d) (turns : Nat) (type : TokenType)
    (f : Parse (Option Expression)) (h : prefix_parse_func_map d turns type = some f) :
    Parse.Sim ts f := by
  cases type <;> first
    | (cases h; exact .sim_parse_integer_literal ts)
    | (cases h; exact .sim_parse_string_literal ts)
    | (cases h; exact .sim_parse_boolean_literal ts)
    | (cases h; exact .sim_parse_identifier ts)
    | (cases h; exact .sim_parse_prefix_expression hd)
    | (cases h; exact .sim_parse_if_expression hd turns)
    | (cases h; exact .sim_parse_group_expression hd)
    | (cases h; exact .sim_parse_function_literal hd turns)
    | (cases h; exact .sim_parse_array_literal hd turns)
    | cases h

theorem Parse.Sim.sim_infix_parse_func_map {ts : List Token} {d : Descent}
    (hd : Descent.Sim ts d) (turns : Nat) (type : TokenType)
    (f : Option Expression → Parse (Option Expression))
    (h : infix_parse_func_map d turns type = some f) (left : Option Expression) :
    Parse.Sim ts (f left) := by
  cases type <;> first
    | (cases h; exact .sim_parse_infix_expression hd left)
    | (cases h; exact .sim_parse_call_expression hd turns left)
    | (cases h; exact .sim_parse_index_expression hd left)
    | cases h

theorem infix_parse_func_map_eof (d : Descent) (turns : Nat) (type : TokenType)
    (f : Option Expression → Parse (Option Expression))
    (h : infix_parse_func_map d turns type = some f) :
    type ≠ .eof_t ∧ type ≠ .semicolon_t := by
  cases type <;> first
    | exact ⟨by decide, by decide⟩
    | cases h

theorem Parse.Sim.sim_parse_expression_loop {ts : List Token} {d : Descent}
    (hd : Descent.Sim ts d) (fuel : Nat) (precedence : Precedence) (turns : Nat)
    (left : Option Expression) :
    Parse.Sim ts (parse_expression_loop d fuel precedence turns left) := by
  induction turns generalizing left with
  | zero => exact .sim_fault ts _
  | succ k ih =>
    intro p r p3 h
    have hunfold : parse_expression_loop d fuel precedence (k + 1) left
        = (do
          let semicolon ← peek_token_type_is .semicolon_t
          let peek_precedence ← peek_token_precedence
          if !semicolon && precedence.rank < peek_precedence.rank then
            match infix_parse_func_map d fuel (← peek_token).type with
            | none => pure left
            | some infix_func =>
              let _skipped ← next_token
              let expr ← infix_func left
              parse_expression_loop d fuel precedence k expr
          else pure left) := rfl
    rw [hunfold] at h ⊢
    rw [Parse.bind_of_ok (peek_token_type_is_apply _ p),
      Parse.bind_of_ok (peek_token_precedence_apply p)] at h
    split at h
    · next hcond =>
      rw [Parse.bind_of_ok (peek_token_apply p)] at h
      cases hmap : infix_parse_func_map d fuel p.peek.type with
      | none =>
        rw [hmap] at h
        cases h
        refine ⟨rfl, Nat.le_refl _, fun ht hle _ => ⟨hle, ?_⟩⟩
        rw [Parse.bind_of_ok (peek_token_type_is_apply _ _),
          Parse.bind_of_ok (peek_token_precedence_apply _)]
        by_cases hlt : p.nxt < ts.length
        · rw [Parser.peek_retoken_lt ts p ht hlt]
          rw [if_pos hcond, Parse.bind_of_ok (peek_token_apply _),
            Parser.peek_retoken_lt ts p ht hlt, hmap]
          rfl
        · rw [Parser.peek_retoken_eq ts p (by omega)]
          rfl
      | some f =>
        rw [hmap] at h
        simp only [] at h
        rw [Parse.bind_of_ok (next_token_apply p)] at h
        obtain ⟨expr, p2, e1, e2⟩ := Parse.ok_of_bind h
        obtain ⟨t1, m1, s1⟩ := Parse.Sim.sim_infix_parse_func_map hd fuel _ f hmap left
          p.advance expr p2 e1
        obtain ⟨t2, m2, s2⟩ := ih expr p2 r p3 e2
        have h0 : p.advance.errors = p.errors := rfl
        rw [h0] at m1
        refine ⟨t2.trans t1, by omega, fun ht hle hno => ?_⟩
        have hlt : p.nxt < ts.length :=
          Parser.lt_of_peek ts p ht (infix_parse_func_map_eof d fuel _ f hmap).1
        obtain ⟨n1, r1⟩ := s1 ht (by show p.nxt + 1 ≤ ts.length; omega)
          (by rw [h0]; omega)
        obtain ⟨n2, r2⟩ := s2 (t1.trans ht) n1 (by omega)
        refine ⟨n2, ?_⟩
        rw [Parse.bind_of_ok (peek_token_type_is_apply _ _),
          Parse.bind_of_ok (peek_token_precedence_apply _),
          Parser.peek_retoken_lt ts p ht hlt, if_pos hcond,
          Parse.bind_of_ok (peek_token_apply _), Parser.peek_retoken_lt ts p ht hlt, hmap]
        simp only []
        rw [Parse.bind_of_ok (next_token_apply _), Parser.advance_retoken ts p ht hlt,
          Parse.bind_of_ok r1]
        exact r2
    · next hcond =>
      cases h
      refine ⟨rfl, Nat.le_refl _, fun ht hle _ => ⟨hle, ?_⟩⟩
      rw [Parse.bind_of_ok (peek_token_type_is_apply _ _),
        Parse.bind_of_ok (peek_token_precedence_apply _)]
      by_cases hlt : p.nxt < ts.length
      · rw [Parser.peek_retoken_lt ts p ht hlt, if_neg hcond]
        rfl
      · rw [Parser.peek_retoken_eq ts p (by omega)]
        rfl

theorem Parse.Sim.sim_parse_expression {ts : List Token} {d : Descent}
    (hd : Descent.Sim ts d) (fuel : Nat) (precedence : Precedence) :
    Parse.Sim ts (parse_expression d fuel precedence) := by
  refine .sim_seq (.sim_cur_token ts) fun token => ?_
  cases hmap : prefix_parse_func_map d fuel token.type with
  | none => exact .sim_seq (.sim_parse_error ts _ _) fun _ => .sim_pure ts _
  | some f =>
    exact .sim_seq (.sim_prefix_parse_func_map hd fuel _ f hmap) fun _ =>
      .sim_parse_expression_loop hd fuel precedence fuel _

theorem Parse.RejectsEof.rejects_parse_expression (d : Descent) (fuel : Nat)
    (precedence : Precedence) : Parse.RejectsEof (parse_expression d fuel precedence) := by
  intro p r p1 h he
  unfold parse_expression at h
  rw [Parse.bind_of_ok (cur_token_apply p)] at h
  have hmap : prefix_parse_func_map d fuel p.token.type = none := by
    rw [he]
    rfl
  rw [hmap] at h
  simp only [] at h
  rw [Parse.bind_of_ok (parse_error_apply _ _ p)] at h
  cases h
  simp [Parser.report]

theorem Parse.SimStatement.stmt_parse_let_statement {ts : List Token} {d : Descent}
    (hd : Descent.Sim ts d) : Parse.SimStatement ts (parse_let_statement d) := by
  have hk : ∀ (identifier : Token) (r : Option Expression), Parse.SimStatement ts
      (match r with
        | some expr => do
          skip_semicolon
          pure (some (.LetStatement identifier.literal (some expr)))
        | none => do
          parse_error "expression" "let"
          (pure none : Parse (Option Statement))) := by
    intro identifier r
    cases r
    · exact .stmt_of_sim (.sim_seq (.sim_parse_error ts _ _) fun _ => .sim_pure ts _)
    · exact .stmt_skip_semicolon ts _
  refine .stmt_seq (.sim_expect_or_error ts _ (by decide) (by decide)) fun _ =>
    .stmt_ite ?_ (.stmt_of_sim (.sim_pure ts _))
  refine .stmt_seq (.sim_cur_token ts) fun identifier =>
    .stmt_seq (.sim_expect_or_error ts _ (by decide) (by decide)) fun _ =>
      .stmt_ite ?_ (.stmt_of_sim (.sim_pure ts _))
  exact .stmt_next_then (Parse.RejectsEof.rejects_seq_statement (hd.rejects _) (hk identifier))
    (.stmt_seq (hd.expression _) (hk identifier))

theorem Parse.SimStatement.stmt_parse_return_statement {ts : List Token} {d : Descent}
    (hd : Descent.Sim ts d) : Parse.SimStatement ts (parse_return_statement d) := by
  have hk : ∀ r : Option Expression, Parse.SimStatement ts
      (match r with
        | some expr => do
          skip_semicolon
          pure (some (.ReturnStatement (some expr)))
        | none => do
          parse_error "expression" "return"
          (pure none : Parse (Option Statement))) := by
    intro r
    cases r
    · exact .stmt_of_sim (.sim_seq (.sim_parse_error ts _ _) fun _ => .sim_pure ts _)
    · exact .stmt_skip_semicolon ts _
  exact .stmt_next_then (Parse.RejectsEof.rejects_seq_statement (hd.rejects _) hk)
    (.stmt_seq (hd.expression _) hk)

theorem Parse.SimStatement.stmt_expression_tail (ts : List Token) (r : Option Expression) :
    Parse.SimStatement ts
      (match r with
        | some expr => do
          skip_semicolon
          pure (some (.ExpressionStatement (some expr)))
        | none => (pure none : Parse (Option Statement))) := by
  cases r
  · exact .stmt_of_sim (.sim_pure ts _)
  · exact .stmt_skip_semicolon ts _

theorem Parse.SimStatement.stmt_parse_expression_statement {ts : List Token} {d : Descent}
    (hd : Descent.Sim ts d) : Parse.SimStatement ts (parse_expression_statement d) :=
  .stmt_seq (.sim_cur_token_type_is ts _) fun _ =>
    .stmt_ite (.stmt_of_sim (.sim_pure ts _))
      (.stmt_seq (hd.expression _) (.stmt_expression_tail ts))

theorem Parse.SimStatement.stmt_parse_statement {ts : List Token} {d : Descent}
    (hd : Descent.Sim ts d) : Parse.SimStatement ts (parse_statement d) := by
  refine .stmt_seq (.sim_cur_token ts) fun token => ?_
  cases token.type <;> first
    | exact .stmt_parse_let_statement hd
    | exact .stmt_parse_return_statement hd
    | exact .stmt_parse_expression_statement hd

theorem Parse.RejectsEof.rejects_parse_statement {ts : List Token} {d : Descent}
    (hd : Descent.Sim ts d) : Parse.RejectsEof (parse_statement d) := by
  intro p r p2 h he
  unfold parse_statement at h
  rw [Parse.bind_of_ok (cur_token_apply p), he] at h
  change parse_expression_statement d p = _ at h
  unfold parse_expression_statement at h
  rw [Parse.bind_of_ok (cur_token_type_is_apply _ p), he] at h
  change (d.expression .lowest_p >>= _) p = _ at h
  obtain ⟨a, p1, e1, e2⟩ := Parse.ok_of_bind h
  have := hd.rejects _ p a p1 e1 he
  have := (Parse.SimStatement.stmt_expression_tail ts a p1 r p2 e2).2.1
  omega

/-- The parse functions of every fuel are simulated. -/
theorem descend_sim (ts : List Token) (fuel : Nat) : Descent.Sim ts (descend fuel) := by
  induction fuel with
  | zero =>
    exact ⟨fun _ => .sim_fault ts _, fun _ p r p1 h => (by cases h),
      .stmt_of_sim (.sim_fault ts _), fun p r p1 h => (by cases h)⟩
  | succ k ih =>
    exact ⟨fun precedence => .sim_parse_expression ih k precedence,
      fun precedence => .rejects_parse_expression _ k precedence,
      .stmt_parse_statement ih, .rejects_parse_statement ih⟩

/-! ## The loop of `parse` on the input with a closing `;` -/

/-- A statement that is `;` alone: no statement, no error, no move. -/
theorem parse_statement_semicolon (d : Descent) (p : Parser)
    (h : p.token.type = .semicolon_t) : parse_statement d p = .ok (none, p) := by
  unfold parse_statement
  rw [Parse.bind_of_ok (cur_token_apply p), h]
  change parse_expression_statement d p = _
  unfold parse_expression_statement
  rw [Parse.bind_of_ok (cur_token_type_is_apply _ p), h]
  rfl

theorem parse_loop_eof (fuel turns : Nat) (stmts : List Statement) (p : Parser)
    (h : p.token.type = .eof_t) : parse_loop fuel (turns + 1) stmts p = .ok (stmts, p) := by
  unfold parse_loop
  rw [Parse.bind_of_ok (cur_token_type_is_apply _ p), h]
  rfl

theorem parse_loop_step (fuel turns : Nat) (stmts : List Statement) (p p1 : Parser)
    (r : Option Statement) (h : p.token.type ≠ .eof_t)
    (hs : (descend fuel).statement p = .ok (r, p1)) :
    parse_loop fuel (turns + 1) stmts p
      = parse_loop fuel turns (stmts ++ r.toList) p1.advance := by
  conv => lhs; unfold parse_loop
  rw [Parse.bind_of_ok (cur_token_type_is_apply _ p)]
  have hb : (p.token.type == TokenType.eof_t) = false := by simpa using h
  simp only [hb, Bool.false_eq_true, if_false]
  rw [Parse.bind_of_ok hs]
  cases r
  · simp only [Option.toList, List.append_nil]
    exact Parse.bind_of_ok (next_token_apply p1)
  · exact Parse.bind_of_ok (next_token_apply p1)

theorem parse_loop_errors (ts : List Token) (fuel turns : Nat) (stmts : List Statement)
    (p pf : Parser) (r : List Statement) (h : parse_loop fuel turns stmts p = .ok (r, pf)) :
    p.errors.length ≤ pf.errors.length := by
  induction turns generalizing stmts p with
  | zero => cases h
  | succ k ih =>
    by_cases he : p.token.type = .eof_t
    · rw [parse_loop_eof fuel k stmts p he] at h
      cases h
      exact Nat.le_refl _
    · cases hs : (descend fuel).statement p with
      | error e =>
        unfold parse_loop at h
        rw [Parse.bind_of_ok (cur_token_type_is_apply _ p)] at h
        have hb : (p.token.type == TokenType.eof_t) = false := by simpa using he
        simp only [hb, Bool.false_eq_true, if_false] at h
        obtain ⟨a, p1, e1, -⟩ := Parse.ok_of_bind h
        rw [hs] at e1
        cases e1
      | ok v =>
        obtain ⟨a, p1⟩ := v
        rw [parse_loop_step fuel k stmts p p1 a he hs] at h
        have h1 := ((descend_sim ts fuel).statement p a p1 hs).2.1
        have h2 := ih _ _ h
        have h0 : p1.advance.errors = p1.errors := rfl
        rw [h0] at h2
        omega

theorem Parser.peek_retoken_after (ts : List Token) (q : Parser)
    (h : q.tokens = ts ++ [Token.semicolon, Token.eof]) (hn : q.nxt = ts.length + 1) :
    q.peek = Token.eof := by
  unfold Parser.peek
  rw [h, hn, List.getElem?_append_right (by omega)]
  simp

/-- The loop of `parse` over the tokens `ts`, `;`, `eof`, with one more turn and one more
level of fuel, returns the statements it returns over the tokens `ts`, `eof`, when this run
ends without a new error. -/
theorem parse_loop_sim (ts : List Token) (fuel turns : Nat) (stmts : List Statement)
    (p pf : Parser) (r : List Statement)
    (h : parse_loop fuel turns stmts p = .ok (r, pf))
    (ht : p.tokens = ts ++ [Token.eof]) (hle : p.nxt ≤ ts.length)
    (hno : pf.errors.length ≤ p.errors.length) :
    ∃ pf1, parse_loop (fuel + 1) (turns + 1) stmts
        (p.retoken (ts ++ [Token.semicolon, Token.eof])) = .ok (r, pf1) ∧
      pf1.errors = pf.errors := by
  induction turns generalizing stmts p with
  | zero => cases h
  | succ k ih =>
    by_cases he : p.token.type = .eof_t
    · rw [parse_loop_eof fuel k stmts p he] at h
      cases h
      exact ⟨_, parse_loop_eof (fuel + 1) (k + 1) _ _ he, rfl⟩
    · cases hs : (descend fuel).statement p with
      | error e =>
        unfold parse_loop at h
        rw [Parse.bind_of_ok (cur_token_type_is_apply _ p)] at h
        have hb : (p.token.type == TokenType.eof_t) = false := by simpa using he
        simp only [hb, Bool.false_eq_true, if_false] at h
        obtain ⟨a, p1, e1, -⟩ := Parse.ok_of_bind h
        rw [hs] at e1
        cases e1
      | ok v =>
        obtain ⟨a, p1⟩ := v
        rw [parse_loop_step fuel k stmts p p1 a he hs] at h
        obtain ⟨t1, m1, s1⟩ := (descend_sim ts fuel).statement p a p1 hs
        have m2 := parse_loop_errors ts fuel k _ _ _ _ h
        have h0 : p1.advance.errors = p1.errors := rfl
        rw [h0] at m2
        obtain ⟨n1, r1⟩ := s1 ht hle (by omega)
        have hmono := (descend_mono (Nat.le_succ fuel)).2
        have he1 : (p.retoken (ts ++ [Token.semicolon, Token.eof])).token.type ≠ .eof_t := he
        have hend : ∀ (j : Nat) (q : Parser) (S : List Statement), q.peek = Token.eof →
            parse_loop (fuel + 1) (j + 1) S q.advance = .ok (S, q.advance) :=
          fun j q S hq => parse_loop_eof (fuel + 1) j S q.advance
            (by show q.peek.type = _; rw [hq]; rfl)
        rcases r1 with r1 | ⟨heq, r1⟩
        · rw [parse_loop_step (fuel + 1) (k + 1) stmts _ _ a he1 (hmono _ _ r1)]
          by_cases hlt : p1.nxt < ts.length
          · rw [Parser.advance_retoken ts p1 (t1.trans ht) hlt]
            exact ih _ _ h (t1.trans ht) (by show p1.nxt + 1 ≤ ts.length; omega)
              (by rw [h0]; omega)
          · have hpk := Parser.peek_of_ge ts p1 (t1.trans ht) (by omega)
            have hstop : p1.advance.token.type = .eof_t := by
              show p1.peek.type = _
              rw [hpk]
              rfl
            cases k with
            | zero => cases h
            | succ j =>
              rw [parse_loop_eof fuel j _ _ hstop] at h
              cases h
              have hsemi : (p1.retoken (ts ++ [Token.semicolon, Token.eof])).advance.token.type
                  = .semicolon_t := by
                show (p1.retoken (ts ++ [Token.semicolon, Token.eof])).peek.type = _
                rw [Parser.peek_retoken_eq ts p1 (by omega)]
                rfl
              have hstmt : (descend (fuel + 1)).statement
                  (p1.retoken (ts ++ [Token.semicolon, Token.eof])).advance
                  = .ok (none, (p1.retoken (ts ++ [Token.semicolon, Token.eof])).advance) :=
                parse_statement_semicolon (descend fuel) _ hsemi
              rw [parse_loop_step (fuel + 1) (j + 1) _ _ _ none
                (by rw [hsemi]; decide) hstmt]
              simp only [Option.toList, List.append_nil]
              refine ⟨_, hend j _ _ ?_, rfl⟩
              exact Parser.peek_retoken_after ts _ rfl (by show p1.nxt + 1 = _; omega)
        · rw [parse_loop_step (fuel + 1) (k + 1) stmts _ _ a he1 (hmono _ _ r1)]
          have hpk := Parser.peek_of_ge ts p1 (t1.trans ht) (by omega)
          have hstop : p1.advance.token.type = .eof_t := by
            show p1.peek.type = _
            rw [hpk]
            rfl
          cases k with
          | zero => cases h
          | succ j =>
            rw [parse_loop_eof fuel j _ _ hstop] at h
            cases h
            refine ⟨_, hend (j + 1) _ _ ?_, rfl⟩
            exact Parser.peek_retoken_after ts _ rfl (by show p1.nxt + 1 = _; omega)

/-- The parse of the tokens `ts`, `;`, `eof` returns the program of the parse of `ts`,
`eof` when this one records no error, and records none. -/
theorem parse_with_semicolon (ts : List Token) (fuel : Nat) (program : Program) (pf : Parser)
    (h : parse fuel (Parser.of_tokens (ts ++ [Token.eof])) = .ok (program, pf))
    (he : pf.errors = []) :
    ∃ pf1, parse (fuel + 1) (Parser.of_tokens (ts ++ [Token.semicolon, Token.eof]))
        = .ok (program, pf1) ∧ pf1.errors = [] := by
  obtain ⟨stmts, p1, e1, e2⟩ := Parse.ok_of_bind h
  have hr : program = ⟨stmts⟩ ∧ pf = p1 := by
    cases e2
    exact ⟨rfl, rfl⟩
  obtain ⟨hr1, hr2⟩ := hr
  subst hr1 hr2
  cases ts with
  | nil =>
    cases fuel with
    | zero => cases e1
    | succ k =>
      have hk : parse_loop (k + 1) (k + 1) [] (Parser.of_tokens ([] ++ [Token.eof]))
          = .ok ([], Parser.of_tokens ([] ++ [Token.eof])) := parse_loop_eof _ _ _ _ rfl
      rw [hk] at e1
      cases e1
      exact ⟨_, rfl, rfl⟩
  | cons t rest =>
    obtain ⟨pf1, hl, hlen⟩ := parse_loop_sim (t :: rest) fuel fuel [] _ _ _ e1 rfl
      (by simp [Parser.of_tokens]) (by rw [he]; exact Nat.zero_le _)
    refine ⟨pf1, ?_, by rw [hlen, he]⟩
    have hl1 := parse_loop_mono (Nat.le_refl (fuel + 1)) (fuel + 1) (fuel + 1) (Nat.le_refl _) []
      _ _ hl
    show (parse_loop (fuel + 1) (fuel + 1) [] >>= _) _ = _
    have hst : Parser.of_tokens (t :: rest ++ [Token.semicolon, Token.eof])
        = (Parser.of_tokens (t :: rest ++ [Token.eof])).retoken
            (t :: rest ++ [Token.semicolon, Token.eof]) := by
      simp [Parser.of_tokens, Parser.retoken]
    rw [hst, Parse.bind_of_ok hl1]
    rfl

/-! ## The tokens of an input with a `;` added -/

theorem Lexer.ch_extend_lt (l : Lexer) (hw : l.WellFormed) (hlt : l.cur < l.input.length) :
    l.extend.ch = l.ch := by
  obtain ⟨h1, -, -⟩ := hw
  rw [h1]
  show (l.input ++ [';'])[l.cur]?.getD NUL = _
  rw [List.getElem?_append_left hlt]

theorem Lexer.lt_of_ch (l : Lexer) (hw : l.WellFormed) (hne : l.ch ≠ NUL) :
    l.cur < l.input.length := by
  obtain ⟨h1, -, -⟩ := hw
  by_contra hc
  rw [List.getElem?_eq_none (by omega)] at h1
  exact hne h1

theorem Lexer.ch_extend_end (l : Lexer) (heq : l.cur = l.input.length) :
    l.extend.ch = ';' := by
  show (l.input ++ [';'])[l.cur]?.getD NUL = _
  rw [heq, List.getElem?_append_right (Nat.le_refl _)]
  simp

theorem Lexer.read_char_wf (l : Lexer) (hw : l.WellFormed) (hlt : l.cur < l.input.length) :
    l.read_char.WellFormed := by
  obtain ⟨-, h2, -⟩ := hw
  refine ⟨rfl, rfl, ?_⟩
  show l.nxt ≤ l.input.length
  omega

theorem Lexer.read_char_extend (l : Lexer) (hw : l.WellFormed) :
    l.extend.read_char = l.read_char.extend := by
  obtain ⟨-, h2, -⟩ := hw
  rfl

theorem Lexer.extend_wf (l : Lexer) (hw : l.WellFormed) : l.extend.WellFormed := by
  obtain ⟨-, h2, h3⟩ := hw
  refine ⟨rfl, h2, ?_⟩
  show l.cur ≤ (l.input ++ [';']).length
  simp
  omega

/-- A loop `while (test(_ch)) read_char()` stops at the same position of the longer input,
when the test rejects 0 and `;`. -/
theorem Lexer.read_while_extend (test : Char → Bool) (h0 : test NUL = false)
    (h1 : test ';' = false) (turns turns1 : Nat) (l : Lexer) (hw : l.WellFormed)
    (ht : l.input.length - l.cur < turns) (ht1 : l.input.length - l.cur < turns1) :
    (Lexer.read_while test turns l).WellFormed ∧
    (Lexer.read_while test turns l).input = l.input ∧
    l.cur ≤ (Lexer.read_while test turns l).cur ∧
    test (Lexer.read_while test turns l).ch = false ∧
    Lexer.read_while test turns1 l.extend = (Lexer.read_while test turns l).extend := by
  induction turns generalizing turns1 l with
  | zero => omega
  | succ k ih =>
    obtain ⟨j, rfl⟩ : ∃ j, turns1 = j + 1 := ⟨turns1 - 1, by omega⟩
    by_cases hc : test l.ch = true
    · have hne : l.ch ≠ NUL := by
        intro e
        rw [e, h0] at hc
        cases hc
      have hlt := Lexer.lt_of_ch l hw hne
      have hw1 := Lexer.read_char_wf l hw hlt
      have hcur : l.read_char.cur = l.cur + 1 := by
        show l.nxt = _
        exact hw.2.1
      have hin : l.read_char.input = l.input := rfl
      obtain ⟨a1, a2, a3, a4, a5⟩ := ih j l.read_char hw1 (by rw [hin, hcur]; omega)
        (by rw [hin, hcur]; omega)
      have e1 : Lexer.read_while test (k + 1) l = Lexer.read_while test k l.read_char := by
        simp only [Lexer.read_while, hc, if_true]
      have e2 : Lexer.read_while test (j + 1) l.extend
          = Lexer.read_while test j l.extend.read_char := by
        simp only [Lexer.read_while, Lexer.ch_extend_lt l hw hlt, hc, if_true]
      rw [e1, e2, Lexer.read_char_extend l hw]
      exact ⟨a1, a2.trans hin, by omega, a4, a5⟩
    · have hcf : test l.ch = false := by simpa using hc
      have e1 : Lexer.read_while test (k + 1) l = l := by
        simp only [Lexer.read_while, hcf, Bool.false_eq_true, if_false]
      have hce : test l.extend.ch = false := by
        by_cases hlt : l.cur < l.input.length
        · rw [Lexer.ch_extend_lt l hw hlt]
          exact hcf
        · rw [Lexer.ch_extend_end l (by have := hw.2.2; omega)]
          exact h1
      have e2 : Lexer.read_while test (j + 1) l.extend = l.extend := by
        simp only [Lexer.read_while, hce, Bool.false_eq_true, if_false]
      rw [e1, e2]
      exact ⟨hw, rfl, Nat.le_refl _, hcf, rfl⟩

theorem Lexer.substr_extend (l : Lexer) (pos len : Nat) (h : pos + len ≤ l.input.length) :
    l.extend.substr pos len = l.substr pos len := by
  unfold Lexer.substr Lexer.extend
  simp only []
  rw [List.drop_append_of_le_length (by omega), List.take_append_of_le_length (by simp; omega)]

theorem Lexer.read_string_loop_extend (turns turns1 : Nat) (l l1 : Lexer)
    (hw : l.WellFormed) (hlt : l.cur < l.input.length) (ht : turns ≤ turns1)
    (h : Lexer.read_string_loop turns l = some l1) :
    l1.WellFormed ∧ l1.input = l.input ∧ l.cur < l1.cur ∧ l1.cur < l1.input.length ∧
    Lexer.read_string_loop turns1 l.extend = some l1.extend := by
  induction turns generalizing turns1 l with
  | zero => cases h
  | succ k ih =>
    obtain ⟨j, rfl⟩ : ∃ j, turns1 = j + 1 := ⟨turns1 - 1, by omega⟩
    have hw1 := Lexer.read_char_wf l hw hlt
    have hcur : l.read_char.cur = l.cur + 1 := by
      show l.nxt = _
      exact hw.2.1
    have hin : l.read_char.input = l.input := rfl
    simp only [Lexer.read_string_loop] at h ⊢
    rw [Lexer.read_char_extend l hw]
    by_cases hq : l.read_char.ch = '"'
    · have hb : (l.read_char.ch != '"') = false := by simp [hq]
      simp only [hb, Bool.false_eq_true, if_false, Option.some.injEq] at h
      subst h
      have hlt1 : l.read_char.cur < l.read_char.input.length :=
        Lexer.lt_of_ch _ hw1 (by rw [hq]; decide)
      have hb1 : (l.read_char.extend.ch != '"') = false := by
        rw [Lexer.ch_extend_lt _ hw1 hlt1]
        exact hb
      simp only [hb1, Bool.false_eq_true, if_false]
      exact ⟨hw1, hin, by omega, hlt1, trivial⟩
    · have hb : (l.read_char.ch != '"') = true := by simp [hq]
      simp only [hb, if_true] at h
      have hlt1 : l.read_char.cur < l.read_char.input.length := by
        by_contra hcon
        cases k with
        | zero => cases h
        | succ i =>
          simp only [Lexer.read_string_loop] at h
          have hnul : ∀ (n : Nat) (x : Lexer), x.input.length ≤ x.nxt →
              Lexer.read_string_loop n x = none := by
            intro n
            induction n with
            | zero => intro x _; rfl
            | succ m ihm =>
              intro x hx
              simp only [Lexer.read_string_loop]
              have hch : x.read_char.ch = NUL := by
                show x.input[x.nxt]?.getD NUL = NUL
                rw [List.getElem?_eq_none hx]
                rfl
              have hb2 : (x.read_char.ch != '"') = true := by
                rw [hch]
                decide
              simp only [hb2, if_true]
              exact ihm x.read_char (by show x.input.length ≤ x.nxt + 1; omega)
          have := hnul (i + 1) l.read_char (by
            have := hw1.2.1
            rw [this]
            omega)
          simp only [Lexer.read_string_loop] at this
          rw [this] at h
          cases h
      have hb1 : (l.read_char.extend.ch != '"') = true := by
        rw [Lexer.ch_extend_lt _ hw1 hlt1]
        exact hb
      simp only [hb1, if_true]
      obtain ⟨a1, a2, a3, a4, a5⟩ := ih j l.read_char hw1 hlt1 (by omega) h
      exact ⟨a1, a2.trans hin, by omega, a4, a5⟩

theorem Lexer.peek_char_extend (l : Lexer) (hw : l.WellFormed) :
    (l.extend.peek_char = '=') ↔ (l.peek_char = '=') := by
  obtain ⟨-, h2, h3⟩ := hw
  show ((l.input ++ [';'])[l.nxt]?.getD NUL = '=') ↔ (l.input[l.nxt]?.getD NUL = '=')
  by_cases hn : l.nxt < l.input.length
  · rw [List.getElem?_append_left hn]
  · by_cases hn1 : l.nxt = l.input.length
    · rw [hn1, List.getElem?_append_right (Nat.le_refl _),
        List.getElem?_eq_none (Nat.le_refl _)]
      simp [NUL]
    · rw [List.getElem?_eq_none (by simp; omega), List.getElem?_eq_none (by omega)]

theorem Lexer.read_token_switch_nul (l : Lexer) (h : l.ch = NUL) :
    l.read_token_switch = some (Token.eof, l) := by
  unfold Lexer.read_token_switch
  rw [h]
  rfl

theorem Lexer.read_token_switch_semicolon (l : Lexer) (h : l.ch = ';') :
    l.read_token_switch = some (Token.semicolon, l.read_char) := by
  unfold Lexer.read_token_switch
  rw [h]
  rfl

/-- The `switch` of `read_token` on a character of the input returns the same token at the
same position of the longer input. -/
theorem Lexer.read_token_switch_extend (l : Lexer) (hw : l.WellFormed) (hne : l.ch ≠ NUL)
    (token : Token) (l1 : Lexer) (h : l.read_token_switch = some (token, l1)) :
    l1.WellFormed ∧ l1.input = l.input ∧
      l.extend.read_token_switch = some (token, l1.extend) := by
  have hlt := Lexer.lt_of_ch l hw hne
  have hch := Lexer.ch_extend_lt l hw hlt
  have hw1 := Lexer.read_char_wf l hw hlt
  have hlen : l.extend.input.length = l.input.length + 1 := by
    show (l.input ++ [';']).length = _
    simp
  unfold Lexer.read_token_switch at h ⊢
  rw [hch]
  cases hs : single_char_token l.ch with
  | some t =>
    rw [hs] at h
    simp only [Option.some.injEq, Prod.mk.injEq] at h
    obtain ⟨rfl, rfl⟩ := h
    exact ⟨hw1, rfl, by rw [Lexer.read_char_extend l hw]⟩
  | none =>
    rw [hs] at h
    simp only [] at h ⊢
    cases hd : double_char_token l.ch with
    | some pair =>
      obtain ⟨single, double⟩ := pair
      rw [hd] at h
      simp only [] at h ⊢
      by_cases hp : l.peek_char = '='
      · rw [if_pos hp] at h
        rw [if_pos ((Lexer.peek_char_extend l hw).2 hp)]
        simp only [Option.some.injEq, Prod.mk.injEq] at h
        obtain ⟨rfl, rfl⟩ := h
        have hlt1 : l.read_char.cur < l.read_char.input.length := by
          apply Lexer.lt_of_ch _ hw1
          show l.input[l.nxt]?.getD NUL ≠ NUL
          have : l.peek_char = l.input[l.nxt]?.getD NUL := rfl
          rw [← this, hp]
          decide
        exact ⟨Lexer.read_char_wf _ hw1 hlt1, rfl,
          by rw [Lexer.read_char_extend l hw, Lexer.read_char_extend _ hw1]⟩
      · rw [if_neg hp] at h
        rw [if_neg (fun e => hp ((Lexer.peek_char_extend l hw).1 e))]
        simp only [Option.some.injEq, Prod.mk.injEq] at h
        obtain ⟨rfl, rfl⟩ := h
        exact ⟨hw1, rfl, by rw [Lexer.read_char_extend l hw]⟩
    | none =>
      rw [hd] at h
      simp only [] at h ⊢
      rw [if_neg hne] at h ⊢
      by_cases hdig : is_digit l.ch = true
      · rw [if_pos hdig] at h ⊢
        obtain ⟨a1, a2, a3, a4, a5⟩ := Lexer.read_while_extend is_digit (by decide) (by decide)
          (l.input.length + 1) (l.extend.input.length + 1) l hw (by omega) (by omega)
        simp only [Lexer.read_number, Option.some.injEq, Prod.mk.injEq] at h ⊢
        obtain ⟨rfl, rfl⟩ := h
        refine ⟨a1, a2, ?_, a5⟩
        rw [a5]
        have hle := a1.2.2
        rw [a2] at hle
        have : (Lexer.read_while is_digit (l.input.length + 1) l).extend.cur
            = (Lexer.read_while is_digit (l.input.length + 1) l).cur := rfl
        rw [this]
        have hc : l.extend.cur = l.cur := rfl
        rw [hc, Lexer.substr_extend l _ _ (by omega)]
      · rw [if_neg hdig] at h ⊢
        by_cases hq : l.ch = '"'
        · rw [if_pos hq] at h ⊢
          unfold Lexer.read_string at h ⊢
          cases hloop : Lexer.read_string_loop (l.input.length + 1) l with
          | none =>
            rw [hloop] at h
            cases h
          | some l2 =>
            rw [hloop] at h
            simp only [Option.some.injEq, Prod.mk.injEq] at h
            obtain ⟨rfl, rfl⟩ := h
            obtain ⟨b1, b2, b3, b4, b5⟩ := Lexer.read_string_loop_extend
              (l.input.length + 1) (l.extend.input.length + 1) l l2 hw hlt (by omega) hloop
            rw [b5]
            simp only [Option.some.injEq, Prod.mk.injEq]
            refine ⟨Lexer.read_char_wf _ b1 b4, b2, ?_, Lexer.read_char_extend _ b1⟩
            have hc : l.extend.cur = l.cur := rfl
            have hc2 : l2.extend.cur = l2.cur := rfl
            rw [hc, hc2, Lexer.substr_extend l _ _ (by rw [b2] at b4; omega)]
        · rw [if_neg hq] at h ⊢
          by_cases hal : is_alnum l.ch = true
          · rw [if_pos hal] at h ⊢
            obtain ⟨a1, a2, a3, a4, a5⟩ := Lexer.read_while_extend is_alnum (by decide)
              (by decide) (l.input.length + 1) (l.extend.input.length + 1) l hw (by omega)
              (by omega)
            simp only [Lexer.read_identifier, Option.some.injEq, Prod.mk.injEq] at h ⊢
            obtain ⟨rfl, rfl⟩ := h
            have hle := a1.2.2
            rw [a2] at hle
            have hcc : (Lexer.read_while is_alnum (l.input.length + 1) l).extend.cur
                = (Lexer.read_while is_alnum (l.input.length + 1) l).cur := rfl
            have hc : l.extend.cur = l.cur := rfl
            rw [a5, hcc, hc, Lexer.substr_extend l _ _ (by omega)]
            exact ⟨a1, a2, rfl, rfl⟩
          · rw [if_neg hal] at h ⊢
            simp only [Option.some.injEq, Prod.mk.injEq] at h
            obtain ⟨rfl, rfl⟩ := h
            exact ⟨hw, rfl, rfl⟩

theorem Lexer.skip_whitespace_extend (l : Lexer) (hw : l.WellFormed) :
    l.skip_whitespace.WellFormed ∧ l.skip_whitespace.input = l.input ∧
      l.extend.skip_whitespace = l.skip_whitespace.extend := by
  have hlen : l.extend.input.length = l.input.length + 1 := by
    show (l.input ++ [';']).length = _
    simp
  obtain ⟨a1, a2, -, -, a5⟩ := Lexer.read_while_extend is_whitespace (by decide) (by decide)
    (l.input.length + 1) (l.extend.input.length + 1) l hw (by omega) (by omega)
  exact ⟨a1, a2, a5⟩

theorem tokenize_succ (turns : Nat) (lexer : Lexer) :
    tokenize (turns + 1) lexer
      = match lexer.read_token with
        | none => none
        | some (token, lexer1) =>
          if token.type = .eof_t then some [token]
          else
            match tokenize turns lexer1 with
            | none => none
            | some tokens => some (token :: tokens) := rfl

theorem Lexer.read_token_after_end (x : Lexer) (h : x.ch = NUL) :
    x.read_token = some (Token.eof, x) := by
  have hs : x.skip_whitespace = x := by
    show Lexer.read_while is_whitespace (x.input.length + 1) x = x
    have hc : is_whitespace x.ch = false := by
      rw [h]
      decide
    simp only [Lexer.read_while, hc, Bool.false_eq_true, if_false]
  show x.skip_whitespace.read_token_switch = _
  rw [hs]
  exact Lexer.read_token_switch_nul x h

/-- The tokens of the input with a `;` added are the tokens of the input with the token
`;` before the closing `eof`, or, when a character 0 in the input ends the tokens, the
same tokens. -/
theorem tokenize_extend (fuel : Nat) (l : Lexer) (hw : l.WellFormed) (tokens : List Token)
    (h : tokenize fuel l = some tokens) :
    ∃ tokens1, tokenize (fuel + 1) l.extend = some tokens1 ∧
      (tokens1 = tokens ∨ ∃ ts, tokens = ts ++ [Token.eof] ∧
        tokens1 = ts ++ [Token.semicolon, Token.eof]) := by
  induction fuel generalizing l tokens with
  | zero => cases h
  | succ k ih =>
    obtain ⟨w1, w2, w3⟩ := Lexer.skip_whitespace_extend l hw
    have hr : l.read_token = l.skip_whitespace.read_token_switch := rfl
    have hr1 : l.extend.read_token = l.skip_whitespace.extend.read_token_switch := by
      show l.extend.skip_whitespace.read_token_switch = _
      rw [w3]
    by_cases hnul : l.skip_whitespace.ch = NUL
    · have e1 : l.read_token = some (Token.eof, l.skip_whitespace) := by
        rw [hr]
        exact Lexer.read_token_switch_nul _ hnul
      have ht : tokens = [Token.eof] := by
        rw [tokenize_succ, e1] at h
        have : Token.eof.type = TokenType.eof_t := rfl
        simp only [this, if_true, Option.some.injEq] at h
        exact h.symm
      subst ht
      by_cases hlt : l.skip_whitespace.cur < l.skip_whitespace.input.length
      · have e2 : l.extend.read_token = some (Token.eof, l.skip_whitespace.extend) := by
          rw [hr1]
          exact Lexer.read_token_switch_nul _
            (by rw [Lexer.ch_extend_lt _ w1 hlt]; exact hnul)
        refine ⟨[Token.eof], ?_, .inl rfl⟩
        rw [tokenize_succ, e2]
        rfl
      · have heq : l.skip_whitespace.cur = l.skip_whitespace.input.length := by
          have := w1.2.2
          omega
        have e2 : l.extend.read_token
            = some (Token.semicolon, l.skip_whitespace.extend.read_char) := by
          rw [hr1]
          exact Lexer.read_token_switch_semicolon _ (Lexer.ch_extend_end _ heq)
        have e3 : l.skip_whitespace.extend.read_char.read_token
            = some (Token.eof, l.skip_whitespace.extend.read_char) := by
          apply Lexer.read_token_after_end
          show (l.skip_whitespace.input ++ [';'])[l.skip_whitespace.nxt]?.getD NUL = NUL
          rw [List.getElem?_eq_none (by simp; have := w1.2.1; omega)]
          rfl
        refine ⟨[Token.semicolon, Token.eof], ?_, .inr ⟨[], rfl, rfl⟩⟩
        rw [tokenize_succ, e2]
        simp only []
        rw [if_neg (by decide)]
        cases k with
        | zero =>
          rw [tokenize_succ, e3]
          rfl
        | succ j =>
          rw [tokenize_succ, e3]
          rfl
    · rw [tokenize_succ] at h
      cases hrt : l.read_token with
      | none =>
        rw [hrt] at h
        cases h
      | some v =>
        obtain ⟨token, l1⟩ := v
        rw [hrt] at h
        simp only [] at h
        obtain ⟨b1, b2, b3⟩ := Lexer.read_token_switch_extend _ w1 hnul token l1
          (by rw [← hr]; exact hrt)
        have e2 : l.extend.read_token = some (token, l1.extend) := by
          rw [hr1]
          exact b3
        by_cases hty : token.type = .eof_t
        · rw [if_pos hty] at h
          simp only [Option.some.injEq] at h
          subst h
          refine ⟨[token], ?_, .inl rfl⟩
          rw [tokenize_succ, e2]
          simp only [hty, if_true]
        · rw [if_neg hty] at h
          cases hrest : tokenize k l1 with
          | none =>
            rw [hrest] at h
            cases h
          | some rest =>
            rw [hrest] at h
            simp only [Option.some.injEq] at h
            subst h
            obtain ⟨rest1, c1, c2⟩ := ih l1 b1 rest hrest
            refine ⟨token :: rest1, ?_, ?_⟩
            · rw [tokenize_succ, e2]
              simp only [hty, if_false, c1]
            · rcases c2 with c2 | ⟨ts, c3, c4⟩
              · left
                rw [c2]
              · right
                exact ⟨token :: ts, by rw [c3]; rfl, by rw [c4]; rfl⟩

theorem Lexer.new_extend (input : String) :
    Lexer.new (input ++ ";") = (Lexer.new input).extend := by
  unfold Lexer.new Lexer.extend
  simp only [String.toList, String.data_append]

theorem Lexer.new_wf (input : String) : (Lexer.new input).WellFormed :=
  ⟨rfl, rfl, Nat.zero_le _⟩

theorem parse_input_of_summary {fuel : Nat} {input : String}
    {renderings : List (Option String)} {errors : List String}
    (h : parse_summary fuel input = .ok (renderings, errors)) :
    ∃ program : Program, parse_input fuel input = .ok (program, errors) ∧
      program.renderings = renderings := by
  unfold parse_summary at h
  split at h
  · cases h
  · next program errs hp =>
    simp only [Except.ok.injEq, Prod.mk.injEq] at h
    obtain ⟨h1, h2⟩ := h
    subst h2
    exact ⟨program, hp, h1⟩

/-- C30: when the parse of a source `s` returns a program and no error, the parse of `s`
followed by `;` returns the same program, so the same statements with the same
renderings, and no error, with one level of fuel more or any number more; a statement
that is `;` alone is no statement and no error, in every state, and the parse of `;` is
the empty program without error. -/
theorem trailing_semicolon_is_optional (fuel : Nat) (s : String) (program : Program)
    (h : parse_input fuel s = .ok (program, [])) :
    (∀ fuel1 : Nat, fuel + 1 ≤ fuel1 → parse_input fuel1 (s ++ ";") = .ok (program, [])) ∧
    (∀ (d : Descent) (p : Parser), p.token.type = .semicolon_t →
      parse_statement d p = .ok (none, p)) ∧
    (∀ k : Nat, parse_input (k + 2) ";" = .ok (⟨[]⟩, [])) := by
  refine ⟨fun fuel1 hf => ?_, parse_statement_semicolon, fun k => rfl⟩
  refine parse_input_mono hf _ _ ?_
  unfold parse_input Parser.new at h
  cases ht : tokenize fuel (Lexer.new s) with
  | none =>
    rw [ht] at h
    cases h
  | some tokens =>
    rw [ht] at h
    simp only [] at h
    cases hp : parse fuel (Parser.of_tokens tokens) with
    | error e =>
      rw [hp] at h
      cases h
    | ok v =>
      obtain ⟨program1, pf⟩ := v
      rw [hp] at h
      simp only [Except.ok.injEq, Prod.mk.injEq] at h
      obtain ⟨rfl, he⟩ := h
      obtain ⟨tokens1, t1, t2⟩ := tokenize_extend fuel _ (Lexer.new_wf s) tokens ht
      rw [← Lexer.new_extend] at t1
      rcases t2 with rfl | ⟨ts, rfl, rfl⟩
      · have hp1 := parse_mono (Nat.le_succ fuel) _ _ hp
        rw [parse_input_of_tokens _ _ _ _ _ t1 hp1, he]
      · obtain ⟨pf1, hp1, he1⟩ := parse_with_semicolon ts fuel program1 pf hp he
        rw [parse_input_of_tokens _ _ _ _ _ t1 hp1, he1]

/-- C30 on concrete inputs: `let x = 1`, `return 1` and `1 + 2` are parsed without error,
and with a `;` added they are parsed to the same programs, of these renderings. -/
theorem trailing_semicolon_is_optional_witness :
    (∃ program : Program, parse_input 5 "let x = 1" = .ok (program, []) ∧
      program.renderings = [some "let x = 1"] ∧
      parse_input 6 ("let x = 1" ++ ";") = .ok (program, [])) ∧
    (∃ program : Program, parse_input 4 "return 1" = .ok (program, []) ∧
      program.renderings = [some "return 1"] ∧
      parse_input 5 ("return 1" ++ ";") = .ok (program, [])) ∧
    (∃ program : Program, parse_input 4 "1 + 2" = .ok (program, []) ∧
      program.renderings = [some "(1 + 2)"] ∧
      parse_input 5 ("1 + 2" ++ ";") = .ok (program, [])) ∧
    "let x = 1" ++ ";" = "let x = 1;" := by
  obtain ⟨p1, h1, r1⟩ := parse_input_of_summary
    (by decide! : parse_summary 5 "let x = 1" = .ok ([some "let x = 1"], []))
  obtain ⟨p2, h2, r2⟩ := parse_input_of_summary
    (by decide! : parse_summary 4 "return 1" = .ok ([some "return 1"], []))
  obtain ⟨p3, h3, r3⟩ := parse_input_of_summary
    (by decide! : parse_summary 4 "1 + 2" = .ok ([some "(1 + 2)"], []))
  exact ⟨⟨p1, h1, r1, (trailing_semicolon_is_optional 5 "let x = 1" p1 h1).1 6 (by decide)⟩,
    ⟨p2, h2, r2, (trailing_semicolon_is_optional 4 "return 1" p2 h2).1 5 (by decide)⟩,
    ⟨p3, h3, r3, (trailing_semicolon_is_optional 4 "1 + 2" p3 h3).1 5 (by decide)⟩, by decide⟩


/-! ## Comparison of trees -/

mutual
theorem Expression.same_sound : ∀ (a b : Expression), Expression.same a b = true → a = b
  | .Identifier a, b, h => by
    cases b <;> simp [Expression.same] at h
    rw [h]
  | .IntegerLiteral a, b, h => by
    cases b <;> simp [Expression.same] at h
    rw [h]
  | .BooleanLiteral a, b, h => by
    cases b <;> simp [Expression.same] at h
    rw [h]
  | .StringLiteral a, b, h => by
    cases b <;> simp [Expression.same] at h
    rw [h]
  | .ArrayLiteral a, b, h => by
    cases b <;> simp [Expression.same] at h
    rw [Expression.same_list_sound _ _ h]
  | .FunctionLiteral p a, b, h => by
    cases b <;> simp [Expression.same] at h
    rw [h.1, BlockStatement.same_block_option_sound _ _ h.2]
  | .IfExpression c a1 a2, b, h => by
    cases b <;> simp [Expression.same] at h
    rw [Expression.same_option_sound _ _ h.1, BlockStatement.same_block_option_sound _ _ h.2.1,
      BlockStatement.same_block_option_sound _ _ h.2.2]
  | .CallExpression f a, b, h => by
    cases b <;> simp [Expression.same] at h
    rw [Expression.same_option_sound _ _ h.1, Expression.same_list_sound _ _ h.2]
  | .IndexExpression i a, b, h => by
    cases b <;> simp [Expression.same] at h
    rw [Expression.same_option_sound _ _ h.1, Expression.same_option_sound _ _ h.2]
  | .PrefixExpression o a, b, h => by
    cases b <;> simp [Expression.same] at h
    rw [h.1, Expression.same_option_sound _ _ h.2]
  | .InfixExpression l o r, b, h => by
    cases b <;> simp [Expression.same] at h
    rw [Expression.same_option_sound _ _ h.1, h.2.1, Expression.same_option_sound _ _ h.2.2]
theorem Expression.same_option_sound :
    ∀ (a b : Option Expression), Expression.same_option a b = true → a = b
  | none, b, h => by
    cases b <;> simp [Expression.same_option] at h
    rfl
  | some a, b, h => by
    cases b <;> simp [Expression.same_option] at h
    rw [Expression.same_sound _ _ h]
theorem Expression.same_list_sound :
    ∀ (a b : List (Option Expression)), Expression.same_list a b = true → a = b
  | [], b, h => by
    cases b <;> simp [Expression.same_list] at h
    rfl
  | a :: as, b, h => by
    cases b <;> simp [Expression.same_list] at h
    rw [Expression.same_option_sound _ _ h.1, Expression.same_list_sound _ _ h.2]
theorem Statement.same_statement_sound : ∀ (a b : Statement), Statement.same a b = true → a = b
  | .LetStatement i a, b, h => by
    cases b <;> simp [Statement.same] at h
    rw [h.1, Expression.same_option_sound _ _ h.2]
  | .ReturnStatement a, b, h => by
    cases b <;> simp [Statement.same] at h
    rw [Expression.same_option_sound _ _ h]
  | .ExpressionStatement a, b, h => by
    cases b <;> simp [Statement.same] at h
    rw [Expression.same_option_sound _ _ h]
theorem Statement.same_statements_sound :
    ∀ (a b : List Statement), Statement.same_list a b = true → a = b
  | [], b, h => by
    cases b <;> simp [Statement.same_list] at h
    rfl
  | a :: as, b, h => by
    cases b <;> simp [Statement.same_list] at h
    rw [Statement.same_statement_sound _ _ h.1, Statement.same_statements_sound _ _ h.2]
theorem BlockStatement.same_block_sound :
    ∀ (a b : BlockStatement), BlockStatement.same a b = true → a = b
  | .mk a, .mk b, h => by
    simp [BlockStatement.same] at h
    rw [Statement.same_statements_sound _ _ h]
theorem BlockStatement.same_block_option_sound :
    ∀ (a b : Option BlockStatement), BlockStatement.same_option a b = true → a = b
  | none, b, h => by
    cases b <;> simp [BlockStatement.same_option] at h
    rfl
  | some a, b, h => by
    cases b <;> simp [BlockStatement.same_option] at h
    rw [BlockStatement.same_block_sound _ _ h]
end

theorem parse_input_of_gives {fuel : Nat} {input : String} {program : Program}
    {errors : List String} (h : parse_gives fuel input program errors = true) :
    parse_input fuel input = .ok (program, errors) := by
  unfold parse_gives at h
  split at h
  · cases h
  · next parsed errs hp =>
    simp only [Bool.and_eq_true, beq_iff_eq] at h
    rw [hp]
    have := Statement.same_statements_sound _ _ h.1
    cases parsed
    cases program
    simp only at this
    rw [this, h.2]


/-! ## Trees compared down to a depth -/

theorem same_child_sound {α : Type} {same : α → α → Bool}
    (h : ∀ a b, same a b = true → a = b) (x y : Option α)
    (hxy : same_child same x y = true) : x = y := by
  cases x <;> cases y <;> simp only [same_child] at hxy
  · rfl
  · cases hxy
  · cases hxy
  · rw [h _ _ hxy]

theorem same_elements_sound {α : Type} {same : α → α → Bool}
    (h : ∀ a b, same a b = true → a = b) (xs ys : List α)
    (hxy : same_elements same xs ys = true) : xs = ys := by
  induction xs generalizing ys with
  | nil =>
    cases ys
    · rfl
    · simp only [same_elements] at hxy
      cases hxy
  | cons x xs ih =>
    cases ys with
    | nil =>
      simp only [same_elements] at hxy
      cases hxy
    | cons y ys =>
      simp only [same_elements, Bool.and_eq_true] at hxy
      rw [h _ _ hxy.1, ih ys hxy.2]

theorem alike_sound (n : Nat) :
    (∀ a b, Expression.alike n a b = true → a = b) ∧
    (∀ a b, Statement.alike n a b = true → a = b) ∧
    (∀ a b, BlockStatement.alike n a b = true → a = b) := by
  induction n with
  | zero =>
    refine ⟨fun a b h => ?_, fun a b h => ?_, fun a b h => ?_⟩ <;>
      simp only [Expression.alike, Statement.alike, BlockStatement.alike] at h <;> cases h
  | succ n ih =>
    obtain ⟨he, hs, hb⟩ := ih
    have hoe := same_child_sound he
    have hob := same_child_sound hb
    have hle := same_elements_sound hoe
    have hls := same_elements_sound hs
    refine ⟨fun a b h => ?_, fun a b h => ?_, fun a b h => ?_⟩
    · cases a <;> cases b <;>
        simp only [Expression.alike, Bool.and_eq_true, beq_iff_eq] at h <;>
        first
        | exact Bool.noConfusion h
        | (cases h; rfl)
        | (cases hle _ _ h; rfl)
        | (obtain ⟨h1, h2⟩ := h
           first
           | (cases h1; cases hob _ _ h2; rfl)
           | (cases hoe _ _ h1; cases hle _ _ h2; rfl)
           | (cases hoe _ _ h1; cases hoe _ _ h2; rfl)
           | (cases h1; cases hoe _ _ h2; rfl)
           | (obtain ⟨h3, h4⟩ := h2
              first
              | (cases hoe _ _ h1; cases hob _ _ h3; cases hob _ _ h4; rfl)
              | (cases hoe _ _ h1; cases h3; cases hoe _ _ h4; rfl)))
    · cases a <;> cases b <;>
        simp only [Statement.alike, Bool.and_eq_true, beq_iff_eq] at h <;>
        first
        | exact Bool.noConfusion h
        | (cases hoe _ _ h; rfl)
        | (obtain ⟨h1, h2⟩ := h; cases h1; cases hoe _ _ h2; rfl)
    · cases a
      cases b
      simp only [BlockStatement.alike] at h
      rw [hls _ _ h]

theorem parse_input_of_alike {fuel : Nat} {input : String} {program : Program}
    {errors : List String} (h : parse_alike fuel input program errors = true) :
    parse_input fuel input = .ok (program, errors) := by
  unfold parse_alike at h
  split at h
  · cases h
  · next parsed errs hp =>
    simp only [Bool.and_eq_true, beq_iff_eq] at h
    rw [hp]
    have := same_elements_sound (alike_sound fuel).2.1 _ _ h.1
    cases parsed
    cases program
    simp only at this
    rw [this, h.2]


/-! ## The kinds of the tokens of the lexer -/

theorem Token.ite_symbol {c : Prop} [Decidable c] {a t : Token} {rest : Option Token}
    (ha : a.type ≠ .eof_t ∧ a.type ≠ .illegal_t)
    (hrest : rest = some t → t.type ≠ .eof_t ∧ t.type ≠ .illegal_t)
    (h : (if c then some a else rest) = some t) :
    t.type ≠ .eof_t ∧ t.type ≠ .illegal_t := by
  split at h
  · cases h
    exact ha
  · exact hrest h

theorem Token.ite_symbols {c : Prop} [Decidable c] {a t : Token × Token}
    {rest : Option (Token × Token)}
    (ha : (a.1.type ≠ .eof_t ∧ a.1.type ≠ .illegal_t) ∧
      a.2.type ≠ .eof_t ∧ a.2.type ≠ .illegal_t)
    (hrest : rest = some t → (t.1.type ≠ .eof_t ∧ t.1.type ≠ .illegal_t) ∧
      t.2.type ≠ .eof_t ∧ t.2.type ≠ .illegal_t)
    (h : (if c then some a else rest) = some t) :
    (t.1.type ≠ .eof_t ∧ t.1.type ≠ .illegal_t) ∧
      t.2.type ≠ .eof_t ∧ t.2.type ≠ .illegal_t := by
  split at h
  · cases h
    exact ha
  · exact hrest h

theorem single_char_token_type {ch : Char} {token : Token}
    (h : single_char_token ch = some token) :
    token.type ≠ .eof_t ∧ token.type ≠ .illegal_t := by
  unfold single_char_token at h
  revert h
  repeat (refine Token.ite_symbol ⟨by decide, by decide⟩ ?_)
  intro h
  cases h

theorem double_char_token_type {ch : Char} {pair : Token × Token}
    (h : double_char_token ch = some pair) :
    (pair.1.type ≠ .eof_t ∧ pair.1.type ≠ .illegal_t) ∧
    pair.2.type ≠ .eof_t ∧ pair.2.type ≠ .illegal_t := by
  unfold double_char_token at h
  revert h
  repeat (refine Token.ite_symbols ⟨⟨by decide, by decide⟩, by decide, by decide⟩ ?_)
  intro h
  cases h

theorem List.mem_of_lookup_string {α : Type} (name : String) (value : α) :
    ∀ (table : List (String × α)), table.lookup name = some value → (name, value) ∈ table
  | [], h => by cases h
  | (k, v) :: rest, h => by
    simp only [List.lookup] at h
    split at h
    · next heq =>
      cases h
      have hk : name = k := by simpa using heq
      rw [hk]
      exact List.mem_cons_self _ _
    · exact List.mem_cons_of_mem _ (List.mem_of_lookup_string name value rest h)

/-- The kind `Token::lookup` answers is that of a keyword or `ident`. -/
theorem Token.lookup_type (name : String) :
    Token.lookup name ≠ .eof_t ∧ Token.lookup name ≠ .illegal_t := by
  unfold Token.lookup
  cases hl : Token.keywords.lookup name with
  | none => exact ⟨by decide, by decide⟩
  | some t =>
    have hm := List.mem_of_lookup_string name t _ hl
    simp only [Token.keywords, List.mem_cons, Prod.mk.injEq, List.mem_nil_iff, or_false] at hm
    rcases hm with h | h | h | h | h | h | h <;> rw [h.2] <;> exact ⟨by decide, by decide⟩

theorem is_letter_not_digit (c : Char)
    (h : ('a' ≤ c ∧ c ≤ 'z') ∨ ('A' ≤ c ∧ c ≤ 'Z') ∨ c = '_') :
    is_alnum c = true ∧ is_digit c = false := by
  have key : ∀ a b : Char, a ≤ b ↔ a.toNat ≤ b.toNat := fun a b => Iff.rfl
  constructor
  · unfold is_alnum
    rcases h with h | h | h
    · simp [h.1, h.2]
    · simp [h.1, h.2]
    · simp [h]
  · unfold is_digit
    simp only [Bool.and_eq_false_imp, decide_eq_true_eq, decide_eq_false_iff_not]
    intro _ h9
    rw [key] at h9
    rcases h with h | h | h
    · have := (key _ _).1 h.1
      have e1 : 'a'.toNat = 97 := rfl
      have e2 : '9'.toNat = 57 := rfl
      omega
    · have := (key _ _).1 h.1
      have e1 : 'A'.toNat = 65 := rfl
      have e2 : '9'.toNat = 57 := rfl
      omega
    · rw [h] at h9
      exact absurd h9 (by decide)

/-! ## The `switch` of `read_token`, branch by branch -/

/-- Only the branch of the character 0 returns a token of kind `eof`, and it leaves the
lexer as it is. -/
theorem Lexer.read_token_switch_eof (l l1 : Lexer) (token : Token)
    (h : l.read_token_switch = some (token, l1)) (heof : token.type = .eof_t) :
    l.ch = NUL ∧ token = Token.eof ∧ l1 = l := by
  unfold Lexer.read_token_switch at h
  cases hs : single_char_token l.ch with
  | some t =>
    rw [hs] at h
    simp only [Option.some.injEq, Prod.mk.injEq] at h
    obtain ⟨rfl, rfl⟩ := h
    exact absurd heof (single_char_token_type hs).1
  | none =>
    rw [hs] at h
    simp only [] at h
    cases hd : double_char_token l.ch with
    | some pair =>
      have ht := double_char_token_type hd
      obtain ⟨single, double⟩ := pair
      rw [hd] at h
      simp only [] at h
      split at h
      · simp only [Option.some.injEq, Prod.mk.injEq] at h
        obtain ⟨rfl, rfl⟩ := h
        exact absurd heof ht.2.1
      · simp only [Option.some.injEq, Prod.mk.injEq] at h
        obtain ⟨rfl, rfl⟩ := h
        exact absurd heof ht.1.1
    | none =>
      rw [hd] at h
      simp only [] at h
      by_cases hn : l.ch = NUL
      · rw [if_pos hn] at h
        simp only [Option.some.injEq, Prod.mk.injEq] at h
        exact ⟨hn, h.1.symm, h.2.symm⟩
      · rw [if_neg hn] at h
        split at h
        · simp only [Lexer.read_number, Option.some.injEq, Prod.mk.injEq] at h
          obtain ⟨rfl, rfl⟩ := h
          cases heof
        · split at h
          · split at h
            · simp only [Option.some.injEq, Prod.mk.injEq] at h
              obtain ⟨rfl, rfl⟩ := h
              cases heof
            · cases h
          · split at h
            · simp only [Lexer.read_identifier, Option.some.injEq, Prod.mk.injEq] at h
              obtain ⟨rfl, rfl⟩ := h
              exact absurd heof (Token.lookup_type _).1
            · simp only [Option.some.injEq, Prod.mk.injEq] at h
              obtain ⟨rfl, rfl⟩ := h
              cases heof

/-- Only the last branch of the `switch` returns a token of kind `illegal`: the token has
the empty literal and the lexer is left as it is, on a character that is not 0. -/
theorem Lexer.read_token_switch_illegal (l l1 : Lexer) (token : Token)
    (h : l.read_token_switch = some (token, l1)) (hill : token.type = .illegal_t) :
    l.ch ≠ NUL ∧ token = ⟨.illegal_t, ""⟩ ∧ l1 = l := by
  unfold Lexer.read_token_switch at h
  cases hs : single_char_token l.ch with
  | some t =>
    rw [hs] at h
    simp only [Option.some.injEq, Prod.mk.injEq] at h
    obtain ⟨rfl, rfl⟩ := h
    exact absurd hill (single_char_token_type hs).2
  | none =>
    rw [hs] at h
    simp only [] at h
    cases hd : double_char_token l.ch with
    | some pair =>
      have ht := double_char_token_type hd
      obtain ⟨single, double⟩ := pair
      rw [hd] at h
      simp only [] at h
      split at h
      · simp only [Option.some.injEq, Prod.mk.injEq] at h
        obtain ⟨rfl, rfl⟩ := h
        exact absurd hill ht.2.2
      · simp only [Option.some.injEq, Prod.mk.injEq] at h
        obtain ⟨rfl, rfl⟩ := h
        exact absurd hill ht.1.2
    | none =>
      rw [hd] at h
      simp only [] at h
      by_cases hn : l.ch = NUL
      · rw [if_pos hn] at h
        simp only [Option.some.injEq, Prod.mk.injEq] at h
        obtain ⟨rfl, rfl⟩ := h
        cases hill
      · rw [if_neg hn] at h
        split at h
        · simp only [Lexer.read_number, Option.some.injEq, Prod.mk.injEq] at h
          obtain ⟨rfl, rfl⟩ := h
          cases hill
        · split at h
          · split at h
            · simp only [Option.some.injEq, Prod.mk.injEq] at h
              obtain ⟨rfl, rfl⟩ := h
              cases hill
            · cases h
          · split at h
            · simp only [Lexer.read_identifier, Option.some.injEq, Prod.mk.injEq] at h
              obtain ⟨rfl, rfl⟩ := h
              exact absurd hill (Token.lookup_type _).2
            · simp only [Option.some.injEq, Prod.mk.injEq] at h
              exact ⟨hn, h.1.symm, h.2.symm⟩

/-- A loop `while (test(_ch)) read_char()` does not move from a character that fails the
test. -/
theorem Lexer.read_while_stay (test : Char → Bool) (turns : Nat) (l : Lexer)
    (h : test l.ch = false) : Lexer.read_while test turns l = l := by
  cases turns with
  | zero => rfl
  | succ n => simp only [Lexer.read_while, h, Bool.false_eq_true, if_false]

theorem Lexer.read_tokens_stuck (l : Lexer) (token : Token)
    (h : l.read_token = some (token, l)) (n : Nat) :
    Lexer.read_tokens n l = some (List.replicate n token, l) := by
  induction n with
  | zero => rfl
  | succ k ih => simp only [Lexer.read_tokens, h, ih, List.replicate_succ]


/-! ## The end of the input -/

/-- C31: when a call of `read_token` returns a token of kind `eof`, the token is
`\x7beof, "EOF"\x7d`, the lexer stands on the character 0, and every later call on the same
lexer returns that token again and leaves the lexer where it is: any number `n` of further
calls yields `n` times the token of the end of the input. -/
theorem end_of_input_is_permanent (l l1 : Lexer) (token : Token)
    (h : l.read_token = some (token, l1)) (heof : token.type = .eof_t) (n : Nat) :
    token = Token.eof ∧ l1.ch = NUL ∧
    l1.read_token = some (Token.eof, l1) ∧
    Lexer.read_tokens n l1 = some (List.replicate n Token.eof, l1) := by
  obtain ⟨h1, h2, h3⟩ := Lexer.read_token_switch_eof _ _ _ h heof
  have hch : l1.ch = NUL := by
    rw [h3]
    exact h1
  have hr := Lexer.read_token_after_end l1 hch
  exact ⟨h2, hch, hr, Lexer.read_tokens_stuck l1 _ hr n⟩

/-- C31 on the lexer of the text `1`, after the call that returned the token `1`: the next
call returns the end of the input, and so do the three calls after it. -/
theorem end_of_input_is_permanent_witness :
    (Lexer.new "1").read_token
      = some (⟨.int_t, "1"⟩, { input := ['1'], ch := NUL, cur := 1, nxt := 2 }) ∧
    ({ input := ['1'], ch := NUL, cur := 1, nxt := 2 } : Lexer).read_token
      = some (Token.eof, { input := ['1'], ch := NUL, cur := 1, nxt := 2 }) ∧
    Lexer.read_tokens 3 { input := ['1'], ch := NUL, cur := 1, nxt := 2 }
      = some ([Token.eof, Token.eof, Token.eof],
          { input := ['1'], ch := NUL, cur := 1, nxt := 2 }) :=
  have h := end_of_input_is_permanent { input := ['1'], ch := NUL, cur := 1, nxt := 2 }
    { input := ['1'], ch := NUL, cur := 1, nxt := 2 } Token.eof (by decide) rfl 3
  ⟨by decide, h.2.2.1, h.2.2.2⟩


/-! ## Words -/

/-- The loop `while (test(_ch)) read_char()` from a position of the input stops after the
longest run of characters that pass the test. -/
theorem Lexer.read_while_run (test : Char → Bool) (h0 : test NUL = false) (turns : Nat)
    (l : Lexer) (hw : l.WellFormed) (ht : l.input.length - l.cur < turns) :
    Lexer.read_while test turns l
      = { input := l.input,
          ch := l.input[l.cur + ((l.input.drop l.cur).takeWhile test).length]?.getD NUL,
          cur := l.cur + ((l.input.drop l.cur).takeWhile test).length,
          nxt := l.cur + ((l.input.drop l.cur).takeWhile test).length + 1 } := by
  induction turns generalizing l with
  | zero => omega
  | succ n ih =>
    obtain ⟨h1, h2, h3⟩ := hw
    unfold Lexer.read_while
    by_cases hc : test l.ch = true
    · rw [if_pos hc]
      have hne : l.ch ≠ NUL := by
        intro e
        rw [e, h0] at hc
        cases hc
      have hlt := Lexer.lt_of_ch l ⟨h1, h2, h3⟩ hne
      have hw1 := Lexer.read_char_wf l ⟨h1, h2, h3⟩ hlt
      have hcur : l.read_char.cur = l.cur + 1 := h2
      have hin : l.read_char.input = l.input := rfl
      have hch : l.ch = l.input[l.cur] := by
        rw [h1, List.getElem?_eq_getElem hlt]
        rfl
      have hdrop : l.input.drop l.cur = l.ch :: l.input.drop (l.cur + 1) := by
        rw [hch]
        exact List.drop_eq_getElem_cons hlt
      rw [ih l.read_char hw1 (by rw [hcur, hin]; omega), hcur, hin, hdrop,
        List.takeWhile_cons_of_pos hc, List.length_cons]
      have e : l.cur + 1 + (List.takeWhile test (List.drop (l.cur + 1) l.input)).length
          = l.cur + ((List.takeWhile test (List.drop (l.cur + 1) l.input)).length + 1) := by
        omega
      rw [e]
    · rw [if_neg hc]
      have hk : ((l.input.drop l.cur).takeWhile test).length = 0 := by
        by_cases hlt : l.cur < l.input.length
        · have hch : l.ch = l.input[l.cur] := by
            rw [h1, List.getElem?_eq_getElem hlt]
            rfl
          rw [List.drop_eq_getElem_cons hlt, ← hch, List.takeWhile_cons_of_neg hc]
          rfl
        · rw [List.drop_of_length_le (by omega)]
          rfl
      rw [hk, Nat.add_zero, ← h1, ← h2]

theorem List.take_length_takeWhile (test : Char → Bool) (xs : List Char) :
    xs.take (xs.takeWhile test).length = xs.takeWhile test := by
  induction xs with
  | nil => rfl
  | cons x rest ih =>
    by_cases hx : test x = true
    · rw [List.takeWhile_cons_of_pos hx, List.length_cons, List.take_succ_cons, ih]
    · rw [List.takeWhile_cons_of_neg hx]
      rfl

theorem List.drop_length_takeWhile (test : Char → Bool) (xs : List Char) :
    xs.drop (xs.takeWhile test).length = xs.dropWhile test := by
  induction xs with
  | nil => rfl
  | cons x rest ih =>
    by_cases hx : test x = true
    · rw [List.takeWhile_cons_of_pos hx, List.dropWhile_cons_of_pos hx, List.length_cons,
        List.drop_succ_cons, ih]
    · rw [List.takeWhile_cons_of_neg hx, List.dropWhile_cons_of_neg hx]
      rfl

/-- On a character that passes `is_alnum` and is not a digit, the `switch` of `read_token`
takes the branch of `read_identifier`. -/
theorem Lexer.read_token_switch_word (l : Lexer) (hal : is_alnum l.ch = true)
    (hdig : is_digit l.ch = false) :
    l.read_token_switch
      = some (⟨Token.lookup l.read_identifier.1, l.read_identifier.1⟩,
          l.read_identifier.2) := by
  have hne : ∀ d : Char, is_alnum d = false → l.ch ≠ d := fun d hd e => by
    rw [e, hd] at hal
    cases hal
  have hs : single_char_token l.ch = none := by
    unfold single_char_token
    repeat rw [if_neg (hne _ (by decide))]
  have hd : double_char_token l.ch = none := by
    unfold double_char_token
    repeat rw [if_neg (hne _ (by decide))]
  unfold Lexer.read_token_switch
  rw [hs, hd]
  simp only []
  rw [if_neg (hne _ (by decide)), if_neg (by rw [hdig]; decide), if_neg (hne _ (by decide)),
    if_pos hal]

theorem Token.lookup_other (word : String)
    (h : word ∉ ["let", "fn", "true", "false", "if", "else", "return"]) :
    Token.lookup word = .ident_t := by
  simp only [List.mem_cons, List.mem_nil_iff, or_false, not_or] at h
  obtain ⟨h1, h2, h3, h4, h5, h6, h7⟩ := h
  have e : ∀ k : String, ¬ word = k → (word == k) = false := fun k hk => by
    simpa using hk
  unfold Token.lookup Token.keywords
  simp only [List.lookup, e _ h1, e _ h2, e _ h3, e _ h4, e _ h5, e _ h6, e _ h7]

/-- The call of `read_token` on whitespace followed by a word: the token holds the longest
run of letters, digits and underscores, and the cursor is left after the run. -/
theorem Lexer.read_token_word (l : Lexer) (hw : l.WellFormed) (spaces : List Char)
    (c : Char) (tail : List Char)
    (hin : l.input.drop l.cur = spaces ++ c :: tail)
    (hsp : ∀ x ∈ spaces, is_whitespace x = true)
    (hal : is_alnum c = true) (hdig : is_digit c = false) :
    l.read_token
      = some (⟨Token.lookup (String.mk (c :: tail.takeWhile is_alnum)),
            String.mk (c :: tail.takeWhile is_alnum)⟩,
          { input := l.input,
            ch := l.input[l.cur + spaces.length
              + (c :: tail.takeWhile is_alnum).length]?.getD NUL,
            cur := l.cur + spaces.length + (c :: tail.takeWhile is_alnum).length,
            nxt := l.cur + spaces.length + (c :: tail.takeWhile is_alnum).length + 1 }) := by
  have hws : is_whitespace c = false := by
    cases hx : is_whitespace c with
    | false => rfl
    | true =>
      exfalso
      simp only [is_whitespace, Bool.or_eq_true, beq_iff_eq] at hx
      rcases hx with ((hx | hx) | hx) | hx <;> rw [hx] at hal <;> exact absurd hal (by decide)
  have htw : (l.input.drop l.cur).takeWhile is_whitespace = spaces := by
    rw [hin, List.takeWhile_append_of_pos hsp, List.takeWhile_cons_of_neg (by rw [hws]; decide),
      List.append_nil]
  have hskip : l.skip_whitespace
      = { input := l.input, ch := l.input[l.cur + spaces.length]?.getD NUL,
          cur := l.cur + spaces.length, nxt := l.cur + spaces.length + 1 } := by
    unfold Lexer.skip_whitespace
    rw [Lexer.read_while_run is_whitespace (by decide) _ l hw (by omega), htw]
  have hdrop : l.input.drop (l.cur + spaces.length) = c :: tail := by
    rw [← List.drop_drop, hin, List.drop_left]
  have hlt : l.cur + spaces.length < l.input.length := by
    by_contra hge
    rw [List.drop_of_length_le (by omega)] at hdrop
    cases hdrop
  have hch : l.input[l.cur + spaces.length]?.getD NUL = c := by
    rw [List.getElem?_eq_getElem hlt]
    have := List.drop_eq_getElem_cons hlt
    rw [hdrop] at this
    simp only [List.cons.injEq] at this
    rw [Option.getD_some, ← this.1]
  rw [hch] at hskip
  have hwx : l.skip_whitespace.WellFormed := by
    rw [hskip]
    exact ⟨hch.symm, rfl, Nat.le_of_lt hlt⟩
  have htake : (c :: tail).takeWhile is_alnum = c :: tail.takeWhile is_alnum :=
    List.takeWhile_cons_of_pos hal
  have hrun : Lexer.read_while is_alnum (l.skip_whitespace.input.length + 1) l.skip_whitespace
      = { input := l.input,
          ch := l.input[l.cur + spaces.length
            + (c :: tail.takeWhile is_alnum).length]?.getD NUL,
          cur := l.cur + spaces.length + (c :: tail.takeWhile is_alnum).length,
          nxt := l.cur + spaces.length + (c :: tail.takeWhile is_alnum).length + 1 } := by
    rw [Lexer.read_while_run is_alnum (by decide) _ _ hwx (by omega), hskip]
    simp only [hdrop, htake]
  have hword : l.skip_whitespace.read_identifier
      = (String.mk (c :: tail.takeWhile is_alnum),
          { input := l.input,
            ch := l.input[l.cur + spaces.length
              + (c :: tail.takeWhile is_alnum).length]?.getD NUL,
            cur := l.cur + spaces.length + (c :: tail.takeWhile is_alnum).length,
            nxt := l.cur + spaces.length + (c :: tail.takeWhile is_alnum).length + 1 }) := by
    unfold Lexer.read_identifier
    simp only [hrun]
    rw [hskip]
    simp only [Lexer.substr, Nat.add_sub_cancel_left, hdrop, Prod.mk.injEq, and_true]
    rw [← htake, List.take_length_takeWhile]
  show l.skip_whitespace.read_token_switch = _
  rw [Lexer.read_token_switch_word l.skip_whitespace (by rw [hskip]; exact hal)
    (by rw [hskip]; exact hdig), hword]

/-- C32: when the input from the cursor is whitespace, then a letter or underscore `c`,
then `tail`, `read_token` returns as literal the longest run of letters, digits and
underscores that starts at `c`, and leaves the cursor on the character after the run. The
kind of the token is what `Token::lookup` answers for the run: the kind of the keyword for
each of the seven keywords, and `ident` for every other word, such as `abc`. -/
theorem word_token_is_maximal_run (l : Lexer) (hw : l.WellFormed) (spaces : List Char)
    (c : Char) (tail : List Char)
    (hin : l.input.drop l.cur = spaces ++ c :: tail)
    (hsp : ∀ x ∈ spaces, is_whitespace x = true)
    (hc : ('a' ≤ c ∧ c ≤ 'z') ∨ ('A' ≤ c ∧ c ≤ 'Z') ∨ c = '_') :
    l.read_token
      = some (⟨Token.lookup (String.mk (c :: tail.takeWhile is_alnum)),
            String.mk (c :: tail.takeWhile is_alnum)⟩,
          { input := l.input,
            ch := l.input[l.cur + spaces.length
              + (c :: tail.takeWhile is_alnum).length]?.getD NUL,
            cur := l.cur + spaces.length + (c :: tail.takeWhile is_alnum).length,
            nxt := l.cur + spaces.length + (c :: tail.takeWhile is_alnum).length + 1 }) ∧
    (Token.lookup "let" = .let_t ∧ Token.lookup "fn" = .function_t ∧
      Token.lookup "true" = .true_t ∧ Token.lookup "false" = .false_t ∧
      Token.lookup "if" = .if_t ∧ Token.lookup "else" = .else_t ∧
      Token.lookup "return" = .return_t) ∧
    (∀ word : String, word ∉ ["let", "fn", "true", "false", "if", "else", "return"] →
      Token.lookup word = .ident_t) ∧
    Token.lookup "abc" = .ident_t := by
  obtain ⟨hal, hdig⟩ := is_letter_not_digit c hc
  exact ⟨Lexer.read_token_word l hw spaces c tail hin hsp hal hdig,
    ⟨rfl, rfl, rfl, rfl, rfl, rfl, rfl⟩, Token.lookup_other, rfl⟩

/-- C32 on the texts of the claim: after two blanks, `false_true` is one `ident` token, and
`unit_test1` before a `+` is one `ident` token, the cursor being left on the `+`; and the
word `let` before a blank is the keyword. -/
theorem word_token_is_maximal_run_witness :
    (Lexer.new "  false_true").read_token
      = some (⟨.ident_t, "false_true"⟩,
          { input := "  false_true".toList, ch := NUL, cur := 12, nxt := 13 }) ∧
    (Lexer.new "unit_test1+2").read_token
      = some (⟨.ident_t, "unit_test1"⟩,
          { input := "unit_test1+2".toList, ch := '+', cur := 10, nxt := 11 }) ∧
    (Lexer.new "let x").read_token
      = some (⟨.let_t, "let"⟩, { input := "let x".toList, ch := ' ', cur := 3, nxt := 4 }) :=
  ⟨(word_token_is_maximal_run (Lexer.new "  false_true") (Lexer.new_wf _) [' ', ' '] 'f'
      "alse_true".toList rfl (by decide) (Or.inl (by decide))).1,
    (word_token_is_maximal_run (Lexer.new "unit_test1+2") (Lexer.new_wf _) [] 'u'
      "nit_test1+2".toList rfl (by decide) (Or.inl (by decide))).1,
    (word_token_is_maximal_run (Lexer.new "let x") (Lexer.new_wf _) [] 'l'
      "et x".toList rfl (by decide) (Or.inl (by decide))).1⟩


/-! ## Tokens of one or two characters -/

theorem Lexer.read_token_switch_double (l : Lexer) (single double : Token)
    (hd : double_char_token l.ch = some (single, double)) :
    l.read_token_switch
      = if l.peek_char = '=' then some (double, l.read_char.read_char)
        else some (single, l.read_char) := by
  have hs : single_char_token l.ch = none := by
    cases hs : single_char_token l.ch with
    | none => rfl
    | some t =>
      exfalso
      unfold double_char_token at hd
      unfold single_char_token at hs
      split at hd
      · next e =>
        rw [e] at hs
        cases hs
      · split at hd
        · next e =>
          rw [e] at hs
          cases hs
        · split at hd
          · next e =>
            rw [e] at hs
            cases hs
          · split at hd
            · next e =>
              rw [e] at hs
              cases hs
            · cases hd
  unfold Lexer.read_token_switch
  rw [hs]
  simp only [hd]

theorem double_char_token_not_whitespace {ch : Char} {pair : Token × Token}
    (hd : double_char_token ch = some pair) : is_whitespace ch = false := by
  unfold double_char_token at hd
  split at hd
  · next e =>
    rw [e]
    decide
  · split at hd
    · next e =>
      rw [e]
      decide
    · split at hd
      · next e =>
        rw [e]
        decide
      · split at hd
        · next e =>
          rw [e]
          decide
        · cases hd

/-- C33: on one of the characters `=`, `!`, `<`, `>`, `read_token` looks at the character
after it. When that character is `=` the call returns the token of the two characters
(`==`, `!=`, `<=`, `>=`) and moves the cursor by two; otherwise it returns the token of the
character alone and moves the cursor by one. In both cases the character under the cursor
afterwards is the one of the input at the new position. -/
theorem comparison_tokens_take_one_or_two_characters (l : Lexer) (hw : l.WellFormed)
    (hch : l.ch = '=' ∨ l.ch = '!' ∨ l.ch = '<' ∨ l.ch = '>') :
    l.peek_char = l.input[l.cur + 1]?.getD NUL ∧
    (l.peek_char = '=' →
      l.read_token = some (⟨if l.ch = '=' then .equal_t else if l.ch = '!' then .not_equal_t
            else if l.ch = '<' then .less_equal_t else .greater_equal_t,
          String.mk [l.ch, '=']⟩,
        { input := l.input, ch := l.input[l.cur + 2]?.getD NUL, cur := l.cur + 2,
          nxt := l.cur + 3 })) ∧
    (l.peek_char ≠ '=' →
      l.read_token = some (⟨if l.ch = '=' then .assign_t else if l.ch = '!' then .bang_t
            else if l.ch = '<' then .less_t else .greater_t,
          String.mk [l.ch]⟩,
        { input := l.input, ch := l.input[l.cur + 1]?.getD NUL, cur := l.cur + 1,
          nxt := l.cur + 2 })) := by
  obtain ⟨h1, h2, h3⟩ := hw
  have hpeek : l.peek_char = l.input[l.cur + 1]?.getD NUL := by
    unfold Lexer.peek_char
    rw [h2]
  have hrc : l.read_char
      = { input := l.input, ch := l.input[l.cur + 1]?.getD NUL, cur := l.cur + 1,
          nxt := l.cur + 2 } := by
    unfold Lexer.read_char
    rw [h2]
  have hrc2 : l.read_char.read_char
      = { input := l.input, ch := l.input[l.cur + 2]?.getD NUL, cur := l.cur + 2,
          nxt := l.cur + 3 } := by
    rw [hrc]
    rfl
  have hall : ∃ single double, double_char_token l.ch = some (single, double) ∧
      single = ⟨if l.ch = '=' then .assign_t else if l.ch = '!' then .bang_t
            else if l.ch = '<' then .less_t else .greater_t, String.mk [l.ch]⟩ ∧
      double = ⟨if l.ch = '=' then .equal_t else if l.ch = '!' then .not_equal_t
            else if l.ch = '<' then .less_equal_t else .greater_equal_t,
          String.mk [l.ch, '=']⟩ := by
    rcases hch with e | e | e | e <;> rw [e] <;> exact ⟨_, _, rfl, by decide, by decide⟩
  obtain ⟨single, double, hd, hsingle, hdouble⟩ := hall
  have hskip : l.skip_whitespace = l :=
    Lexer.read_while_stay _ _ _ (double_char_token_not_whitespace hd)
  have hread : l.read_token
      = if l.peek_char = '=' then some (double, l.read_char.read_char)
        else some (single, l.read_char) := by
    show l.skip_whitespace.read_token_switch = _
    rw [hskip]
    exact Lexer.read_token_switch_double l single double hd
  refine ⟨hpeek, fun hp => ?_, fun hp => ?_⟩
  · rw [hread, if_pos hp, hrc2, hdouble]
  · rw [hread, if_neg hp, hrc, hsingle]

/-- C33 on the texts `<=1` and `<1`: the first call returns `<=` and stands on position 2,
or returns `<` and stands on position 1. -/
theorem comparison_tokens_take_one_or_two_characters_witness :
    (Lexer.new "<=1").read_token
      = some (⟨.less_equal_t, "<="⟩, { input := ['<', '=', '1'], ch := '1', cur := 2, nxt := 3 }) ∧
    (Lexer.new "<1").read_token
      = some (⟨.less_t, "<"⟩, { input := ['<', '1'], ch := '1', cur := 1, nxt := 2 }) :=
  ⟨(comparison_tokens_take_one_or_two_characters (Lexer.new "<=1") (Lexer.new_wf _)
      (Or.inr (Or.inr (Or.inl rfl)))).2.1 (by decide),
    (comparison_tokens_take_one_or_two_characters (Lexer.new "<1") (Lexer.new_wf _)
      (Or.inr (Or.inr (Or.inl rfl)))).2.2 (by decide)⟩


/-! ## A string literal without closing quote, and a character outside the alphabet -/

/-- The loop of `read_string` is not stopped by the end of the input. In the model, whose
cursors have no bound, it uses up every number of turns when no quote follows; the source
is followed as long as the cursor is in the range of `int`. -/
theorem Lexer.read_string_loop_no_quote (turns : Nat) (l : Lexer)
    (h : ∀ i, l.nxt ≤ i → l.input[i]?.getD NUL ≠ '"') :
    Lexer.read_string_loop turns l = none := by
  induction turns generalizing l with
  | zero => rfl
  | succ n ih =>
    unfold Lexer.read_string_loop
    have hch : (l.read_char.ch != '"') = true := by
      have := h l.nxt (Nat.le_refl _)
      simpa [Lexer.read_char] using this
    simp only [hch, if_true]
    apply ih
    intro i hi
    exact h i (Nat.le_of_succ_le hi)

theorem List.getD_ne_of_not_mem (input : List Char) (from_pos : Nat)
    (h : '"' ∉ input.drop from_pos) (i : Nat) (hi : from_pos ≤ i) :
    input[i]?.getD NUL ≠ '"' := by
  by_cases hlt : i < input.length
  · rw [List.getElem?_eq_getElem hlt]
    intro e
    apply h
    have hm : input[i] ∈ input.drop from_pos := by
      rw [List.mem_iff_getElem]
      refine ⟨i - from_pos, ?_, ?_⟩
      · rw [List.length_drop]
        omega
      · rw [List.getElem_drop]
        congr 1
        omega
    simp only [Option.getD_some] at e
    rw [e] at hm
    exact hm
  · rw [List.getElem?_eq_none (by omega)]
    decide

/-- The state after `k` calls of `read_char`: both cursors have advanced by `k`, and the
character is the one at the cursor, or `0` past the end of the input. -/
theorem Lexer.read_char_iterate (k : Nat) (l : Lexer) (hn : l.nxt = l.cur + 1) :
    (Lexer.read_char^[k] l).cur = l.cur + k ∧ (Lexer.read_char^[k] l).nxt = l.nxt + k ∧
    (Lexer.read_char^[k] l).input = l.input ∧
    (1 ≤ k → (Lexer.read_char^[k] l).ch = l.input[l.cur + k]?.getD NUL) := by
  induction k with
  | zero => exact ⟨rfl, rfl, rfl, fun h => absurd h (by decide)⟩
  | succ n ih =>
    obtain ⟨h1, h2, h3, -⟩ := ih
    rw [Function.iterate_succ_apply']
    refine ⟨?_, ?_, ?_, fun _ => ?_⟩
    · show (Lexer.read_char^[n] l).nxt = _
      rw [h2, hn]
      omega
    · show (Lexer.read_char^[n] l).nxt + 1 = _
      rw [h2]
      omega
    · show (Lexer.read_char^[n] l).input = _
      exact h3
    · show (Lexer.read_char^[n] l).input[(Lexer.read_char^[n] l).nxt]?.getD NUL = _
      rw [h3, h2, hn]
      congr 2
      omega

/-- On a quote `read_token` calls `read_string` and makes a `string` token of what it
returns: this branch of the `switch` has no other outcome. -/
theorem Lexer.read_token_on_quote (l : Lexer) (hq : l.ch = '"') :
    l.read_token = l.read_string.map (fun r => (⟨.string_t, r.1⟩, r.2)) := by
  have hskip : l.skip_whitespace = l :=
    Lexer.read_while_stay _ _ _ (by rw [hq]; decide)
  show l.skip_whitespace.read_token_switch = _
  rw [hskip]
  unfold Lexer.read_token_switch
  rw [hq]
  have h1 : single_char_token '"' = none := by decide
  have h2 : double_char_token '"' = none := by decide
  rw [h1, h2]
  simp only []
  rw [if_neg (by decide), if_neg (by decide), if_pos trivial]
  cases l.read_string with
  | none => rfl
  | some r => rfl

/-- C34 fails on the code: when the lexer stands on a quote and no quote follows in the
input, nothing stops the loop of `read_string` at the end of the input and no error is
reported. The loop is still running after every number of turns that keeps the `int`
cursor `_nxt` in its range; the `k`-th call of `read_char` leaves the cursor on position
`_cur + k`, on a character that is not a quote and that is `0` once the input is over: the
text is scanned past its end. And the result of `read_token` is the result of `read_string`
made into a `string` token, whatever that result is: the `switch` has no branch that reports
the missing quote. -/
theorem unterminated_string_is_scanned_past_the_end (l : Lexer) (hw : l.WellFormed)
    (hq : l.ch = '"') (hno : '"' ∉ l.input.drop (l.cur + 1)) :
    (∀ turns : Nat, l.nxt + turns ≤ 2147483647 → Lexer.read_string_loop turns l = none) ∧
    (∀ k : Nat, 1 ≤ k → l.nxt + k ≤ 2147483647 →
      (Lexer.read_char^[k] l).cur = l.cur + k ∧ (Lexer.read_char^[k] l).ch ≠ '"' ∧
      (l.input.length ≤ l.cur + k → (Lexer.read_char^[k] l).ch = NUL)) ∧
    l.read_token = l.read_string.map (fun r => (⟨.string_t, r.1⟩, r.2)) := by
  have hne : ∀ i, l.cur + 1 ≤ i → l.input[i]?.getD NUL ≠ '"' :=
    List.getD_ne_of_not_mem l.input (l.cur + 1) hno
  refine ⟨fun turns _ => ?_, fun k hk _ => ?_, Lexer.read_token_on_quote l hq⟩
  · exact Lexer.read_string_loop_no_quote turns l fun i hi =>
      hne i (by rw [← hw.2.1]; exact hi)
  · obtain ⟨h1, -, -, h4⟩ := Lexer.read_char_iterate k l hw.2.1
    refine ⟨h1, ?_, fun hlen => ?_⟩
    · rw [h4 hk]
      exact hne _ (by omega)
    · rw [h4 hk, List.getElem?_eq_none hlen]
      rfl

/-- C34 on the text of a quote followed by `abc`: the loop of `read_string` is still running
after 1000 turns, the fifth call of `read_char` stands on position 5, past the four
characters of the text, and reads `0`; `read_token` has the result of `read_string`. -/
theorem unterminated_string_is_scanned_past_the_end_witness :
    Lexer.read_string_loop 1000 (Lexer.new "\"abc") = none ∧
    (Lexer.read_char^[5] (Lexer.new "\"abc")).cur = 5 ∧
    (Lexer.read_char^[5] (Lexer.new "\"abc")).ch = NUL ∧
    (Lexer.new "\"abc").read_token
      = (Lexer.new "\"abc").read_string.map (fun r => (⟨.string_t, r.1⟩, r.2)) :=
  have h := unterminated_string_is_scanned_past_the_end (Lexer.new "\"abc") (Lexer.new_wf _)
    rfl (by decide)
  ⟨h.1 1000 (by decide), (h.2.1 5 (by decide) (by decide)).1,
    (h.2.1 5 (by decide) (by decide)).2.2 (by decide), h.2.2⟩

/-- C35 fails on the code: when a call of `read_token` returns a token of kind `illegal`,
the cursor stands on the character that is outside the alphabet, after the whitespace
before it, and has not moved past it. Every later call returns the same token from the same
state, so `n` further calls yield `n` illegal tokens and never the end of the input, and
the loop of the constructor of `Parser` does not end within any number of turns. -/
theorem illegal_character_is_never_skipped (l l1 : Lexer) (token : Token)
    (hw : l.WellFormed) (h : l.read_token = some (token, l1))
    (hill : token.type = .illegal_t) (n : Nat) :
    token = ⟨.illegal_t, ""⟩ ∧ l1 = l.skip_whitespace ∧ l1.ch ≠ NUL ∧
    l1.cur < l1.input.length ∧
    l1.read_token = some (⟨.illegal_t, ""⟩, l1) ∧
    Lexer.read_tokens n l1 = some (List.replicate n ⟨.illegal_t, ""⟩, l1) ∧
    ∀ fuel : Nat, tokenize fuel l = none := by
  obtain ⟨h1, h2, h3⟩ := Lexer.read_token_switch_illegal _ _ _ h hill
  obtain ⟨a1, -, -, a4, -⟩ := Lexer.read_while_extend is_whitespace (by decide) (by decide)
    (l.input.length + 1) (l.input.length + 1) l hw (by omega) (by omega)
  have hskip : l.skip_whitespace.skip_whitespace = l.skip_whitespace :=
    Lexer.read_while_stay _ _ _ a4
  subst h3
  have hr : l.skip_whitespace.read_token = some (⟨.illegal_t, ""⟩, l.skip_whitespace) := by
    show l.skip_whitespace.skip_whitespace.read_token_switch = _
    rw [hskip, ← h2]
    exact h
  refine ⟨h2, rfl, h1, Lexer.lt_of_ch _ a1 h1, hr, Lexer.read_tokens_stuck _ _ hr n,
    fun fuel => ?_⟩
  cases fuel with
  | zero => rfl
  | succ k =>
    have hstuck := tokenize_stuck l.skip_whitespace ⟨.illegal_t, ""⟩ hr (by decide) k
    simp only [tokenize, h, hill]
    rw [hstuck]
    rfl

/-- C35 on the text `@;`: the first call returns an illegal token and leaves the cursor on
`@`, three more calls return three more illegal tokens, never the token `;` nor the end of
the input, and the loop of the constructor is not over after 1000 turns. -/
theorem illegal_character_is_never_skipped_witness :
    (Lexer.new "@;").read_token = some (⟨.illegal_t, ""⟩, Lexer.new "@;") ∧
    Lexer.read_tokens 3 (Lexer.new "@;")
      = some ([⟨.illegal_t, ""⟩, ⟨.illegal_t, ""⟩, ⟨.illegal_t, ""⟩], Lexer.new "@;") ∧
    tokenize 1000 (Lexer.new "@;") = none :=
  have h := illegal_character_is_never_skipped (Lexer.new "@;") (Lexer.new "@;")
    ⟨.illegal_t, ""⟩ (Lexer.new_wf _) (by decide) rfl 3
  ⟨h.2.2.2.2.1, h.2.2.2.2.2.1, h.2.2.2.2.2.2 1000⟩


/-! ## Errors as operands, missing operands, and equality by identity -/

theorem Evaluator.eval_input_value {fuel : Nat} {input : String} (program : Program)
    {errors : List String} {obj : Option Object}
    (hp : parse_input fuel input = .ok (program, errors))
    (hr : run_program fuel program = .ok obj) :
    Evaluator.eval_input fuel input = .ok obj := by
  unfold Evaluator.eval_input
  rw [hp]
  simp only [hr]

theorem Evaluator.eval_input_fault {fuel : Nat} {input : String} (program : Program)
    {errors : List String} {f : Fault}
    (hp : parse_input fuel input = .ok (program, errors))
    (hr : run_program fuel program = .error f) :
    Evaluator.eval_input fuel input = .error (.eval f) := by
  unfold Evaluator.eval_input
  rw [hp]
  simp only [hr]

theorem parse_input_bang_of_error :
    parse_input 7 "!(1 + true)" = .ok (⟨[.ExpressionStatement (some bang_of_error)]⟩, []) :=
  parse_input_of_gives (by decide!)

theorem parse_input_errors_compared :
    parse_input 12 "(1 + true) == (2 + true)"
      = .ok (⟨[.ExpressionStatement (some errors_compared)]⟩, []) :=
  parse_input_of_gives (by decide!)

theorem parse_input_one_plus_true :
    parse_input 5 "1 + true"
      = .ok (⟨[.ExpressionStatement (some one_plus_true_expression)]⟩, []) :=
  parse_input_of_alike (by decide!)

theorem parse_input_two_plus_true :
    parse_input 5 "2 + true"
      = .ok (⟨[.ExpressionStatement (some two_plus_true_expression)]⟩, []) :=
  parse_input_of_alike (by decide!)

/-- An Error object is truthy: it is neither of the globals `false_obj` and `null_obj`. -/
theorem is_truthy_of_error {m : Machine} (hm : m.statics_ok) {a : Nat} {msg : String}
    (ho : m.heap[a]? = some (.Error msg)) : is_truthy (some a) = true := by
  have h0 : m.heap[0]? = some Object.Null := hm 0 _ rfl
  have h2 : m.heap[2]? = some (Object.Boolean false) := hm 2 _ rfl
  have ha0 : a ≠ 0 := by
    rintro rfl
    rw [h0] at ho
    cases ho
  have ha2 : a ≠ 2 := by
    rintro rfl
    rw [h2] at ho
    cases ho
  simp [is_truthy, false_obj, null_obj, ha0, ha2]

/-- An infix expression whose operands evaluate to objects of two types yields a new Error. -/
theorem eval_infix_type_mismatch (ev : Eval) (left right : Option Expression) (op : String)
    (env : Nat) (m m1 m2 : Machine) (a b : Nat) (lobj robj : Object)
    (hl : ev (expr_node left) env m = .ok (some a, m1))
    (hr : ev (expr_node right) env m1 = .ok (some b, m2))
    (hlo : m2.heap[a]? = some lobj) (hro : m2.heap[b]? = some robj)
    (hty : lobj.type ≠ robj.type) :
    eval_infix_expression ev left op right env m
      = .ok (some m2.heap.length, { m2 with heap := m2.heap ++ [.Error ""] }) := by
  have h1 : ¬ (lobj.type = .integer_object_t ∧ robj.type = .integer_object_t) :=
    fun h => hty (h.1.trans h.2.symm)
  have h2 : ¬ (lobj.type = .string_object_t ∧ robj.type = .string_object_t) :=
    fun h => hty (h.1.trans h.2.symm)
  have h3 : ¬ (lobj.type = .array_object_t ∧ robj.type = .array_object_t) :=
    fun h => hty (h.1.trans h.2.symm)
  unfold eval_infix_expression
  rw [Exec.bind_ok hl, Exec.bind_ok hr, Exec.bind_ok (deref_ok hlo),
    Exec.bind_ok (deref_ok hro)]
  simp only [h1, h2, h3, hty, ne_eq, not_false_eq_true, if_false, if_true]
  rfl

/-- An infix expression whose operands evaluate to two Errors: `==` and `!=` compare the two
pointers, every other operator yields a new Error. -/
theorem eval_infix_errors (ev : Eval) (left right : Option Expression) (op : String)
    (env : Nat) (m m1 m2 : Machine) (a b : Nat) (lobj robj : Object)
    (hl : ev (expr_node left) env m = .ok (some a, m1))
    (hr : ev (expr_node right) env m1 = .ok (some b, m2))
    (hlo : m2.heap[a]? = some lobj) (hro : m2.heap[b]? = some robj)
    (hlt : lobj.type = .error_object_t) (hrt : robj.type = .error_object_t) :
    eval_infix_expression ev left op right env m
      = if op = "==" then .ok (if a = b then true_obj else false_obj, m2)
        else if op = "!=" then .ok (if a = b then false_obj else true_obj, m2)
        else .ok (some m2.heap.length, { m2 with heap := m2.heap ++ [.Error ""] }) := by
  unfold eval_infix_expression
  rw [Exec.bind_ok hl, Exec.bind_ok hr, Exec.bind_ok (deref_ok hlo),
    Exec.bind_ok (deref_ok hro)]
  simp only [hlt, hrt, ne_eq, not_true_eq_false, reduceCtorEq, false_and, and_false, if_false,
    Option.some.injEq]
  by_cases h1 : op = "=="
  · simp only [h1, if_true]
    rfl
  · by_cases h2 : op = "!="
    · simp only [h1, h2, if_false, if_true]
      rfl
    · simp only [h1, h2, if_false]
      rfl

/-- C36 as stated fails: the operand `1 + true` evaluates to an Error, and both `!(1 + true)`
and `(1 + true) == (2 + true)` evaluate to the Boolean `false`, not to an Error. -/
theorem error_operand_counterexample :
    Evaluator.eval_input 5 "1 + true" = .ok (some (.Error "")) ∧
    Evaluator.eval_input 5 "2 + true" = .ok (some (.Error "")) ∧
    Evaluator.eval_input 7 "!(1 + true)" = .ok (some (.Boolean false)) ∧
    Evaluator.eval_input 12 "(1 + true) == (2 + true)" = .ok (some (.Boolean false)) :=
  ⟨Evaluator.eval_input_value ⟨[.ExpressionStatement (some one_plus_true_expression)]⟩
      parse_input_one_plus_true rfl,
    Evaluator.eval_input_value ⟨[.ExpressionStatement (some two_plus_true_expression)]⟩
      parse_input_two_plus_true rfl,
    Evaluator.eval_input_value ⟨[.ExpressionStatement (some bang_of_error)]⟩
      parse_input_bang_of_error rfl,
    Evaluator.eval_input_value ⟨[.ExpressionStatement (some errors_compared)]⟩
      parse_input_errors_compared rfl⟩

/-- C36, amended: an Error operand is handed to the operator like any other object. When the
operand of a prefix expression evaluates to an Error, `!` yields the global `false_obj`,
because an Error is truthy, and `-` yields a new Error. When one operand of an infix
expression evaluates to an Error and the other to an object of another type, every operator
yields a new Error. When both operands evaluate to Errors, `==` yields `true_obj` if the two
are one object and `false_obj` otherwise, `!=` yields the other global, and every other
operator yields a new Error. So `!(1 + true)` and `(1 + true) == (2 + true)` evaluate to the
Boolean `false`. -/
theorem error_operand_is_an_ordinary_operand (ev : Eval) (operand : Option Expression)
    (env : Nat) (m m1 : Machine) (a : Nat) (msg : String)
    (h : ev (expr_node operand) env m = .ok (some a, m1))
    (ha : m1.heap[a]? = some (.Error msg)) (hs : m1.statics_ok) :
    eval_prefix_expression ev "!" operand env m = .ok (false_obj, m1) ∧
    eval_prefix_expression ev "-" operand env m
      = .ok (some m1.heap.length, { m1 with heap := m1.heap ++ [.Error ""] }) ∧
    (∀ (op : String) (right : Option Expression) (b : Nat) (m2 : Machine) (robj : Object),
      ev (expr_node right) env m1 = .ok (some b, m2) →
      m2.heap[a]? = some (.Error msg) → m2.heap[b]? = some robj →
      (robj.type ≠ .error_object_t →
        eval_infix_expression ev operand op right env m
          = .ok (some m2.heap.length, { m2 with heap := m2.heap ++ [.Error ""] })) ∧
      (robj.type = .error_object_t →
        eval_infix_expression ev operand "==" right env m
          = .ok (if a = b then true_obj else false_obj, m2) ∧
        eval_infix_expression ev operand "!=" right env m
          = .ok (if a = b then false_obj else true_obj, m2) ∧
        (op ≠ "==" → op ≠ "!=" →
          eval_infix_expression ev operand op right env m
            = .ok (some m2.heap.length, { m2 with heap := m2.heap ++ [.Error ""] })))) ∧
    (∀ (op : String) (left : Option Expression) (b : Nat) (m0 : Machine) (lobj : Object),
      ev (expr_node left) env m0 = .ok (some b, m) →
      m1.heap[b]? = some lobj → lobj.type ≠ .error_object_t →
      eval_infix_expression ev left op operand env m0
        = .ok (some m1.heap.length, { m1 with heap := m1.heap ++ [.Error ""] })) ∧
    (∀ fuel : Nat,
      Evaluator.eval_input (fuel + 7) "!(1 + true)" = .ok (some (.Boolean false)) ∧
      Evaluator.eval_input (fuel + 12) "(1 + true) == (2 + true)"
        = .ok (some (.Boolean false))) := by
  refine ⟨?_, ?_, fun op right b m2 robj hr ha2 hro => ⟨fun hne => ?_, fun hty => ⟨?_, ?_,
    fun h1 h2 => ?_⟩⟩, fun op left b m0 lobj hl hlo hne => ?_, fun fuel => ⟨?_, ?_⟩⟩
  · unfold eval_prefix_expression
    rw [Exec.bind_ok h]
    simp only [if_true, eval_bang_operator_expression, is_truthy_of_error hs ha]
    rfl
  · unfold eval_prefix_expression
    rw [Exec.bind_ok h]
    rw [if_neg (by decide), if_neg (by decide)]
    rfl
  · exact eval_infix_type_mismatch ev operand right op env m m1 m2 a b _ robj h hr ha2 hro
      (fun e => hne e.symm)
  · have := eval_infix_errors ev operand right "==" env m m1 m2 a b _ robj h hr ha2 hro rfl hty
    rw [this, if_pos rfl]
  · have := eval_infix_errors ev operand right "!=" env m m1 m2 a b _ robj h hr ha2 hro rfl hty
    rw [this, if_neg (by decide), if_pos rfl]
  · have := eval_infix_errors ev operand right op env m m1 m2 a b _ robj h hr ha2 hro rfl hty
    rw [this, if_neg h1, if_neg h2]
  · exact eval_infix_type_mismatch ev left operand op env m0 m m1 b a lobj _ hl h hlo ha hne
  · exact Evaluator.eval_input_value ⟨[.ExpressionStatement (some bang_of_error)]⟩
      (parse_input_mono (Nat.le_add_left 7 fuel) _ _ parse_input_bang_of_error) rfl
  · exact Evaluator.eval_input_value ⟨[.ExpressionStatement (some errors_compared)]⟩
      (parse_input_mono (Nat.le_add_left 12 fuel) _ _ parse_input_errors_compared) rfl

/-- C36 on concrete inputs: in a new evaluator `1 + true` evaluates to the Error at address
11; `!` applied to it yields `false_obj`, `-` a new Error, `(1 + true) + 2` a new Error,
`(1 + true) == (2 + true)` the global `false_obj`, `(1 + true) + (2 + true)` a new Error. -/
theorem error_operand_is_an_ordinary_operand_witness :
    ∃ m1 m2 m3 : Machine,
      eval 2 (expr_node (some one_plus_true_expression)) 0 Machine.init = .ok (some 11, m1) ∧
      m1.heap[11]? = some (.Error "") ∧
      eval_prefix_expression (eval 2) "!" (some one_plus_true_expression) 0 Machine.init
        = .ok (false_obj, m1) ∧
      eval_prefix_expression (eval 2) "-" (some one_plus_true_expression) 0 Machine.init
        = .ok (some 12, { m1 with heap := m1.heap ++ [.Error ""] }) ∧
      eval_infix_expression (eval 2) (some one_plus_true_expression) "+" (int_lit 2) 0
        Machine.init = .ok (some 13, { m2 with heap := m2.heap ++ [.Error ""] }) ∧
      eval_infix_expression (eval 2) (some one_plus_true_expression) "=="
        (some two_plus_true_expression) 0 Machine.init = .ok (false_obj, m3) ∧
      eval_infix_expression (eval 2) (some one_plus_true_expression) "+"
        (some two_plus_true_expression) 0 Machine.init
        = .ok (some 15, { m3 with heap := m3.heap ++ [.Error ""] }) :=
  have h := error_operand_is_an_ordinary_operand (eval 2) (some one_plus_true_expression) 0
    Machine.init _ 11 "" rfl rfl
    (Machine.statics_ok.init.grows (eval_extends 2 (expr_node (some one_plus_true_expression))
      0 Machine.init (some 11) _ rfl))
  have h2 := h.2.2.1 "+" (int_lit 2) 12 _ (.Integer 2) rfl rfl rfl
  have h3 := h.2.2.1 "+" (some two_plus_true_expression) 14 _ (.Error "") rfl rfl rfl
  ⟨_, _, _, rfl, rfl, h.1, h.2.1, h2.1 (by decide), (h3.2 rfl).1, (h3.2 rfl).2.2 (by decide)
    (by decide)⟩

/-- C37 fails on the code: for the text `1 +` the parser records an error and builds an
infix expression whose right operand is a null pointer; `eval` returns the null pointer for
that operand and `eval_infix_expression` calls `type()` through it: the evaluation
dereferences a null pointer instead of returning a value. -/
theorem missing_operand_is_dereferenced (fuel : Nat) :
    parse_input (fuel + 4) "1 +"
      = .ok (⟨[.ExpressionStatement (some one_plus_nothing)]⟩,
          ["no `prefix parse function` found for `EOF`"]) ∧
    eval (fuel + 1) none 0 Machine.init = .ok (none, Machine.init) ∧
    run_expression (fuel + 2) one_plus_nothing = .error .null_dereference ∧
    Evaluator.eval_input (fuel + 4) "1 +" = .error (.eval .null_dereference) := by
  have hp : parse_input (fuel + 4) "1 +"
      = .ok (⟨[.ExpressionStatement (some one_plus_nothing)]⟩,
          ["no `prefix parse function` found for `EOF`"]) := rfl
  refine ⟨hp, rfl, rfl, ?_⟩
  exact Evaluator.eval_input_fault ⟨[.ExpressionStatement (some one_plus_nothing)]⟩ hp rfl

theorem parse_input_booleans_compared (a b : Bool) :
    parse_input 4 ((if a then "true" else "false") ++ " == "
        ++ (if b then "true" else "false"))
      = .ok (⟨[.ExpressionStatement (some (booleans_compared a "==" b))]⟩, []) ∧
    parse_input 4 ((if a then "true" else "false") ++ " != "
        ++ (if b then "true" else "false"))
      = .ok (⟨[.ExpressionStatement (some (booleans_compared a "!=" b))]⟩, []) := by
  cases a <;> cases b <;>
    exact ⟨parse_input_of_gives (by decide!), parse_input_of_gives (by decide!)⟩

/-- C38: when the two operands of an infix expression evaluate to objects of one type that
is not Integer, String or Array, `==` yields the global `true_obj` exactly when the two
results are the same object and the global `false_obj` otherwise, and `!=` yields the other
global; the operands are evaluated and nothing else changes. A boolean literal evaluates to
a new Boolean object, so `true == true` and `false == false` evaluate to the Boolean
`false`, and `true != true` to the Boolean `true`. -/
theorem equality_compares_identity (ev : Eval) (left right : Option Expression) (env : Nat)
    (m m1 m2 : Machine) (a b : Nat) (lobj robj : Object)
    (hl : ev (expr_node left) env m = .ok (some a, m1))
    (hr : ev (expr_node right) env m1 = .ok (some b, m2))
    (hlo : m2.heap[a]? = some lobj) (hro : m2.heap[b]? = some robj)
    (hty : lobj.type = robj.type)
    (hint : lobj.type ≠ .integer_object_t) (hstr : lobj.type ≠ .string_object_t)
    (harr : lobj.type ≠ .array_object_t) :
    eval_infix_expression ev left "==" right env m
      = .ok (if a = b then true_obj else false_obj, m2) ∧
    eval_infix_expression ev left "!=" right env m
      = .ok (if a = b then false_obj else true_obj, m2) ∧
    (∀ (fuel : Nat) (value : Bool) (m0 : Machine),
      eval (fuel + 1) (some (.expression (.BooleanLiteral value))) env m0
        = .ok (some m0.heap.length, { m0 with heap := m0.heap ++ [.Boolean value] })) ∧
    (∀ fuel : Nat,
      Evaluator.eval_input (fuel + 4) "true == true" = .ok (some (.Boolean false)) ∧
      Evaluator.eval_input (fuel + 4) "false == false" = .ok (some (.Boolean false)) ∧
      Evaluator.eval_input (fuel + 4) "true != true" = .ok (some (.Boolean true))) := by
  have hne : ¬ (lobj.type ≠ robj.type) := fun h => h hty
  have h1 : ¬ (lobj.type = .integer_object_t ∧ robj.type = .integer_object_t) :=
    fun h => hint h.1
  have h2 : ¬ (lobj.type = .string_object_t ∧ robj.type = .string_object_t) :=
    fun h => hstr h.1
  have h3 : ¬ (lobj.type = .array_object_t ∧ robj.type = .array_object_t) :=
    fun h => harr h.1
  refine ⟨?_, ?_, fun _ _ _ => rfl, fun fuel => ⟨?_, ?_, ?_⟩⟩
  · unfold eval_infix_expression
    rw [Exec.bind_ok hl, Exec.bind_ok hr, Exec.bind_ok (deref_ok hlo),
      Exec.bind_ok (deref_ok hro)]
    simp only [h1, h2, h3, hne, if_false, if_true, Option.some.injEq]
    rfl
  · unfold eval_infix_expression
    rw [Exec.bind_ok hl, Exec.bind_ok hr, Exec.bind_ok (deref_ok hlo),
      Exec.bind_ok (deref_ok hro)]
    have hop : ¬ ("!=" = "==") := by decide
    simp only [h1, h2, h3, hne, hop, if_false, if_true, Option.some.injEq]
    rfl
  · exact Evaluator.eval_input_value
      ⟨[.ExpressionStatement (some (booleans_compared true "==" true))]⟩
      (parse_input_mono (Nat.le_add_left 4 fuel) _ _
        (parse_input_booleans_compared true true).1) rfl
  · exact Evaluator.eval_input_value
      ⟨[.ExpressionStatement (some (booleans_compared false "==" false))]⟩
      (parse_input_mono (Nat.le_add_left 4 fuel) _ _
        (parse_input_booleans_compared false false).1) rfl
  · exact Evaluator.eval_input_value
      ⟨[.ExpressionStatement (some (booleans_compared true "!=" true))]⟩
      (parse_input_mono (Nat.le_add_left 4 fuel) _ _
        (parse_input_booleans_compared true true).2) rfl

/-- C38 on two concrete runs from the initial machine: the operands `true` and `true` are
the two new objects at the addresses 9 and 10, of one type, and `==` yields `false_obj`; the
operands `x` and `x`, for the identifier `x` bound to the Null object, are the same object,
and `==` yields `true_obj`. -/
theorem equality_compares_identity_witness :
    eval_infix_expression (eval 1) (some (.BooleanLiteral true)) "=="
        (some (.BooleanLiteral true)) 0 Machine.init
      = .ok (false_obj, { Machine.init with
          heap := Machine.init.heap ++ [.Boolean true, .Boolean true] }) ∧
    eval_infix_expression (eval 1) (some (.BooleanLiteral true)) "!="
        (some (.BooleanLiteral true)) 0 Machine.init
      = .ok (true_obj, { Machine.init with
          heap := Machine.init.heap ++ [.Boolean true, .Boolean true] }) :=
  have h := equality_compares_identity (eval 1) (some (.BooleanLiteral true))
    (some (.BooleanLiteral true)) 0 Machine.init
    { Machine.init with heap := Machine.init.heap ++ [.Boolean true] }
    { Machine.init with heap := Machine.init.heap ++ [.Boolean true, .Boolean true] }
    9 10 (.Boolean true) (.Boolean true) rfl rfl rfl rfl rfl
    (by decide) (by decide) (by decide)
  ⟨h.1, h.2.1⟩


/-! ## A comma before the closing token of a list -/

/-- The loop of `parse_call_expression` and `parse_array_literal` ends when the next token
closes the list. -/
theorem parse_expression_list_loop_close (d : Descent) (close : TokenType) (turns : Nat)
    (exprs : List (Option Expression)) (p : Parser) (h : p.peek.type = close) :
    parse_expression_list_loop d close (turns + 1) exprs p = .ok (some exprs, p) := by
  unfold parse_expression_list_loop
  rw [Parse.bind_of_ok (peek_token_type_is_apply _ p),
    Parse.bind_of_ok (peek_token_type_is_apply _ p)]
  have hb : (p.peek.type == close) = true := by simpa using h
  simp only [hb, Bool.not_true, Bool.false_and, Bool.false_eq_true, if_false]
  rfl

/-- One turn of the loop of `parse_call_expression` and `parse_array_literal`, up to the
test that follows the element. -/
theorem parse_expression_list_loop_element (d : Descent) (close : TokenType) (turns : Nat)
    (exprs : List (Option Expression)) (p p1 : Parser) (expr : Option Expression)
    (hstart : p.peek.type ≠ close ∧ p.peek.type ≠ .eof_t)
    (helt : d.expression .lowest_p p.advance = .ok (expr, p1)) :
    parse_expression_list_loop d close (turns + 1) exprs p
      = if p1.peek.type = close then
          parse_expression_list_loop d close turns (exprs ++ [expr]) p1
        else if p1.peek.type = .comma_t then
          parse_expression_list_loop d close turns (exprs ++ [expr]) p1.advance
        else .ok (none, p1.report (error_text_token .comma_t p1.peek)) := by
  conv => lhs; unfold parse_expression_list_loop
  rw [Parse.bind_of_ok (peek_token_type_is_apply _ p),
    Parse.bind_of_ok (peek_token_type_is_apply _ p)]
  have hb1 : (p.peek.type == close) = false := by simpa using hstart.1
  have hb2 : (p.peek.type == TokenType.eof_t) = false := by simpa using hstart.2
  simp only [hb1, hb2, Bool.not_false, Bool.and_self, if_true]
  rw [Parse.bind_of_ok (next_token_apply p), Parse.bind_of_ok helt,
    Parse.bind_of_ok (peek_token_type_is_apply _ p1)]
  by_cases hc : p1.peek.type = close
  · have hb : (p1.peek.type == close) = true := by simpa using hc
    rw [if_pos hc]
    simp only [hb, if_true]
  · have hb : (p1.peek.type == close) = false := by simpa using hc
    rw [if_neg hc]
    simp only [hb, if_false, Bool.false_eq_true]
    have he := expect_token_type_is_apply .comma_t p1
    by_cases hk : p1.peek.type = .comma_t
    · simp only [hk, if_true] at he ⊢
      rw [Parse.bind_of_ok he]
      simp only [if_true]
    · simp only [hk, if_false] at he ⊢
      rw [Parse.bind_of_ok he]
      simp only [Bool.false_eq_true, if_false]
      rw [Parse.bind_of_ok (peek_token_apply p1),
        Parse.bind_of_ok (parse_error_token_apply _ _ p1)]
      rfl

/-- The loop of `parse_function_literal` ends when the next token is `)`. -/
theorem parse_parameters_loop_close (turns : Nat) (parameters : List String) (p : Parser)
    (h : p.peek.type = .right_paren_t) :
    parse_parameters_loop (turns + 1) parameters p = .ok (some parameters, p) := by
  unfold parse_parameters_loop
  rw [Parse.bind_of_ok (peek_token_type_is_apply _ p),
    Parse.bind_of_ok (peek_token_type_is_apply _ p)]
  have hb : (p.peek.type == TokenType.right_paren_t) = true := by simpa using h
  simp only [hb, Bool.not_true, Bool.false_and, Bool.false_eq_true, if_false]
  rfl

/-- One turn of the loop of `parse_function_literal` on an identifier. -/
theorem parse_parameters_loop_element (turns : Nat) (parameters : List String) (p : Parser)
    (h : p.peek.type = .ident_t) :
    parse_parameters_loop (turns + 1) parameters p
      = if p.advance.peek.type = .right_paren_t then
          parse_parameters_loop turns (parameters ++ [p.peek.literal]) p.advance
        else if p.advance.peek.type = .comma_t then
          parse_parameters_loop turns (parameters ++ [p.peek.literal]) p.advance.advance
        else .ok (none, p.advance.report (error_text_token .comma_t p.advance.peek)) := by
  conv => lhs; unfold parse_parameters_loop
  rw [Parse.bind_of_ok (peek_token_type_is_apply _ p),
    Parse.bind_of_ok (peek_token_type_is_apply _ p)]
  have hb1 : (p.peek.type == TokenType.right_paren_t) = false := by rw [h]; rfl
  have hb2 : (p.peek.type == TokenType.eof_t) = false := by rw [h]; rfl
  simp only [hb1, hb2, Bool.not_false, Bool.and_self, if_true]
  have he := expect_or_error_apply .ident_t p
  simp only [h, if_true] at he
  rw [Parse.bind_of_ok he]
  simp only [if_true]
  rw [Parse.bind_of_ok (cur_token_apply p.advance),
    Parse.bind_of_ok (peek_token_type_is_apply _ p.advance)]
  have htok : p.advance.token = p.peek := rfl
  rw [htok]
  by_cases hc : p.advance.peek.type = .right_paren_t
  · have hb : (p.advance.peek.type == TokenType.right_paren_t) = true := by simpa using hc
    rw [if_pos hc]
    simp only [hb, if_true]
  · have hb : (p.advance.peek.type == TokenType.right_paren_t) = false := by simpa using hc
    rw [if_neg hc]
    simp only [hb, if_false, Bool.false_eq_true]
    have he2 := expect_token_type_is_apply .comma_t p.advance
    by_cases hk : p.advance.peek.type = .comma_t
    · simp only [hk, if_true] at he2 ⊢
      rw [Parse.bind_of_ok he2]
      simp only [if_true]
    · simp only [hk, if_false] at he2 ⊢
      rw [Parse.bind_of_ok he2]
      simp only [Bool.false_eq_true, if_false]
      rw [Parse.bind_of_ok (peek_token_apply p.advance),
        Parse.bind_of_ok (parse_error_token_apply _ _ p.advance)]
      rfl

/-- C39: in the loop of a call or of an array literal, when the element `expr` is followed
by a comma and the comma by the closing token, the loop ends with the elements read so
far and `expr`, standing on the comma, and the closing token is then accepted without
error; the same list results when the closing token follows the element directly. The
loop over the parameters of a function literal does the same with an identifier. For the
texts of the claim, and of a call and an array, the parse with and without the comma gives
the same tree and no error, and `fn (a,) \x7b\x7d` renders as `fn (a) \x7b\x7d`. -/
theorem trailing_comma_is_accepted (d : Descent) (turns : Nat) (close : TokenType)
    (exprs : List (Option Expression)) (p p1 : Parser) (expr : Option Expression)
    (hclose : close = .right_paren_t ∨ close = .right_bracket_t)
    (hstart : p.peek.type ≠ close ∧ p.peek.type ≠ .eof_t)
    (helt : d.expression .lowest_p p.advance = .ok (expr, p1))
    (hcomma : p1.peek.type = .comma_t) (hend : p1.advance.peek.type = close) :
    parse_expression_list_loop d close (turns + 2) exprs p
      = .ok (some (exprs ++ [expr]), p1.advance) ∧
    expect_or_error close p1.advance = .ok (true, p1.advance.advance) ∧
    p1.advance.advance.errors = p1.errors ∧
    (∀ q q1 : Parser, q.peek.type ≠ close ∧ q.peek.type ≠ .eof_t →
      d.expression .lowest_p q.advance = .ok (expr, q1) → q1.peek.type = close →
      parse_expression_list_loop d close (turns + 2) exprs q
          = .ok (some (exprs ++ [expr]), q1) ∧
        expect_or_error close q1 = .ok (true, q1.advance) ∧
        q1.advance.errors = q1.errors) ∧
    (∀ (parameters : List String) (q : Parser), q.peek.type = .ident_t →
      (q.advance.peek.type = .comma_t → q.advance.advance.peek.type = .right_paren_t →
        parse_parameters_loop (turns + 2) parameters q
            = .ok (some (parameters ++ [q.peek.literal]), q.advance.advance) ∧
          expect_or_error .right_paren_t q.advance.advance
            = .ok (true, q.advance.advance.advance)) ∧
      (q.advance.peek.type = .right_paren_t →
        parse_parameters_loop (turns + 2) parameters q
            = .ok (some (parameters ++ [q.peek.literal]), q.advance) ∧
          expect_or_error .right_paren_t q.advance = .ok (true, q.advance.advance))) ∧
    ∀ fuel : Nat, 10 ≤ fuel →
      parse_input fuel "fn (a,) \x7b\x7d"
        = .ok (⟨[.ExpressionStatement (some (.FunctionLiteral ["a"] (some (.mk []))))]⟩, []) ∧
      parse_input fuel "fn (a) \x7b\x7d"
        = .ok (⟨[.ExpressionStatement (some (.FunctionLiteral ["a"] (some (.mk []))))]⟩, []) ∧
      Statement.to_string
          (.ExpressionStatement (some (.FunctionLiteral ["a"] (some (.mk [])))))
        = some "fn (a) \x7b\x7d" ∧
      parse_input fuel "f(1, 2,)"
        = .ok (⟨[.ExpressionStatement (some (.CallExpression (ident "f")
            [int_lit 1, int_lit 2]))]⟩, []) ∧
      parse_input fuel "f(1, 2)"
        = .ok (⟨[.ExpressionStatement (some (.CallExpression (ident "f")
            [int_lit 1, int_lit 2]))]⟩, []) ∧
      parse_input fuel "[1, 2,]"
        = .ok (⟨[.ExpressionStatement (some (.ArrayLiteral [int_lit 1, int_lit 2]))]⟩, []) ∧
      parse_input fuel "[1, 2]"
        = .ok (⟨[.ExpressionStatement (some (.ArrayLiteral [int_lit 1, int_lit 2]))]⟩, []) := by
  have hne : close ≠ .comma_t := by
    rcases hclose with h | h <;> rw [h] <;> decide
  have hnc : p1.peek.type ≠ close := by
    rw [hcomma]
    exact fun e => hne e.symm
  refine ⟨?_, ?_, rfl, ?_, ?_, ?_⟩
  · rw [parse_expression_list_loop_element d close (turns + 1) exprs p p1 expr hstart helt,
      if_neg hnc, if_pos hcomma]
    exact parse_expression_list_loop_close d close turns _ _ hend
  · rw [expect_or_error_apply, if_pos hend]
  · intro q q1 hq hqe hq1
    refine ⟨?_, ?_, rfl⟩
    · rw [parse_expression_list_loop_element d close (turns + 1) exprs q q1 expr hq hqe,
        if_pos hq1]
      exact parse_expression_list_loop_close d close turns _ _ hq1
    · rw [expect_or_error_apply, if_pos hq1]
  · intro parameters q hq
    refine ⟨fun h1 h2 => ⟨?_, ?_⟩, fun h1 => ⟨?_, ?_⟩⟩
    · rw [parse_parameters_loop_element (turns + 1) parameters q hq,
        if_neg (by rw [h1]; decide), if_pos h1]
      exact parse_parameters_loop_close turns _ _ h2
    · rw [expect_or_error_apply, if_pos h2]
    · rw [parse_parameters_loop_element (turns + 1) parameters q hq, if_pos h1]
      exact parse_parameters_loop_close turns _ _ h1
    · rw [expect_or_error_apply, if_pos h1]
  · intro fuel hf
    exact ⟨parse_input_mono hf _ _ (parse_input_of_gives (by decide!)),
      parse_input_mono hf _ _ (parse_input_of_gives (by decide!)),
      by decide,
      parse_input_mono hf _ _ (parse_input_of_gives (by decide!)),
      parse_input_mono hf _ _ (parse_input_of_gives (by decide!)),
      parse_input_mono hf _ _ (parse_input_of_gives (by decide!)),
      parse_input_mono hf _ _ (parse_input_of_gives (by decide!))⟩

/-- C39 in the state of the parser on the tokens of `[1,]`, at the token `[`: the loop of
the array literal returns the one element `1` and stands on the comma, and the parses of
the texts with fuel 10. -/
theorem trailing_comma_is_accepted_witness :
    parse_expression_list_loop (descend 2) .right_bracket_t 2 []
        (Parser.of_tokens [⟨.left_bracket_t, "["⟩, ⟨.int_t, "1"⟩, ⟨.comma_t, ","⟩,
          ⟨.right_bracket_t, "]"⟩, Token.eof])
      = .ok (some [int_lit 1],
          { tokens := [⟨.left_bracket_t, "["⟩, ⟨.int_t, "1"⟩, ⟨.comma_t, ","⟩,
              ⟨.right_bracket_t, "]"⟩, Token.eof],
            cur := 2, nxt := 3, token := ⟨.comma_t, ","⟩, errors := [] }) ∧
    parse_input 10 "fn (a,) \x7b\x7d"
      = .ok (⟨[.ExpressionStatement (some (.FunctionLiteral ["a"] (some (.mk []))))]⟩, []) ∧
    parse_input 10 "fn (a) \x7b\x7d"
      = .ok (⟨[.ExpressionStatement (some (.FunctionLiteral ["a"] (some (.mk []))))]⟩, []) :=
  have h := trailing_comma_is_accepted (descend 2) 0 .right_bracket_t []
    (Parser.of_tokens [⟨.left_bracket_t, "["⟩, ⟨.int_t, "1"⟩, ⟨.comma_t, ","⟩,
      ⟨.right_bracket_t, "]"⟩, Token.eof])
    { tokens := [⟨.left_bracket_t, "["⟩, ⟨.int_t, "1"⟩, ⟨.comma_t, ","⟩,
        ⟨.right_bracket_t, "]"⟩, Token.eof],
      cur := 1, nxt := 2, token := ⟨.int_t, "1"⟩, errors := [] }
    (int_lit 1) (Or.inr rfl) (by decide) rfl rfl rfl
  ⟨h.1, (h.2.2.2.2.2 10 (Nat.le_refl _)).1, (h.2.2.2.2.2 10 (Nat.le_refl _)).2.1⟩


/-! ## The decimal rendering of an integer literal -/

theorem Nat.digitChar_is_digit (k : Nat) (h : k < 10) :
    is_digit (Nat.digitChar k) = true ∧ (Nat.digitChar k).toNat - '0'.toNat = k := by
  have hk : k = 0 ∨ k = 1 ∨ k = 2 ∨ k = 3 ∨ k = 4 ∨ k = 5 ∨ k = 6 ∨ k = 7 ∨ k = 8 ∨ k = 9 := by
    omega
  rcases hk with h | h | h | h | h | h | h | h | h | h <;> rw [h] <;> exact ⟨by decide, by decide⟩

/-- The digits `Nat.toDigitsCore` puts before the accumulator are decimal digits, at least
one, and their value is the number. -/
theorem Nat.toDigitsCore_decimal (fuel n : Nat) (acc : List Char) (h : n < fuel) :
    ∃ digits : List Char, Nat.toDigitsCore 10 fuel n acc = digits ++ acc ∧ digits ≠ [] ∧
      (∀ c ∈ digits, is_digit c = true) ∧
      ∀ start : Nat, digits.foldl (fun a ch => 10 * a + (ch.toNat - '0'.toNat)) start
        = start * 10 ^ digits.length + n := by
  induction fuel generalizing n acc with
  | zero => omega
  | succ k ih =>
    unfold Nat.toDigitsCore
    obtain ⟨hd1, hd2⟩ := Nat.digitChar_is_digit (n % 10) (Nat.mod_lt _ (by decide))
    by_cases h0 : n / 10 = 0
    · simp only [h0, if_true]
      refine ⟨[Nat.digitChar (n % 10)], rfl, by simp, ?_, ?_⟩
      · intro c hc
        rw [List.mem_singleton] at hc
        rw [hc]
        exact hd1
      · intro start
        simp only [List.foldl, List.length_singleton, pow_one, hd2]
        omega
    · simp only [h0, if_false]
      obtain ⟨digits, e1, e2, e3, e4⟩ := ih (n / 10) (Nat.digitChar (n % 10) :: acc) (by omega)
      refine ⟨digits ++ [Nat.digitChar (n % 10)], ?_, by simp, ?_, ?_⟩
      · rw [e1, List.append_assoc]
        rfl
      · intro c hc
        rw [List.mem_append, List.mem_singleton] at hc
        rcases hc with hc | hc
        · exact e3 c hc
        · rw [hc]
          exact hd1
      · intro start
        rw [List.foldl_append, e4 start]
        simp only [List.foldl, List.length_append, List.length_singleton, hd2, pow_succ]
        have := Nat.div_add_mod n 10
        nlinarith [Nat.div_add_mod n 10]

/-- The text of a number that is not negative: decimal digits, at least one, whose value is
the number. -/
theorem Int.toString_decimal (value : Int) (h0 : 0 ≤ value) :
    (toString value).data ≠ [] ∧ (∀ c ∈ (toString value).data, is_digit c = true) ∧
    digits_value (toString value).data = value.toNat := by
  obtain ⟨n, rfl⟩ := Int.eq_ofNat_of_zero_le h0
  obtain ⟨digits, e1, e2, e3, e4⟩ := Nat.toDigitsCore_decimal (n + 1) n [] (Nat.lt_succ_self n)
  have hs : (toString (n : Int)).data = digits := by
    show (Nat.repr n).data = digits
    unfold Nat.repr Nat.toDigits
    rw [e1, List.append_nil]
    rfl
  rw [hs]
  refine ⟨e2, e3, ?_⟩
  unfold digits_value
  rw [e4 0]
  simp

theorem List.takeWhile_of_all (test : Char → Bool) (xs : List Char)
    (h : ∀ c ∈ xs, test c = true) : xs.takeWhile test = xs := by
  induction xs with
  | nil => rfl
  | cons x rest ih =>
    rw [List.takeWhile_cons_of_pos (h x (List.mem_cons_self _ _)),
      ih fun c hc => h c (List.mem_cons_of_mem _ hc)]

/-- The prefix parse function of the token of a number from 0 to `INT_MAX` returns the
integer literal of that number. -/
theorem Token.atom_integer (value : Int) (h0 : 0 ≤ value) (h1 : value ≤ 2147483647) :
    Token.atom ⟨.int_t, toString value⟩ = some (.IntegerLiteral value) := by
  obtain ⟨e1, e2, e3⟩ := Int.toString_decimal value h0
  unfold Token.atom
  simp only [String.toList, List.takeWhile_of_all is_digit _ e2, e3]
  have hne : (toString value).data.isEmpty = false := by
    cases hd : (toString value).data with
    | nil => exact absurd hd e1
    | cons _ _ => rfl
  rw [hne]
  have hle : value.toNat ≤ 2147483647 := by omega
  simp only [Bool.false_eq_true, if_false, hle, if_true, Int.ofNat_eq_coe, Int.toNat_of_nonneg h0]


/-! ## The lexer on the characters of a token -/

theorem Lexer.seek_wf (input : List Char) (pos : Nat) (h : pos ≤ input.length) :
    (Lexer.seek input pos).WellFormed :=
  ⟨rfl, rfl, h⟩

theorem Lexer.seek_head (input : List Char) (pos : Nat) (c : Char) (rest : List Char)
    (h : input.drop pos = c :: rest) :
    pos < input.length ∧ (Lexer.seek input pos).ch = c ∧ input.drop (pos + 1) = rest := by
  have hlt : pos < input.length := by
    by_contra hge
    rw [List.drop_of_length_le (by omega)] at h
    cases h
  have := List.drop_eq_getElem_cons hlt
  rw [h] at this
  simp only [List.cons.injEq] at this
  refine ⟨hlt, ?_, this.2.symm⟩
  show input[pos]?.getD NUL = c
  rw [List.getElem?_eq_getElem hlt, Option.getD_some, ← this.1]

theorem List.takeWhile_append_stop (test : Char → Bool) (xs rest : List Char)
    (h : ∀ c ∈ xs, test c = true) (hrest : ∀ c, rest.head? = some c → test c = false) :
    (xs ++ rest).takeWhile test = xs := by
  rw [List.takeWhile_append_of_pos h]
  cases rest with
  | nil => simp
  | cons c tail =>
    rw [List.takeWhile_cons_of_neg (by rw [hrest c rfl]; decide), List.append_nil]

/-- A blank before a token is skipped. -/
theorem Lexer.read_token_seek_space (input : List Char) (pos : Nat) (rest : List Char)
    (h : input.drop pos = ' ' :: rest) :
    (Lexer.seek input pos).read_token = (Lexer.seek input (pos + 1)).read_token := by
  obtain ⟨hlt, hch, -⟩ := Lexer.seek_head input pos ' ' rest h
  have hs : (Lexer.seek input pos).skip_whitespace
      = (Lexer.seek input (pos + 1)).skip_whitespace := by
    unfold Lexer.skip_whitespace
    have h1 : Lexer.read_while is_whitespace ((Lexer.seek input pos).input.length + 1)
        (Lexer.seek input pos)
        = Lexer.read_while is_whitespace input.length (Lexer.seek input (pos + 1)) := by
      show Lexer.read_while is_whitespace (input.length + 1) (Lexer.seek input pos) = _
      rw [Lexer.read_while]
      rw [hch]
      rfl
    rw [h1]
    rw [Lexer.read_while_run is_whitespace (by decide) _ _
        (Lexer.seek_wf input (pos + 1) hlt) (by show input.length - (pos + 1) < _; omega),
      Lexer.read_while_run is_whitespace (by decide) _ _
        (Lexer.seek_wf input (pos + 1) hlt)
        (by show input.length - (pos + 1) < input.length + 1; omega)]
  show (Lexer.seek input pos).skip_whitespace.read_token_switch
    = (Lexer.seek input (pos + 1)).skip_whitespace.read_token_switch
  rw [hs]

/-- A token of one fixed character. -/
theorem Lexer.read_token_seek_single (input : List Char) (pos : Nat) (c : Char)
    (rest : List Char) (token : Token) (h : input.drop pos = c :: rest)
    (ht : single_char_token c = some token) (hws : is_whitespace c = false) :
    (Lexer.seek input pos).read_token = some (token, Lexer.seek input (pos + 1)) := by
  obtain ⟨-, hch, -⟩ := Lexer.seek_head input pos c rest h
  have hskip : (Lexer.seek input pos).skip_whitespace = Lexer.seek input pos :=
    Lexer.read_while_stay _ _ _ (by rw [hch]; exact hws)
  show (Lexer.seek input pos).skip_whitespace.read_token_switch = _
  rw [hskip]
  unfold Lexer.read_token_switch
  rw [hch, ht]
  rfl

/-- A token of one character, or of that character and `=`. -/
theorem Lexer.read_token_seek_double (input : List Char) (pos : Nat) (c : Char)
    (rest : List Char) (single double : Token) (h : input.drop pos = c :: rest)
    (hd : double_char_token c = some (single, double)) :
    (Lexer.seek input pos).read_token
      = if rest.head? = some '=' then some (double, Lexer.seek input (pos + 2))
        else some (single, Lexer.seek input (pos + 1)) := by
  obtain ⟨-, hch, hrest⟩ := Lexer.seek_head input pos c rest h
  have hskip : (Lexer.seek input pos).skip_whitespace = Lexer.seek input pos :=
    Lexer.read_while_stay _ _ _ (by rw [hch]; exact double_char_token_not_whitespace hd)
  show (Lexer.seek input pos).skip_whitespace.read_token_switch = _
  rw [hskip, Lexer.read_token_switch_double _ single double (by rw [hch]; exact hd)]
  have hpeek : ((Lexer.seek input pos).peek_char = '=') ↔ (rest.head? = some '=') := by
    show (input[pos + 1]?.getD NUL = '=') ↔ _
    rw [← hrest, List.head?_drop]
    cases input[pos + 1]? with
    | none => simp [NUL]
    | some x => simp
  by_cases hp : rest.head? = some '='
  · rw [if_pos hp, if_pos (hpeek.2 hp)]
    rfl
  · rw [if_neg hp, if_neg (fun e => hp (hpeek.1 e))]
    rfl

/-- A word followed by a character that is no letter, digit or underscore. -/
theorem Lexer.read_token_seek_word (input : List Char) (pos : Nat) (c : Char)
    (tail rest : List Char) (h : input.drop pos = c :: (tail ++ rest))
    (hal : is_alnum c = true) (hdig : is_digit c = false)
    (htail : ∀ x ∈ tail, is_alnum x = true)
    (hrest : ∀ x, rest.head? = some x → is_alnum x = false) :
    (Lexer.seek input pos).read_token
      = some (⟨Token.lookup (String.mk (c :: tail)), String.mk (c :: tail)⟩,
          Lexer.seek input (pos + (tail.length + 1))) := by
  obtain ⟨hlt, -, -⟩ := Lexer.seek_head input pos c _ h
  have := Lexer.read_token_word (Lexer.seek input pos)
    (Lexer.seek_wf input pos (Nat.le_of_lt hlt)) [] c (tail ++ rest) h
    (fun x hx => by cases hx) hal hdig
  rw [List.takeWhile_append_stop is_alnum tail rest htail hrest] at this
  rw [this]
  simp only [List.length_nil, Nat.add_zero, List.length_cons]
  rfl

/-- On a digit the `switch` of `read_token` takes the branch of `read_number`. -/
theorem Lexer.read_token_switch_number (l : Lexer) (hdig : is_digit l.ch = true) :
    l.read_token_switch = some (⟨.int_t, l.read_number.1⟩, l.read_number.2) := by
  have hal : is_alnum l.ch = true := by
    unfold is_alnum
    rw [hdig]
    rfl
  have hne : ∀ d : Char, is_alnum d = false → l.ch ≠ d := fun d hd e => by
    rw [e, hd] at hal
    cases hal
  have hs : single_char_token l.ch = none := by
    unfold single_char_token
    repeat rw [if_neg (hne _ (by decide))]
  have hd : double_char_token l.ch = none := by
    unfold double_char_token
    repeat rw [if_neg (hne _ (by decide))]
  unfold Lexer.read_token_switch
  rw [hs, hd]
  simp only []
  rw [if_neg (hne _ (by decide)), if_pos hdig]

/-- A number followed by a character that is no digit. -/
theorem Lexer.read_token_seek_number (input : List Char) (pos : Nat) (c : Char)
    (tail rest : List Char) (h : input.drop pos = c :: (tail ++ rest))
    (hdig : is_digit c = true) (htail : ∀ x ∈ tail, is_digit x = true)
    (hrest : ∀ x, rest.head? = some x → is_digit x = false) :
    (Lexer.seek input pos).read_token
      = some (⟨.int_t, String.mk (c :: tail)⟩,
          Lexer.seek input (pos + (tail.length + 1))) := by
  obtain ⟨hlt, hch, -⟩ := Lexer.seek_head input pos c _ h
  have hws : is_whitespace c = false := by
    cases hx : is_whitespace c with
    | false => rfl
    | true =>
      exfalso
      simp only [is_whitespace, Bool.or_eq_true, beq_iff_eq] at hx
      rcases hx with ((hx | hx) | hx) | hx <;> rw [hx] at hdig <;> exact absurd hdig (by decide)
  have hskip : (Lexer.seek input pos).skip_whitespace = Lexer.seek input pos :=
    Lexer.read_while_stay _ _ _ (by rw [hch]; exact hws)
  have htake : (c :: (tail ++ rest)).takeWhile is_digit = c :: tail := by
    rw [List.takeWhile_cons_of_pos hdig, List.takeWhile_append_stop is_digit tail rest htail hrest]
  have hrun : Lexer.read_while is_digit ((Lexer.seek input pos).input.length + 1)
      (Lexer.seek input pos) = Lexer.seek input (pos + (tail.length + 1)) := by
    rw [Lexer.read_while_run is_digit (by decide) _ _
      (Lexer.seek_wf input pos (Nat.le_of_lt hlt)) (by omega)]
    show Lexer.mk input _ _ _ = _
    have hd : List.drop (Lexer.seek input pos).cur (Lexer.seek input pos).input
        = c :: (tail ++ rest) := h
    simp only [hd, htake, List.length_cons]
    rfl
  show (Lexer.seek input pos).skip_whitespace.read_token_switch = _
  rw [hskip, Lexer.read_token_switch_number _ (by rw [hch]; exact hdig)]
  unfold Lexer.read_number
  simp only [hrun]
  have hsub : (Lexer.seek input pos).substr (Lexer.seek input pos).cur
      ((Lexer.seek input (pos + (tail.length + 1))).cur - (Lexer.seek input pos).cur)
      = String.mk (c :: tail) := by
    show String.mk ((input.drop pos).take (pos + (tail.length + 1) - pos)) = _
    rw [h, Nat.add_sub_cancel_left, ← htake, ← List.length_cons c tail, ← htake,
      List.take_length_takeWhile]
  rw [hsub]


/-! ## The tokens of a rendering -/

theorem operator_cases (op : String) (h : op ∈ binary_operators ∨ op = "!") :
    op = "+" ∨ op = "-" ∨ op = "*" ∨ op = "/" ∨ op = "<" ∨ op = "<=" ∨ op = ">" ∨ op = ">="
      ∨ op = "==" ∨ op = "!=" ∨ op = "!" := by
  rcases h with h | h
  · simp only [binary_operators, List.mem_cons, List.mem_nil_iff, or_false] at h
    rcases h with h | h | h | h | h | h | h | h | h | h <;> simp [h]
  · simp [h]

/-- The lexer on the text of an operator that no `=` follows. -/
theorem Lexer.read_token_seek_operator (input : List Char) (pos : Nat) (op : String)
    (rest : List Char) (hop : op ∈ binary_operators ∨ op = "!")
    (h : input.drop pos = op.data ++ rest) (hne : rest.head? ≠ some '=') :
    (Lexer.seek input pos).read_token
      = some (⟨operator_type op, op⟩, Lexer.seek input (pos + op.data.length)) := by
  rcases operator_cases op hop with e | e | e | e | e | e | e | e | e | e | e <;> subst e
  · exact Lexer.read_token_seek_single input pos '+' rest _ h (by decide) (by decide)
  · exact Lexer.read_token_seek_single input pos '-' rest _ h (by decide) (by decide)
  · exact Lexer.read_token_seek_single input pos '*' rest _ h (by decide) (by decide)
  · exact Lexer.read_token_seek_single input pos '/' rest _ h (by decide) (by decide)
  · have := Lexer.read_token_seek_double input pos '<' rest _ _ h rfl
    exact this.trans (if_neg hne)
  · have := Lexer.read_token_seek_double input pos '<' ('=' :: rest) _ _ h rfl
    exact this.trans (if_pos rfl)
  · have := Lexer.read_token_seek_double input pos '>' rest _ _ h rfl
    exact this.trans (if_neg hne)
  · have := Lexer.read_token_seek_double input pos '>' ('=' :: rest) _ _ h rfl
    exact this.trans (if_pos rfl)
  · have := Lexer.read_token_seek_double input pos '=' ('=' :: rest) _ _ h rfl
    exact this.trans (if_pos rfl)
  · have := Lexer.read_token_seek_double input pos '!' ('=' :: rest) _ _ h rfl
    exact this.trans (if_pos rfl)
  · have := Lexer.read_token_seek_double input pos '!' rest _ _ h rfl
    exact this.trans (if_neg hne)

theorem operator_type_ne_eof (op : String) : operator_type op ≠ .eof_t := by
  unfold operator_type
  repeat (first | split | decide)

theorem Lexer.read_tokens_cons (n : Nat) (l l1 l2 : Lexer) (token : Token)
    (tokens : List Token) (h : l.read_token = some (token, l1))
    (h1 : Lexer.read_tokens n l1 = some (tokens, l2)) :
    Lexer.read_tokens (n + 1) l = some (token :: tokens, l2) := by
  simp only [Lexer.read_tokens, h, h1]

theorem Lexer.read_tokens_append (n m : Nat) (l l1 l2 : Lexer) (ts us : List Token)
    (h : Lexer.read_tokens n l = some (ts, l1))
    (h1 : Lexer.read_tokens m l1 = some (us, l2)) :
    Lexer.read_tokens (n + m) l = some (ts ++ us, l2) := by
  induction n generalizing l ts with
  | zero =>
    simp only [Lexer.read_tokens, Option.some.injEq, Prod.mk.injEq] at h
    obtain ⟨rfl, rfl⟩ := h
    rw [Nat.zero_add]
    exact h1
  | succ k ih =>
    simp only [Lexer.read_tokens] at h
    cases hr : l.read_token with
    | none =>
      rw [hr] at h
      cases h
    | some r =>
      obtain ⟨t, l3⟩ := r
      rw [hr] at h
      simp only [] at h
      cases hk : Lexer.read_tokens k l3 with
      | none =>
        rw [hk] at h
        cases h
      | some r2 =>
        obtain ⟨ts2, l4⟩ := r2
        rw [hk] at h
        simp only [Option.some.injEq, Prod.mk.injEq] at h
        obtain ⟨rfl, rfl⟩ := h
        rw [Nat.add_right_comm]
        exact Lexer.read_tokens_cons _ _ _ _ _ _ hr (ih l3 ts2 hk)

theorem Lexer.read_tokens_seek_space (input : List Char) (pos : Nat) (rest : List Char)
    (h : input.drop pos = ' ' :: rest) (n : Nat) :
    Lexer.read_tokens (n + 1) (Lexer.seek input pos)
      = Lexer.read_tokens (n + 1) (Lexer.seek input (pos + 1)) := by
  simp only [Lexer.read_tokens, Lexer.read_token_seek_space input pos rest h]

theorem List.drop_add_of_append (input : List Char) (pos : Nat) (xs ys : List Char)
    (h : input.drop pos = xs ++ ys) : input.drop (pos + xs.length) = ys := by
  rw [← List.drop_drop, h, List.drop_left]

theorem is_digit_of_not_alnum (x : Char) (h : is_alnum x = false) : is_digit x = false := by
  cases hd : is_digit x with
  | false => rfl
  | true =>
    unfold is_alnum at h
    rw [hd] at h
    cases h

theorem is_identifier_spec (name : String) (h : is_identifier name = true) :
    ∃ (c : Char) (tail : List Char), name = String.mk (c :: tail) ∧ is_alnum c = true ∧
      is_digit c = false ∧ (∀ x ∈ tail, is_alnum x = true) ∧ Token.lookup name = .ident_t := by
  unfold is_identifier at h
  cases hd : name.toList with
  | nil =>
    rw [hd] at h
    cases h
  | cons c tail =>
    rw [hd] at h
    simp only [Bool.and_eq_true, Bool.not_eq_true', List.all_eq_true, beq_iff_eq] at h
    obtain ⟨⟨⟨h1, h2⟩, h3⟩, h4⟩ := h
    refine ⟨c, tail, ?_, h1, h2, h3, h4⟩
    have : name.data = c :: tail := hd
    rw [← this]

theorem Expression.to_string_unary (op : String) (right : Expression) (s : String)
    (h : Expression.to_string right = some s) :
    Expression.to_string (.PrefixExpression op (some right)) = some ("(" ++ op ++ s ++ ")") := by
  have : Expression.to_string (.PrefixExpression op (some right))
      = match Expression.to_string right with
        | none => none
        | some s => some ("(" ++ op ++ s ++ ")") := rfl
  rw [this, h]

theorem Expression.to_string_binary (left : Expression) (op : String) (right : Expression)
    (sl sr : String) (hl : Expression.to_string left = some sl)
    (hr : Expression.to_string right = some sr) :
    Expression.to_string (.InfixExpression (some left) op (some right))
      = some ("(" ++ sl ++ " " ++ op ++ " " ++ sr ++ ")") := by
  have : Expression.to_string (.InfixExpression (some left) op (some right))
      = match Expression.to_string left, Expression.to_string right with
        | some sl, some sr => some ("(" ++ sl ++ " " ++ op ++ " " ++ sr ++ ")")
        | _, _ => none := rfl
  rw [this, hl, hr]

/-- The lexer reads the rendering of a tree of the round trip as the tokens of the tree,
whatever text surrounds it, when the character after it is no letter, digit or underscore;
the rendering starts neither with `=` nor with a blank. -/
theorem Expression.Simple.lex {e : Expression} (h : e.Simple) :
    ∃ (c : Char) (cs : List Char), Expression.to_string e = some (String.mk (c :: cs)) ∧
      c ≠ '=' ∧ e.tokens ≠ [] ∧ (∀ t ∈ e.tokens, t.type ≠ .eof_t) ∧
      ∀ (input : List Char) (pos : Nat) (rest : List Char),
        input.drop pos = c :: (cs ++ rest) →
        (∀ x, rest.head? = some x → is_alnum x = false) →
        Lexer.read_tokens e.tokens.length (Lexer.seek input pos)
          = some (e.tokens, Lexer.seek input (pos + (cs.length + 1))) := by
  induction h with
  | integer value h0 h1 =>
    obtain ⟨e1, e2, -⟩ := Int.toString_decimal value h0
    cases hd : (toString value).data with
    | nil => exact absurd hd e1
    | cons c cs =>
      have hs : toString value = String.mk (c :: cs) := by
        rw [← hd]
      have hc : is_digit c = true := e2 c (by rw [hd]; exact List.mem_cons_self _ _)
      refine ⟨c, cs, ?_, ?_, ?_, ?_, ?_⟩
      · show some (toString value) = _
        rw [hs]
      · intro e
        rw [e] at hc
        exact absurd hc (by decide)
      · simp [Expression.tokens]
      · intro t ht
        simp only [Expression.tokens, List.mem_singleton] at ht
        rw [ht]
        exact fun e => by cases e
      · intro input pos rest hin hrest
        have := Lexer.read_token_seek_number input pos c cs rest hin hc
          (fun x hx => e2 x (by rw [hd]; exact List.mem_cons_of_mem _ hx))
          (fun x hx => is_digit_of_not_alnum x (hrest x hx))
        show Lexer.read_tokens 1 _ = some ([⟨.int_t, toString value⟩], _)
        rw [hs]
        exact Lexer.read_tokens_cons 0 _ _ _ _ _ this rfl
  | boolean value =>
    cases value with
    | true =>
      refine ⟨'t', ['r', 'u', 'e'], rfl, by decide, by simp [Expression.tokens], ?_, ?_⟩
      · intro t ht
        simp only [Expression.tokens, List.mem_singleton, if_true] at ht
        rw [ht]
        decide
      · intro input pos rest hin hrest
        have := Lexer.read_token_seek_word input pos 't' ['r', 'u', 'e'] rest hin
          (by decide) (by decide) (by decide) hrest
        exact Lexer.read_tokens_cons 0 _ _ _ _ _ this rfl
    | false =>
      refine ⟨'f', ['a', 'l', 's', 'e'], rfl, by decide, by simp [Expression.tokens], ?_, ?_⟩
      · intro t ht
        simp only [Expression.tokens, List.mem_singleton, Bool.false_eq_true, if_false] at ht
        rw [ht]
        decide
      · intro input pos rest hin hrest
        have := Lexer.read_token_seek_word input pos 'f' ['a', 'l', 's', 'e'] rest hin
          (by decide) (by decide) (by decide) hrest
        exact Lexer.read_tokens_cons 0 _ _ _ _ _ this rfl
  | identifier name hn =>
    obtain ⟨c, tail, hs, hal, hdig, htail, hlook⟩ := is_identifier_spec name hn
    refine ⟨c, tail, ?_, ?_, by simp [Expression.tokens], ?_, ?_⟩
    · show some name = _
      rw [hs]
    · intro e
      rw [e] at hal
      exact absurd hal (by decide)
    · intro t ht
      simp only [Expression.tokens, List.mem_singleton] at ht
      rw [ht]
      exact fun e => by cases e
    · intro input pos rest hin hrest
      have := Lexer.read_token_seek_word input pos c tail rest hin hal hdig htail hrest
      rw [← hs, hlook] at this
      exact Lexer.read_tokens_cons 0 _ _ _ _ _ this rfl
  | unary op right hop _ ih =>
    obtain ⟨cr, csr, hsr, hne, hnil, heof, hlex⟩ := ih
    refine ⟨'(', op.data ++ (cr :: csr) ++ [')'], ?_, by decide, by simp [Expression.tokens],
      ?_, ?_⟩
    · rw [Expression.to_string_unary op right _ hsr]
      congr 1
    · intro t ht
      simp only [Expression.tokens, List.mem_cons, List.mem_append, List.mem_singleton,
        List.mem_nil_iff, or_false] at ht
      rcases ht with ht | ht | ht | ht
      · rw [ht]
        decide
      · rw [ht]
        exact operator_type_ne_eof op
      · exact heof t ht
      · rw [ht]
        decide
    · intro input pos rest hin hrest
      have hop2 : op ∈ binary_operators ∨ op = "!" := by
        rcases hop with e | e
        · left
          rw [e]
          decide
        · right
          exact e
      have s1 := Lexer.read_token_seek_single input pos '(' _ _ hin rfl (by decide)
      obtain ⟨-, -, d1⟩ := Lexer.seek_head input pos '(' _ hin
      have d1a : input.drop (pos + 1) = op.data ++ (cr :: (csr ++ ')' :: rest)) := by
        rw [d1]
        simp
      have s2 := Lexer.read_token_seek_operator input (pos + 1) op _ hop2 d1a
        (by simpa using hne)
      have d2 := List.drop_add_of_append input (pos + 1) _ _ d1a
      have s3 := hlex input (pos + 1 + op.data.length) (')' :: rest) d2
        (fun x hx => by
          simp only [List.head?_cons, Option.some.injEq] at hx
          rw [← hx]
          decide)
      have d3 : input.drop (pos + 1 + op.data.length + (csr.length + 1)) = ')' :: rest := by
        have := List.drop_add_of_append input (pos + 1 + op.data.length) (cr :: csr)
          (')' :: rest) (by rw [d2]; simp)
        simpa using this
      have s4 := Lexer.read_token_seek_single input _ ')' _ _ d3 rfl (by decide)
      have e1 := Lexer.read_tokens_append _ 1 _ _ _ _ _ s3
        (Lexer.read_tokens_cons 0 _ _ _ _ _ s4 rfl)
      have e2 := Lexer.read_tokens_cons _ _ _ _ _ _ s1
        (Lexer.read_tokens_cons _ _ _ _ _ _ s2 e1)
      have hlen : (Expression.PrefixExpression op (some right)).tokens.length
          = right.tokens.length + 1 + 1 + 1 := by
        simp [Expression.tokens]
      have hpos : pos + ((op.data ++ cr :: csr ++ [')']).length + 1)
          = pos + 1 + op.data.length + (csr.length + 1) + 1 := by
        simp only [List.length_append, List.length_cons, List.length_nil]
        omega
      rw [hlen, hpos]
      exact e2
  | binary left op right hop _ _ ihl ihr =>
    obtain ⟨cl, csl, hsl, -, -, heofl, hlexl⟩ := ihl
    obtain ⟨cr, csr, hsr, -, hnilr, heofr, hlexr⟩ := ihr
    refine ⟨'(', (cl :: csl) ++ ' ' :: (op.data ++ ' ' :: ((cr :: csr) ++ [')'])), ?_, by decide,
      by simp [Expression.tokens], ?_, ?_⟩
    · rw [Expression.to_string_binary left op right _ _ hsl hsr]
      congr 1
      apply String.ext
      simp [String.data_append]
    · intro t ht
      simp only [Expression.tokens, List.mem_cons, List.mem_append, List.mem_singleton,
        List.mem_nil_iff, or_false] at ht
      rcases ht with ht | ht | ht | ht | ht
      · rw [ht]
        decide
      · exact heofl t ht
      · rw [ht]
        exact operator_type_ne_eof op
      · exact heofr t ht
      · rw [ht]
        decide
    · intro input pos rest hin hrest
      have s1 := Lexer.read_token_seek_single input pos '(' _ _ hin rfl (by decide)
      obtain ⟨-, -, d1⟩ := Lexer.seek_head input pos '(' _ hin
      have d1a : input.drop (pos + 1)
          = cl :: (csl ++ ' ' :: (op.data ++ ' ' :: (cr :: (csr ++ ')' :: rest)))) := by
        rw [d1]
        simp
      have s2 := hlexl input (pos + 1) _ d1a (fun x hx => by
        simp only [List.head?_cons, Option.some.injEq] at hx
        rw [← hx]
        decide)
      have d2 : input.drop (pos + 1 + (csl.length + 1))
          = ' ' :: (op.data ++ ' ' :: (cr :: (csr ++ ')' :: rest))) := by
        have := List.drop_add_of_append input (pos + 1) (cl :: csl)
          (' ' :: (op.data ++ ' ' :: (cr :: (csr ++ ')' :: rest)))) (by rw [d1a]; simp)
        simpa using this
      have s3a := Lexer.read_token_seek_space input _ _ d2
      obtain ⟨-, -, d3⟩ := Lexer.seek_head input _ ' ' _ d2
      have s3 := Lexer.read_token_seek_operator input _ op _ (Or.inl hop) d3 (by simp)
      rw [← s3a] at s3
      have d4 := List.drop_add_of_append input _ _ _ d3
      obtain ⟨k, hk⟩ : ∃ k, right.tokens.length = k + 1 := by
        cases hr : right.tokens with
        | nil => exact absurd hr hnilr
        | cons t ts => exact ⟨ts.length, rfl⟩
      have s4a := Lexer.read_tokens_seek_space input _ _ d4 k
      obtain ⟨-, -, d5⟩ := Lexer.seek_head input _ ' ' _ d4
      have s4 := hlexr input _ (')' :: rest) d5 (fun x hx => by
        simp only [List.head?_cons, Option.some.injEq] at hx
        rw [← hx]
        decide)
      rw [hk, ← s4a, ← hk] at s4
      have d6 : input.drop (pos + 1 + (csl.length + 1) + 1 + op.data.length + 1
          + (csr.length + 1)) = ')' :: rest := by
        have := List.drop_add_of_append input _ (cr :: csr) (')' :: rest) (by rw [d5]; simp)
        simpa using this
      have s5 := Lexer.read_token_seek_single input _ ')' _ _ d6 rfl (by decide)
      have e1 := Lexer.read_tokens_append _ 1 _ _ _ _ _ s4
        (Lexer.read_tokens_cons 0 _ _ _ _ _ s5 rfl)
      have e2 := Lexer.read_tokens_append _ _ _ _ _ _ _ s2
        (Lexer.read_tokens_cons _ _ _ _ _ _ s3 e1)
      have e3 := Lexer.read_tokens_cons _ _ _ _ _ _ s1 e2
      have hlen : (Expression.InfixExpression (some left) op (some right)).tokens.length
          = left.tokens.length + (right.tokens.length + 1 + 1) + 1 := by
        simp [Expression.tokens]
      have htoks : (Expression.InfixExpression (some left) op (some right)).tokens
          = ⟨.left_paren_t, "("⟩ :: (left.tokens ++ ⟨operator_type op, op⟩
            :: (right.tokens ++ [⟨.right_paren_t, ")"⟩])) := rfl
      have hpos : pos + ((cl :: csl ++ ' ' :: (op.data ++ ' ' :: (cr :: csr ++ [')']))).length + 1)
          = pos + 1 + (csl.length + 1) + 1 + op.data.length + 1 + (csr.length + 1) + 1 := by
        simp only [List.length_append, List.length_cons, List.length_nil]
        omega
      rw [hlen, htoks, hpos]
      exact e3


/-! ## The token vector of a rendering -/

theorem tokenize_of_read_tokens (n : Nat) (l l1 : Lexer) (ts : List Token)
    (h : Lexer.read_tokens n l = some (ts, l1)) (hne : ∀ t ∈ ts, t.type ≠ .eof_t)
    (k : Nat) (us : List Token) (h1 : tokenize k l1 = some us) :
    tokenize (n + k) l = some (ts ++ us) := by
  induction n generalizing l ts with
  | zero =>
    simp only [Lexer.read_tokens, Option.some.injEq, Prod.mk.injEq] at h
    obtain ⟨rfl, rfl⟩ := h
    rw [Nat.zero_add]
    exact h1
  | succ m ih =>
    simp only [Lexer.read_tokens] at h
    cases hr : l.read_token with
    | none =>
      rw [hr] at h
      cases h
    | some r =>
      obtain ⟨t, l3⟩ := r
      rw [hr] at h
      simp only [] at h
      cases hk : Lexer.read_tokens m l3 with
      | none =>
        rw [hk] at h
        cases h
      | some r2 =>
        obtain ⟨ts2, l4⟩ := r2
        rw [hk] at h
        simp only [Option.some.injEq, Prod.mk.injEq] at h
        obtain ⟨rfl, rfl⟩ := h
        have ht : t.type ≠ .eof_t := hne t (List.mem_cons_self _ _)
        have := ih l3 ts2 hk (fun x hx => hne x (List.mem_cons_of_mem _ hx))
        rw [Nat.add_right_comm]
        simp only [tokenize, hr, ht, if_false, this, List.cons_append]

/-- The constructor of `Parser` on the rendering of a tree of the round trip: the token
vector is the tokens of the tree and `eof`. -/
theorem Expression.Simple.tokenize_rendering {e : Expression} (h : e.Simple) :
    ∃ s : String, Expression.to_string e = some s ∧
      (∀ t ∈ e.tokens, t.type ≠ .eof_t) ∧
      ∀ k : Nat, tokenize (e.tokens.length + (k + 1)) (Lexer.new s)
        = some (e.tokens ++ [Token.eof]) := by
  obtain ⟨c, cs, hs, -, -, heof, hlex⟩ := h.lex
  refine ⟨String.mk (c :: cs), hs, heof, fun k => ?_⟩
  have h1 := hlex (c :: cs) 0 [] (by simp) (fun x hx => by cases hx)
  have hend : (Lexer.seek (c :: cs) (0 + (cs.length + 1))).read_token
      = some (Token.eof, Lexer.seek (c :: cs) (0 + (cs.length + 1))) := by
    apply Lexer.read_token_after_end
    show (c :: cs)[0 + (cs.length + 1)]?.getD NUL = NUL
    rw [List.getElem?_eq_none (by simp)]
    rfl
  have h2 : tokenize (k + 1) (Lexer.seek (c :: cs) (0 + (cs.length + 1)))
      = some [Token.eof] := by
    simp only [tokenize, hend]
    rfl
  exact tokenize_of_read_tokens _ _ _ _ h1 heof _ _ h2


/-! ## The parse of the tokens of a rendering -/

theorem Parser.seek_token (tokens : List Token) (pos : Nat) (errors : List String)
    (t : Token) (rest : List Token) (h : tokens.drop pos = t :: rest) :
    (Parser.seek tokens pos errors).token = t ∧ tokens.drop (pos + 1) = rest := by
  have hlt : pos < tokens.length := by
    by_contra hge
    rw [List.drop_of_length_le (by omega)] at h
    cases h
  have := List.drop_eq_getElem_cons hlt
  rw [h] at this
  simp only [List.cons.injEq] at this
  refine ⟨?_, this.2.symm⟩
  show tokens[pos]?.getD Token.eof = t
  rw [List.getElem?_eq_getElem hlt, Option.getD_some, ← this.1]

theorem Parser.seek_peek (tokens : List Token) (pos : Nat) (errors : List String)
    (t : Token) (rest : List Token) (h : tokens.drop (pos + 1) = t :: rest) :
    (Parser.seek tokens pos errors).peek = t :=
  (Parser.seek_token tokens (pos + 1) errors t rest h).1

theorem List.drop_add_of_append_tokens (tokens : List Token) (pos : Nat) (xs ys : List Token)
    (h : tokens.drop pos = xs ++ ys) : tokens.drop (pos + xs.length) = ys := by
  rw [← List.drop_drop, h, List.drop_left]

/-- The prefix parse function of `(`: the expression between the parentheses. -/
theorem parse_expression_group (d : Descent) (n : Nat) (precedence : Precedence)
    (p p1 : Parser) (inner : Option Expression) (h : p.token.type = .left_paren_t)
    (hin : d.expression .lowest_p p.advance = .ok (inner, p1))
    (hclose : p1.peek.type = .right_paren_t) :
    parse_expression d n precedence p
      = parse_expression_loop d n precedence n inner p1.advance := by
  unfold parse_expression
  rw [Parse.bind_of_ok (cur_token_apply p)]
  have hm : prefix_parse_func_map d n p.token.type = some (parse_group_expression d) := by
    rw [h]
    rfl
  simp only [hm]
  have hg : parse_group_expression d p = .ok (inner, p1.advance) := by
    unfold parse_group_expression
    rw [Parse.bind_of_ok (next_token_apply p), Parse.bind_of_ok hin]
    have he := expect_or_error_apply .right_paren_t p1
    rw [if_pos hclose] at he
    rw [Parse.bind_of_ok he]
    rfl
  exact Parse.bind_of_ok hg

theorem operator_type_binary (op : String) (h : op ∈ binary_operators) :
    (operator_type op).is_binary_operator = true := by
  simp only [binary_operators, List.mem_cons, List.mem_nil_iff, or_false] at h
  rcases h with h | h | h | h | h | h | h | h | h | h <;> rw [h] <;> decide

theorem operator_type_unary (op : String) (h : op = "-" ∨ op = "!") :
    operator_type op = .minus_t ∨ operator_type op = .bang_t := by
  rcases h with h | h <;> rw [h]
  · left
    decide
  · right
    decide

/-- The prefix parse function on the tokens of a tree of the round trip returns the tree
and leaves the parser on the last of these tokens, where the loop of `parse_expression`
starts; and the call returns the tree when the token after them is `)` or `eof`. -/
theorem Expression.Simple.parse_operand {e : Expression} (h : e.Simple) :
    ∀ (n : Nat), e.tokens.length ≤ n →
    ∀ (precedence : Precedence) (tokens : List Token) (pos : Nat) (errors : List String)
      (post : List Token), tokens.drop pos = e.tokens ++ post →
      parse_expression (descend n) n precedence (Parser.seek tokens pos errors)
        = parse_expression_loop (descend n) n precedence n (some e)
            (Parser.seek tokens (pos + e.tokens.length - 1) errors) ∧
      (1 ≤ precedence.rank →
        (∀ t, post.head? = some t → t.type = .right_paren_t ∨ t.type = .eof_t) →
        parse_expression (descend n) n precedence (Parser.seek tokens pos errors)
          = .ok (some e, Parser.seek tokens (pos + e.tokens.length - 1) errors)) := by
  have stop : ∀ (d : Descent) (n turns : Nat) (precedence : Precedence)
      (tokens : List Token) (last : Nat) (errors : List String) (post : List Token)
      (left : Option Expression),
      tokens.drop (last + 1) = post → 1 ≤ precedence.rank →
      (∀ t, post.head? = some t → t.type = .right_paren_t ∨ t.type = .eof_t) →
      parse_expression_loop d n precedence (turns + 1) left (Parser.seek tokens last errors)
        = .ok (left, Parser.seek tokens last errors) := by
    intro d n turns precedence tokens last errors post left hd hrank hpost
    apply parse_expression_loop_stop
    right
    have hpeek : (Parser.seek tokens last errors).peek.type = .right_paren_t
        ∨ (Parser.seek tokens last errors).peek.type = .eof_t := by
      cases post with
      | nil =>
        right
        show (tokens[last + 1]?.getD Token.eof).type = _
        rw [List.getElem?_eq_none]
        · rfl
        · by_contra hlt
          have := List.drop_eq_getElem_cons (Nat.lt_of_not_le hlt)
          rw [hd] at this
          cases this
      | cons t rest =>
        rw [Parser.seek_peek tokens last errors t rest hd]
        exact hpost t rfl
    have hl : (Parser.seek tokens last errors).peek.type.precedence.rank = 1 := by
      rcases hpeek with hp | hp <;> rw [hp] <;> rfl
    rw [hl]
    omega
  have atom : ∀ (e : Expression) (t : Token), e.tokens = [t] → t.atom = some e →
      ∀ (n : Nat), e.tokens.length ≤ n →
      ∀ (precedence : Precedence) (tokens : List Token) (pos : Nat) (errors : List String)
        (post : List Token), tokens.drop pos = e.tokens ++ post →
        parse_expression (descend n) n precedence (Parser.seek tokens pos errors)
          = parse_expression_loop (descend n) n precedence n (some e)
              (Parser.seek tokens (pos + e.tokens.length - 1) errors) ∧
        (1 ≤ precedence.rank →
          (∀ t, post.head? = some t → t.type = .right_paren_t ∨ t.type = .eof_t) →
          parse_expression (descend n) n precedence (Parser.seek tokens pos errors)
            = .ok (some e, Parser.seek tokens (pos + e.tokens.length - 1) errors)) := by
    intro e t het hat n hn precedence tokens pos errors post hd
    rw [het] at hd hn ⊢
    obtain ⟨h1, h2⟩ := Parser.seek_token tokens pos errors t post hd
    have hq := parse_expression_atom (descend n) n precedence (Parser.seek tokens pos errors) e
      (by rw [h1]; exact hat)
    have hpos : pos + [t].length - 1 = pos := by simp
    rw [hpos]
    refine ⟨hq, fun hrank hpost => ?_⟩
    rw [hq]
    obtain ⟨m, rfl⟩ : ∃ m, n = m + 1 := ⟨n - 1, by simp at hn; omega⟩
    exact stop _ _ m precedence tokens pos errors post (some e) h2 hrank hpost
  induction h with
  | integer value h0 h1 =>
    exact atom _ ⟨.int_t, toString value⟩ rfl (Token.atom_integer value h0 h1)
  | boolean value =>
    cases value with
    | true => exact atom _ ⟨.true_t, "true"⟩ rfl rfl
    | false => exact atom _ ⟨.false_t, "false"⟩ rfl rfl
  | identifier name hn => exact atom _ ⟨.ident_t, name⟩ rfl rfl
  | unary op right hop hsr ih =>
    intro n hn precedence tokens pos errors post hd
    have htoks : (Expression.PrefixExpression op (some right)).tokens
        = ⟨.left_paren_t, "("⟩ :: ⟨operator_type op, op⟩
          :: (right.tokens ++ [⟨.right_paren_t, ")"⟩]) := rfl
    have hlen : (Expression.PrefixExpression op (some right)).tokens.length
        = right.tokens.length + 3 := by
      rw [htoks]
      simp
    rw [hlen] at hn ⊢
    rw [htoks] at hd
    obtain ⟨m, rfl⟩ : ∃ m, n = m + 2 := ⟨n - 2, by omega⟩
    have hd0 : tokens.drop pos = ⟨.left_paren_t, "("⟩ :: (⟨operator_type op, op⟩
        :: (right.tokens ++ ⟨.right_paren_t, ")"⟩ :: post)) := by
      rw [hd]
      simp
    obtain ⟨t0, d1⟩ := Parser.seek_token tokens pos errors _ _ hd0
    obtain ⟨t1, d2⟩ := Parser.seek_token tokens (pos + 1) errors _ _ d1
    obtain ⟨-, hr⟩ := ih m (by omega) .prefix_p tokens (pos + 1 + 1) errors
      (⟨.right_paren_t, ")"⟩ :: post) d2
    have hr2 := hr (by decide) (fun t ht => by
      simp only [List.head?_cons, Option.some.injEq] at ht
      rw [← ht]
      left
      rfl)
    have d3 : tokens.drop (pos + 1 + 1 + right.tokens.length - 1 + 1)
        = ⟨.right_paren_t, ")"⟩ :: post := by
      have := List.drop_add_of_append_tokens tokens (pos + 1 + 1) _ _ d2
      have hk : 1 ≤ right.tokens.length := by
        obtain ⟨_, _, _, _, hnil, _, _⟩ := hsr.lex
        cases hrt : right.tokens with
        | nil => exact absurd hrt hnil
        | cons _ _ => simp
      have e : pos + 1 + 1 + right.tokens.length - 1 + 1 = pos + 1 + 1 + right.tokens.length := by
        omega
      rw [e]
      exact this
    have hinner : (descend (m + 2)).expression .lowest_p
        (Parser.seek tokens pos errors).advance
        = .ok (some (.PrefixExpression op (some right)),
            Parser.seek tokens (pos + 1 + 1 + right.tokens.length - 1) errors) := by
      show parse_expression (descend (m + 1)) (m + 1) .lowest_p (Parser.seek tokens (pos + 1) errors)
        = _
      rw [parse_expression_unary _ _ _ _ (by rw [t1]; exact operator_type_unary op hop)]
      have hlit : (Parser.seek tokens (pos + 1) errors).token.literal = op := by
        rw [t1]
      rw [hlit]
      have hx : (descend (m + 1)).expression .prefix_p (Parser.seek tokens (pos + 1) errors).advance
          = .ok (some right, Parser.seek tokens (pos + 1 + 1 + right.tokens.length - 1) errors) :=
        hr2
      rw [Parse.bind_of_ok hx]
      exact stop _ _ m .lowest_p tokens _ errors _ _ d3 (by decide) (fun t ht => by
        simp only [List.head?_cons, Option.some.injEq] at ht
        rw [← ht]
        left
        rfl)
    have hq := parse_expression_group (descend (m + 2)) (m + 2) precedence
      (Parser.seek tokens pos errors) _ _ (by rw [t0]) hinner
      (by rw [Parser.seek_peek tokens _ errors _ _ d3])
    have hpos : (Parser.seek tokens (pos + 1 + 1 + right.tokens.length - 1) errors).advance
        = Parser.seek tokens (pos + (right.tokens.length + 3) - 1) errors := by
      show Parser.seek tokens (pos + 1 + 1 + right.tokens.length - 1 + 1) errors = _
      congr 1
      omega
    rw [hpos] at hq
    refine ⟨hq, fun hrank hpost => ?_⟩
    rw [hq]
    have d4 : tokens.drop (pos + (right.tokens.length + 3) - 1 + 1) = post := by
      have := (Parser.seek_token tokens _ errors _ _ d3).2
      have e : pos + (right.tokens.length + 3) - 1 + 1
          = pos + 1 + 1 + right.tokens.length - 1 + 1 + 1 := by omega
      rw [e]
      exact this
    exact stop _ _ (m + 1) precedence tokens _ errors post _ d4 hrank hpost
  | binary left op right hop hsl hsr ihl ihr =>
    intro n hn precedence tokens pos errors post hd
    have htoks : (Expression.InfixExpression (some left) op (some right)).tokens
        = ⟨.left_paren_t, "("⟩ :: (left.tokens ++ ⟨operator_type op, op⟩
          :: (right.tokens ++ [⟨.right_paren_t, ")"⟩])) := rfl
    have hlen : (Expression.InfixExpression (some left) op (some right)).tokens.length
        = left.tokens.length + right.tokens.length + 3 := by
      rw [htoks]
      simp
      omega
    have hkl : 1 ≤ left.tokens.length := by
      obtain ⟨_, _, _, _, hnil, _, _⟩ := hsl.lex
      cases hlt : left.tokens with
      | nil => exact absurd hlt hnil
      | cons _ _ => simp
    have hkr : 1 ≤ right.tokens.length := by
      obtain ⟨_, _, _, _, hnil, _, _⟩ := hsr.lex
      cases hrt : right.tokens with
      | nil => exact absurd hrt hnil
      | cons _ _ => simp
    rw [hlen] at hn ⊢
    rw [htoks] at hd
    obtain ⟨m, rfl⟩ : ∃ m, n = m + 3 := ⟨n - 3, by omega⟩
    have hd0 : tokens.drop pos = ⟨.left_paren_t, "("⟩ :: (left.tokens
        ++ ⟨operator_type op, op⟩ :: (right.tokens ++ ⟨.right_paren_t, ")"⟩ :: post)) := by
      rw [hd]
      simp
    obtain ⟨t0, d1⟩ := Parser.seek_token tokens pos errors _ _ hd0
    obtain ⟨hql, -⟩ := ihl (m + 2) (by omega) .lowest_p tokens (pos + 1) errors _ d1
    have d2 : tokens.drop (pos + 1 + left.tokens.length - 1 + 1)
        = ⟨operator_type op, op⟩ :: (right.tokens ++ ⟨.right_paren_t, ")"⟩ :: post) := by
      have := List.drop_add_of_append_tokens tokens (pos + 1) _ _ d1
      have e : pos + 1 + left.tokens.length - 1 + 1 = pos + 1 + left.tokens.length := by omega
      rw [e]
      exact this
    have hpk : (Parser.seek tokens (pos + 1 + left.tokens.length - 1) errors).peek
        = ⟨operator_type op, op⟩ := Parser.seek_peek tokens _ errors _ _ d2
    have hbin := operator_type_binary op hop
    obtain ⟨-, -, hrank2, -, -⟩ := TokenType.is_binary_operator_spec hbin
    have d3 : tokens.drop (pos + 1 + left.tokens.length - 1 + 1 + 1)
        = right.tokens ++ ⟨.right_paren_t, ")"⟩ :: post :=
      (Parser.seek_token tokens _ errors _ _ d2).2
    obtain ⟨-, hr⟩ := ihr (m + 1) (by omega) (operator_type op).precedence tokens
      (pos + 1 + left.tokens.length - 1 + 1 + 1) errors _ d3
    have hr2 := hr (by omega) (fun t ht => by
      simp only [List.head?_cons, Option.some.injEq] at ht
      rw [← ht]
      left
      rfl)
    have d4 : tokens.drop (pos + 1 + left.tokens.length - 1 + 1 + 1 + right.tokens.length - 1 + 1)
        = ⟨.right_paren_t, ")"⟩ :: post := by
      have := List.drop_add_of_append_tokens tokens _ _ _ d3
      have e : pos + 1 + left.tokens.length - 1 + 1 + 1 + right.tokens.length - 1 + 1
          = pos + 1 + left.tokens.length - 1 + 1 + 1 + right.tokens.length := by omega
      rw [e]
      exact this
    have hinner : (descend (m + 3)).expression .lowest_p
        (Parser.seek tokens pos errors).advance
        = .ok (some (.InfixExpression (some left) op (some right)),
            Parser.seek tokens
              (pos + 1 + left.tokens.length - 1 + 1 + 1 + right.tokens.length - 1) errors) := by
      show parse_expression (descend (m + 2)) (m + 2) .lowest_p
        (Parser.seek tokens (pos + 1) errors) = _
      rw [hql, parse_expression_loop_binary _ _ _ (m + 1) _ _ (by rw [hpk]; exact hbin)
        (by rw [hpk]; exact hrank2), hpk]
      have hx : (descend (m + 2)).expression (operator_type op).precedence
          (Parser.seek tokens (pos + 1 + left.tokens.length - 1) errors).advance.advance
          = .ok (some right, Parser.seek tokens
              (pos + 1 + left.tokens.length - 1 + 1 + 1 + right.tokens.length - 1) errors) :=
        hr2
      rw [Parse.bind_of_ok hx]
      exact stop _ _ m .lowest_p tokens _ errors _ _ d4 (by decide) (fun t ht => by
        simp only [List.head?_cons, Option.some.injEq] at ht
        rw [← ht]
        left
        rfl)
    have hq := parse_expression_group (descend (m + 3)) (m + 3) precedence
      (Parser.seek tokens pos errors) _ _ (by rw [t0]) hinner
      (by rw [Parser.seek_peek tokens _ errors _ _ d4])
    have hpos : (Parser.seek tokens
          (pos + 1 + left.tokens.length - 1 + 1 + 1 + right.tokens.length - 1) errors).advance
        = Parser.seek tokens (pos + (left.tokens.length + right.tokens.length + 3) - 1)
            errors := by
      show Parser.seek tokens
        (pos + 1 + left.tokens.length - 1 + 1 + 1 + right.tokens.length - 1 + 1) errors = _
      congr 1
      omega
    rw [hpos] at hq
    refine ⟨hq, fun hrank hpost => ?_⟩
    rw [hq]
    have d5 : tokens.drop (pos + (left.tokens.length + right.tokens.length + 3) - 1 + 1)
        = post := by
      have := (Parser.seek_token tokens _ errors _ _ d4).2
      have e : pos + (left.tokens.length + right.tokens.length + 3) - 1 + 1
          = pos + 1 + left.tokens.length - 1 + 1 + 1 + right.tokens.length - 1 + 1 + 1 := by
        omega
      rw [e]
      exact this
    exact stop _ _ (m + 2) precedence tokens _ errors post _ d5 hrank hpost


theorem Expression.Simple.first_token {e : Expression} (h : e.Simple) :
    ∃ (t : Token) (rest : List Token), e.tokens = t :: rest ∧ t.type ≠ .let_t ∧
      t.type ≠ .return_t ∧ t.type ≠ .semicolon_t ∧ t.type ≠ .eof_t := by
  cases h with
  | integer value h0 h1 =>
    exact ⟨_, _, rfl, (fun e => by cases e), (fun e => by cases e), (fun e => by cases e),
      (fun e => by cases e)⟩
  | boolean value =>
    cases value
    · exact ⟨_, _, rfl, (fun e => by cases e), (fun e => by cases e), (fun e => by cases e),
        (fun e => by cases e)⟩
    · exact ⟨_, _, rfl, (fun e => by cases e), (fun e => by cases e), (fun e => by cases e),
        (fun e => by cases e)⟩
  | identifier name hn =>
    exact ⟨_, _, rfl, (fun e => by cases e), (fun e => by cases e), (fun e => by cases e),
      (fun e => by cases e)⟩
  | unary op right hop hr =>
    exact ⟨_, _, rfl, (fun e => by cases e), (fun e => by cases e), (fun e => by cases e),
      (fun e => by cases e)⟩
  | binary left op right hop hl hr =>
    exact ⟨_, _, rfl, (fun e => by cases e), (fun e => by cases e), (fun e => by cases e),
      (fun e => by cases e)⟩

/-- C40: for every tree `e` built from integer literals from 0 to `INT_MAX`, boolean
literals, identifiers that the lexer reads as one identifier, the prefix operators `-` and
`!` and the ten binary operators, `e` has a rendering `s`, and the parse of `s`, with fuel
for the tokens of `s`, records no error and yields the program of the one expression
statement `e` itself, whose rendering is `s` again. -/
theorem rendering_is_parsed_back (e : Expression) (h : e.Simple) (fuel : Nat)
    (hf : e.tokens.length + 2 ≤ fuel) :
    ∃ s : String, Expression.to_string e = some s ∧
      parse_input fuel s = .ok (⟨[.ExpressionStatement (some e)]⟩, []) ∧
      Program.renderings ⟨[.ExpressionStatement (some e)]⟩ = [some s] := by
  obtain ⟨s, hs, -, htok⟩ := h.tokenize_rendering
  obtain ⟨t, rest, hfirst, hlet, hret, hsemi, hne⟩ := h.first_token
  refine ⟨s, hs, ?_, ?_⟩
  · obtain ⟨k, rfl⟩ : ∃ k, fuel = e.tokens.length + k + 2 :=
      ⟨fuel - (e.tokens.length + 2), by omega⟩
    have ht : tokenize (e.tokens.length + k + 2) (Lexer.new s)
        = some (e.tokens ++ [Token.eof]) := htok (k + 1)
    have hp := (h.parse_operand (e.tokens.length + k) (by omega) .lowest_p
      (e.tokens ++ [Token.eof]) 0 [] [Token.eof] (by simp)).2 (by decide)
      (fun t ht => by
        simp only [List.head?_cons, Option.some.injEq] at ht
        rw [← ht]
        right
        rfl)
    have hlen : 1 ≤ e.tokens.length := by
      rw [hfirst]
      simp
    have htoken : (Parser.seek (e.tokens ++ [Token.eof]) 0 []).token = t :=
      (Parser.seek_token _ 0 [] t (rest ++ [Token.eof]) (by rw [hfirst]; simp)).1
    have hpeek : (Parser.seek (e.tokens ++ [Token.eof]) (0 + e.tokens.length - 1) []).peek
        = Token.eof := by
      apply Parser.seek_peek _ _ _ _ []
      have e1 : 0 + e.tokens.length - 1 + 1 = e.tokens.length := by omega
      rw [e1, List.drop_left]
    have hstmt : (descend (e.tokens.length + k + 2)).statement
        (Parser.seek (e.tokens ++ [Token.eof]) 0 [])
        = .ok (some (.ExpressionStatement (some e)),
            Parser.seek (e.tokens ++ [Token.eof]) (0 + e.tokens.length - 1) []) := by
      show parse_statement (descend (e.tokens.length + k + 1)) _ = _
      rw [parse_statement_expression (descend (e.tokens.length + k + 1)) _ _ e
        (by rw [htoken]; exact hlet) (by rw [htoken]; exact hret)
        (by rw [htoken]; exact hsemi) hp, hpeek]
      rfl
    have hparse := parse_single_statement (e.tokens.length + k) _ _ _
      (by rw [htoken]; exact hne) hstmt (by rw [hpeek]; rfl)
    exact parse_input_of_tokens _ s _ _ _ ht hparse
  · show [Expression.to_string e] = _
    rw [hs]

/-- C40 on the tree of `((-1) * (x <= true))`: the parse of this text, with fuel 14 for
its 12 tokens and `eof`, yields the tree and no error. -/
theorem rendering_is_parsed_back_witness :
    parse_input 14 "((-1) * (x <= true))"
      = .ok (⟨[.ExpressionStatement (some (.InfixExpression
            (some (.PrefixExpression "-" (some (.IntegerLiteral 1)))) "*"
            (some (.InfixExpression (some (.Identifier "x")) "<="
              (some (.BooleanLiteral true))))))]⟩, []) := by
  obtain ⟨s, hs, hp, -⟩ := rendering_is_parsed_back
    (.InfixExpression (some (.PrefixExpression "-" (some (.IntegerLiteral 1)))) "*"
      (some (.InfixExpression (some (.Identifier "x")) "<=" (some (.BooleanLiteral true)))))
    (.binary _ _ _ (by decide)
      (.unary _ _ (Or.inl rfl) (.integer 1 (by decide) (by decide)))
      (.binary _ _ _ (by decide) (.identifier "x" (by decide)) (.boolean true)))
    14 (by decide)
  have hs2 : some "((-1) * (x <= true))" = some s := hs
  rw [← Option.some.inj hs2] at hp
  exact hp

/-! ## Calls of `Evaluator::eval` on source texts -/

/-- The method on a text follows the parse and the evaluation of the program. -/
theorem Evaluator.eval_string_ok {fuel : Nat} {input : String} {m : Machine}
    (program : Program) {errors : List String} {r : ObjPtr × Machine}
    (hp : parse_input fuel input = .ok (program, errors))
    (hr : Evaluator.eval fuel program m = .ok r) :
    Evaluator.eval_string fuel input m = .ok r := by
  unfold Evaluator.eval_string
  rw [hp]
  simp only [hr]

/-- An exception of the parse leaves the method. -/
theorem Evaluator.eval_string_throws {fuel : Nat} {input : String} {m : Machine}
    {f : ParseFault} (hp : parse_input fuel input = .error f) :
    Evaluator.eval_string fuel input m = .error (.parse f) := by
  unfold Evaluator.eval_string
  rw [hp]

/-- Two calls in a row: the second runs in the machine the first leaves. -/
theorem Evaluator.eval_then_ok {fuel : Nat} {first second : String} {r1 : ObjPtr}
    {m1 m2 : Machine} {a : Nat}
    (h1 : Evaluator.eval_string fuel first Machine.init = .ok (r1, m1))
    (h2 : Evaluator.eval_string fuel second m1 = .ok (some a, m2)) :
    Evaluator.eval_then fuel first second = .ok m2.heap[a]? := by
  unfold Evaluator.eval_then
  rw [h1]
  simp only [h2]

/-! ## Steps of the parser on a `let` statement, a function literal and a call -/

/-- A `let` statement whose identifier, `=` and expression are there. -/
theorem parse_let_statement_ok (d : Descent) (p p1 : Parser) (e : Expression)
    (hident : p.peek.type = .ident_t) (hassign : p.advance.peek.type = .assign_t)
    (hexpr : d.expression .lowest_p p.advance.advance.advance = .ok (some e, p1)) :
    parse_let_statement d p
      = .ok (some (.LetStatement p.peek.literal (some e)),
          if p1.peek.type = .semicolon_t then p1.advance else p1) := by
  unfold parse_let_statement
  have h1 := expect_or_error_apply .ident_t p
  rw [if_pos hident] at h1
  rw [Parse.bind_of_ok h1]
  simp only [if_true]
  rw [Parse.bind_of_ok (cur_token_apply _)]
  have h2 := expect_or_error_apply .assign_t p.advance
  rw [if_pos hassign] at h2
  rw [Parse.bind_of_ok h2]
  simp only [if_true]
  rw [Parse.bind_of_ok (next_token_apply _), Parse.bind_of_ok hexpr]
  simp only []
  have hsk : skip_semicolon p1
      = .ok ((), if p1.peek.type = .semicolon_t then p1.advance else p1) := by
    rw [skip_semicolon_apply]
    split <;> rfl
  rw [Parse.bind_of_ok hsk]
  rfl

/-- The loop of `parse_block_statement` on a block of one statement. -/
theorem parse_block_statement_loop_single (d : Descent) (turns : Nat)
    (stmts : List Statement) (p p1 : Parser) (stmt : Statement)
    (hstart : p.peek.type ≠ .right_brace_t ∧ p.peek.type ≠ .eof_t)
    (hs : d.statement p.advance = .ok (some stmt, p1))
    (hclose : p1.peek.type = .right_brace_t) :
    parse_block_statement_loop d (turns + 2) stmts p = .ok (stmts ++ [stmt], p1) := by
  unfold parse_block_statement_loop
  rw [Parse.bind_of_ok (peek_token_type_is_apply _ p),
    Parse.bind_of_ok (peek_token_type_is_apply _ p)]
  have hb1 : (p.peek.type == TokenType.right_brace_t) = false := by simpa using hstart.1
  have hb2 : (p.peek.type == TokenType.eof_t) = false := by simpa using hstart.2
  simp only [hb1, hb2, Bool.not_false, Bool.and_self, if_true]
  rw [Parse.bind_of_ok (next_token_apply p), Parse.bind_of_ok hs]
  simp only []
  unfold parse_block_statement_loop
  rw [Parse.bind_of_ok (peek_token_type_is_apply _ p1),
    Parse.bind_of_ok (peek_token_type_is_apply _ p1)]
  have hb3 : (p1.peek.type == TokenType.right_brace_t) = true := by simpa using hclose
  simp only [hb3, Bool.not_true, Bool.false_and, Bool.false_eq_true, if_false]
  rfl

/-- The prefix parse function of `fn`: the parameters between parentheses and the block
between braces. -/
theorem parse_expression_function (d : Descent) (n : Nat) (precedence : Precedence)
    (p p2 p3 : Parser) (parameters : List String) (stmts : List Statement)
    (h : p.token.type = .function_t) (hparen : p.peek.type = .left_paren_t)
    (hparams : parse_parameters_loop n [] p.advance = .ok (some parameters, p2))
    (hclose : p2.peek.type = .right_paren_t)
    (hbrace : p2.advance.peek.type = .left_brace_t)
    (hbody : parse_block_statement_loop d n [] p2.advance.advance = .ok (stmts, p3))
    (hend : p3.peek.type = .right_brace_t) :
    parse_expression d n precedence p
      = parse_expression_loop d n precedence n
          (some (.FunctionLiteral parameters (some (.mk stmts)))) p3.advance := by
  unfold parse_expression
  rw [Parse.bind_of_ok (cur_token_apply p)]
  have hm : prefix_parse_func_map d n p.token.type = some (parse_function_literal d n) := by
    rw [h]
    rfl
  simp only [hm]
  have hf : parse_function_literal d n p
      = .ok (some (.FunctionLiteral parameters (some (.mk stmts))), p3.advance) := by
    unfold parse_function_literal
    have h1 := expect_or_error_apply .left_paren_t p
    rw [if_pos hparen] at h1
    rw [Parse.bind_of_ok h1]
    simp only [if_true]
    rw [Parse.bind_of_ok hparams]
    simp only []
    have h2 := expect_or_error_apply .right_paren_t p2
    rw [if_pos hclose] at h2
    rw [Parse.bind_of_ok h2]
    simp only [if_true]
    have h3 := expect_or_error_apply .left_brace_t p2.advance
    rw [if_pos hbrace] at h3
    rw [Parse.bind_of_ok h3]
    simp only [if_true]
    have hb : parse_block_statement d n p2.advance.advance
        = .ok (some (.mk stmts), p3) := by
      unfold parse_block_statement
      rw [Parse.bind_of_ok hbody]
      rfl
    rw [Parse.bind_of_ok hb]
    have h4 := expect_or_error_apply .right_brace_t p3
    rw [if_pos hend] at h4
    rw [Parse.bind_of_ok h4]
    rfl
  exact Parse.bind_of_ok hf

/-- A turn of the loop of `parse_expression` on `(`: the arguments of a call. -/
theorem parse_expression_loop_call (d : Descent) (n : Nat) (precedence : Precedence)
    (turns : Nat) (left : Option Expression) (p p1 : Parser)
    (arguments : List (Option Expression)) (hpeek : p.peek.type = .left_paren_t)
    (hprec : precedence.rank < Precedence.call_p.rank)
    (hargs : parse_expression_list_loop d .right_paren_t n [] p.advance
      = .ok (some arguments, p1))
    (hclose : p1.peek.type = .right_paren_t) :
    parse_expression_loop d n precedence (turns + 1) left p
      = parse_expression_loop d n precedence turns (some (.CallExpression left arguments))
          p1.advance := by
  conv => lhs; unfold parse_expression_loop
  rw [Parse.bind_of_ok (peek_token_type_is_apply _ p),
    Parse.bind_of_ok (peek_token_precedence_apply p)]
  have hc : (!(p.peek.type == TokenType.semicolon_t) &&
      decide (precedence.rank < ((t_to_p p.peek.type).getD .lowest_p).rank)) = true := by
    rw [hpeek]
    simpa using hprec
  simp only [hc, if_true]
  rw [Parse.bind_of_ok (peek_token_apply p)]
  have hmap : infix_parse_func_map d n p.peek.type = some (parse_call_expression d n) := by
    rw [hpeek]
    rfl
  simp only [hmap]
  rw [Parse.bind_of_ok (next_token_apply p)]
  have hcall : parse_call_expression d n left p.advance
      = .ok (some (.CallExpression left arguments), p1.advance) := by
    unfold parse_call_expression
    rw [Parse.bind_of_ok hargs]
    simp only []
    have h4 := expect_or_error_apply .right_paren_t p1
    rw [if_pos hclose] at h4
    rw [Parse.bind_of_ok h4]
    rfl
  exact Parse.bind_of_ok hcall

/-- The parse of the tokens of
`let adder = fn(x) \x7b fn(y) \x7b x + y \x7d \x7d; let add = adder(n);`:
the two `let` statements, the second with the expression of the number as argument, and no
error. -/
theorem parse_adder_tokens (literal : String) (e : Expression)
    (he : Token.atom ⟨.int_t, literal⟩ = some e) (k : Nat) :
    ∃ p1 : Parser, p1.errors = [] ∧
      parse (k + 10) (Parser.of_tokens (adder_tokens literal))
        = .ok (⟨[.LetStatement "adder" adder_fn,
            .LetStatement "add" (call (ident "adder") [some e])]⟩, p1) := by
  -- the statement `x + y` and the block around it
  have s13 : (descend (k + 5)).statement (Parser.seek (adder_tokens literal) 13 [])
      = .ok (some (.ExpressionStatement (some (.InfixExpression (ident "x") "+" (ident "y")))),
          (Parser.seek (adder_tokens literal) 15 [])) := rfl
  have b12 : parse_block_statement_loop (descend (k + 5)) (k + 5) [] (Parser.seek (adder_tokens
      literal) 12 [])
      = .ok ([.ExpressionStatement (some (.InfixExpression (ident "x") "+" (ident "y")))],
          (Parser.seek (adder_tokens literal) 15 [])) :=
    parse_block_statement_loop_single _ (k + 3) [] (Parser.seek (adder_tokens literal) 12 []) _ _
      ⟨(by show TokenType.ident_t ≠ TokenType.right_brace_t; decide),
          (by show TokenType.ident_t ≠ TokenType.eof_t; decide)⟩ s13 rfl
  -- the function literal `fn(y) \x7b x + y \x7d`
  have q9 : parse_parameters_loop (k + 5) [] (Parser.seek (adder_tokens literal) 9 [])
      = .ok (some ["y"], (Parser.seek (adder_tokens literal) 10 [])) := rfl
  have e8 : parse_expression (descend (k + 5)) (k + 5) .lowest_p (Parser.seek (adder_tokens literal)
      8 [])
      = .ok (some (.FunctionLiteral ["y"] sum_body), (Parser.seek (adder_tokens literal) 16 [])) :=
          by
    rw [parse_expression_function _ _ _ (Parser.seek (adder_tokens literal) 8 []) _ _ ["y"] _ rfl
        rfl q9 rfl rfl b12 rfl]
    exact parse_expression_loop_stop _ _ _ (k + 4) _ _ (Or.inr (by
      show ¬ Precedence.lowest_p.rank < TokenType.right_brace_t.precedence.rank
      decide))
  have s8 : (descend (k + 7)).statement (Parser.seek (adder_tokens literal) 8 [])
      = .ok (some (.ExpressionStatement (some (.FunctionLiteral ["y"] sum_body))),
          (Parser.seek (adder_tokens literal) 16 [])) := by
    show parse_statement (descend (k + 6)) _ = _
    rw [parse_statement_expression _ (Parser.seek (adder_tokens literal) 8 []) _ _
        (by show TokenType.function_t ≠ TokenType.let_t; decide)
      (by show TokenType.function_t ≠ TokenType.return_t; decide)
          (by show TokenType.function_t ≠ TokenType.semicolon_t; decide)
      (show (descend (k + 6)).expression .lowest_p _ = _ from e8),
      if_neg (by show TokenType.right_brace_t ≠ TokenType.semicolon_t; decide)]
  have b7 : parse_block_statement_loop (descend (k + 7)) (k + 7) [] (Parser.seek (adder_tokens
      literal) 7 [])
      = .ok ([.ExpressionStatement (some (.FunctionLiteral ["y"] sum_body))], (Parser.seek
          (adder_tokens literal) 16 [])) :=
    parse_block_statement_loop_single _ (k + 5) [] (Parser.seek (adder_tokens literal) 7 []) _ _
      ⟨(by show TokenType.function_t ≠ TokenType.right_brace_t; decide),
          (by show TokenType.function_t ≠ TokenType.eof_t; decide)⟩ s8 rfl
  -- the function literal `fn(x) \x7b fn(y) \x7b x + y \x7d \x7d` and the first statement
  have q4 : parse_parameters_loop (k + 7) [] (Parser.seek (adder_tokens literal) 4 [])
      = .ok (some ["x"], (Parser.seek (adder_tokens literal) 5 [])) := rfl
  have e3 : parse_expression (descend (k + 7)) (k + 7) .lowest_p (Parser.seek (adder_tokens literal)
      3 [])
      = .ok (some (.FunctionLiteral ["x"] adder_body), (Parser.seek (adder_tokens literal) 17 []))
          := by
    rw [parse_expression_function _ _ _ (Parser.seek (adder_tokens literal) 3 []) _ _ ["x"] _ rfl
        rfl q4 rfl rfl b7 rfl]
    exact parse_expression_loop_stop _ _ _ (k + 6) _ _ (Or.inl rfl)
  have s0 : (descend (k + 9)).statement (Parser.seek (adder_tokens literal) 0 [])
      = .ok (some (.LetStatement "adder" adder_fn), (Parser.seek (adder_tokens literal) 18 [])) :=
          by
    show parse_statement (descend (k + 8)) _ = _
    rw [parse_statement_let _ _ rfl,
      parse_let_statement_ok _ (Parser.seek (adder_tokens literal) 0 []) _ _ rfl rfl
        (show (descend (k + 8)).expression .lowest_p _ = _ from e3),
      if_pos (show (Parser.seek (adder_tokens literal) 17 []).peek.type = TokenType.semicolon_t from
          rfl)]
    rfl
  -- the call `adder(n)` and the second statement
  have a24 : (descend (k + 7)).expression .lowest_p (Parser.seek (adder_tokens literal) 24 [])
      = .ok (some e, (Parser.seek (adder_tokens literal) 24 [])) :=
    parse_expression_operand _ (k + 5) _ _ e he (Or.inr (by
      show ¬ Precedence.lowest_p.rank < TokenType.right_paren_t.precedence.rank
      decide))
  have l23 : parse_expression_list_loop (descend (k + 7)) .right_paren_t (k + 7) []
      (Parser.seek (adder_tokens literal) 23 []) = .ok (some [some e], (Parser.seek (adder_tokens
          literal) 24 [])) := by
    rw [parse_expression_list_loop_element _ _ (k + 6) [] (Parser.seek (adder_tokens literal) 23 [])
        _ _
      ⟨(by show TokenType.int_t ≠ TokenType.right_paren_t; decide),
          (by show TokenType.int_t ≠ TokenType.eof_t; decide)⟩ a24,
      if_pos (show (Parser.seek (adder_tokens literal) 24 []).peek.type = TokenType.right_paren_t
          from rfl)]
    exact parse_expression_list_loop_close _ _ (k + 5) _ _ rfl
  have e22 : parse_expression (descend (k + 7)) (k + 7) .lowest_p (Parser.seek (adder_tokens
      literal) 22 [])
      = .ok (call (ident "adder") [some e], (Parser.seek (adder_tokens literal) 25 [])) := by
    rw [parse_expression_atom _ _ _ (Parser.seek (adder_tokens literal) 22 []) (.Identifier "adder")
        rfl,
      parse_expression_loop_call _ _ _ (k + 6) _ (Parser.seek (adder_tokens literal) 22 []) _ [some
          e] rfl
        (by decide) l23 rfl]
    exact parse_expression_loop_stop _ _ _ (k + 5) _ _ (Or.inl rfl)
  have s19 : (descend (k + 9)).statement (Parser.seek (adder_tokens literal) 19 [])
      = .ok (some (.LetStatement "add" (call (ident "adder") [some e])), (Parser.seek (adder_tokens
          literal) 26 [])) := by
    show parse_statement (descend (k + 8)) _ = _
    rw [parse_statement_let _ _ rfl,
      parse_let_statement_ok _ (Parser.seek (adder_tokens literal) 19 []) _ _ rfl rfl
        (show (descend (k + 8)).expression .lowest_p _ = _ from e22),
      if_pos (show (Parser.seek (adder_tokens literal) 25 []).peek.type = TokenType.semicolon_t from
          rfl)]
    rfl
  -- the loop of `parse`
  have hl : parse_loop (k + 9 + 1) (k + 7 + 3) [] (Parser.seek (adder_tokens literal) 0 [])
      = .ok ([.LetStatement "adder" adder_fn,
          .LetStatement "add" (call (ident "adder") [some e])], (Parser.seek (adder_tokens literal)
              27 [])) := by
    rw [parse_loop_step _ (k + 9) _ (Parser.seek (adder_tokens literal) 0 []) _ _
        (by show TokenType.let_t ≠ TokenType.eof_t; decide)
      ((descend_mono (Nat.le_succ _)).2 _ _ s0)]
    rw [parse_loop_step _ (k + 8) _ (Parser.seek (adder_tokens literal) 18 []).advance _ _
        (by show TokenType.let_t ≠ TokenType.eof_t; decide)
      (show (descend (k + 9 + 1)).statement (Parser.seek (adder_tokens literal) 18 []).advance = _
          from
        (descend_mono (Nat.le_succ _)).2 _ _ s19)]
    exact parse_loop_eof _ (k + 7) _ _ rfl
  exact ⟨(Parser.seek (adder_tokens literal) 27 []), rfl, Parse.bind_of_ok hl⟩

/-! ## The texts of the closure `adder`, with the decimal text of a number -/

/-- The lexer past the end of the input returns `eof`, and the loop of the constructor
ends. -/
theorem tokenize_past_end (input : List Char) (pos : Nat) (h : input.length ≤ pos) (k : Nat) :
    tokenize (k + 1) (Lexer.seek input pos) = some [Token.eof] := by
  have hend : (Lexer.seek input pos).read_token = some (Token.eof, Lexer.seek input pos) := by
    apply Lexer.read_token_after_end
    show input[pos]?.getD NUL = NUL
    rw [List.getElem?_eq_none h]
    rfl
  simp only [tokenize, hend]
  rfl

/-- The token vector of the text
`let adder = fn(x) \x7b fn(y) \x7b x + y \x7d \x7d; let add = adder(a);`,
for the decimal text of a number `a` that is not negative. -/
theorem tokenize_adder_text (a : Int) (h0 : 0 ≤ a) (k : Nat) :
    tokenize (k + 28) (Lexer.new
        ("let adder = fn(x) \x7b fn(y) \x7b x + y \x7d \x7d; let add = adder(" ++ toString a ++
        ");"))
      = some (adder_tokens (toString a)) := by
  obtain ⟨e1, e2, -⟩ := Int.toString_decimal a h0
  cases hd : (toString a).data with
  | nil => exact absurd hd e1
  | cons d ds =>
    have hs : toString a = String.mk (d :: ds) := by
      rw [← hd]
    have hdd : is_digit d = true := e2 d (by rw [hd]; exact List.mem_cons_self _ _)
    have hds : ∀ y ∈ ds, is_digit y = true :=
      fun y hy => e2 y (by rw [hd]; exact List.mem_cons_of_mem _ hy)
    rw [hs]
    generalize hin : (("let adder = fn(x) \x7b fn(y) \x7b x + y \x7d \x7d; let add = adder(" :
        String).data ++ (d :: ds) ++ (");" : String).data
      : List Char) = input
    have hnew : Lexer.new ("let adder = fn(x) \x7b fn(y) \x7b x + y \x7d \x7d; let add = adder(" ++
        String.mk (d :: ds) ++ ");")
        = Lexer.seek input 0 := by
      rw [← hin]
      rfl
    rw [hnew]
    have d0 : input.drop 0 = 'l' :: ('e' :: ('t' :: (' ' :: ('a' :: ('d' :: ('d' :: ('e' :: ('r' ::
        (' ' :: ('=' :: (' ' :: ('f' :: ('n' :: ('(' :: ('x' :: (')' :: (' ' :: ('\x7b' :: (' ' ::
        ('f' :: ('n' :: ('(' :: ('y' :: (')' :: (' ' :: ('\x7b' :: (' ' :: ('x' :: (' ' :: ('+' ::
        (' ' :: ('y' :: (' ' :: ('\x7d' :: (' ' :: ('\x7d' :: (';' :: (' ' :: ('l' :: ('e' :: ('t'
        :: (' ' :: ('a' :: ('d' :: ('d' :: (' ' :: ('=' :: (' ' :: ('a' :: ('d' :: ('d' :: ('e' ::
        ('r' :: ('(' :: (d :: (ds ++ [')',
        ';'])))))))))))))))))))))))))))))))))))))))))))))))))))))))) := by
      rw [← hin]
      rfl
    have t1 := Lexer.read_token_seek_word input _ 'l' ['e', 't'] _ d0
      (by decide) (by decide) (by decide)
      (fun y hy => by
        simp only [List.head?_cons, Option.some.injEq] at hy
        rw [← hy]
        decide)
    have k1 : (⟨Token.lookup (String.mk ('l' :: ['e', 't'])),
        String.mk ('l' :: ['e', 't'])⟩ : Token) = ⟨.let_t, "let"⟩ := by decide
    rw [k1] at t1
    have d1 := List.drop_add_of_append input _ ('l' :: ['e', 't']) _ d0
    have w2 := Lexer.read_token_seek_space input _ _ d1
    have d2 := List.drop_add_of_append input _ [' '] _ d1
    have t3 := Lexer.read_token_seek_word input _ 'a' ['d', 'd', 'e', 'r'] _ d2
      (by decide) (by decide) (by decide)
      (fun y hy => by
        simp only [List.head?_cons, Option.some.injEq] at hy
        rw [← hy]
        decide)
    have k3 : (⟨Token.lookup (String.mk ('a' :: ['d', 'd', 'e', 'r'])),
        String.mk ('a' :: ['d', 'd', 'e', 'r'])⟩ : Token) = ⟨.ident_t, "adder"⟩ := by decide
    rw [k3] at t3
    have d3 := List.drop_add_of_append input _ ('a' :: ['d', 'd', 'e', 'r']) _ d2
    have w4 := Lexer.read_token_seek_space input _ _ d3
    have d4 := List.drop_add_of_append input _ [' '] _ d3
    have t5 := Lexer.read_token_seek_double input _ '=' _ ⟨.assign_t, "="⟩ ⟨.equal_t, "=="⟩ d4
      rfl
    rw [if_neg (by simp)] at t5
    have d5 := List.drop_add_of_append input _ ['='] _ d4
    have w6 := Lexer.read_token_seek_space input _ _ d5
    have d6 := List.drop_add_of_append input _ [' '] _ d5
    have t7 := Lexer.read_token_seek_word input _ 'f' ['n'] _ d6
      (by decide) (by decide) (by decide)
      (fun y hy => by
        simp only [List.head?_cons, Option.some.injEq] at hy
        rw [← hy]
        decide)
    have k7 : (⟨Token.lookup (String.mk ('f' :: ['n'])),
        String.mk ('f' :: ['n'])⟩ : Token) = ⟨.function_t, "fn"⟩ := by decide
    rw [k7] at t7
    have d7 := List.drop_add_of_append input _ ('f' :: ['n']) _ d6
    have t8 := Lexer.read_token_seek_single input _ '(' _ ⟨.left_paren_t, "("⟩ d7
      rfl (by decide)
    have d8 := List.drop_add_of_append input _ ['('] _ d7
    have t9 := Lexer.read_token_seek_word input _ 'x' [] _ d8
      (by decide) (by decide) (by decide)
      (fun y hy => by
        simp only [List.head?_cons, Option.some.injEq] at hy
        rw [← hy]
        decide)
    have k9 : (⟨Token.lookup (String.mk ('x' :: [])),
        String.mk ('x' :: [])⟩ : Token) = ⟨.ident_t, "x"⟩ := by decide
    rw [k9] at t9
    have d9 := List.drop_add_of_append input _ ('x' :: []) _ d8
    have t10 := Lexer.read_token_seek_single input _ ')' _ ⟨.right_paren_t, ")"⟩ d9
      rfl (by decide)
    have d10 := List.drop_add_of_append input _ [')'] _ d9
    have w11 := Lexer.read_token_seek_space input _ _ d10
    have d11 := List.drop_add_of_append input _ [' '] _ d10
    have t12 := Lexer.read_token_seek_single input _ '\x7b' _ ⟨.left_brace_t, "\x7b"⟩ d11
      rfl (by decide)
    have d12 := List.drop_add_of_append input _ ['\x7b'] _ d11
    have w13 := Lexer.read_token_seek_space input _ _ d12
    have d13 := List.drop_add_of_append input _ [' '] _ d12
    have t14 := Lexer.read_token_seek_word input _ 'f' ['n'] _ d13
      (by decide) (by decide) (by decide)
      (fun y hy => by
        simp only [List.head?_cons, Option.some.injEq] at hy
        rw [← hy]
        decide)
    have k14 : (⟨Token.lookup (String.mk ('f' :: ['n'])),
        String.mk ('f' :: ['n'])⟩ : Token) = ⟨.function_t, "fn"⟩ := by decide
    rw [k14] at t14
    have d14 := List.drop_add_of_append input _ ('f' :: ['n']) _ d13
    have t15 := Lexer.read_token_seek_single input _ '(' _ ⟨.left_paren_t, "("⟩ d14
      rfl (by decide)
    have d15 := List.drop_add_of_append input _ ['('] _ d14
    have t16 := Lexer.read_token_seek_word input _ 'y' [] _ d15
      (by decide) (by decide) (by decide)
      (fun y hy => by
        simp only [List.head?_cons, Option.some.injEq] at hy
        rw [← hy]
        decide)
    have k16 : (⟨Token.lookup (String.mk ('y' :: [])),
        String.mk ('y' :: [])⟩ : Token) = ⟨.ident_t, "y"⟩ := by decide
    rw [k16] at t16
    have d16 := List.drop_add_of_append input _ ('y' :: []) _ d15
    have t17 := Lexer.read_token_seek_single input _ ')' _ ⟨.right_paren_t, ")"⟩ d16
      rfl (by decide)
    have d17 := List.drop_add_of_append input _ [')'] _ d16
    have w18 := Lexer.read_token_seek_space input _ _ d17
    have d18 := List.drop_add_of_append input _ [' '] _ d17
    have t19 := Lexer.read_token_seek_single input _ '\x7b' _ ⟨.left_brace_t, "\x7b"⟩ d18
      rfl (by decide)
    have d19 := List.drop_add_of_append input _ ['\x7b'] _ d18
    have w20 := Lexer.read_token_seek_space input _ _ d19
    have d20 := List.drop_add_of_append input _ [' '] _ d19
    have t21 := Lexer.read_token_seek_word input _ 'x' [] _ d20
      (by decide) (by decide) (by decide)
      (fun y hy => by
        simp only [List.head?_cons, Option.some.injEq] at hy
        rw [← hy]
        decide)
    have k21 : (⟨Token.lookup (String.mk ('x' :: [])),
        String.mk ('x' :: [])⟩ : Token) = ⟨.ident_t, "x"⟩ := by decide
    rw [k21] at t21
    have d21 := List.drop_add_of_append input _ ('x' :: []) _ d20
    have w22 := Lexer.read_token_seek_space input _ _ d21
    have d22 := List.drop_add_of_append input _ [' '] _ d21
    have t23 := Lexer.read_token_seek_single input _ '+' _ ⟨.plus_t, "+"⟩ d22
      rfl (by decide)
    have d23 := List.drop_add_of_append input _ ['+'] _ d22
    have w24 := Lexer.read_token_seek_space input _ _ d23
    have d24 := List.drop_add_of_append input _ [' '] _ d23
    have t25 := Lexer.read_token_seek_word input _ 'y' [] _ d24
      (by decide) (by decide) (by decide)
      (fun y hy => by
        simp only [List.head?_cons, Option.some.injEq] at hy
        rw [← hy]
        decide)
    have k25 : (⟨Token.lookup (String.mk ('y' :: [])),
        String.mk ('y' :: [])⟩ : Token) = ⟨.ident_t, "y"⟩ := by decide
    rw [k25] at t25
    have d25 := List.drop_add_of_append input _ ('y' :: []) _ d24
    have w26 := Lexer.read_token_seek_space input _ _ d25
    have d26 := List.drop_add_of_append input _ [' '] _ d25
    have t27 := Lexer.read_token_seek_single input _ '\x7d' _ ⟨.right_brace_t, "\x7d"⟩ d26
      rfl (by decide)
    have d27 := List.drop_add_of_append input _ ['\x7d'] _ d26
    have w28 := Lexer.read_token_seek_space input _ _ d27
    have d28 := List.drop_add_of_append input _ [' '] _ d27
    have t29 := Lexer.read_token_seek_single input _ '\x7d' _ ⟨.right_brace_t, "\x7d"⟩ d28
      rfl (by decide)
    have d29 := List.drop_add_of_append input _ ['\x7d'] _ d28
    have t30 := Lexer.read_token_seek_single input _ ';' _ ⟨.semicolon_t, ";"⟩ d29
      rfl (by decide)
    have d30 := List.drop_add_of_append input _ [';'] _ d29
    have w31 := Lexer.read_token_seek_space input _ _ d30
    have d31 := List.drop_add_of_append input _ [' '] _ d30
    have t32 := Lexer.read_token_seek_word input _ 'l' ['e', 't'] _ d31
      (by decide) (by decide) (by decide)
      (fun y hy => by
        simp only [List.head?_cons, Option.some.injEq] at hy
        rw [← hy]
        decide)
    have k32 : (⟨Token.lookup (String.mk ('l' :: ['e', 't'])),
        String.mk ('l' :: ['e', 't'])⟩ : Token) = ⟨.let_t, "let"⟩ := by decide
    rw [k32] at t32
    have d32 := List.drop_add_of_append input _ ('l' :: ['e', 't']) _ d31
    have w33 := Lexer.read_token_seek_space input _ _ d32
    have d33 := List.drop_add_of_append input _ [' '] _ d32
    have t34 := Lexer.read_token_seek_word input _ 'a' ['d', 'd'] _ d33
      (by decide) (by decide) (by decide)
      (fun y hy => by
        simp only [List.head?_cons, Option.some.injEq] at hy
        rw [← hy]
        decide)
    have k34 : (⟨Token.lookup (String.mk ('a' :: ['d', 'd'])),
        String.mk ('a' :: ['d', 'd'])⟩ : Token) = ⟨.ident_t, "add"⟩ := by decide
    rw [k34] at t34
    have d34 := List.drop_add_of_append input _ ('a' :: ['d', 'd']) _ d33
    have w35 := Lexer.read_token_seek_space input _ _ d34
    have d35 := List.drop_add_of_append input _ [' '] _ d34
    have t36 := Lexer.read_token_seek_double input _ '=' _ ⟨.assign_t, "="⟩ ⟨.equal_t, "=="⟩ d35
      rfl
    rw [if_neg (by simp)] at t36
    have d36 := List.drop_add_of_append input _ ['='] _ d35
    have w37 := Lexer.read_token_seek_space input _ _ d36
    have d37 := List.drop_add_of_append input _ [' '] _ d36
    have t38 := Lexer.read_token_seek_word input _ 'a' ['d', 'd', 'e', 'r'] _ d37
      (by decide) (by decide) (by decide)
      (fun y hy => by
        simp only [List.head?_cons, Option.some.injEq] at hy
        rw [← hy]
        decide)
    have k38 : (⟨Token.lookup (String.mk ('a' :: ['d', 'd', 'e', 'r'])),
        String.mk ('a' :: ['d', 'd', 'e', 'r'])⟩ : Token) = ⟨.ident_t, "adder"⟩ := by decide
    rw [k38] at t38
    have d38 := List.drop_add_of_append input _ ('a' :: ['d', 'd', 'e', 'r']) _ d37
    have t39 := Lexer.read_token_seek_single input _ '(' _ ⟨.left_paren_t, "("⟩ d38
      rfl (by decide)
    have d39 := List.drop_add_of_append input _ ['('] _ d38
    have t40 := Lexer.read_token_seek_number input _ d ds [')', ';'] d39 hdd hds
      (fun y hy => by
        simp only [List.head?_cons, Option.some.injEq, List.head?_nil] at hy
        cases hy
        decide)
    have d40 := List.drop_add_of_append input _ (d :: ds) _ d39
    have t41 := Lexer.read_token_seek_single input _ ')' _ ⟨.right_paren_t, ")"⟩ d40
      rfl (by decide)
    have d41 := List.drop_add_of_append input _ [')'] _ d40
    have t42 := Lexer.read_token_seek_single input _ ';' _ ⟨.semicolon_t, ";"⟩ d41
      rfl (by decide)
    have d42 := List.drop_add_of_append input _ [';'] _ d41
    have hend := tokenize_past_end input _ (List.drop_eq_nil_iff.mp d42) k
    have r26 := Lexer.read_tokens_cons 0 _ _ _ _ _ t42 rfl
    have r25 := Lexer.read_tokens_cons 1 _ _ _ _ _ t41 r26
    have r24 := Lexer.read_tokens_cons 2 _ _ _ _ _ t40 r25
    have r23 := Lexer.read_tokens_cons 3 _ _ _ _ _ t39 r24
    have r22 := Lexer.read_tokens_cons 4 _ _ _ _ _ (w37.trans t38) r23
    have r21 := Lexer.read_tokens_cons 5 _ _ _ _ _ (w35.trans t36) r22
    have r20 := Lexer.read_tokens_cons 6 _ _ _ _ _ (w33.trans t34) r21
    have r19 := Lexer.read_tokens_cons 7 _ _ _ _ _ (w31.trans t32) r20
    have r18 := Lexer.read_tokens_cons 8 _ _ _ _ _ t30 r19
    have r17 := Lexer.read_tokens_cons 9 _ _ _ _ _ (w28.trans t29) r18
    have r16 := Lexer.read_tokens_cons 10 _ _ _ _ _ (w26.trans t27) r17
    have r15 := Lexer.read_tokens_cons 11 _ _ _ _ _ (w24.trans t25) r16
    have r14 := Lexer.read_tokens_cons 12 _ _ _ _ _ (w22.trans t23) r15
    have r13 := Lexer.read_tokens_cons 13 _ _ _ _ _ (w20.trans t21) r14
    have r12 := Lexer.read_tokens_cons 14 _ _ _ _ _ (w18.trans t19) r13
    have r11 := Lexer.read_tokens_cons 15 _ _ _ _ _ t17 r12
    have r10 := Lexer.read_tokens_cons 16 _ _ _ _ _ t16 r11
    have r9 := Lexer.read_tokens_cons 17 _ _ _ _ _ t15 r10
    have r8 := Lexer.read_tokens_cons 18 _ _ _ _ _ (w13.trans t14) r9
    have r7 := Lexer.read_tokens_cons 19 _ _ _ _ _ (w11.trans t12) r8
    have r6 := Lexer.read_tokens_cons 20 _ _ _ _ _ t10 r7
    have r5 := Lexer.read_tokens_cons 21 _ _ _ _ _ t9 r6
    have r4 := Lexer.read_tokens_cons 22 _ _ _ _ _ t8 r5
    have r3 := Lexer.read_tokens_cons 23 _ _ _ _ _ (w6.trans t7) r4
    have r2 := Lexer.read_tokens_cons 24 _ _ _ _ _ (w4.trans t5) r3
    have r1 := Lexer.read_tokens_cons 25 _ _ _ _ _ (w2.trans t3) r2
    have r0 := Lexer.read_tokens_cons 26 _ _ _ _ _ t1 r1
    have := tokenize_of_read_tokens 27 _ _ _ r0 (by
      intro t ht
      simp only [List.mem_cons, List.mem_singleton, List.not_mem_nil, or_false] at ht
      rcases ht with rfl | rfl | rfl | rfl | rfl | rfl | rfl | rfl | rfl | rfl | rfl | rfl | rfl |
          rfl | rfl | rfl | rfl | rfl | rfl | rfl | rfl | rfl | rfl | rfl | rfl | rfl | rfl <;>
        exact fun e => by cases e)
      (k + 1) [Token.eof] hend
    have hk : k + 28 = 27 + (k + 1) := by omega
    rw [hk, this]
    rfl


/-- The token vector of the text `add(b)`, for the decimal text of a number `b` that is not
negative. -/
theorem tokenize_add_text (b : Int) (h0 : 0 ≤ b) (k : Nat) :
    tokenize (k + 5) (Lexer.new ("add(" ++ toString b ++ ")"))
      = some (add_tokens (toString b)) := by
  obtain ⟨e1, e2, -⟩ := Int.toString_decimal b h0
  cases hd : (toString b).data with
  | nil => exact absurd hd e1
  | cons d ds =>
    have hs : toString b = String.mk (d :: ds) := by
      rw [← hd]
    have hdd : is_digit d = true := e2 d (by rw [hd]; exact List.mem_cons_self _ _)
    have hds : ∀ y ∈ ds, is_digit y = true :=
      fun y hy => e2 y (by rw [hd]; exact List.mem_cons_of_mem _ hy)
    rw [hs]
    generalize hin : (("add(" : String).data ++ (d :: ds) ++ (")" : String).data
      : List Char) = input
    have hnew : Lexer.new ("add(" ++ String.mk (d :: ds) ++ ")")
        = Lexer.seek input 0 := by
      rw [← hin]
      rfl
    rw [hnew]
    have d0 : input.drop 0 = 'a' :: ('d' :: ('d' :: ('(' :: (d :: (ds ++ [')']))))) := by
      rw [← hin]
      rfl
    have t1 := Lexer.read_token_seek_word input _ 'a' ['d', 'd'] _ d0
      (by decide) (by decide) (by decide)
      (fun y hy => by
        simp only [List.head?_cons, Option.some.injEq] at hy
        rw [← hy]
        decide)
    have k1 : (⟨Token.lookup (String.mk ('a' :: ['d', 'd'])),
        String.mk ('a' :: ['d', 'd'])⟩ : Token) = ⟨.ident_t, "add"⟩ := by decide
    rw [k1] at t1
    have d1 := List.drop_add_of_append input _ ('a' :: ['d', 'd']) _ d0
    have t2 := Lexer.read_token_seek_single input _ '(' _ ⟨.left_paren_t, "("⟩ d1
      rfl (by decide)
    have d2 := List.drop_add_of_append input _ ['('] _ d1
    have t3 := Lexer.read_token_seek_number input _ d ds [')'] d2 hdd hds
      (fun y hy => by
        simp only [List.head?_cons, Option.some.injEq, List.head?_nil] at hy
        cases hy
        decide)
    have d3 := List.drop_add_of_append input _ (d :: ds) _ d2
    have t4 := Lexer.read_token_seek_single input _ ')' _ ⟨.right_paren_t, ")"⟩ d3
      rfl (by decide)
    have d4 := List.drop_add_of_append input _ [')'] _ d3
    have hend := tokenize_past_end input _ (List.drop_eq_nil_iff.mp d4) k
    have r3 := Lexer.read_tokens_cons 0 _ _ _ _ _ t4 rfl
    have r2 := Lexer.read_tokens_cons 1 _ _ _ _ _ t3 r3
    have r1 := Lexer.read_tokens_cons 2 _ _ _ _ _ t2 r2
    have r0 := Lexer.read_tokens_cons 3 _ _ _ _ _ t1 r1
    have := tokenize_of_read_tokens 4 _ _ _ r0 (by
      intro t ht
      simp only [List.mem_cons, List.mem_singleton, List.not_mem_nil, or_false] at ht
      rcases ht with rfl | rfl | rfl | rfl <;>
        exact fun e => by cases e)
      (k + 1) [Token.eof] hend
    have hk : k + 5 = 4 + (k + 1) := by omega
    rw [hk, this]
    rfl

/-- The parse of the tokens of `add(n)`: one expression statement, the call of `add` with the
expression of the number as argument, and no error. -/
theorem parse_add_tokens (literal : String) (e : Expression)
    (he : Token.atom ⟨.int_t, literal⟩ = some e) (k : Nat) :
    ∃ p1 : Parser, p1.errors = [] ∧
      parse (k + 5) (Parser.of_tokens (add_tokens literal))
        = .ok (expr_program (call (ident "add") [some e]), p1) := by
  have a2 : (descend (k + 2)).expression .lowest_p (Parser.seek (add_tokens literal) 2 [])
      = .ok (some e, Parser.seek (add_tokens literal) 2 []) :=
    parse_expression_operand _ k _ _ e he (Or.inr (by
      show ¬ Precedence.lowest_p.rank < TokenType.right_paren_t.precedence.rank
      decide))
  have l1 : parse_expression_list_loop (descend (k + 2)) .right_paren_t (k + 2) []
      (Parser.seek (add_tokens literal) 1 [])
      = .ok (some [some e], Parser.seek (add_tokens literal) 2 []) := by
    rw [parse_expression_list_loop_element _ _ (k + 1) [] (Parser.seek (add_tokens literal) 1 [])
      _ _ ⟨(by show TokenType.int_t ≠ TokenType.right_paren_t; decide),
        (by show TokenType.int_t ≠ TokenType.eof_t; decide)⟩ a2,
      if_pos (show (Parser.seek (add_tokens literal) 2 []).peek.type = TokenType.right_paren_t
        from rfl)]
    exact parse_expression_list_loop_close _ _ k _ _ rfl
  have e0 : parse_expression (descend (k + 2)) (k + 2) .lowest_p
      (Parser.seek (add_tokens literal) 0 [])
      = .ok (call (ident "add") [some e], Parser.seek (add_tokens literal) 3 []) := by
    rw [parse_expression_atom _ _ _ (Parser.seek (add_tokens literal) 0 []) (.Identifier "add")
        rfl,
      parse_expression_loop_call _ _ _ (k + 1) _ (Parser.seek (add_tokens literal) 0 []) _
        [some e] rfl (by decide) l1 rfl]
    exact parse_expression_loop_stop _ _ _ k _ _ (Or.inr (by
      show ¬ Precedence.lowest_p.rank < TokenType.eof_t.precedence.rank
      decide))
  have s0 : (descend (k + 4)).statement (Parser.seek (add_tokens literal) 0 [])
      = .ok (some (.ExpressionStatement (call (ident "add") [some e])),
          Parser.seek (add_tokens literal) 3 []) := by
    show parse_statement (descend (k + 3)) _ = _
    rw [parse_statement_expression _ (Parser.seek (add_tokens literal) 0 []) _ _
      (by show TokenType.ident_t ≠ TokenType.let_t; decide)
      (by show TokenType.ident_t ≠ TokenType.return_t; decide)
      (by show TokenType.ident_t ≠ TokenType.semicolon_t; decide)
      (show (descend (k + 3)).expression .lowest_p _ = _ from e0),
      if_neg (by show TokenType.eof_t ≠ TokenType.semicolon_t; decide)]
    rfl
  have hl : parse_loop (k + 4 + 1) (k + 3 + 2) [] (Parser.seek (add_tokens literal) 0 [])
      = .ok ([.ExpressionStatement (call (ident "add") [some e])],
          Parser.seek (add_tokens literal) 4 []) := by
    rw [parse_loop_step _ (k + 4) _ (Parser.seek (add_tokens literal) 0 []) _ _
      (by show TokenType.ident_t ≠ TokenType.eof_t; decide)
      ((descend_mono (Nat.le_succ _)).2 _ _ s0)]
    exact parse_loop_eof _ (k + 3) _ _ rfl
  exact ⟨Parser.seek (add_tokens literal) 4 [], rfl, Parse.bind_of_ok hl⟩

/-- The parse of the text `let adder = fn(x) \x7b fn(y) \x7b x + y \x7d \x7d; let add = adder(a);`,
for the decimal text of a number `a` from 0 to `INT_MAX`: the two `let` statements, the
second with the literal `a` as argument of the call. -/
theorem parse_input_adder_text (a : Int) (h0 : 0 ≤ a) (h1 : a ≤ 2147483647) (k : Nat) :
    parse_input (k + 28)
      ("let adder = fn(x) \x7b fn(y) \x7b x + y \x7d \x7d; let add = adder(" ++ toString a ++ ");")
      = .ok (⟨[.LetStatement "adder" adder_fn,
          .LetStatement "add" (call (ident "adder") [int_lit a])]⟩, []) := by
  obtain ⟨p1, he, hp⟩ :=
    parse_adder_tokens (toString a) _ (Token.atom_integer a h0 h1) (k + 18)
  have := parse_input_of_tokens (k + 28) _ _ _ _ (tokenize_adder_text a h0 k) hp
  rw [this, he]
  rfl

/-- The parse of the text `add(b)`, for the decimal text of a number `b` from 0 to `INT_MAX`:
the call of `add` with the literal `b` as argument. -/
theorem parse_input_add_text (b : Int) (h0 : 0 ≤ b) (h1 : b ≤ 2147483647) (k : Nat) :
    parse_input (k + 5) ("add(" ++ toString b ++ ")")
      = .ok (expr_program (call (ident "add") [int_lit b]), []) := by
  obtain ⟨p1, he, hp⟩ := parse_add_tokens (toString b) _ (Token.atom_integer b h0 h1) k
  have := parse_input_of_tokens (k + 5) _ _ _ _ (tokenize_add_text b h0 k) hp
  rw [this, he]
  rfl

/-! ## The closure `adder` on source texts -/

theorem parse_input_adder_minus_one :
    parse_input 30 "let adder = fn(x) \x7b fn(y) \x7b x + y \x7d \x7d; let add = adder(-1);"
      = .ok (adder_minus_one_program, []) :=
  parse_input_of_alike (by decide!)

theorem parse_input_add_two :
    parse_input 30 "add(2)" = .ok (expr_program (call (ident "add") [int_lit 2]), []) :=
  parse_input_of_alike (by decide!)

theorem parse_input_add_minus_four :
    parse_input 30 "add(-4)"
      = .ok (expr_program (call (ident "add") [some (.PrefixExpression "-" (int_lit 4))]), []) :=
  parse_input_of_alike (by decide!)

/-- The literal of a token of kind `int` that is above `INT_MAX` makes the parse of a call
throw, whatever the fuel. -/
theorem parse_input_add_above_int_max (fuel : Nat) :
    parse_input (fuel + 6) "add(2147483648)" = .error .out_of_range :=
  rfl

/-- The run of the two `let` statements with the literal `a` as argument, in a new
evaluator, leaves `add_machine a`. -/
theorem adder_run (a : Int) (k : Nat) :
    Evaluator.eval (k + 6)
      ⟨[.LetStatement "adder" adder_fn, .LetStatement "add" (call (ident "adder") [int_lit a])]⟩
      Machine.init = .ok (null_obj, add_machine a) := by
  have h1 : eval (k + 5) (some (.statement (.LetStatement "adder" adder_fn))) 0
      { Machine.init with heap := Machine.init.heap ++ [.Null] }
      = .ok (some 0, adder_machine) := rfl
  have h2 : eval (k + 5)
      (some (.statement (.LetStatement "add" (call (ident "adder") [int_lit a])))) 0
      adder_machine = .ok (some 0, add_machine a) := rfl
  show eval_program (eval (k + 5)) _ 0 Machine.init = _
  unfold eval_program
  rw [Exec.bind_ok (show alloc .Null Machine.init = .ok (some 9,
    { Machine.init with heap := Machine.init.heap ++ [.Null] }) from rfl)]
  rw [eval_statements_cons_pass h1 (o := .Null) rfl (by decide),
    eval_statements_cons_pass h2 (o := .Null) rfl (by decide)]
  rfl

/-- The run of the call of `add` with the literal `b` in `add_machine a`: the result is the
Integer at address 17, which holds the `int` sum of `a` and `b`. -/
theorem add_run (a b : Int) (k : Nat) :
    ∃ m2 : Machine,
      Evaluator.eval (k + 7) (expr_program (call (ident "add") [int_lit b])) (add_machine a)
        = .ok (some 17, m2) ∧ m2.heap[17]? = some (.Integer (wrap32 (a + b))) :=
  ⟨_, rfl, rfl⟩

/-- The run of `adder_minus_one_program` in a new evaluator leaves `add_error_machine`: the
argument `-1` evaluates to an Error, the call binds `x` to it and returns a Function, to
which `eval_let_statement` binds `add`. -/
theorem adder_minus_one_run (k : Nat) :
    Evaluator.eval (k + 6) adder_minus_one_program Machine.init
      = .ok (null_obj, add_error_machine) := by
  have h1 : eval (k + 5) (some (.statement (.LetStatement "adder" adder_fn))) 0
      { Machine.init with heap := Machine.init.heap ++ [.Null] }
      = .ok (some 0, adder_machine) := rfl
  have h2 : eval (k + 5)
      (some (.statement (.LetStatement "add"
        (call (ident "adder") [some (.PrefixExpression "-" (int_lit 1))])))) 0
      adder_machine = .ok (some 0, add_error_machine) := rfl
  show eval_program (eval (k + 5)) adder_minus_one_program 0 Machine.init = _
  unfold eval_program adder_minus_one_program
  rw [Exec.bind_ok (show alloc .Null Machine.init = .ok (some 9,
    { Machine.init with heap := Machine.init.heap ++ [.Null] }) from rfl)]
  rw [eval_statements_cons_pass h1 (o := .Null) rfl (by decide),
    eval_statements_cons_pass h2 (o := .Null) rfl (by decide)]
  rfl

/-- The run of `add(2)` in `add_error_machine`: `x + y` has an Error and an Integer as
operands, and the result is the Error at address 18. -/
theorem add_two_run (k : Nat) :
    ∃ m2 : Machine,
      Evaluator.eval (k + 7) (expr_program (call (ident "add") [int_lit 2])) add_error_machine
        = .ok (some 18, m2) ∧ m2.heap[18]? = some (.Error "") :=
  ⟨_, rfl, rfl⟩

/-- The run of `add(-4)` in `add_machine 3`: the argument evaluates to an Error, to which
`y` is bound, and the result is the Error at address 18. -/
theorem add_minus_four_run (k : Nat) :
    ∃ m2 : Machine,
      Evaluator.eval (k + 7)
        (expr_program (call (ident "add") [some (.PrefixExpression "-" (int_lit 4))]))
        (add_machine 3) = .ok (some 18, m2) ∧ m2.heap[18]? = some (.Error "") :=
  ⟨_, rfl, rfl⟩

/-- C14 holds on the code for the literals that are not negative, and fails for a negative
`a` or `b`. In a new evaluator, after the text
`let adder = fn(x) \x7b fn(y) \x7b x + y \x7d \x7d; let add = adder(a);` the text `add(b)`
evaluates to the Integer `a + b`, for the decimal texts of all numbers `a` and `b` from 0
whose sum is at most `INT_MAX`: `adder` stays bound, so the environment in which `x` is
bound exists when `add` reads it. With `adder(-1)` the later call `add(2)` evaluates to an
Error and not to the Integer 1: the parser makes a prefix expression of `-1`, which
evaluates to an Error because `eval_prefix_expression` tests the operator against `=` where
`-` is meant; `x` is bound to that Error, and `x + y` adds an Error and an Integer. In the
same way `add(-4)` after `adder(3)` evaluates to an Error and not to the Integer -1. A
literal above `INT_MAX` makes `std::stoi` throw: `add(2147483648)` returns no object. -/
theorem closure_misses_negative_argument (a b : Int) (fuel : Nat)
    (ha : 0 ≤ a) (hb : 0 ≤ b) (hab : a + b ≤ 2147483647) :
    Evaluator.eval_then (fuel + 30)
      ("let adder = fn(x) \x7b fn(y) \x7b x + y \x7d \x7d; let add = adder(" ++ toString a ++ ");")
      ("add(" ++ toString b ++ ")")
      = .ok (some (.Integer (a + b))) ∧
    parse_input (fuel + 30)
      "let adder = fn(x) \x7b fn(y) \x7b x + y \x7d \x7d; let add = adder(-1);"
      = .ok (adder_minus_one_program, []) ∧
    run_expression (fuel + 2) (.PrefixExpression "-" (int_lit 1)) = .ok (some (.Error "")) ∧
    Evaluator.eval_string (fuel + 30)
      "let adder = fn(x) \x7b fn(y) \x7b x + y \x7d \x7d; let add = adder(-1);" Machine.init
      = .ok (null_obj, add_error_machine) ∧
    Evaluator.eval_then (fuel + 30)
      "let adder = fn(x) \x7b fn(y) \x7b x + y \x7d \x7d; let add = adder(-1);" "add(2)"
      = .ok (some (.Error "")) ∧
    Evaluator.eval_then (fuel + 30)
      "let adder = fn(x) \x7b fn(y) \x7b x + y \x7d \x7d; let add = adder(3);" "add(-4)"
      = .ok (some (.Error "")) ∧
    Evaluator.eval_then (fuel + 30)
      "let adder = fn(x) \x7b fn(y) \x7b x + y \x7d \x7d; let add = adder(3);"
      "add(2147483648)" = .error (.parse .out_of_range) := by
  have hpa := parse_input_adder_text a ha (by omega) (fuel + 2)
  have hpb := parse_input_add_text b hb (by omega) (fuel + 25)
  have hp3 := parse_input_adder_text 3 (by decide) (by decide) (fuel + 2)
  have hp1 := parse_input_mono (Nat.le_add_left 30 fuel) _ _ parse_input_adder_minus_one
  have hp2 := parse_input_mono (Nat.le_add_left 30 fuel) _ _ parse_input_add_two
  have hp5 := parse_input_mono (Nat.le_add_left 30 fuel) _ _ parse_input_add_minus_four
  have hsa := Evaluator.eval_string_ok _ hpa (adder_run a (fuel + 24))
  have hs3 := Evaluator.eval_string_ok _ hp3 (adder_run 3 (fuel + 24))
  have hs1 := Evaluator.eval_string_ok _ hp1 (adder_minus_one_run (fuel + 24))
  obtain ⟨mb, hrb, hob⟩ := add_run a b (fuel + 23)
  obtain ⟨m2, hr2, ho2⟩ := add_two_run (fuel + 23)
  obtain ⟨m5, hr5, ho5⟩ := add_minus_four_run (fuel + 23)
  refine ⟨?_, hp1, rfl, hs1, ?_, ?_, ?_⟩
  · rw [Evaluator.eval_then_ok hsa (Evaluator.eval_string_ok _ hpb hrb), hob,
      wrap32_of_in_int ⟨by omega, hab⟩]
  · rw [Evaluator.eval_then_ok hs1 (Evaluator.eval_string_ok _ hp2 hr2), ho2]
  · exact (Evaluator.eval_then_ok hs3 (Evaluator.eval_string_ok _ hp5 hr5)).trans
      (by rw [ho5])
  · unfold Evaluator.eval_then
    rw [show Evaluator.eval_string (fuel + 30)
      "let adder = fn(x) \x7b fn(y) \x7b x + y \x7d \x7d; let add = adder(3);" Machine.init
      = .ok (null_obj, add_machine 3) from hs3]
    simp only [Evaluator.eval_string_throws (parse_input_add_above_int_max (fuel + 24))]

/-- C14 on concrete inputs: in a new evaluator, `add(4)` after `adder(3)` evaluates to 7 and
`add(2147483647)` after `adder(0)` to 2147483647, and `add(2)` after `adder(-1)` evaluates
to an Error. -/
theorem closure_misses_negative_argument_witness :
    Evaluator.eval_then 30
      "let adder = fn(x) \x7b fn(y) \x7b x + y \x7d \x7d; let add = adder(3);" "add(4)"
      = .ok (some (.Integer 7)) ∧
    Evaluator.eval_then 30
      "let adder = fn(x) \x7b fn(y) \x7b x + y \x7d \x7d; let add = adder(0);"
      "add(2147483647)" = .ok (some (.Integer 2147483647)) ∧
    Evaluator.eval_then 30
      "let adder = fn(x) \x7b fn(y) \x7b x + y \x7d \x7d; let add = adder(-1);" "add(2)"
      = .ok (some (.Error "")) :=
  ⟨(closure_misses_negative_argument 3 4 0 (by decide) (by decide) (by decide)).1,
    (closure_misses_negative_argument 0 2147483647 0 (by decide) (by decide) (by decide)).1,
    (closure_misses_negative_argument 3 4 0 (by decide) (by decide) (by decide)).2.2.2.2.1⟩

/-! ## The text of a `let` statement that binds a name to a literal -/

end Void
